import Mathlib

/-!
mini-compiler: bytecode codec, symbol table, compiler and virtual machine.

A shallow embedding of the Go sources `code/code.go`, `compiler/symbol_table.go`,
`compiler/compiler.go`, `compiler/func.go`, `vm/frame.go` and `vm/vm.go`.

Conventions of the embedding:

* a Go `byte` is a `Nat` below 256, a Go `int` is an `Int` (or a `Nat` where the
  value is a length, a counter or an index that the code never makes negative);
  conversions `byte(x)` and `uint16(x)` are `x % 256` and `x % 65536`;
* a Go slice is a `List`; indexing out of range, slicing out of range and nil
  dereferences are run-time panics, modelled by `Fault.panic`;
* a Go `error` value is `Fault.error`;
* loops that may not terminate take a fuel argument and return `none` when the
  fuel is used up;
* a method is a function from the receiver's state to a result and the state it
  leaves behind (`M`), so that the state after an `error` return is still there;
* every run-time value is a pointer to a struct: its constructor carries the address
  `addr` of the allocation, and the compiler and the machine carry the next unused
  address in a field `heap`.
-/

namespace MiniCompiler

/-- How a Go call can fail: with an `error` value, or with a run-time panic. -/
inductive Fault where
  | error (msg : String)
  | panic (msg : String)
  deriving Repr, DecidableEq

/-! ## Package `code` -/

/-- Go: `Instructions []byte`. -/
abbrev Instructions := List Nat

/-- Go: `Opcode byte`. -/
abbrev Opcode := Nat

/-- Go: `Definition struct { Name string; OperandWidths []int }`. -/
structure Definition where
  Name : String
  OperandWidths : List Nat
  deriving Repr, DecidableEq

def OpConstant : Opcode := 0
def OpPop : Opcode := 1
def OpArray : Opcode := 2
def OpMap : Opcode := 3
def OpIndex : Opcode := 4
def OpAdd : Opcode := 5
def OpSub : Opcode := 6
def OpMul : Opcode := 7
def OpQuo : Opcode := 8
def OpTrue : Opcode := 9
def OpFalse : Opcode := 10
def OpEQL : Opcode := 11
def OpNEQ : Opcode := 12
def OpGTR : Opcode := 13
def OpMinus : Opcode := 14
def OpBang : Opcode := 15
def OpCall : Opcode := 16
def OpReturnValue : Opcode := 17
def OpReturn : Opcode := 18
def OpGetBuiltin : Opcode := 19
def OpGetGlobal : Opcode := 20
def OpSetGlobal : Opcode := 21
def OpGetLocal : Opcode := 22
def OpSetLocal : Opcode := 23
def OpClosure : Opcode := 24
def OpContext : Opcode := 25
def OpCurrClosure : Opcode := 26
def OpJump : Opcode := 27
def OpJumpConditionNotTrue : Opcode := 28
def OpNil : Opcode := 29

/-- Go: the map `definitions`, as a lookup function (`none`: key absent). -/
def definitions (op : Opcode) : Option Definition :=
  match op with
  | 0 => some ⟨"OpConstant", [2]⟩
  | 1 => some ⟨"OpPop", []⟩
  | 2 => some ⟨"OpArray", [2]⟩
  | 3 => some ⟨"OpMap", [2]⟩
  | 4 => some ⟨"OpIndex", []⟩
  | 5 => some ⟨"OpAdd", []⟩
  | 6 => some ⟨"OpSub", []⟩
  | 7 => some ⟨"OpMul", []⟩
  | 8 => some ⟨"OpQuo", []⟩
  | 9 => some ⟨"OpTrue", []⟩
  | 10 => some ⟨"OpFalse", []⟩
  | 11 => some ⟨"OpEQL", []⟩
  | 12 => some ⟨"OpNEQ", []⟩
  | 13 => some ⟨"OpGTR", []⟩
  | 14 => some ⟨"OpMinus", []⟩
  | 15 => some ⟨"OpBang", []⟩
  | 16 => some ⟨"OpCall", [1]⟩
  | 17 => some ⟨"OpReturnValue", []⟩
  | 18 => some ⟨"OpReturn", []⟩
  | 19 => some ⟨"OpGetBuiltin", [1]⟩
  | 20 => some ⟨"OpGetGlobal", [2]⟩
  | 21 => some ⟨"OpSetGlobal", [2]⟩
  | 22 => some ⟨"OpGetLocal", [1]⟩
  | 23 => some ⟨"OpSetLocal", [1]⟩
  | 24 => some ⟨"OpClosure", [2, 1]⟩
  | 25 => some ⟨"OpContext", [1]⟩
  | 26 => some ⟨"OpCurrClosure", []⟩
  | 27 => some ⟨"OpJump", [2]⟩
  | 28 => some ⟨"OpJumpConditionNotTrue", [2]⟩
  | 29 => some ⟨"OpNil", []⟩
  | _ => none

/-- Go: `FindDefinitionByOp`; the error is `fmt.Errorf("opcode %d undefined", op)`. -/
def FindDefinitionByOp (op : Nat) : Except Fault Definition :=
  match definitions op with
  | some v => .ok v
  | none => .error (.error ("opcode " ++ toString op ++ " undefined"))

/-- Go: `binary.BigEndian.Uint16(ins)`; panics when `ins` has fewer than two bytes. -/
def ReadUint16 (ins : Instructions) : Except Fault Nat :=
  match ins with
  | b0 :: b1 :: _ => .ok (b0 * 256 + b1)
  | _ => .error (.panic "index out of range")

/-- Go: `uint8(ins[0])`; panics when `ins` is empty. -/
def ReadUint8 (ins : Instructions) : Except Fault Nat :=
  match ins with
  | b0 :: _ => .ok b0
  | [] => .error (.panic "index out of range")

/-- Go: the slice expression `s[offset:]`; panics when `offset > len(s)`. -/
def sliceFrom {α : Type} (s : List α) (offset : Nat) : Except Fault (List α) :=
  if offset ≤ s.length then .ok (s.drop offset) else .error (.panic "slice bounds out of range")

/-- Go: the assignment `s[i] = v`; panics when `i >= len(s)`. -/
def setIndex {α : Type} (s : List α) (i : Nat) (v : α) : Except Fault (List α) :=
  if i < s.length then .ok (s.set i v) else .error (.panic "index out of range")

/-- Go: the index expression `s[i]`; panics when `i >= len(s)`. -/
def getIndex {α : Type} (s : List α) (i : Nat) : Except Fault α :=
  match s[i]? with
  | some v => .ok v
  | none => .error (.panic "index out of range")

/-- The loop of `ReadOperands` over `def.OperandWidths`, from operand index `i` on:
`operands` already holds the operands decoded so far (the Go slice is pre-sized with
zeros; a width other than 1 or 2 leaves the zero in place). -/
def ReadOperandsLoop (ins : Instructions) :
    List Nat → Nat → List Int → Except Fault (List Int × Nat)
  | [], offset, operands => .ok (operands, offset)
  | width :: rest, offset, operands =>
    match width with
    | 2 =>
      match sliceFrom ins offset with
      | .error e => .error e
      | .ok tl =>
        match ReadUint16 tl with
        | .error e => .error e
        | .ok v => ReadOperandsLoop ins rest (offset + width) (operands ++ [(v : Int)])
    | 1 =>
      match sliceFrom ins offset with
      | .error e => .error e
      | .ok tl =>
        match ReadUint8 tl with
        | .error e => .error e
        | .ok v => ReadOperandsLoop ins rest (offset + width) (operands ++ [(v : Int)])
    | _ => ReadOperandsLoop ins rest (offset + width) (operands ++ [0])

/-- Go: `ReadOperands(def, ins) ([]int, int)`. -/
def ReadOperands (d : Definition) (ins : Instructions) : Except Fault (List Int × Nat) :=
  ReadOperandsLoop ins d.OperandWidths 0 []

/-- Go: `binary.BigEndian.PutUint16(instruction[offset:], uint16(operand))`. -/
def PutUint16At (instruction : List Nat) (offset : Nat) (operand : Int) :
    Except Fault (List Nat) :=
  if offset ≤ instruction.length then
    if offset + 1 < instruction.length then
      let v : Nat := (operand % 65536).toNat
      .ok ((instruction.set offset (v / 256 % 256)).set (offset + 1) (v % 256))
    else .error (.panic "index out of range")
  else .error (.panic "slice bounds out of range")

/-- The loop of `Make` over `operands`, at operand index `i` and byte offset `offset`. -/
def MakeLoop (widths : List Nat) :
    List Int → Nat → Nat → List Nat → Except Fault (List Nat)
  | [], _, _, instruction => .ok instruction
  | operand :: rest, i, offset, instruction =>
    match getIndex widths i with
    | .error e => .error e
    | .ok width =>
      match width with
      | 1 =>
        match setIndex instruction offset (operand % 256).toNat with
        | .error e => .error e
        | .ok instruction1 => MakeLoop widths rest (i + 1) (offset + width) instruction1
      | 2 =>
        match PutUint16At instruction offset operand with
        | .error e => .error e
        | .ok instruction1 => MakeLoop widths rest (i + 1) (offset + width) instruction1
      | _ => MakeLoop widths rest (i + 1) (offset + width) instruction

/-- Go: `Make(op Opcode, operands ...int) []byte`. -/
def Make (op : Opcode) (operands : List Int) : Except Fault (List Nat) :=
  match definitions op with
  | none => .ok []
  | some v =>
    let instructionLen := 1 + v.OperandWidths.sum
    match setIndex (List.replicate instructionLen 0) 0 (op % 256) with
    | .error e => .error e
    | .ok instruction => MakeLoop v.OperandWidths operands 0 1 instruction

/-- Go: `fmt.Sprintf("%04d", i)` for a non-negative `i`. -/
def fmt04d (i : Nat) : String :=
  let s := toString i
  String.mk (List.replicate (4 - s.length) '0') ++ s

/-- Go: `Instructions.format`. -/
def format (d : Definition) (operands : List Int) : String :=
  let operandCount := d.OperandWidths.length
  if operands.length ≠ operandCount then
    "ERROR: operand len " ++ toString operands.length ++ " does not match defined "
      ++ toString operandCount ++ "\n"
  else
    match operands with
    | [] => d.Name
    | [a] => d.Name ++ " " ++ toString a
    | [a, b] => d.Name ++ " " ++ toString a ++ " " ++ toString b
    | _ => "ERROR: unhandled operandCount for " ++ d.Name ++ "\n"

/-- Go: the loop of `Instructions.String`, from byte offset `i` with `out` already
written. `none`: the fuel ran out before the loop ended. -/
def StringLoop (ins : Instructions) : Nat → Nat → String → Option (Except Fault String)
  | 0, _, _ => none
  | fuel + 1, i, out =>
    if i < ins.length then
      match FindDefinitionByOp (ins.getD i 0) with
      | .error (.error err) => StringLoop ins fuel i (out ++ "ERROR: " ++ err ++ "\n")
      | .error (.panic p) => some (.error (.panic p))
      | .ok d =>
        match sliceFrom ins (i + 1) with
        | .error e => some (.error e)
        | .ok tl =>
          match ReadOperands d tl with
          | .error e => some (.error e)
          | .ok (operands, read) =>
            StringLoop ins fuel (i + (read + 1))
              (out ++ fmt04d i ++ " " ++ format d operands ++ "\n")
    else some (.ok out)

/-- Go: `Instructions.String()`, run with the given fuel. -/
def Instructions.String (ins : Instructions) (fuel : Nat) : Option (Except Fault String) :=
  StringLoop ins fuel 0 ""

/-! ## Package `compiler`: the symbol table -/

/-- Go: `SymbolScope string`. -/
abbrev SymbolScope := String

def GlobalScope : SymbolScope := "GlobalScope"
def LocalScope : SymbolScope := "LocalScope"
def BuiltinScope : SymbolScope := "BuiltinScope"
def ContextScope : SymbolScope := "ContextScope"
def FunctionScope : SymbolScope := "FunctionScope"

/-- Go: `Symbol struct { Scope SymbolScope; Index int; Name string }`. -/
structure Symbol where
  Scope : SymbolScope
  Index : Int
  Name : String
  deriving Repr, DecidableEq

/-- Go: the zero value `Symbol{}`, which a failed map lookup yields. -/
def Symbol.zero : Symbol := ⟨"", 0, ""⟩

/-- Go: the map read `store[name]` (`none`: key absent). The map is kept as an
association list with pairwise distinct keys. -/
def storeGet (store : List (String × Symbol)) (name : String) : Option Symbol :=
  store.lookup name

/-- Go: the map write `store[name] = symbol`. -/
def storeSet (store : List (String × Symbol)) (name : String) (symbol : Symbol) :
    List (String × Symbol) :=
  (name, symbol) :: store.filter (fun kv => kv.1 != name)

/-- Go: `SymbolTable struct { store map[string]Symbol; count int; External *SymbolTable;
Context []Symbol }`. A table is held together with the chain of tables it points to
through `External` (`none`: the nil pointer). -/
inductive SymbolTable where
  | mk (store : List (String × Symbol)) (count : Nat) (External : Option SymbolTable)
      (Context : List Symbol)
  deriving Repr

namespace SymbolTable

def store : SymbolTable → List (String × Symbol)
  | mk st _ _ _ => st

def count : SymbolTable → Nat
  | mk _ c _ _ => c

def External : SymbolTable → Option SymbolTable
  | mk _ _ e _ => e

def Context : SymbolTable → List Symbol
  | mk _ _ _ ctx => ctx

/-- Go: `(s *SymbolTable) Define(name string) Symbol`; returns the symbol and the table
after the call. -/
def Define (s : SymbolTable) (name : String) : Symbol × SymbolTable :=
  match s with
  | mk st c ext ctx =>
    let scope := if ext.isSome then LocalScope else GlobalScope
    let symbol : Symbol := ⟨scope, c, name⟩
    (symbol, mk (storeSet st name symbol) (c + 1) ext ctx)

/-- Go: `(s *SymbolTable) DefineBuiltin(index int, name string) Symbol`. -/
def DefineBuiltin (s : SymbolTable) (index : Int) (name : String) : Symbol × SymbolTable :=
  match s with
  | mk st c ext ctx =>
    let symbol : Symbol := ⟨BuiltinScope, index, name⟩
    (symbol, mk (storeSet st name symbol) c ext ctx)

/-- Go: `(s *SymbolTable) defineContext(ctx Symbol) Symbol`. -/
def defineContext (s : SymbolTable) (sym : Symbol) : Symbol × SymbolTable :=
  match s with
  | mk st c ext ctx =>
    let ctx1 := ctx ++ [sym]
    let symbol : Symbol := ⟨ContextScope, ((ctx1.length : Nat) : Int) - 1, sym.Name⟩
    (symbol, mk (storeSet st sym.Name symbol) c ext ctx1)

/-- Go: `(s *SymbolTable) defineFunction(name string) Symbol` (`Index` keeps its zero
value). -/
def defineFunction (s : SymbolTable) (name : String) : Symbol × SymbolTable :=
  match s with
  | mk st c ext ctx =>
    let symbol : Symbol := ⟨FunctionScope, 0, name⟩
    (symbol, mk (storeSet st name symbol) c ext ctx)

/-- Go: `(s *SymbolTable) GetDefine(name string) (Symbol, bool)`; returns the two results
and the table (with its chain of enclosing tables) after the call. -/
def GetDefine : SymbolTable → String → (Symbol × Bool) × SymbolTable
  | mk st c ext ctx, name =>
    match storeGet st name with
    | some symbol => ((symbol, true), mk st c ext ctx)
    | none =>
      match ext with
      | none => ((Symbol.zero, false), mk st c none ctx)
      | some e =>
        match GetDefine e name with
        | ((obj, ok), e1) =>
          if !ok then ((obj, ok), mk st c (some e1) ctx)
          else if obj.Scope == GlobalScope || obj.Scope == BuiltinScope then
            ((obj, ok), mk st c (some e1) ctx)
          else
            let r := defineContext (mk st c (some e1) ctx) obj
            ((r.1, true), r.2)

end SymbolTable

/-- Go: `NewSymbolTable()`. -/
def NewSymbolTable : SymbolTable := .mk [] 0 none []

/-- Go: `NewEnclosedSymbolTable(table)`. -/
def NewEnclosedSymbolTable (table : SymbolTable) : SymbolTable := .mk [] 0 (some table) []

/-! ## Specification-side definitions for the symbol table -/

/-- Every entry `(k, v)` of every store along the chain of a table satisfies `P k v`. -/
def SymbolTable.StoreAll (P : String → Symbol → Prop) : SymbolTable → Prop
  | .mk st _ none _ => ∀ kv ∈ st, P kv.1 kv.2
  | .mk st _ (some e) _ => (∀ kv ∈ st, P kv.1 kv.2) ∧ SymbolTable.StoreAll P e

/-- The five scopes the package declares. -/
def knownScope (sc : SymbolScope) : Prop :=
  sc = GlobalScope ∨ sc = LocalScope ∨ sc = BuiltinScope ∨ sc = ContextScope ∨
    sc = FunctionScope

/-- The representation invariant of symbol tables: every store maps a name to a symbol
carrying that very name. All methods write `store[sym.Name] = sym`. -/
def SymbolTable.NamesOK (t : SymbolTable) : Prop :=
  t.StoreAll (fun k v => v.Name = k)

/-- Names match and every stored scope is one of the five declared ones. -/
def SymbolTable.WF (t : SymbolTable) : Prop :=
  t.StoreAll (fun k v => v.Name = k ∧ knownScope v.Scope)

/-- One method call on a table, or on one of the tables it encloses (the tables are
shared through pointers, so an enclosing table can be updated while the inner one
exists). -/
inductive SymbolTable.Step : SymbolTable → SymbolTable → Prop where
  | define (t : SymbolTable) (name : String) : Step t (t.Define name).2
  | defineBuiltin (t : SymbolTable) (index : Int) (name : String) :
      t.External = none → Step t (t.DefineBuiltin index name).2
  | defineFunction (t : SymbolTable) (name : String) : Step t (t.defineFunction name).2
  | getDefine (t : SymbolTable) (name : String) : Step t (t.GetDefine name).2
  | outer (st : List (String × Symbol)) (c : Nat) (e e1 : SymbolTable) (ctx : List Symbol) :
      Step e e1 → Step (.mk st c (some e) ctx) (.mk st c (some e1) ctx)

/-- The tables built by `NewSymbolTable`, `NewEnclosedSymbolTable`, `Define`,
`DefineBuiltin` on an outermost table, `defineFunction` and `GetDefine`. -/
inductive SymbolTable.Built : SymbolTable → Prop where
  | new : Built NewSymbolTable
  | enclosed (t : SymbolTable) : Built t → Built (NewEnclosedSymbolTable t)
  | step (t t1 : SymbolTable) : Built t → SymbolTable.Step t t1 → Built t1

/-- The name `name` is absent from every table of the chain below the outermost one,
and the outermost table maps it to `sym`. -/
def SymbolTable.outermostOnly (name : String) (sym : Symbol) : SymbolTable → Prop
  | .mk st _ none _ => storeGet st name = some sym
  | .mk st _ (some e) _ => storeGet st name = none ∧ SymbolTable.outermostOnly name sym e

/-! ## Go methods as state transformers -/

/-- A Go method on a receiver of type `σ`: it is given the receiver's state and gives
back a result (or a fault) together with the state it leaves behind. -/
def M (σ α : Type) : Type := σ → Except Fault α × σ

namespace M

def pure {σ α : Type} (a : α) : M σ α := fun s => (.ok a, s)

def bind {σ α β : Type} (m : M σ α) (f : α → M σ β) : M σ β := fun s =>
  match m s with
  | (.ok a, s1) => f a s1
  | (.error e, s1) => (.error e, s1)

/-- Return a Go `error`, or panic. -/
def fail {σ α : Type} (e : Fault) : M σ α := fun s => (.error e, s)

def get {σ : Type} : M σ σ := fun s => (.ok s, s)

def set {σ : Type} (s : σ) : M σ Unit := fun _ => (.ok (), s)

/-- The outcome of a computation that does not touch the receiver. -/
def lift {σ α : Type} (x : Except Fault α) : M σ α := fun s => (x, s)

end M

instance (σ : Type) : Monad (M σ) where
  pure := M.pure
  bind := M.bind

/-- Go: `s[i]` for an `int` index; panics when `i` is negative or `i >= len(s)`. -/
def getAt {α : Type} (s : List α) (i : Int) : Except Fault α :=
  if i < 0 then .error (.panic "index out of range") else getIndex s i.toNat

/-- Go: `s[i] = v` for an `int` index. -/
def setAt {α : Type} (s : List α) (i : Int) (v : α) : Except Fault (List α) :=
  if i < 0 then .error (.panic "index out of range") else setIndex s i.toNat v

/-- Go: `s[i:]` for an `int` offset. -/
def sliceFromAt {α : Type} (s : List α) (i : Int) : Except Fault (List α) :=
  if i < 0 then .error (.panic "slice bounds out of range") else sliceFrom s i.toNat

/-! ## Run-time objects -/

/-- Modelled from the spec: `object.MapKey`, the hashable key of package `object`, which
is not among the sources. Integer, Boolean and String values are hashable; a key
stands for the type and the value it was made from. -/
inductive MapKey where
  | int (v : Int)
  | bool (b : Bool)
  | str (s : String)
  deriving Repr, DecidableEq

/-- Go: `CompiledFunction struct { Instructions; NumLocals int; NumParameters int }`. -/
structure CompiledFunction where
  Instructions : Instructions
  NumLocals : Nat
  NumParameters : Nat
  deriving Repr, DecidableEq

/-- The values behind the interface `object.Object`. Every value is a pointer to a
struct; `addr` names the allocation, so that two values are the same pointer exactly
when they are built by the same constructor with the same `addr`. The structs
`Integer`, `Boolean`, `Stringer`, `Array`, `Map`, `Nil`, `Builtin` and `Error` belong to
package `object` and are modelled from their use in the sources. A nil interface value
is `none : Option Object`. -/
inductive Object where
  | Integer (addr : Nat) (Value : Int)
  | Boolean (addr : Nat) (Value : Bool)
  | Stringer (addr : Nat) (Value : String)
  | Array (addr : Nat) (Elements : List (Option Object))
  | Map (addr : Nat) (Elements : List (MapKey × Option Object × Option Object))
  | Nil (addr : Nat)
  | Builtin (index : Nat)
  | Error (addr : Nat) (Error : String)
  | CompiledFunction (addr : Nat) (fn : CompiledFunction)
  | Closure (addr : Nat) (fnAddr : Nat) (Fn : CompiledFunction) (Ctx : List (Option Object))
  deriving Repr

/-- Go: `Closure struct { Fn *CompiledFunction; Ctx []object.Object }`, with the
addresses of the closure and of its function. -/
structure Closure where
  addr : Nat
  fnAddr : Nat
  Fn : CompiledFunction
  Ctx : List (Option Object)
  deriving Repr

/-- A `*Closure` seen as an `object.Object`. -/
def Closure.toObject (cl : Closure) : Object := .Closure cl.addr cl.fnAddr cl.Fn cl.Ctx

/-! ## The syntax tree -/

/-- The nodes of package `ast` (not among the sources) that the compiler dispatches on,
with the fields it reads. `Map.Elements` lists the entries of the Go map in some
order. -/
inductive Node where
  | Program (Stmts : List Node)
  | Identifier (Value : String)
  | StringLit (Value : String)
  | Array (Elements : List Node)
  | Map (Elements : List (Node × Node))
  | Boolean (Value : Bool)
  | VarStmt (Name : String) (Value : Node)
  | BlockStmt (Stmts : List Node)
  | ExprStmt (Expr : Node)
  | IfExpr (Condition : Node) (Consequence : Node) (Alternative : Option Node)
  | ReturnStmt (Value : Node)
  | FuncExpr (Name : String) (Params : List String) (Body : Node)
  | CallExpr (Func : Node) (Args : List Node)
  | Integer (Value : Int)
  | InfixExpr (Operator : String) (Left : Node) (Right : Node)
  | PrefixExpr (Operator : String) (Right : Node)
  | IndexExpr (Left : Node) (Index : Node)
  deriving Repr

/-! ## Package `compiler`: the compiler -/

/-- Go: `fakeAddress = math.MaxInt64`. -/
def fakeAddress : Int := 9223372036854775807

/-- Go: `EmittedInstruction struct { OpCode code.Opcode; Pos int }`. -/
structure EmittedInstruction where
  OpCode : Opcode
  Pos : Nat
  deriving Repr, DecidableEq

/-- Go: `CompilationScope`. -/
structure CompilationScope where
  instructions : Instructions
  lastInstruction : EmittedInstruction
  preInstruction : EmittedInstruction
  deriving Repr, DecidableEq

/-- Go: `Compiler struct { constants; symbolTable *SymbolTable; scopes; scopeIndex }`.
`heap` is the next unused allocation address (the Go allocator, made explicit). -/
structure Compiler where
  constants : List Object
  symbolTable : Option SymbolTable
  scopes : List CompilationScope
  scopeIndex : Int
  heap : Nat
  deriving Repr

/-- Go: `Bytecode struct { Instructions; Constants }`. -/
structure Bytecode where
  Instructions : Instructions
  Constants : List Object
  deriving Repr

namespace Compiler

/-- A fresh allocation address (`&T{...}`). -/
def alloc : M Compiler Nat := fun c => (.ok c.heap, { c with heap := c.heap + 1 })

/-- Go: a method call `c.symbolTable.m(...)`; panics when the pointer is nil. -/
def onSymbolTable {α : Type} (m : SymbolTable → α × SymbolTable) : M Compiler α := fun c =>
  match c.symbolTable with
  | none => (.error (.panic "nil pointer dereference"), c)
  | some t => (.ok (m t).1, { c with symbolTable := some (m t).2 })

/-- Go: `c.scopes[c.scopeIndex]`. -/
def curScope : M Compiler CompilationScope := fun c => (getAt c.scopes c.scopeIndex, c)

/-- Go: an assignment to fields of `c.scopes[c.scopeIndex]`. -/
def setCurScope (sc : CompilationScope) : M Compiler Unit := fun c =>
  match setAt c.scopes c.scopeIndex sc with
  | .ok l => (.ok (), { c with scopes := l })
  | .error e => (.error e, c)

/-- Go: `curInstructions`. -/
def curInstructions : M Compiler Instructions := do
  let sc ← curScope
  return sc.instructions

/-- Go: `addConstant`. -/
def addConstant (obj : Object) : M Compiler Nat := fun c =>
  (.ok ((c.constants ++ [obj]).length - 1), { c with constants := c.constants ++ [obj] })

/-- Go: `addInstruction`. -/
def addInstruction (ins : List Nat) : M Compiler Nat := do
  let cur ← curInstructions
  let posNewInstruction := cur.length
  let sc ← curScope
  setCurScope { sc with instructions := cur ++ ins }
  return posNewInstruction

/-- Go: `setLastInstruction`. -/
def setLastInstruction (op : Opcode) (pos : Nat) : M Compiler Unit := do
  let sc ← curScope
  setCurScope { sc with preInstruction := sc.lastInstruction }
  let sc1 ← curScope
  setCurScope { sc1 with lastInstruction := ⟨op, pos⟩ }

/-- Go: `emit`. -/
def emit (op : Opcode) (operands : List Int) : M Compiler Nat := do
  let ins ← M.lift (Make op operands)
  let pos ← addInstruction ins
  setLastInstruction op pos
  return pos

/-- Go: `lastInstructionIs`. -/
def lastInstructionIs (op : Opcode) : M Compiler Bool := do
  let cur ← curInstructions
  if cur.length = 0 then return false
  else
    let sc ← curScope
    return sc.lastInstruction.OpCode == op

/-- Go: `removeLastPop`. The slice expression `instructions[:Pos]` is taken to panic when
`Pos` exceeds the length (Go checks against the capacity; `Pos` is a position recorded
by `emit`, at most the length). -/
def removeLastPop : M Compiler Unit := do
  let sc ← curScope
  let sc1 ← curScope
  if sc1.lastInstruction.Pos ≤ sc.instructions.length then
    let sc2 ← curScope
    setCurScope { sc2 with instructions := sc.instructions.take sc1.lastInstruction.Pos }
    let sc3 ← curScope
    setCurScope { sc3 with lastInstruction := sc3.preInstruction }
  else M.fail (.panic "slice bounds out of range")

/-- Go: the loop of `replaceInstruction`, from index `i` on. -/
def replaceInstructionLoop (pos : Nat) : List Nat → Nat → M Compiler Unit
  | [], _ => pure ()
  | b :: rest, i => do
    let sc ← curScope
    let ins ← M.lift (setIndex sc.instructions (i + pos) b)
    setCurScope { sc with instructions := ins }
    replaceInstructionLoop pos rest (i + 1)

/-- Go: `replaceInstruction`. -/
def replaceInstruction (pos : Nat) (newInstruction : List Nat) : M Compiler Unit :=
  replaceInstructionLoop pos newInstruction 0

/-- Go: `replaceLastPopWithReturn`. -/
def replaceLastPopWithReturn : M Compiler Unit := do
  let sc ← curScope
  let pos := sc.lastInstruction.Pos
  let ins ← M.lift (Make OpReturnValue [])
  replaceInstruction pos ins
  let sc1 ← curScope
  setCurScope { sc1 with lastInstruction := { sc1.lastInstruction with OpCode := OpReturnValue } }

/-- Go: `changeOperand`. -/
def changeOperand (opPos : Nat) (operand : Int) : M Compiler Unit := do
  let sc ← curScope
  let op ← M.lift (getIndex sc.instructions opPos)
  let ins ← M.lift (Make op [operand])
  replaceInstruction opPos ins

/-- Go: `leaveScope`. -/
def leaveScope : M Compiler Instructions := do
  let ins ← curInstructions
  let c ← M.get
  if c.scopes.length = 0 then M.fail (.panic "slice bounds out of range")
  else
    M.set { c with scopes := c.scopes.take (c.scopes.length - 1) }
    let c1 ← M.get
    M.set { c1 with scopeIndex := c1.scopeIndex - 1 }
    let c2 ← M.get
    match c2.symbolTable with
    | none => M.fail (.panic "nil pointer dereference")
    | some t =>
      M.set { c2 with symbolTable := t.External }
      return ins

/-- Go: `enterScope`. -/
def enterScope : M Compiler Unit := do
  let c ← M.get
  let table : SymbolTable :=
    match c.symbolTable with
    | some t => NewEnclosedSymbolTable t
    | none => .mk [] 0 none []
  M.set { c with symbolTable := some table }
  let c1 ← M.get
  M.set { c1 with scopes := c1.scopes ++ [⟨[], ⟨0, 0⟩, ⟨0, 0⟩⟩] }
  let c2 ← M.get
  M.set { c2 with scopeIndex := c2.scopeIndex + 1 }

/-- Go: `loadSymbol`. -/
def loadSymbol (s : Symbol) : M Compiler Unit :=
  if s.Scope = GlobalScope then do
    let _ ← emit OpGetGlobal [s.Index]
    pure ()
  else if s.Scope = LocalScope then do
    let _ ← emit OpGetLocal [s.Index]
    pure ()
  else if s.Scope = BuiltinScope then do
    let _ ← emit OpGetBuiltin [s.Index]
    pure ()
  else if s.Scope = ContextScope then do
    let _ ← emit OpContext [s.Index]
    pure ()
  else if s.Scope = FunctionScope then do
    let _ ← emit OpCurrClosure []
    pure ()
  else pure ()

/-- The loop `for _, symbol := range ctx { c.loadSymbol(symbol) }`. -/
def loadSymbols : List Symbol → M Compiler Unit
  | [] => pure ()
  | s :: rest => do
    loadSymbol s
    loadSymbols rest

/-- The loop `for _, p := range node.Params { c.symbolTable.Define(p.Value) }`. -/
def defineParams : List String → M Compiler Unit
  | [] => pure ()
  | p :: rest => do
    let _ ← onSymbolTable (fun t => t.Define p)
    defineParams rest

/-- Run the compiling actions of the map entries one after the other, stopping at the
first error. -/
def runAll : List (String × M Compiler Unit) → M Compiler Unit
  | [] => pure ()
  | a :: rest => do
    a.2
    runAll rest

/-- Go: the string comparison `a < b` (bytewise on the UTF-8 encoding, which is the
order of the code points). -/
def strLess (a b : String) : Bool :=
  let rec go : List Char → List Char → Bool
    | _, [] => false
    | [], _ :: _ => true
    | x :: xs, y :: ys => if x.toNat < y.toNat then true else if y.toNat < x.toNat then false
        else go xs ys
  go a.data b.data

/-- Go: `sort.Slice(keys, func(i, j) { keys[i].String() < keys[j].String() })`, on the
keys paired with what is compiled for them. Entries whose keys print alike are left in
the order of the list (Go leaves their order open). -/
def sortByKey (l : List (String × M Compiler Unit)) : List (String × M Compiler Unit) :=
  l.insertionSort (fun a b => !(strLess b.1 a.1))

/-- The tail of the `FuncExpr` case of `defaultCompiler`, after the body was compiled
without error. -/
def finishFunction (symbol : Symbol) (numParams : Nat) : M Compiler Unit := do
  if (← lastInstructionIs OpPop) then replaceLastPopWithReturn
  if !(← lastInstructionIs OpReturnValue) then
    let _ ← emit OpReturn []
  let c ← M.get
  match c.symbolTable with
  | none => M.fail (.panic "nil pointer dereference")
  | some t =>
    let ctx := t.Context
    let numLocals := t.count
    let instructions ← leaveScope
    loadSymbols ctx
    let a ← alloc
    let compiledFn : Object := .CompiledFunction a ⟨instructions, numLocals, numParams⟩
    let idx ← addConstant compiledFn
    let _ ← emit OpClosure [idx, ctx.length]
    if symbol.Scope = GlobalScope then
      let _ ← emit OpSetGlobal [symbol.Index]
    else
      let _ ← emit OpSetLocal [symbol.Index]

/-- `if c.lastInstructionIs(code.OpPop) { c.removeLastPop() }`. -/
def stripLastPop : M Compiler Unit := do
  if (← lastInstructionIs OpPop) then removeLastPop

/-- The tail of the `InfixExpr` case: the opcode of an operator other than `<`. -/
def emitInfix (operator : String) : M Compiler Unit :=
  if operator = "+" then do
    let _ ← emit OpAdd []
  else if operator = "-" then do
    let _ ← emit OpSub []
  else if operator = "*" then do
    let _ ← emit OpMul []
  else if operator = "/" then do
    let _ ← emit OpQuo []
  else if operator = ">" then do
    let _ ← emit OpGTR []
  else if operator = "==" then do
    let _ ← emit OpEQL []
  else if operator = "!=" then do
    let _ ← emit OpNEQ []
  else M.fail (.error ("unknown operator " ++ operator))

/-- The tail of the `PrefixExpr` case. -/
def emitPrefixOp (operator : String) : M Compiler Unit :=
  if operator = "-" then do
    let _ ← emit OpMinus []
  else if operator = "!" then do
    let _ ← emit OpBang []
  else M.fail (.error ("unknown operator " ++ operator))

mutual

/-- Go: `defaultCompiler`, which `(c *Compiler) Compiler(node)` runs. `keyString` is the
`String()` method of the syntax tree, which belongs to package `ast`. -/
def Compile (keyString : Node → String) : Node → M Compiler Unit
  | .Program stmts => CompileList keyString stmts
  | .Identifier value => do
    let r ← onSymbolTable (fun t => t.GetDefine value)
    if !r.2 then M.fail (.error ("undefined variable " ++ value))
    else loadSymbol r.1
  | .StringLit value => do
    let a ← alloc
    let idx ← addConstant (.Stringer a value)
    let _ ← emit OpConstant [idx]
  | .Array elements => do
    CompileList keyString elements
    let _ ← emit OpArray [elements.length]
  | .Map elements => do
    runAll (sortByKey (CompilePairs keyString elements))
    let _ ← emit OpMap [elements.length * 2]
  | .Boolean value => do
    if value then
      let _ ← emit OpTrue []
    else
      let _ ← emit OpFalse []
  | .VarStmt name value => do
    let symbol ← onSymbolTable (fun t => t.Define name)
    Compile keyString value
    if symbol.Scope = GlobalScope then
      let _ ← emit OpSetGlobal [symbol.Index]
    else
      let _ ← emit OpSetLocal [symbol.Index]
  | .BlockStmt stmts => CompileList keyString stmts
  | .ExprStmt expr => do
    Compile keyString expr
    let _ ← emit OpPop []
  | .IfExpr condition consequence none => do
    Compile keyString condition
    let jumpNotTrue ← emit OpJumpConditionNotTrue [fakeAddress]
    Compile keyString consequence
    stripLastPop
    let jumpPos ← emit OpJump [fakeAddress]
    let curPos := (← curInstructions).length
    changeOperand jumpNotTrue curPos
    let _ ← emit OpNil []
    let curPos1 := (← curInstructions).length
    changeOperand jumpPos curPos1
  | .IfExpr condition consequence (some alternative) => do
    Compile keyString condition
    let jumpNotTrue ← emit OpJumpConditionNotTrue [fakeAddress]
    Compile keyString consequence
    stripLastPop
    let jumpPos ← emit OpJump [fakeAddress]
    let curPos := (← curInstructions).length
    changeOperand jumpNotTrue curPos
    Compile keyString alternative
    stripLastPop
    let curPos1 := (← curInstructions).length
    changeOperand jumpPos curPos1
  | .ReturnStmt value => do
    Compile keyString value
    let _ ← emit OpReturnValue []
  | .FuncExpr name params body => do
    let symbol ← onSymbolTable (fun t => t.Define name)
    enterScope
    let _ ← onSymbolTable (fun t => t.defineFunction name)
    defineParams params
    Compile keyString body
    finishFunction symbol params.length
  | .CallExpr func args => do
    Compile keyString func
    CompileList keyString args
    let _ ← emit OpCall [args.length]
  | .Integer value => do
    let a ← alloc
    let idx ← addConstant (.Integer a value)
    let _ ← emit OpConstant [idx]
  | .InfixExpr operator left right =>
    if operator = "<" then do
      Compile keyString right
      Compile keyString left
      let _ ← emit OpGTR []
    else do
      Compile keyString left
      Compile keyString right
      emitInfix operator
  | .PrefixExpr operator right => do
    Compile keyString right
    emitPrefixOp operator
  | .IndexExpr left index => do
    Compile keyString left
    Compile keyString index
    let _ ← emit OpIndex []

/-- The loops `for _, x := range xs { err := c.Compiler(x); if err != nil { return err } }`
over statements, array elements and call arguments. -/
def CompileList (keyString : Node → String) : List Node → M Compiler Unit
  | [] => pure ()
  | n :: rest => do
    Compile keyString n
    CompileList keyString rest

/-- For each entry of a map literal: the printed key, and the compilation of the key
followed by that of its value. -/
def CompilePairs (keyString : Node → String) :
    List (Node × Node) → List (String × M Compiler Unit)
  | [] => []
  | (k, v) :: rest =>
    (keyString k, do
      Compile keyString k
      Compile keyString v) :: CompilePairs keyString rest

end

/-- Go: `Bytecode()`. -/
def Bytecode : M Compiler MiniCompiler.Bytecode := do
  let ins ← curInstructions
  let c ← M.get
  return ⟨ins, c.constants⟩

end Compiler

/-- The builtins of `compiler/func.go`, by name. -/
def builtinNames : List String := ["len", "print"]

/-- The loop of `NewCompiler` registering the builtins, from index `idx` on. -/
def defineBuiltins : List String → Nat → SymbolTable → SymbolTable
  | [], _, t => t
  | name :: rest, idx, t => defineBuiltins rest (idx + 1) (t.DefineBuiltin idx name).2

/-- Go: `NewCompiler()`; `heap` is the first free allocation address. -/
def NewCompiler (heap : Nat) : Compiler :=
  { constants := []
    symbolTable := some (defineBuiltins builtinNames 0 NewSymbolTable)
    scopes := [⟨[], ⟨0, 0⟩, ⟨0, 0⟩⟩]
    scopeIndex := 0
    heap := heap }

/-- Go: `NewCompilerWithSymbol(symbolTable, constants)`. -/
def NewCompilerWithSymbol (symbolTable : Option SymbolTable) (constants : List Object)
    (heap : Nat) : Compiler :=
  { constants := constants
    symbolTable := symbolTable
    scopes := [⟨[], ⟨0, 0⟩, ⟨0, 0⟩⟩]
    scopeIndex := 0
    heap := heap }

/-! ## Package `vm` -/

def StackSize : Nat := 2048
def GlobalsSize : Nat := 65536
def FrameSize : Nat := 2048

/-- Go: `var True = &object.Boolean{Value: true}`. -/
def True : Object := .Boolean 0 true

/-- Go: `var False = &object.Boolean{Value: false}`. -/
def False : Object := .Boolean 1 false

/-- Go: `var Nil = &object.Nil{}`. -/
def Nil : Object := .Nil 2

/-- Go: `ErrStackOverflow`. -/
def ErrStackOverflow : Fault := .error "stack overflow"

/-- Go: `Frame struct { cl *compiler.Closure; ip int; basePointer int }`. -/
structure Frame where
  cl : Closure
  ip : Int
  basePointer : Int
  deriving Repr

/-- Go: `NewFrame`. -/
def NewFrame (cl : Closure) (basePointer : Int) : Frame := ⟨cl, -1, basePointer⟩

/-- Go: `(f *Frame) Instructions()`. -/
def Frame.Instructions (f : Frame) : Instructions := f.cl.Fn.Instructions

/-- Go: `VM struct { constants; stack; sp; globals; frames; framesIndex }`. A nil entry of
`stack`, `globals` or `frames` is `none`. `heap` is the next unused allocation address. -/
structure VM where
  constants : List Object
  stack : List (Option Object)
  sp : Int
  globals : List (Option Object)
  frames : List (Option Frame)
  framesIndex : Int
  heap : Nat
  deriving Repr

/-- Modelled from the spec: the method `Type()` of the values of package `object`, whose
tag strings are not among the sources (those of `CompiledFunction` and `Closure` are in
`compiler/func.go`). Only their being pairwise different matters. -/
def Object.Type : Object → String
  | .Integer _ _ => "INT"
  | .Boolean _ _ => "BOOLEAN"
  | .Stringer _ _ => "STRING"
  | .Array _ _ => "ARRAY"
  | .Map _ _ => "MAP"
  | .Nil _ => "NIL"
  | .Builtin _ => "BUILTIN"
  | .Error _ _ => "ERROR"
  | .CompiledFunction _ _ => "COMPILED_FUNCTION"
  | .Closure _ _ _ _ => "CLOSURE"

/-- Go: `o.Type()` on an interface value; a nil interface panics. -/
def typeOf (o : Option Object) : Except Fault String :=
  match o with
  | some x => .ok x.Type
  | none => .error (.panic "nil pointer dereference")

/-- Go: `a == b` on two interface values holding pointers: same dynamic type and same
pointer. -/
def sameObject (a b : Option Object) : Bool :=
  match a, b with
  | none, none => true
  | some (.Integer x _), some (.Integer y _) => x == y
  | some (.Boolean x _), some (.Boolean y _) => x == y
  | some (.Stringer x _), some (.Stringer y _) => x == y
  | some (.Array x _), some (.Array y _) => x == y
  | some (.Map x _), some (.Map y _) => x == y
  | some (.Nil x), some (.Nil y) => x == y
  | some (.Builtin x), some (.Builtin y) => x == y
  | some (.Error x _), some (.Error y _) => x == y
  | some (.CompiledFunction x _), some (.CompiledFunction y _) => x == y
  | some (.Closure x _ _ _), some (.Closure y _ _ _) => x == y
  | _, _ => false

/-- Modelled from the spec: the type assertion `o.(object.HashAble)` followed by
`MapKey()`; Integer, Boolean and String values are hashable (`none`: the assertion
fails). -/
def hashKey (o : Option Object) : Option MapKey :=
  match o with
  | some (.Integer _ v) => some (.int v)
  | some (.Boolean _ b) => some (.bool b)
  | some (.Stringer _ s) => some (.str s)
  | _ => none

/-- Go: a result of type `int64`: the value reduced to the signed 64-bit range. -/
def wrapInt64 (x : Int) : Int := (x + 9223372036854775808) % 18446744073709551616
  - 9223372036854775808

/-- Go: the map write `mp[key] = value` on the elements of an `object.Map`. -/
def mapSet (mp : List (MapKey × Option Object × Option Object)) (key : MapKey)
    (value : Option Object × Option Object) : List (MapKey × Option Object × Option Object) :=
  (key, value) :: mp.filter (fun kv => kv.1 != key)

/-- Go: `translationBooleanObject`. -/
def translationBooleanObject (input : Bool) : Object := if input then True else False

/-- Go: `GetBuiltinByIndex(idx)`: a nil result is `none`; `builtins[idx]` panics when
`idx` equals the number of builtins. -/
def GetBuiltinByIndex (idx : Int) : Except Fault (Option Object) :=
  if idx < 0 ∨ idx > builtinNames.length then .ok none
  else
    match getAt builtinNames idx with
    | .ok _ => .ok (some (.Builtin idx.toNat))
    | .error e => .error e

namespace VM

/-- A fresh allocation address (`&T{...}`). -/
def alloc : M VM Nat := fun v => (.ok v.heap, { v with heap := v.heap + 1 })

/-- Go: `curFrame()`, followed by the dereference of the frame pointer. -/
def curFrame : M VM Frame := fun v =>
  match getAt v.frames (v.framesIndex - 1) with
  | .ok (some f) => (.ok f, v)
  | .ok none => (.error (.panic "nil pointer dereference"), v)
  | .error e => (.error e, v)

/-- Go: the assignment `v.curFrame().ip = ip`. -/
def setIp (ip : Int) : M VM Unit := do
  let f ← curFrame
  let v ← M.get
  let frames ← M.lift (setAt v.frames (v.framesIndex - 1) (some { f with ip := ip }))
  M.set { v with frames := frames }

/-- Go: `pushFrame`. -/
def pushFrame (frame : Frame) : M VM Unit := do
  let v ← M.get
  let frames ← M.lift (setAt v.frames v.framesIndex (some frame))
  M.set { v with frames := frames }
  let v1 ← M.get
  M.set { v1 with framesIndex := v1.framesIndex + 1 }

/-- Go: `popFrame`, followed by the dereference of the returned pointer. -/
def popFrame : M VM Frame := do
  let v ← M.get
  M.set { v with framesIndex := v.framesIndex - 1 }
  let v1 ← M.get
  let f ← M.lift (getAt v1.frames v1.framesIndex)
  match f with
  | some frame => return frame
  | none => M.fail (.panic "nil pointer dereference")

/-- Go: `push`. -/
def push (o : Option Object) : M VM Unit := do
  let v ← M.get
  if v.sp ≥ StackSize then M.fail ErrStackOverflow
  else
    let stack ← M.lift (setAt v.stack v.sp o)
    M.set { v with stack := stack }
    let v1 ← M.get
    M.set { v1 with sp := v1.sp + 1 }

/-- Go: `pop`. -/
def pop : M VM (Option Object) := do
  let v ← M.get
  if v.sp ≤ 0 then return none
  else
    M.set { v with sp := v.sp - 1 }
    let v1 ← M.get
    M.lift (getAt v1.stack v1.sp)

/-- Go: `executeArithmeticIntegerOperation`. -/
def executeArithmeticIntegerOperation (op : Opcode) (lv rv : Int) : M VM Unit := do
  let result ←
    if op = OpAdd then pure (wrapInt64 (lv + rv))
    else if op = OpSub then pure (wrapInt64 (lv - rv))
    else if op = OpMul then pure (wrapInt64 (lv * rv))
    else if op = OpQuo then
      if rv = 0 then M.fail (.panic "integer divide by zero")
      else pure (wrapInt64 (Int.tdiv lv rv))
    else M.fail (.error ("unknown integer operator: " ++ toString op))
  let a ← alloc
  push (some (.Integer a result))

/-- Go: `executeArithmeticStringOperation`. -/
def executeArithmeticStringOperation (op : Opcode) (lv rv : String) : M VM Unit := do
  let result ←
    if op = OpAdd then pure (lv ++ rv)
    else M.fail (.error ("unknown integer operator: " ++ toString op))
  let a ← alloc
  push (some (.Stringer a result))

/-- Go: `executeArithmeticOperation`. -/
def executeArithmeticOperation (op : Opcode) : M VM Unit := do
  let right ← pop
  let left ← pop
  match left, right with
  | none, _ => M.fail (.panic "nil pointer dereference")
  | some (.Integer _ _), none => M.fail (.panic "nil pointer dereference")
  | some (.Integer _ lv), some (.Integer _ rv) => executeArithmeticIntegerOperation op lv rv
  | some (.Stringer _ _), none => M.fail (.panic "nil pointer dereference")
  | some (.Stringer _ lv), some (.Stringer _ rv) => executeArithmeticStringOperation op lv rv
  | some l, some r =>
    M.fail (.error ("unsupported types for operation " ++ l.Type ++ " " ++ r.Type))
  | some _, none => M.fail (.panic "nil pointer dereference")

/-- Go: `executeArrayIndex`. -/
def executeArrayIndex (elements : List (Option Object)) (idx : Int) : M VM Unit :=
  if idx < 0 ∨ idx > (elements.length : Int) - 1 then push (some Nil)
  else do
    let e ← M.lift (getAt elements idx)
    push e

/-- Go: `executeMapIndex`. -/
def executeMapIndex (elements : List (MapKey × Option Object × Option Object))
    (index : Option Object) : M VM Unit :=
  match hashKey index with
  | none => do
    let t ← M.lift (typeOf index)
    M.fail (.error ("unusable as hash key: " ++ t))
  | some key =>
    match elements.lookup key with
    | none => push (some Nil)
    | some val => push val.2

/-- Go: `executeIndexOperation`. -/
def executeIndexOperation (left index : Option Object) : M VM Unit :=
  match left, index with
  | none, _ => M.fail (.panic "nil pointer dereference")
  | some (.Array _ _), none => M.fail (.panic "nil pointer dereference")
  | some (.Array _ elements), some (.Integer _ idx) => executeArrayIndex elements idx
  | some (.Map _ elements), index => executeMapIndex elements index
  | some l, _ => M.fail (.error ("unsupported types for operation " ++ l.Type))

/-- Go: `executeComparisonIntegerOperation`. -/
def executeComparisonIntegerOperation (op : Opcode) (lv rv : Int) : M VM Unit :=
  if op = OpEQL then push (some (translationBooleanObject (lv == rv)))
  else if op = OpNEQ then push (some (translationBooleanObject (lv != rv)))
  else if op = OpGTR then push (some (translationBooleanObject (decide (lv > rv))))
  else M.fail (.error ("unknown operator: " ++ toString op))

/-- Go: `executeComparisonOperation`. -/
def executeComparisonOperation (op : Opcode) : M VM Unit := do
  let right ← pop
  let left ← pop
  match left, right with
  | none, _ => M.fail (.panic "nil pointer dereference")
  | some (.Integer _ _), none => M.fail (.panic "nil pointer dereference")
  | some (.Integer _ lv), some (.Integer _ rv) => executeComparisonIntegerOperation op lv rv
  | l, r =>
    if op = OpEQL then push (some (translationBooleanObject (sameObject l r)))
    else if op = OpNEQ then push (some (translationBooleanObject (!(sameObject l r))))
    else do
      let tl ← M.lift (typeOf l)
      let tr ← M.lift (typeOf r)
      M.fail (.error ("unknown operator " ++ tl ++ " " ++ tr))

/-- Go: `executeBangOperation`. -/
def executeBangOperation : M VM Unit := do
  let op ← pop
  if sameObject op (some True) then push (some False)
  else if sameObject op (some False) then push (some True)
  else if sameObject op (some Nil) then push (some True)
  else push (some False)

/-- Go: `executeMinusOperation`. -/
def executeMinusOperation : M VM Unit := do
  let op ← pop
  match op with
  | none => M.fail (.panic "nil pointer dereference")
  | some (.Integer _ v) =>
    let a ← alloc
    push (some (.Integer a (wrapInt64 (-v))))
  | some o => M.fail (.error ("unsupported type for minus " ++ o.Type))

/-- Go: `isTrue`. -/
def isTrue (obj : Option Object) : Bool :=
  match obj with
  | some (.Boolean _ value) => value
  | some (.Nil _) => false
  | _ => true

/-- Go: `callClosure`. -/
def callClosure (cl : Closure) (args : Int) : M VM Unit := do
  if args ≠ (cl.Fn.NumParameters : Int) then
    M.fail (.error ("wrong number of arguments: want=" ++ toString cl.Fn.NumParameters
      ++ ", got=" ++ toString args))
  else
    let v ← M.get
    let frame := NewFrame cl (v.sp - args)
    pushFrame frame
    let v1 ← M.get
    M.set { v1 with sp := frame.basePointer + (cl.Fn.NumLocals : Int) }

/-- Go: the builtin `len` of `compiler/func.go`. -/
def builtinLen (args : List (Option Object)) : M VM (Option Object) := do
  if args.length ≠ 1 then
    let a ← alloc
    return some (.Error a ("wrong number of arguments. got=" ++ toString args.length
      ++ ", want=1"))
  else
    match args.head? with
    | some (some (.Map _ elements)) =>
      let a ← alloc
      return some (.Integer a elements.length)
    | some (some (.Array _ elements)) =>
      let a ← alloc
      return some (.Integer a elements.length)
    | some (some (.Stringer _ value)) =>
      let a ← alloc
      return some (.Integer a value.utf8ByteSize)
    | some (some o) =>
      let a ← alloc
      return some (.Error a ("argument to `len` not supported, got " ++ o.Type))
    | _ => M.fail (.panic "nil pointer dereference")

/-- Go: the builtin `print` of `compiler/func.go`; what it writes to the standard output
is left out. `arg.Inspect()` panics on a nil argument. -/
def builtinPrint (args : List (Option Object)) : M VM (Option Object) := do
  if args.all Option.isSome then
    let a ← alloc
    return some (.Nil a)
  else M.fail (.panic "nil pointer dereference")

/-- Go: `callBuiltin`; the builtin is given by its index. -/
def callBuiltin (index : Nat) (numArgs : Int) : M VM Unit := do
  let v ← M.get
  if v.sp - numArgs < 0 ∨ v.sp < v.sp - numArgs ∨ v.sp > (v.stack.length : Int) then
    M.fail (.panic "slice bounds out of range")
  else
    let args := (v.stack.take v.sp.toNat).drop (v.sp - numArgs).toNat
    let result ←
      if index = 0 then builtinLen args
      else if index = 1 then builtinPrint args
      else M.fail (.panic "nil pointer dereference")
    let v1 ← M.get
    M.set { v1 with sp := v1.sp - numArgs - 1 }
    match result with
    | some r => push (some r)
    | none => push (some Nil)

/-- Go: `executeCall`. -/
def executeCall (args : Int) : M VM Unit := do
  let v ← M.get
  let call ← M.lift (getAt v.stack (v.sp - 1 - args))
  match call with
  | some (.Closure a fa fn ctx) => callClosure ⟨a, fa, fn, ctx⟩ args
  | some (.Builtin index) => callBuiltin index args
  | _ => M.fail (.error "calling non-function and non-built-in")

/-- Go: the loop of `newArray`, copying `stack[i]` for `start <= i < end`. `n` counts
the slots still to copy. -/
def newArrayLoop (stack : List (Option Object)) : Nat → Int → Except Fault (List (Option Object))
  | 0, _ => .ok []
  | n + 1, i =>
    match getAt stack i with
    | .error e => .error e
    | .ok o =>
      match newArrayLoop stack n (i + 1) with
      | .error e => .error e
      | .ok rest => .ok (o :: rest)

/-- Go: `newArray`. -/
def newArray (start stop : Int) : M VM Object := do
  if stop - start < 0 then M.fail (.panic "makeslice: len out of range")
  else
    let v ← M.get
    let elems ← M.lift (newArrayLoop v.stack (stop - start).toNat start)
    let a ← alloc
    return .Array a elems

/-- Go: the loop of `newMap`, two slots at a time. `n` bounds the number of rounds. -/
def newMapLoop (stack : List (Option Object)) (stop : Int) :
    Nat → Int → List (MapKey × Option Object × Option Object) →
      Except Fault (List (MapKey × Option Object × Option Object))
  | 0, _, mp => .ok mp
  | n + 1, i, mp =>
    if i < stop then
      match getAt stack i with
      | .error e => .error e
      | .ok key =>
        match getAt stack (i + 1) with
        | .error e => .error e
        | .ok val =>
          match hashKey key with
          | none =>
            match typeOf key with
            | .error e => .error e
            | .ok t => .error (.error ("unable to hash key:" ++ t))
          | some k => newMapLoop stack stop n (i + 2) (mapSet mp k (key, val))
    else .ok mp

/-- Go: `newMap`. -/
def newMap (start stop : Int) : M VM Object := do
  let v ← M.get
  let mp ← M.lift (newMapLoop v.stack stop ((stop - start).toNat + 1) start [])
  let a ← alloc
  return .Map a mp

/-- Go: `pushClosure`. -/
def pushClosure (idx : Int) (countCtx : Int) : M VM Unit := do
  let v ← M.get
  let constant ← M.lift (getAt v.constants idx)
  match constant with
  | .CompiledFunction fa fn =>
    if countCtx < 0 then M.fail (.panic "makeslice: len out of range")
    else
      let ctxs ← M.lift (newArrayLoop v.stack countCtx.toNat (v.sp - countCtx))
      M.set { v with sp := v.sp - countCtx }
      let a ← alloc
      push (some (.Closure a fa fn ctxs))
  | _ => M.fail (.error "not a function")

/-- Go: `LastPoppedStackElem`. -/
def LastPoppedStackElem (v : VM) : Except Fault (Option Object) := getAt v.stack v.sp

/-- Go: `ReadUint16(instructions[v.curFrame().ip+1:])`, for an offset relative to `ip`. -/
def readUint16After (instructions : Instructions) (off : Int) : M VM Nat := do
  let f ← curFrame
  let tl ← M.lift (sliceFromAt instructions (f.ip + off))
  M.lift (ReadUint16 tl)

/-- Go: `ReadUint8(instructions[v.curFrame().ip+1:])`, for an offset relative to `ip`. -/
def readUint8After (instructions : Instructions) (off : Int) : M VM Nat := do
  let f ← curFrame
  let tl ← M.lift (sliceFromAt instructions (f.ip + off))
  M.lift (ReadUint8 tl)

/-- Go: `v.curFrame().ip += n`. -/
def advanceIp (n : Int) : M VM Unit := do
  let f ← curFrame
  setIp (f.ip + n)

/-- Go: the condition of the loop of `defaultVmHandler`. -/
def loopCondition : M VM Bool := do
  let f ← curFrame
  let f1 ← curFrame
  return decide (f.ip < (f1.Instructions.length : Int) - 1)

/-- Go: the `switch op` of `defaultVmHandler`. An opcode without a case does nothing. -/
def dispatch (instructions : Instructions) (op : Opcode) : M VM Unit :=
  if op = OpConstant then do
    let index ← readUint16After instructions 1
    advanceIp 2
    let v ← M.get
    let c ← M.lift (getAt v.constants index)
    push (some c)
  else if op = OpArray then do
    let ln ← readUint16After instructions 1
    advanceIp 2
    let v ← M.get
    let array ← newArray (v.sp - ln) v.sp
    let v1 ← M.get
    M.set { v1 with sp := v1.sp - ln }
    push (some array)
  else if op = OpMap then do
    let ln ← readUint16After instructions 1
    advanceIp 2
    let v ← M.get
    let mp ← newMap (v.sp - ln) v.sp
    let v1 ← M.get
    M.set { v1 with sp := v1.sp - ln }
    push (some mp)
  else if op = OpIndex then do
    let index ← pop
    let left ← pop
    executeIndexOperation left index
  else if op = OpAdd ∨ op = OpSub ∨ op = OpMul ∨ op = OpQuo then
    executeArithmeticOperation op
  else if op = OpTrue then push (some True)
  else if op = OpFalse then push (some False)
  else if op = OpCall then do
    let args ← readUint8After instructions 1
    advanceIp 1
    executeCall args
  else if op = OpReturnValue then do
    let val ← pop
    let frame ← popFrame
    let v ← M.get
    M.set { v with sp := frame.basePointer - 1 }
    push val
  else if op = OpReturn then do
    let frame ← popFrame
    let v ← M.get
    M.set { v with sp := frame.basePointer - 1 }
    push (some Nil)
  else if op = OpGetBuiltin then do
    let idx ← readUint8After instructions 1
    advanceIp 1
    let builtin ← M.lift (GetBuiltinByIndex idx)
    match builtin with
    | none => M.fail (.error "invalid built-in function index")
    | some b => push (some b)
  else if op = OpSetGlobal then do
    let index ← readUint16After instructions 1
    advanceIp 2
    let val ← pop
    let v ← M.get
    let globals ← M.lift (setAt v.globals index val)
    M.set { v with globals := globals }
  else if op = OpGetGlobal then do
    let index ← readUint16After instructions 1
    advanceIp 2
    let v ← M.get
    let g ← M.lift (getAt v.globals index)
    push g
  else if op = OpSetLocal then do
    let idx ← readUint8After instructions 1
    advanceIp 1
    let f ← curFrame
    let val ← pop
    let v ← M.get
    let stack ← M.lift (setAt v.stack (f.basePointer + idx) val)
    M.set { v with stack := stack }
  else if op = OpGetLocal then do
    let idx ← readUint8After instructions 1
    advanceIp 1
    let f ← curFrame
    let v ← M.get
    let o ← M.lift (getAt v.stack (f.basePointer + idx))
    push o
  else if op = OpEQL ∨ op = OpNEQ ∨ op = OpGTR then executeComparisonOperation op
  else if op = OpMinus then executeMinusOperation
  else if op = OpBang then executeBangOperation
  else if op = OpJump then do
    let pos ← readUint16After instructions 1
    setIp ((pos : Int) - 1)
  else if op = OpClosure then do
    let idx ← readUint16After instructions 1
    let countCtx ← readUint8After instructions 3
    advanceIp 3
    pushClosure idx countCtx
  else if op = OpContext then do
    let idx ← readUint8After instructions 1
    advanceIp 1
    let f ← curFrame
    let o ← M.lift (getAt f.cl.Ctx idx)
    push o
  else if op = OpCurrClosure then do
    let f ← curFrame
    push (some f.cl.toObject)
  else if op = OpJumpConditionNotTrue then do
    let pos ← readUint16After instructions 1
    advanceIp 2
    let c ← pop
    if !(isTrue c) then setIp ((pos : Int) - 1)
  else if op = OpNil then push (some Nil)
  else if op = OpPop then do
    let _ ← pop
  else pure ()

/-- Go: the body of the loop of `defaultVmHandler`: fetch, then dispatch. -/
def loopBody : M VM Unit := do
  advanceIp 1
  let f ← curFrame
  let instructions := f.Instructions
  let f1 ← curFrame
  let op ← M.lift (getAt instructions f1.ip)
  dispatch instructions op

/-- Go: `defaultVmHandler`, which `Run` runs: `none` when the fuel runs out before the
loop ends, else the returned error (or the panic) and the machine left behind. -/
def defaultVmHandler : Nat → VM → Option (Except Fault Unit × VM)
  | 0, _ => none
  | fuel + 1, v =>
    match loopCondition v with
    | (.error e, v1) => some (.error e, v1)
    | (.ok false, v1) => some (.ok (), v1)
    | (.ok true, v1) =>
      match loopBody v1 with
      | (.error e, v2) => some (.error e, v2)
      | (.ok _, v2) => defaultVmHandler fuel v2

/-- Go: `Run()`. -/
def Run (fuel : Nat) (v : VM) : Option (Except Fault Unit × VM) := defaultVmHandler fuel v

end VM

/-- Go: `NewVM(bytecode)`; `heap` is the first free allocation address. -/
def NewVM (bytecode : Bytecode) (heap : Nat) : VM :=
  let mainFrame : CompiledFunction := ⟨bytecode.Instructions, 0, 0⟩
  let closure : Closure := ⟨heap + 1, heap, mainFrame, []⟩
  { constants := bytecode.Constants
    stack := List.replicate StackSize none
    sp := 0
    globals := List.replicate GlobalsSize none
    frames := (List.replicate FrameSize none).set 0 (some (NewFrame closure 0))
    framesIndex := 1
    heap := heap + 2 }

/-- Go: `NewVMWithGlobals(bytecode, globals)`. -/
def NewVMWithGlobals (bytecode : Bytecode) (globals : List (Option Object)) (heap : Nat) : VM :=
  let mainFrame : CompiledFunction := ⟨bytecode.Instructions, 0, 0⟩
  let closure : Closure := ⟨heap + 1, heap, mainFrame, []⟩
  { constants := bytecode.Constants
    stack := List.replicate StackSize none
    sp := 0
    globals := globals
    frames := (List.replicate FrameSize none).set 0 (some (NewFrame closure 0))
    framesIndex := 1
    heap := heap + 2 }

/-! ## Specification-side definitions for integer arithmetic -/

/-- The expressions built from integer literals with binary `+`, `-`, `*` and unary
`-`. -/
inductive ArithExpr where
  | lit (v : Int)
  | add (l r : ArithExpr)
  | sub (l r : ArithExpr)
  | mul (l r : ArithExpr)
  | neg (r : ArithExpr)
  deriving Repr

namespace ArithExpr

/-- The syntax tree of an arithmetic expression. -/
def toNode : ArithExpr → Node
  | lit v => .Integer v
  | add l r => .InfixExpr "+" l.toNode r.toNode
  | sub l r => .InfixExpr "-" l.toNode r.toNode
  | mul l r => .InfixExpr "*" l.toNode r.toNode
  | neg r => .PrefixExpr "-" r.toNode

/-- The value of an expression in `int64` arithmetic with wrap-around. -/
def eval : ArithExpr → Int
  | lit v => v
  | add l r => wrapInt64 (l.eval + r.eval)
  | sub l r => wrapInt64 (l.eval - r.eval)
  | mul l r => wrapInt64 (l.eval * r.eval)
  | neg r => wrapInt64 (-r.eval)

/-- The number of integer literals of an expression. -/
def numLiterals : ArithExpr → Nat
  | lit _ => 1
  | add l r => l.numLiterals + r.numLiterals
  | sub l r => l.numLiterals + r.numLiterals
  | mul l r => l.numLiterals + r.numLiterals
  | neg r => r.numLiterals

/-- The number of operand-stack slots the evaluation of an expression needs: the left
operand stays on the stack while the right one is evaluated. -/
def stackNeed : ArithExpr → Nat
  | lit _ => 1
  | add l r => max l.stackNeed (r.stackNeed + 1)
  | sub l r => max l.stackNeed (r.stackNeed + 1)
  | mul l r => max l.stackNeed (r.stackNeed + 1)
  | neg r => r.stackNeed

/-- The bytecode of an expression whose first literal becomes constant number `k`. -/
def code : ArithExpr → Nat → List Nat
  | lit _, k => [OpConstant, k / 256 % 256, k % 256]
  | add l r, k => l.code k ++ r.code (k + l.numLiterals) ++ [OpAdd]
  | sub l r, k => l.code k ++ r.code (k + l.numLiterals) ++ [OpSub]
  | mul l r, k => l.code k ++ r.code (k + l.numLiterals) ++ [OpMul]
  | neg r, k => r.code k ++ [OpMinus]

/-- The constants of an expression, allocated from address `h` on. -/
def consts : ArithExpr → Nat → List Object
  | lit v, h => [.Integer h v]
  | add l r, h => l.consts h ++ r.consts (h + l.numLiterals)
  | sub l r, h => l.consts h ++ r.consts (h + l.numLiterals)
  | mul l r, h => l.consts h ++ r.consts (h + l.numLiterals)
  | neg r, h => r.consts h

end ArithExpr

/-- The state of the machine while it runs the code of an expression: constants,
stack `lo ++ hi` of height `len(lo)`, globals, frames with the current frame at
instruction pointer `ip`, heap. -/
def VM.running (cs : List Object) (lo hi : List (Option Object)) (g : List (Option Object))
    (fpre fpost : List (Option Frame)) (cl : Closure) (ip bp : Int) (hp : Nat) : VM :=
  ⟨cs, lo ++ hi, (lo.length : Int), g, fpre ++ some ⟨cl, ip, bp⟩ :: fpost,
    (fpre.length : Int) + 1, hp⟩

/-- The object is an `Integer` of value `n`. -/
def Object.isInteger (o : Option Object) (n : Int) : Prop := ∃ a, o = some (.Integer a n)

/-! ## Specification-side definitions for the codec -/

/-- The bytes the specification prescribes for one operand `x` of width `w`: the low
byte for width 1, the two low bytes, high byte first, for width 2 (`/` and `%` on
`Int` round towards minus infinity, so a negative operand is read in two's
complement). -/
def specOperandBytes (w : Nat) (x : Int) : List Nat :=
  match w with
  | 1 => [(x % 256).toNat]
  | 2 => [(x / 256 % 256).toNat, (x % 256).toNat]
  | _ => []

/-- The bytes the specification prescribes for an instruction: the opcode byte, then
each operand in order. -/
def specInstruction (op : Opcode) (ws : List Nat) (xs : List Int) : List Nat :=
  op :: (List.zipWith specOperandBytes ws xs).flatten

/-- An operand fits its declared width: `0 <= x < 2^(8*w)`. -/
def operandFits (w : Nat) (x : Int) : Prop := 0 ≤ x ∧ x < 2 ^ (8 * w)

/-- The value read back from the bytes of an operand `x` of width `w`. -/
def specDecoded (w : Nat) (x : Int) : Int := x % 2 ^ (8 * w)

/-- Concatenation of a list of strings, in order. -/
def concatStrings : List String → String
  | [] => ""
  | s :: l => s ++ concatStrings l

/-- The line the specification prescribes for the instruction `(op, xs)` at byte offset
`off`: the offset zero-padded to four digits, a space, the opcode name, then each
decoded operand preceded by a space, then the line end. -/
def specLine (off : Nat) (p : Opcode × List Int) : String :=
  match definitions p.1 with
  | none => ""
  | some d =>
    fmt04d off ++ " " ++ d.Name
      ++ concatStrings ((List.zipWith specDecoded d.OperandWidths p.2).map
          (fun x => " " ++ toString x))
      ++ "\n"

/-- The byte offsets of consecutive instructions: the first one is at `off`, each
further one at the previous offset plus the previous length. -/
def specOffsets : List (List Nat) → Nat → List Nat
  | [], _ => []
  | c :: cs, off => off :: specOffsets cs (off + c.length)

/-- An instruction `(op, xs)` that `Make` accepts: defined opcode, matching arity. -/
def wellFormedInstr (p : Opcode × List Int) : Prop :=
  ∃ d, definitions p.1 = some d ∧ p.2.length = d.OperandWidths.length

/-! ## Specification-side definitions for the compiler -/

/-- A relation between the state of the compiler before and after: it holds between a
state and itself, it composes, and it allows each single update the compiler makes. -/
structure StepClosed (R : Compiler → Compiler → Prop) : Prop where
  refl : ∀ c, R c c
  trans : ∀ a b c, R a b → R b c → R a c
  scopes : ∀ cs t l i h l1, R ⟨cs, t, l, i, h⟩ ⟨cs, t, l1, i, h⟩
  table : ∀ cs t l i h t1, R ⟨cs, t, l, i, h⟩ ⟨cs, t1, l, i, h⟩
  heap : ∀ cs t l i h h1, R ⟨cs, t, l, i, h⟩ ⟨cs, t, l, i, h1⟩
  scopeIndex : ∀ cs t l i h i1, R ⟨cs, t, l, i, h⟩ ⟨cs, t, l, i1, h⟩
  constants : ∀ cs t l i h obj, R ⟨cs, t, l, i, h⟩ ⟨cs ++ [obj], t, l, i, h⟩

/-- Whatever the action returns, the state it leaves is related to the one it was given. -/
def Respects (R : Compiler → Compiler → Prop) {α : Type} (m : M Compiler α) : Prop :=
  ∀ c, R c (m c).2

/-- The constant pool of the first state is an initial segment of that of the second. -/
def constantsPrefix (c c1 : Compiler) : Prop := c.constants <+: c1.constants

/-! ## Specification-side definitions for single instructions -/

/-- The exact result of an integer operation, before it is stored in an `int64`: sum,
difference, product, and for `OpQuo` the quotient rounded towards zero. -/
def exactArith (op : Opcode) (a b : Int) : Int :=
  if op = OpAdd then a + b
  else if op = OpSub then a - b
  else if op = OpMul then a * b
  else Int.tdiv a b

/-- A value of type `int64`. -/
def isInt64 (x : Int) : Prop := -9223372036854775808 ≤ x ∧ x < 9223372036854775808

/-! ## Specification-side definitions for identifiers -/

/-- The name is a key of the store of the table or of one of its enclosing tables. -/
def SymbolTable.resolves (name : String) : SymbolTable → Bool
  | .mk st _ none _ => (storeGet st name).isSome
  | .mk st _ (some e) _ => (storeGet st name).isSome || SymbolTable.resolves name e

/-- The load instruction the specification prescribes for a resolved symbol, by scope:
opcode and operands. -/
def specLoad (s : Symbol) : Option (Opcode × List Int) :=
  if s.Scope = GlobalScope then some (OpGetGlobal, [s.Index])
  else if s.Scope = LocalScope then some (OpGetLocal, [s.Index])
  else if s.Scope = BuiltinScope then some (OpGetBuiltin, [s.Index])
  else if s.Scope = ContextScope then some (OpContext, [s.Index])
  else if s.Scope = FunctionScope then some (OpCurrClosure, [])
  else none

/-! ## Specification-side definitions for map literals -/

/-- The code of the entries of a map literal taken in the order of the list: key, value,
key, value, and so on, stopping at the first error. -/
def compileEntries (ks : Node → String) : List (Node × Node) → M Compiler Unit
  | [] => pure ()
  | p :: rest => do
    Compiler.Compile ks p.1
    Compiler.Compile ks p.2
    compileEntries ks rest

/-- The entries of a map literal put in the order in which the compiler takes them: by
the comparison `strLess` on the printed keys. -/
def sortEntries (ks : Node → String) (l : List (Node × Node)) : List (Node × Node) :=
  l.insertionSort (fun p q => !(Compiler.strLess (ks q.1) (ks p.1)))

/-- The printed form of the keys of an example: a string literal prints as
its value. -/
def witnessKeyString : Node → String
  | .StringLit value => value
  | _ => ""

/-! ## Compiling and running a program, as the tests do -/

/-- Go (`runVmTests`): `comp := NewCompiler(); comp.Compiler(program); comp.Bytecode()`:
the bytecode of a program compiled by a fresh compiler, or the fault of the
compilation. -/
def compileProgram (ks : Node → String) (program : Node) (heap : Nat) :
    Except Fault Bytecode :=
  match Compiler.Compile ks program (NewCompiler heap) with
  | (.ok _, c) => (Compiler.Bytecode c).1
  | (.error e, _) => .error e

/-! ## Specification-side definitions for runs of whole programs -/

/-- The machine after `n` rounds of the loop of `defaultVmHandler`, when the loop
condition holds before each of them and none of them fails (`none` otherwise). -/
def VM.rounds : Nat → VM → Option VM
  | 0, v => some v
  | n + 1, v =>
    match VM.loopCondition v with
    | (.ok true, v1) =>
      match VM.loopBody v1 with
      | (.ok _, v2) => VM.rounds n v2
      | (.error _, _) => none
    | _ => none

/-- The program `func f() { func g() { 1 }  var b = 5  var c = 7  b + c }  f()`. -/
def balanceProgram : Node :=
  .Program [
    .ExprStmt (.FuncExpr "f" [] (.BlockStmt [
      .ExprStmt (.FuncExpr "g" [] (.BlockStmt [.ExprStmt (.Integer 1)])),
      .VarStmt "b" (.Integer 5),
      .VarStmt "c" (.Integer 7),
      .ExprStmt (.InfixExpr "+" (.Identifier "b") (.Identifier "c"))])),
    .ExprStmt (.CallExpr (.Identifier "f") [])]

/-- The code of `g` in `balanceProgram`. -/
def balanceInner : CompiledFunction := ⟨[OpConstant, 0, 0, OpReturnValue], 0, 0⟩

/-- The code of `f` in `balanceProgram`: the statement `func g() { 1 }` is the first seven
bytes, `OpClosure 1 0; OpSetLocal 0; OpPop`. -/
def balanceOuter : CompiledFunction :=
  ⟨[OpClosure, 0, 1, 0, OpSetLocal, 0, OpPop,
    OpConstant, 0, 2, OpSetLocal, 1,
    OpConstant, 0, 3, OpSetLocal, 2,
    OpGetLocal, 1, OpGetLocal, 2, OpAdd, OpReturnValue], 3, 0⟩

/-- The bytecode of `balanceProgram`, compiled with `heap` as first free address. -/
def balanceBytecode (heap : Nat) : Bytecode :=
  ⟨[OpClosure, 0, 4, 0, OpSetGlobal, 0, 0, OpPop, OpGetGlobal, 0, 0, OpCall, 0, OpPop],
    [.Integer heap 1, .CompiledFunction (heap + 1) balanceInner, .Integer (heap + 2) 5,
      .Integer (heap + 3) 7, .CompiledFunction (heap + 4) balanceOuter]⟩

/-! ## Specification-side definitions for sequences of `Define` calls -/

/-- A sequence of `Define` calls on a table, one per name of the list, in order. -/
def SymbolTable.defineAll : List String → SymbolTable → SymbolTable
  | [], t => t
  | n :: rest, t => SymbolTable.defineAll rest (t.Define n).2

/-! ## Specification-side definitions for compilation scopes -/

/-- A sequence of `emit` calls, one per opcode with its operands, in order. -/
def emitAll : List (Opcode × List Int) → M Compiler Unit
  | [] => pure ()
  | p :: rest => do
    let _ ← Compiler.emit p.1 p.2
    emitAll rest

/-- The program `func test1(a) { func test2(b) { a + b }  return test2 }  test1(x)(y)`. -/
def captureProgram (x y : Int) : Node :=
  .Program [
    .ExprStmt (.FuncExpr "test1" ["a"] (.BlockStmt [
      .ExprStmt (.FuncExpr "test2" ["b"] (.BlockStmt [
        .ExprStmt (.InfixExpr "+" (.Identifier "a") (.Identifier "b"))])),
      .ReturnStmt (.Identifier "test2")])),
    .ExprStmt (.CallExpr (.CallExpr (.Identifier "test1") [.Integer x]) [.Integer y])]

/-- The code of `test2` in `captureProgram`: it reads `a` through `OpContext 0`. -/
def captureInner : CompiledFunction :=
  ⟨[OpContext, 0, OpGetLocal, 0, OpAdd, OpReturnValue], 1, 1⟩

/-- The code of `test1` in `captureProgram`. -/
def captureOuter : CompiledFunction :=
  ⟨[OpGetLocal, 0, OpClosure, 0, 0, 1, OpSetLocal, 1, OpPop, OpGetLocal, 1, OpReturnValue],
    2, 1⟩

/-- The bytecode of `captureProgram`, compiled with `heap` as first free address. -/
def captureBytecode (x y : Int) (heap : Nat) : Bytecode :=
  ⟨[OpClosure, 0, 1, 0, OpSetGlobal, 0, 0, OpPop, OpGetGlobal, 0, 0, OpConstant, 0, 2,
      OpCall, 1, OpConstant, 0, 3, OpCall, 1, OpPop],
    [.CompiledFunction heap captureInner, .CompiledFunction (heap + 1) captureOuter,
      .Integer (heap + 2) x, .Integer (heap + 3) y]⟩

/-- One table before and after compilation steps made in its own scope or further
inside, where `D` lists the names handed to `Define` on this table (one per call): the
counter grew by the number of calls, an entry is kept unless its name was defined again,
a defined name maps to a symbol whose index was allocated by these calls, and the captured
symbols gained have names the store did not have. -/
def levelDefined (D : List String) (st : List (String × Symbol)) (c : Nat) (ctx : List Symbol)
    (st1 : List (String × Symbol)) (c1 : Nat) (ctx1 : List Symbol) : Prop :=
  c1 = c + D.length
  ∧ (∀ n s, storeGet st n = some s →
      ∃ s1, storeGet st1 n = some s1
        ∧ (s1 = s ∨ (n ∈ D ∧ (c : Int) ≤ s1.Index ∧ s1.Index < (c1 : Int))))
  ∧ (∀ n ∈ D, ∃ s1, storeGet st1 n = some s1 ∧ (c : Int) ≤ s1.Index ∧ s1.Index < (c1 : Int))
  ∧ ∃ extra, ctx1 = ctx ++ extra ∧ ∀ s ∈ extra, storeGet st s.Name = none

/-- The relation `levelDefined D` between two tables of the same depth, with every
enclosing table related by `levelDefined []` (nothing is defined on an enclosing table
from inside). -/
def SymbolTable.Defined : List String → SymbolTable → SymbolTable → Prop
  | D, .mk st c none ctx, t1 =>
      levelDefined D st c ctx t1.store t1.count t1.Context ∧ t1.External = none
  | D, .mk st c (some e) ctx, t1 =>
      levelDefined D st c ctx t1.store t1.count t1.Context
        ∧ ∃ e1, t1.External = some e1 ∧ SymbolTable.Defined [] e e1

/-- The table `k` steps out along `External`. -/
def SymbolTable.outer : Nat → SymbolTable → Option SymbolTable
  | 0, t => some t
  | _ + 1, .mk _ _ none _ => none
  | k + 1, .mk _ _ (some e) _ => SymbolTable.outer k e

/-- The number of tables a table encloses itself in. -/
def SymbolTable.depth : SymbolTable → Nat
  | .mk _ _ none _ => 0
  | .mk _ _ (some e) _ => e.depth + 1

/-- The table `t1` is `t` after some definitions, or a table opened inside it. -/
def SymbolTable.Reaches (t t1 : SymbolTable) : Prop :=
  ∃ k tl D, t1.outer k = some tl ∧ SymbolTable.Defined D t tl


/-- A compiled function keeps at least one local slot per parameter (other objects are not
constrained). -/
def LocalsOK (o : Object) : Prop :=
  ∀ a fn, o = .CompiledFunction a fn → fn.NumParameters ≤ fn.NumLocals

/-- The constant pool of `c1` is the one of `c` followed by objects satisfying
`LocalsOK`. -/
def ConstsGrow (c c1 : Compiler) : Prop :=
  ∃ new, c1.constants = c.constants ++ new ∧ ∀ o ∈ new, LocalsOK o

/-- A step that leaves the symbol table alone and appends to the constant pool only. -/
def TableFrame {α : Type} (m : M Compiler α) : Prop :=
  ∀ c, (m c).2.symbolTable = c.symbolTable ∧ ConstsGrow c (m c).2

/-- What a compilation step does to the symbol table, whatever its result: from a state
whose table `t` satisfies the representation invariant it ends with a table that satisfies
it and that is `t` after some definitions or a table opened inside it; when the step
returns no error the final table is `t` with exactly the names `D` defined on it, and the
constant pool grew by objects satisfying `LocalsOK`. -/
def TSpec (D : List String) {α : Type} (m : M Compiler α) : Prop :=
  ∀ c t, c.symbolTable = some t → t.WF →
    ∃ t1, (m c).2.symbolTable = some t1 ∧ t1.WF ∧ SymbolTable.Reaches t t1 ∧
      ∀ a, (m c).1 = .ok a → SymbolTable.Defined D t t1 ∧ ConstsGrow c (m c).2


mutual

/-- The names handed to `Define` in the scope a node is compiled in, one per call, in the
order of the syntax tree: the name of every var statement and of every function expression
that is not inside a function expression of the node. -/
def directNames : Node → List String
  | .Program stmts => directNamesList stmts
  | .Identifier _ => []
  | .StringLit _ => []
  | .Array elements => directNamesList elements
  | .Map elements => directNamesPairs elements
  | .Boolean _ => []
  | .VarStmt name value => name :: directNames value
  | .BlockStmt stmts => directNamesList stmts
  | .ExprStmt expr => directNames expr
  | .IfExpr condition consequence none => directNames condition ++ directNames consequence
  | .IfExpr condition consequence (some alternative) =>
      directNames condition ++ (directNames consequence ++ directNames alternative)
  | .ReturnStmt value => directNames value
  | .FuncExpr name _ _ => [name]
  | .CallExpr func args => directNames func ++ directNamesList args
  | .Integer _ => []
  | .InfixExpr _ left right => directNames left ++ directNames right
  | .PrefixExpr _ right => directNames right
  | .IndexExpr left index => directNames left ++ directNames index

/-- The names defined directly by the nodes of a list. -/
def directNamesList : List Node → List String
  | [] => []
  | n :: rest => directNames n ++ directNamesList rest

/-- The names defined directly by the keys and values of the entries of a map literal. -/
def directNamesPairs : List (Node × Node) → List String
  | [] => []
  | (k, v) :: rest => directNames k ++ (directNames v ++ directNamesPairs rest)

end


/-- What the tail of the `FuncExpr` case does to the symbol table: from a state whose table
`tb` is enclosed in `e1` and counts at least `numParams` definitions, it ends with `tb` or
`e1`, and when it returns no error it ends with `e1` and the constant pool grew by objects
satisfying `LocalsOK`. -/
def FinSpec (numParams : Nat) {α : Type} (m : M Compiler α) : Prop :=
  ∀ c tb e1, c.symbolTable = some tb → tb.External = some e1 → numParams ≤ tb.count →
    ((m c).2.symbolTable = some tb ∨ (m c).2.symbolTable = some e1)
    ∧ ∀ a, (m c).1 = .ok a → (m c).2.symbolTable = some e1 ∧ ConstsGrow c (m c).2

/-- The first part of the tail of the `FuncExpr` case (`finishFunction`): the two `if`
statements that make the body end in a return. -/
def Compiler.returnFix : M Compiler Unit := do
  if (← lastInstructionIs OpPop) then replaceLastPopWithReturn
  if !(← lastInstructionIs OpReturnValue) then
    let _ ← emit OpReturn []

/-- The second part of the tail of the `FuncExpr` case (`finishFunction`): leaving the
scope, loading the captured symbols and emitting the closure and its binding. -/
def Compiler.closeFunction (symbol : Symbol) (numParams : Nat) : M Compiler Unit := do
  let c ← M.get
  match c.symbolTable with
  | none => M.fail (.panic "nil pointer dereference")
  | some t =>
    let ctx := t.Context
    let numLocals := t.count
    let instructions ← leaveScope
    loadSymbols ctx
    let a ← alloc
    let compiledFn : Object := .CompiledFunction a ⟨instructions, numLocals, numParams⟩
    let idx ← addConstant compiledFn
    let _ ← emit OpClosure [idx, ctx.length]
    if symbol.Scope = GlobalScope then
      let _ ← emit OpSetGlobal [symbol.Index]
    else
      let _ ← emit OpSetLocal [symbol.Index]


/-- A step that changes nothing but the compilation scopes. -/
def ScopeStep {α : Type} (m : M Compiler α) : Prop :=
  ∀ c, (m c).2.constants = c.constants ∧ (m c).2.symbolTable = c.symbolTable
    ∧ (m c).2.heap = c.heap ∧ (m c).2.scopeIndex = c.scopeIndex

/-- The state a step leaves when it returns no error. -/
def Compiler.stateAfter {α : Type} (m : M Compiler α) (c : Compiler) : Option Compiler :=
  match m c with
  | (.ok _, c1) => some c1
  | (.error _, _) => none

/-- The nodes whose compilation is started while the sorted entries of a map literal are
compiled, each entry given by its printed key, the starts of its key and value, and its
compilation. -/
def Compiler.runStarts :
    List (String × (Compiler → List (Node × Compiler)) × M Compiler Unit) → Compiler →
      List (Node × Compiler)
  | [], _ => []
  | a :: rest, c =>
    a.2.1 c ++ (match Compiler.stateAfter a.2.2 c with
      | some c1 => Compiler.runStarts rest c1
      | none => [])

mutual

/-- The compilations started in the scope in which a node is compiled (Go: the calls
`c.Compiler(x)` made by `defaultCompiler` for the node and, recursively, for its parts,
those of the body of a function expression left out): each with the node it is given and
the state it starts from, in the order of the calls. A part is reached only when every
step before it returned no error. -/
def Compiler.directStarts (ks : Node → String) : Node → Compiler → List (Node × Compiler)
  | .Program stmts, c => (.Program stmts, c) :: Compiler.directStartsList ks stmts c
  | .Identifier value, c => [(.Identifier value, c)]
  | .StringLit value, c => [(.StringLit value, c)]
  | .Array elements, c => (.Array elements, c) :: Compiler.directStartsList ks elements c
  | .Map elements, c =>
    (.Map elements, c) ::
      Compiler.runStarts ((Compiler.directStartsPairs ks elements).insertionSort
        (fun a b => !(strLess b.1 a.1))) c
  | .Boolean value, c => [(.Boolean value, c)]
  | .VarStmt name value, c =>
    (.VarStmt name value, c) ::
      (match Compiler.stateAfter (onSymbolTable (fun t => t.Define name)) c with
        | some c1 => Compiler.directStarts ks value c1
        | none => [])
  | .BlockStmt stmts, c => (.BlockStmt stmts, c) :: Compiler.directStartsList ks stmts c
  | .ExprStmt expr, c => (.ExprStmt expr, c) :: Compiler.directStarts ks expr c
  | .IfExpr condition consequence none, c =>
    (.IfExpr condition consequence none, c) ::
      (Compiler.directStarts ks condition c
        ++ (match Compiler.stateAfter (do
              Compile ks condition
              emit OpJumpConditionNotTrue [fakeAddress]) c with
          | some c1 => Compiler.directStarts ks consequence c1
          | none => []))
  | .IfExpr condition consequence (some alternative), c =>
    (.IfExpr condition consequence (some alternative), c) ::
      (Compiler.directStarts ks condition c
        ++ ((match Compiler.stateAfter (do
              Compile ks condition
              emit OpJumpConditionNotTrue [fakeAddress]) c with
          | some c1 => Compiler.directStarts ks consequence c1
          | none => [])
        ++ (match Compiler.stateAfter (do
              Compile ks condition
              let jumpNotTrue ← emit OpJumpConditionNotTrue [fakeAddress]
              Compile ks consequence
              stripLastPop
              let _ ← emit OpJump [fakeAddress]
              let curPos := (← curInstructions).length
              changeOperand jumpNotTrue curPos) c with
          | some c1 => Compiler.directStarts ks alternative c1
          | none => [])))
  | .ReturnStmt value, c => (.ReturnStmt value, c) :: Compiler.directStarts ks value c
  | .FuncExpr name params body, c => [(.FuncExpr name params body, c)]
  | .CallExpr func args, c =>
    (.CallExpr func args, c) ::
      (Compiler.directStarts ks func c
        ++ (match Compiler.stateAfter (Compile ks func) c with
          | some c1 => Compiler.directStartsList ks args c1
          | none => []))
  | .Integer value, c => [(.Integer value, c)]
  | .InfixExpr operator left right, c =>
    (.InfixExpr operator left right, c) ::
      (if operator = "<" then
        Compiler.directStarts ks right c
          ++ (match Compiler.stateAfter (Compile ks right) c with
            | some c1 => Compiler.directStarts ks left c1
            | none => [])
      else
        Compiler.directStarts ks left c
          ++ (match Compiler.stateAfter (Compile ks left) c with
            | some c1 => Compiler.directStarts ks right c1
            | none => []))
  | .PrefixExpr operator right, c =>
    (.PrefixExpr operator right, c) :: Compiler.directStarts ks right c
  | .IndexExpr left index, c =>
    (.IndexExpr left index, c) ::
      (Compiler.directStarts ks left c
        ++ (match Compiler.stateAfter (Compile ks left) c with
          | some c1 => Compiler.directStarts ks index c1
          | none => []))

/-- The compilations started while the nodes of a list are compiled one after the
other. -/
def Compiler.directStartsList (ks : Node → String) : List Node → Compiler → List (Node × Compiler)
  | [], _ => []
  | n :: rest, c =>
    Compiler.directStarts ks n c
      ++ (match Compiler.stateAfter (Compile ks n) c with
        | some c1 => Compiler.directStartsList ks rest c1
        | none => [])

/-- For each entry of a map literal: its printed key, the compilations started while its
key and then its value are compiled, and the compilation of the entry. -/
def Compiler.directStartsPairs (ks : Node → String) :
    List (Node × Node) → List (String × (Compiler → List (Node × Compiler)) × M Compiler Unit)
  | [] => []
  | (k, v) :: rest =>
    (ks k, (fun c => Compiler.directStarts ks k c
        ++ (match Compiler.stateAfter (Compile ks k) c with
          | some c1 => Compiler.directStarts ks v c1
          | none => [])), do
      Compile ks k
      Compile ks v) :: Compiler.directStartsPairs ks rest

end

/-- The current table of the state maps `f` to the `Function` symbol that
`defineFunction` stores, and satisfies the representation invariant. -/
def Compiler.selfBound (f : String) (c : Compiler) : Prop :=
  ∃ t, c.symbolTable = some t ∧ t.WF ∧ storeGet t.store f = some ⟨FunctionScope, 0, f⟩

/-- A complete instruction: the bytes `Make` returns for a defined opcode given as many
operands as its definition declares. -/
def isInstr (k : List Nat) : Prop :=
  ∃ p : Opcode × List Int, wellFormedInstr p ∧ Make p.1 p.2 = .ok k

/-- What the records of the compiler can tell of an instruction: its first byte and its
length. -/
def chunkShape (k : List Nat) : Option Nat × Nat := (k.head?, k.length)

/-- The length of a stream of instructions of the given shapes. -/
def shapesLength (hs : List (Option Nat × Nat)) : Nat := (hs.map Prod.snd).sum

/-- The record `r` describes an instruction of shape `h` that starts at offset `pos`. -/
def recordAt (r : EmittedInstruction) (pos : Nat) (h : Option Nat × Nat) : Prop :=
  r.Pos = pos ∧ h.1 = some r.OpCode

/-- The records `lastInstruction` and `preInstruction` of a scope whose stream is made of
instructions of the shapes `hs`, in one of three states. Stale: after `removeLastPop` took
away the only instruction a record described, both records are equal and point to the end
of the stream, with opcode `OpPop` unless the stream is empty. One record: `lastInstruction`
describes the last instruction, `preInstruction` is equal to it or points to where it
starts. Two records: they describe the last two instructions. `b` bounds the targets the
jumps of the stream may have: no later `removeLastPop` makes the stream shorter than
`b - 1`. -/
def recordsOK (last pre : EmittedInstruction) (hs : List (Option Nat × Nat)) (b : Nat) : Prop :=
  (last = pre ∧ last.Pos = shapesLength hs ∧ (last.OpCode = OpPop ∨ hs = [])
    ∧ b = shapesLength hs + 1)
  ∨ (∃ hs0 h, hs = hs0 ++ [h] ∧ recordAt last (shapesLength hs0) h
      ∧ (pre = last ∨ (pre.Pos = shapesLength hs0 ∧ (pre.OpCode = OpPop ∨ hs0 = [])))
      ∧ b = shapesLength hs)
  ∨ (∃ hs0 h0 h, hs = hs0 ++ [h0, h] ∧ recordAt pre (shapesLength hs0) h0
      ∧ recordAt last (shapesLength hs0 + h0.2) h
      ∧ b = if last.OpCode = OpPop then last.Pos else shapesLength hs)

/-- Every jump among the instructions has the two bytes of a target `t ≤ b`. -/
def jumpsBelow (b : Nat) (chunks : List (List Nat)) : Prop :=
  ∀ k ∈ chunks, ∀ op, k.head? = some op → (op = OpJump ∨ op = OpJumpConditionNotTrue) →
    ∃ t : Nat, t ≤ b ∧ k = [op, t / 256 % 256, t % 256]

/-- The stream of the scope is the concatenation of the complete instructions `chunks`,
and its records are in one of the states of `recordsOK`. -/
def ScopeRep (sc : CompilationScope) (chunks : List (List Nat)) (b : Nat) : Prop :=
  sc.instructions = chunks.flatten ∧ (∀ k ∈ chunks, isInstr k)
    ∧ recordsOK sc.lastInstruction sc.preInstruction (chunks.map chunkShape) b


/-- The stream of a compiled function is a concatenation of complete instructions of which
the last is `OpReturnValue` or `OpReturn`, and its jumps have targets at most one past
the end. -/
def FnOK (fn : CompiledFunction) : Prop :=
  ∃ chunks k, fn.Instructions = (chunks ++ [k]).flatten ∧ (∀ x ∈ chunks ++ [k], isInstr x)
    ∧ (k = [OpReturnValue] ∨ k = [OpReturn])
    ∧ jumpsBelow (fn.Instructions.length + 1) (chunks ++ [k])

/-- A constant that is a compiled function satisfies `FnOK`. -/
def ConstOK (o : Object) : Prop := ∀ a fn, o = .CompiledFunction a fn → FnOK fn

/-- What a step that returns no error does to a state whose current scope is the last one
and is represented by `chunks`: it leaves the enclosing scopes and the scope index alone,
appends constants satisfying `ConstOK`, and appends complete instructions to the current
scope, whose records stay in a state of `recordsOK`; the bound on jump targets does not
decrease and the jumps appended respect it. -/
def StreamSpec {α : Type} (m : M Compiler α) : Prop :=
  ∀ cs tbl pre sc hp chunks b a c1, ScopeRep sc chunks b →
    m ⟨cs, tbl, pre ++ [sc], pre.length, hp⟩ = (.ok a, c1) →
    ∃ newcs tbl1 sc1 hp1 new b1, c1 = ⟨cs ++ newcs, tbl1, pre ++ [sc1], pre.length, hp1⟩
      ∧ (∀ o ∈ newcs, ConstOK o) ∧ ScopeRep sc1 (chunks ++ new) b1 ∧ b ≤ b1
      ∧ jumpsBelow b1 new

/-- The three bytes of a jump instruction with target `t`. -/
def jumpInstr (op : Opcode) (t : Nat) : List Nat := [op, t / 256 % 256, t % 256]

/-- The stream decodes completely: it is the concatenation of complete instructions
(each the bytes `Make` returns for a defined opcode with as many operands as declared),
`String()` ends on it and lists exactly these instructions, the offsets it visits are
strictly increasing, each instruction starts where the one before ends, and the last one
ends at the end of the stream. -/
def DecodesCompletely (ins : Instructions) : Prop :=
  ∃ instrs chunks,
    List.Forall₂ (fun p c => wellFormedInstr p ∧ Make p.1 p.2 = .ok c) instrs chunks
    ∧ ins = chunks.flatten
    ∧ (∀ fuel, instrs.length < fuel →
        Instructions.String ins fuel
          = some (.ok (concatStrings (List.zipWith specLine (specOffsets chunks 0) instrs))))
    ∧ List.Pairwise (· < ·) (specOffsets chunks 0)
    ∧ (∀ o c, (specOffsets chunks 0).getLast? = some o → chunks.getLast? = some c →
        o + c.length = ins.length)

/-- The bytes of the load instruction of a symbol, chosen by its scope and index; none
for a scope that is not one of the five known. -/
def loadCode (s : Symbol) : List Nat :=
  match specLoad s with
  | some (op, operands) =>
    match definitions op with
    | some d => specInstruction op d.OperandWidths operands
    | none => []
  | none => []

/-- The table of a function scope that holds the local `a`, enclosed in the table of a
fresh compiler. -/
def captureTable : SymbolTable :=
  .mk [("a", ⟨LocalScope, 0, "a"⟩)] 1 (some (defineBuiltins builtinNames 0 NewSymbolTable)) []

/-- The body `{ a + b }`. -/
def captureBody : Node :=
  .BlockStmt [.ExprStmt (.InfixExpr "+" (.Identifier "a") (.Identifier "b"))]

theorem definitions_lt {op : Opcode} {d : Definition} (h : definitions op = some d) :
    op < 30 := by
  by_contra hge
  unfold definitions at h
  split at h <;> first | exact hge (by decide) | simp at h

theorem uint16_high_byte (x : Int) :
    (x % 65536).toNat / 256 % 256 = (x / 256 % 256).toNat := by omega

theorem uint16_low_byte (x : Int) : (x % 65536).toNat % 256 = (x % 256).toNat := by omega

theorem make_eq_spec (op : Opcode) (d : Definition) (xs : List Int)
    (hd : definitions op = some d) (hlen : xs.length = d.OperandWidths.length) :
    Make op xs = .ok (specInstruction op d.OperandWidths xs) := by
  have hop := definitions_lt hd
  interval_cases op <;> simp only [definitions, Option.some.injEq] at hd <;> subst hd <;>
    simp only [List.length_cons, List.length_nil, Nat.zero_add, Nat.reduceAdd] at hlen
  all_goals
    rcases xs with _ | ⟨a, _ | ⟨b, _ | ⟨c, xs⟩⟩⟩ <;>
    first
      | (exfalso; simp only [List.length_cons, List.length_nil] at hlen; omega)
      | simp [Make, definitions, setIndex, MakeLoop, getIndex, PutUint16At, specInstruction,
          specOperandBytes, uint16_high_byte, uint16_low_byte]

theorem uint16_decode (x : Int) :
    (((x / 256 % 256).toNat * 256 + (x % 256).toNat : Nat) : Int) = x % 65536 := by omega

theorem uint8_decode (x : Int) : (((x % 256).toNat : Nat) : Int) = x % 256 := by omega

/-- Decoding the operand bytes of an instruction, whatever follows them in the stream,
gives each operand reduced modulo `2^(8*width)` and consumes the summed widths. -/
theorem readOperands_spec (op : Opcode) (d : Definition) (xs : List Int) (rest : List Nat)
    (hd : definitions op = some d) (hlen : xs.length = d.OperandWidths.length) :
    ReadOperands d ((specInstruction op d.OperandWidths xs).drop 1 ++ rest)
      = .ok (List.zipWith specDecoded d.OperandWidths xs, d.OperandWidths.sum) := by
  have hop := definitions_lt hd
  interval_cases op <;> simp only [definitions, Option.some.injEq] at hd <;> subst hd <;>
    simp only [List.length_cons, List.length_nil, Nat.zero_add, Nat.reduceAdd] at hlen
  all_goals
    rcases xs with _ | ⟨a, _ | ⟨b, _ | ⟨c, xs⟩⟩⟩ <;>
    first
      | (exfalso; simp only [List.length_cons, List.length_nil] at hlen; omega)
      | (simp only [ReadOperands, ReadOperandsLoop, sliceFrom, ReadUint16, ReadUint8,
          specInstruction, specOperandBytes, specDecoded, List.zipWith_cons_cons,
          List.zipWith_nil_right, List.zipWith_nil_left, List.flatten, List.drop_succ_cons,
          List.drop_zero, List.cons_append, List.nil_append, List.append_nil, List.sum_cons,
          List.sum_nil, Nat.zero_add, Nat.add_zero, Nat.zero_le, if_true, List.length_cons,
          Nat.le_add_left, uint16_decode, uint8_decode, Nat.reduceAdd, Nat.reduceMul,
          Nat.reducePow, Nat.reduceLeDiff]
         try rfl)

theorem specDecoded_of_fits (op : Opcode) (d : Definition) (xs : List Int)
    (hd : definitions op = some d)
    (hfit : List.Forall₂ operandFits d.OperandWidths xs) :
    List.zipWith specDecoded d.OperandWidths xs = xs := by
  have hop := definitions_lt hd
  have hlen := hfit.length_eq
  interval_cases op <;> simp only [definitions, Option.some.injEq] at hd <;> subst hd <;>
    simp only [List.length_cons, List.length_nil, Nat.zero_add, Nat.reduceAdd] at hlen
  all_goals
    rcases xs with _ | ⟨a, _ | ⟨b, _ | ⟨c, xs⟩⟩⟩ <;>
    first
      | (exfalso; simp only [List.length_cons, List.length_nil] at hlen; omega)
      | rfl
      | (simp only [List.forall₂_cons, List.forall₂_nil_left_iff, operandFits, and_true] at hfit
         simp only [List.zipWith_cons_cons, List.zipWith_nil_right, specDecoded, List.cons.injEq,
           and_true]
         first
           | (apply Int.emod_eq_of_lt <;> omega)
           | (constructor <;> apply Int.emod_eq_of_lt <;> omega))

theorem specInstruction_length (op : Opcode) (ws : List Nat) (xs : List Int)
    (hws : ∀ w ∈ ws, w = 1 ∨ w = 2) (hlen : xs.length = ws.length) :
    (specInstruction op ws xs).length = 1 + ws.sum := by
  simp only [specInstruction, List.length_cons]
  suffices h : (List.zipWith specOperandBytes ws xs).flatten.length = ws.sum by omega
  induction ws generalizing xs with
  | nil => simp
  | cons w ws ih =>
    rcases xs with _ | ⟨x, xs⟩
    · simp at hlen
    · have hw := hws w (List.mem_cons_self _ _)
      have := ih xs (fun v hv => hws v (List.mem_cons_of_mem _ hv)) (by simpa using hlen)
      rcases hw with rfl | rfl <;> simp [specOperandBytes, this] <;> omega

theorem definitions_widths {op : Opcode} {d : Definition} (hd : definitions op = some d) :
    ∀ w ∈ d.OperandWidths, w = 1 ∨ w = 2 := by
  have hop := definitions_lt hd
  interval_cases op <;> simp only [definitions, Option.some.injEq] at hd <;> subst hd <;> simp

/-- **C3.** For a defined opcode `op` with widths `ws` and operands `xs` of the same
length, `Make(op, xs...)` is the byte `op` followed, operand by operand, by the low byte
(width 1) or by the two low bytes, high byte first (width 2); its length is
`1 + sum ws`. -/
theorem C3_Make_encoding (op : Opcode) (d : Definition) (xs : List Int)
    (hd : definitions op = some d) (hlen : xs.length = d.OperandWidths.length) :
    Make op xs = .ok (specInstruction op d.OperandWidths xs) ∧
      (specInstruction op d.OperandWidths xs).length = 1 + d.OperandWidths.sum :=
  ⟨make_eq_spec op d xs hd hlen,
    specInstruction_length op _ xs (definitions_widths hd) hlen⟩

/-- Witness of C3: `Make(OpClosure, 65534, 255)` is `[24, 255, 254, 255]`. -/
theorem C3_Make_encoding_witness :
    Make OpClosure [65534, 255] = .ok [24, 255, 254, 255] ∧
      ([24, 255, 254, 255] : List Nat).length = 1 + (2 + 1) := by
  have h := C3_Make_encoding OpClosure ⟨"OpClosure", [2, 1]⟩ [65534, 255] rfl rfl
  simpa [specInstruction, specOperandBytes, OpClosure] using h

/-- **C2.** Codec round trip: for a defined opcode `op` with widths `ws` and operands
`xs` with `len(xs) = len(ws)` and `0 <= xs[i] < 2^(8*ws[i])`, `Make(op, xs...)` returns
bytes `b` and `ReadOperands(definition(op), b[1:])` returns exactly `(xs, sum ws)`. -/
theorem C2_codec_round_trip (op : Opcode) (d : Definition) (xs : List Int)
    (hd : definitions op = some d)
    (hfit : List.Forall₂ operandFits d.OperandWidths xs) :
    ∃ b tl, Make op xs = .ok b ∧ sliceFrom b 1 = .ok tl ∧
      ReadOperands d tl = .ok (xs, d.OperandWidths.sum) := by
  have hlen : xs.length = d.OperandWidths.length := hfit.length_eq.symm
  refine ⟨_, (specInstruction op d.OperandWidths xs).drop 1, make_eq_spec op d xs hd hlen, ?_, ?_⟩
  · simp only [sliceFrom, specInstruction, List.length_cons]
    rw [if_pos (by omega)]
  · have h := readOperands_spec op d xs [] hd hlen
    rw [specDecoded_of_fits op d xs hd hfit, List.append_nil] at h
    exact h

/-- Witness of C2: `OpClosure` with operands `65534, 255`. -/
theorem C2_codec_round_trip_witness :
    ∃ b tl, Make OpClosure [65534, 255] = .ok b ∧ sliceFrom b 1 = .ok tl ∧
      ReadOperands ⟨"OpClosure", [2, 1]⟩ tl = .ok ([65534, 255], 3) :=
  C2_codec_round_trip OpClosure ⟨"OpClosure", [2, 1]⟩ [65534, 255] rfl
    (by simp [operandFits])

/-- **C4, as stated, fails.** `OpConstant` declares one operand of width 2; called with
no operand, `Make` returns the three bytes `[0, 0, 0]`, not the empty sequence. -/
theorem C4_counterexample :
    definitions OpConstant = some ⟨"OpConstant", [2]⟩ ∧
      ([] : List Int).length ≠ [2].length ∧
      Make OpConstant [] = .ok [0, 0, 0] ∧
      Make OpConstant [] ≠ .ok [] := by
  refine ⟨rfl, by decide, rfl, fun h => ?_⟩
  rw [show Make OpConstant [] = .ok [0, 0, 0] from rfl] at h
  simp at h

/-- `Make` on a defined opcode with any operands, too few or too many. -/
theorem make_arity_mismatch (op : Opcode) (d : Definition) (xs : List Int)
    (hd : definitions op = some d) (hlen : xs.length ≠ d.OperandWidths.length) :
    (xs.length < d.OperandWidths.length →
      Make op xs = .ok (op :: ((List.zipWith specOperandBytes d.OperandWidths xs).flatten
        ++ List.replicate ((d.OperandWidths.drop xs.length).sum) 0)) ∧
      Make op xs ≠ .ok []) ∧
    (d.OperandWidths.length < xs.length →
      Make op xs = .error (.panic "index out of range")) := by
  have hop := definitions_lt hd
  interval_cases op <;> simp only [definitions, Option.some.injEq] at hd <;> subst hd <;>
    simp only [List.length_cons, List.length_nil, Nat.zero_add, Nat.reduceAdd] at hlen
  all_goals
    rcases xs with _ | ⟨a, _ | ⟨b, _ | ⟨c, xs⟩⟩⟩ <;>
    first
      | (exfalso; simp only [List.length_cons, List.length_nil] at hlen; omega)
      | simp [Make, definitions, setIndex, MakeLoop, getIndex, PutUint16At,
          specOperandBytes, uint16_high_byte, uint16_low_byte, List.replicate]

/-- **C4, amended.** For a defined opcode `op` with widths `ws` and fewer operands than
widths, `Make` returns the `1 + sum ws` bytes made of `op`, the encoded operands that
were given, and zero bytes in place of the missing ones; it does not return the empty
sequence. -/
theorem C4_Make_too_few_operands (op : Opcode) (d : Definition) (xs : List Int)
    (hd : definitions op = some d) (hlen : xs.length < d.OperandWidths.length) :
    Make op xs = .ok (op :: ((List.zipWith specOperandBytes d.OperandWidths xs).flatten
        ++ List.replicate ((d.OperandWidths.drop xs.length).sum) 0)) ∧
      Make op xs ≠ .ok [] :=
  (make_arity_mismatch op d xs hd (Nat.ne_of_lt hlen)).1 hlen

/-- Witness of the amended C4: `OpClosure` (widths 2, 1) called with the single
operand 258. -/
theorem C4_Make_too_few_operands_witness :
    Make OpClosure [258] = .ok [24, 1, 2, 0] ∧ Make OpClosure [258] ≠ .ok [] := by
  have h := C4_Make_too_few_operands OpClosure ⟨"OpClosure", [2, 1]⟩ [258] rfl (by decide)
  simpa [specOperandBytes, OpClosure] using h

theorem format_eq_spec (op : Opcode) (d : Definition) (xs : List Int)
    (hd : definitions op = some d) (hlen : xs.length = d.OperandWidths.length) :
    format d (List.zipWith specDecoded d.OperandWidths xs)
      = d.Name ++ concatStrings ((List.zipWith specDecoded d.OperandWidths xs).map
          (fun x => " " ++ toString x)) := by
  have hop := definitions_lt hd
  interval_cases op <;> simp only [definitions, Option.some.injEq] at hd <;> subst hd <;>
    simp only [List.length_cons, List.length_nil, Nat.zero_add, Nat.reduceAdd] at hlen
  all_goals
    rcases xs with _ | ⟨a, _ | ⟨b, _ | ⟨c, xs⟩⟩⟩ <;>
    first
      | (exfalso; simp only [List.length_cons, List.length_nil] at hlen; omega)
      | (simp [format, concatStrings, String.append_assoc]; done)
      | (simp [format, concatStrings, String.append_assoc]
         rw [← String.append_assoc]; rfl)

theorem specOffsets_length (cs : List (List Nat)) (off : Nat) :
    (specOffsets cs off).length = cs.length := by
  induction cs generalizing off with
  | nil => rfl
  | cons c cs ih => simp [specOffsets, ih]

theorem specOffsets_ge (cs : List (List Nat)) (off : Nat) :
    ∀ o ∈ specOffsets cs off, off ≤ o := by
  induction cs generalizing off with
  | nil => simp [specOffsets]
  | cons c cs ih =>
    intro o ho
    simp only [specOffsets, List.mem_cons] at ho
    rcases ho with rfl | ho
    · exact le_rfl
    · have := ih _ o ho
      omega

theorem specOffsets_sorted (cs : List (List Nat)) (off : Nat) (hpos : ∀ c ∈ cs, 0 < c.length) :
    List.Pairwise (· < ·) (specOffsets cs off) := by
  induction cs generalizing off with
  | nil => simp [specOffsets]
  | cons c cs ih =>
    simp only [specOffsets, List.pairwise_cons]
    refine ⟨fun o ho => ?_, ih _ (fun c hc => hpos c (List.mem_cons_of_mem _ hc))⟩
    have h1 := specOffsets_ge cs _ o ho
    have h2 := hpos c (List.mem_cons_self _ _)
    omega

theorem specOffsets_last (cs : List (List Nat)) (off o : Nat) (c : List Nat)
    (ho : (specOffsets cs off).getLast? = some o) (hc : cs.getLast? = some c) :
    o + c.length = off + cs.flatten.length := by
  induction cs generalizing off with
  | nil => simp at hc
  | cons c1 cs ih =>
    rcases cs with _ | ⟨c2, cs⟩
    · simp [specOffsets] at ho hc
      subst ho hc
      simp
    · have e : specOffsets (c2 :: cs) (off + c1.length)
          = (off + c1.length) :: specOffsets cs (off + c1.length + c2.length) := rfl
      rw [specOffsets, e, List.getLast?_cons_cons, ← e] at ho
      rw [List.getLast?_cons_cons] at hc
      have := ih _ ho hc
      simp only [List.flatten, List.length_append] at this ⊢
      omega

theorem getD_append_cons {α : Type} (pre : List α) (x : α) (rest : List α) (dflt : α) :
    (pre ++ x :: rest).getD pre.length dflt = x := by
  induction pre with
  | nil => rfl
  | cons a pre ih => simpa using ih

theorem chunks_pos (instrs : List (Opcode × List Int)) (chunks : List (List Nat))
    (h : List.Forall₂ (fun p c => wellFormedInstr p ∧ Make p.1 p.2 = .ok c) instrs chunks) :
    ∀ c ∈ chunks, 0 < c.length := by
  induction h with
  | nil => simp
  | @cons p c instrs chunks hpc _ ih =>
    intro c1 hc1
    rcases List.mem_cons.mp hc1 with rfl | hc1
    · obtain ⟨⟨d, hd, hlen⟩, hmake⟩ := hpc
      rw [make_eq_spec p.1 d p.2 hd hlen] at hmake
      injection hmake with h1
      rw [← h1]; simp [specInstruction]
    · exact ih c1 hc1

/-- The decoding loop run over well-formed instructions placed after `pre`. -/
theorem stringLoop_spec (instrs : List (Opcode × List Int)) (chunks : List (List Nat))
    (h : List.Forall₂ (fun p c => wellFormedInstr p ∧ Make p.1 p.2 = .ok c) instrs chunks)
    (pre : List Nat) (out : String) (fuel : Nat) (hfuel : instrs.length < fuel) :
    StringLoop (pre ++ chunks.flatten) fuel pre.length out
      = some (.ok (out ++ concatStrings
          (List.zipWith specLine (specOffsets chunks pre.length) instrs))) := by
  induction h generalizing pre out fuel with
  | nil =>
    obtain ⟨fuel, rfl⟩ : ∃ k, fuel = k + 1 := ⟨fuel - 1, by omega⟩
    simp [StringLoop, specOffsets, concatStrings]
  | @cons p c instrs chunks hpc _ ih =>
    obtain ⟨fuel, rfl⟩ : ∃ k, fuel = k + 1 := ⟨fuel - 1, by omega⟩
    obtain ⟨⟨d, hd, hlen⟩, hmake⟩ := hpc
    rw [make_eq_spec p.1 d p.2 hd hlen] at hmake
    have hc : c = specInstruction p.1 d.OperandWidths p.2 := by
      injection hmake with h1; exact h1.symm
    have hclen : c.length = 1 + d.OperandWidths.sum := by
      rw [hc]; exact specInstruction_length _ _ _ (definitions_widths hd) hlen
    have hread := readOperands_spec p.1 d p.2 chunks.flatten hd hlen
    rw [← hc] at hread
    have hc0 : c = p.1 :: c.drop 1 := by rw [hc]; rfl
    have hget : (pre ++ (c :: chunks).flatten).getD pre.length 0 = p.1 := by
      rw [hc0]; exact getD_append_cons _ _ _ _
    have hslice : sliceFrom (pre ++ (c :: chunks).flatten) (pre.length + 1)
        = .ok (c.drop 1 ++ chunks.flatten) := by
      have hl : pre.length + 1 ≤ (pre ++ (c :: chunks).flatten).length := by
        simp [List.flatten]; omega
      simp only [sliceFrom, if_pos hl]
      congr 1
      rw [List.drop_append_eq_append_drop]
      have : pre.length + 1 - pre.length = 1 := by omega
      rw [this, List.drop_of_length_le (by omega)]
      simp only [List.flatten, List.nil_append]
      rw [List.drop_append_of_le_length (by omega)]
    have hlt : pre.length < (pre ++ (c :: chunks).flatten).length := by
      simp [List.flatten]; omega
    have hnext := ih (pre ++ c) (out ++ fmt04d pre.length ++ " "
      ++ format d (List.zipWith specDecoded d.OperandWidths p.2) ++ "\n") fuel
      (by simp only [List.length_cons] at hfuel; omega)
    rw [StringLoop, if_pos hlt, hget]
    simp only [FindDefinitionByOp, hd, hslice, hread]
    have e1 : pre.length + (d.OperandWidths.sum + 1) = (pre ++ c).length := by
      simp [hclen]; omega
    have e2 : pre ++ (c :: chunks).flatten = (pre ++ c) ++ chunks.flatten := by
      simp [List.flatten]
    rw [e1, e2, hnext]
    simp only [specOffsets, List.zipWith_cons_cons, concatStrings, specLine, hd,
      format_eq_spec p.1 d p.2 hd hlen, List.length_append, String.append_assoc]

theorem fmt04d_length (n : Nat) : 4 ≤ (fmt04d n).length := by
  simp only [fmt04d, String.length_append, String.length_mk, List.length_replicate]
  omega

/-- **C5.** Disassembly layout: for instructions `I1..In`, each the output of `Make` on
a defined opcode with matching arity, `String()` of their concatenation returns (with
any fuel above `n`) exactly the `n` lines `specLine off_k I_k` in order, where `off_1 = 0`
and `off_(k+1) = off_k + len(I_k)`; each offset is printed with at least four
characters, the offsets are strictly increasing and the last offset plus `len(I_n)` is
the stream length. -/
theorem C5_disassembly_layout (instrs : List (Opcode × List Int)) (chunks : List (List Nat))
    (h : List.Forall₂ (fun p c => wellFormedInstr p ∧ Make p.1 p.2 = .ok c) instrs chunks) :
    (∀ fuel, instrs.length < fuel →
      Instructions.String chunks.flatten fuel
        = some (.ok (concatStrings (List.zipWith specLine (specOffsets chunks 0) instrs)))) ∧
    (List.zipWith specLine (specOffsets chunks 0) instrs).length = instrs.length ∧
    (∀ o ∈ specOffsets chunks 0, 4 ≤ (fmt04d o).length) ∧
    List.Pairwise (· < ·) (specOffsets chunks 0) ∧
    (∀ o c, (specOffsets chunks 0).getLast? = some o → chunks.getLast? = some c →
      o + c.length = chunks.flatten.length) := by
  refine ⟨fun fuel hfuel => ?_, ?_, fun o _ => fmt04d_length o, ?_, fun o c ho hc => ?_⟩
  · have := stringLoop_spec instrs chunks h [] "" fuel hfuel
    simpa [Instructions.String] using this
  · simp [specOffsets_length, h.length_eq]
  · exact specOffsets_sorted _ _ (chunks_pos instrs chunks h)
  · simpa using specOffsets_last chunks 0 o c ho hc

/-- Witness of C5: the stream `OpAdd; OpGetLocal 1; OpConstant 65535` of the repository's
test disassembles to three lines at offsets 0, 1 and 3. -/
theorem C5_disassembly_layout_witness :
    Instructions.String [5, 22, 1, 0, 255, 255] 4
      = some (.ok "0000 OpAdd\n0001 OpGetLocal 1\n0003 OpConstant 65535\n") ∧
    specOffsets [[5], [22, 1], [0, 255, 255]] 0 = [0, 1, 3] := by
  have h := C5_disassembly_layout [(OpAdd, []), (OpGetLocal, [1]), (OpConstant, [65535])]
    [[5], [22, 1], [0, 255, 255]]
    (List.Forall₂.cons ⟨⟨_, rfl, rfl⟩, rfl⟩ (List.Forall₂.cons ⟨⟨_, rfl, rfl⟩, rfl⟩
      (List.Forall₂.cons ⟨⟨_, rfl, rfl⟩, rfl⟩ List.Forall₂.nil)))
  refine ⟨?_, rfl⟩
  have h4 := h.1 4 (by decide)
  rw [show ([[5], [22, 1], [0, 255, 255]] : List (List Nat)).flatten = [5, 22, 1, 0, 255, 255]
    from rfl] at h4
  rw [h4]
  rfl

/-! ## Theorems: the symbol table -/

open SymbolTable

theorem storeGet_storeSet_self (st : List (String × Symbol)) (name : String) (sym : Symbol) :
    storeGet (storeSet st name sym) name = some sym := by
  simp [storeGet, storeSet, List.lookup]

theorem mem_storeSet {st : List (String × Symbol)} {name : String} {sym : Symbol}
    {kv : String × Symbol} (h : kv ∈ storeSet st name sym) : kv = (name, sym) ∨ kv ∈ st := by
  simp only [storeSet, List.mem_cons, List.mem_filter] at h
  rcases h with h | h
  · exact Or.inl h
  · exact Or.inr h.1

theorem mem_of_storeGet {st : List (String × Symbol)} {name : String} {sym : Symbol}
    (h : storeGet st name = some sym) : (name, sym) ∈ st := by
  induction st with
  | nil => simp [storeGet] at h
  | cons kv st ih =>
    obtain ⟨k, v⟩ := kv
    simp only [storeGet, List.lookup] at h
    split at h
    · rename_i heq
      have hk : name = k := by simpa using heq
      injection h with h
      subst hk h
      exact List.mem_cons_self _ _
    · exact List.mem_cons_of_mem _ (ih h)

theorem GetDefine_hit {st : List (String × Symbol)} {name : String} {sym : Symbol}
    (h : storeGet st name = some sym) (c : Nat) (ext : Option SymbolTable) (ctx : List Symbol) :
    (SymbolTable.mk st c ext ctx).GetDefine name = ((sym, true), .mk st c ext ctx) := by
  cases ext <;> simp [GetDefine, h]

theorem GetDefine_outermost {st : List (String × Symbol)} {name : String}
    (h : storeGet st name = none) (c : Nat) (ctx : List Symbol) :
    (SymbolTable.mk st c none ctx).GetDefine name
      = ((Symbol.zero, false), .mk st c none ctx) := by
  simp [GetDefine, h]

theorem GetDefine_miss {st : List (String × Symbol)} {name : String}
    (h : storeGet st name = none) (c : Nat) (e : SymbolTable) (ctx : List Symbol) :
    (SymbolTable.mk st c (some e) ctx).GetDefine name
      = if !(e.GetDefine name).1.2 then
          ((e.GetDefine name).1, .mk st c (some (e.GetDefine name).2) ctx)
        else if (e.GetDefine name).1.1.Scope == GlobalScope
            || (e.GetDefine name).1.1.Scope == BuiltinScope then
          ((e.GetDefine name).1, .mk st c (some (e.GetDefine name).2) ctx)
        else
          (((defineContext (.mk st c (some (e.GetDefine name).2) ctx)
              (e.GetDefine name).1.1).1, true),
            (defineContext (.mk st c (some (e.GetDefine name).2) ctx)
              (e.GetDefine name).1.1).2) := by
  rw [GetDefine]
  simp only [h]

/-- **C6.** `Define(name)` on a table whose counter is `n` returns
`Symbol{Name: name, Index: n, Scope: Global}` when the table has no enclosing table and
scope `Local` otherwise, makes `name` resolve to that symbol in the table, and leaves
the counter at `n + 1`; hence a second `Define` returns the next index. -/
theorem C6_Define (s : SymbolTable) (a b : String) :
    (s.Define a).1 = ⟨if s.External.isSome then LocalScope else GlobalScope, s.count, a⟩ ∧
    (s.Define a).2.GetDefine a = (((s.Define a).1, true), (s.Define a).2) ∧
    (s.Define a).2.count = s.count + 1 ∧
    (s.Define a).2.External = s.External ∧
    ((s.Define a).2.Define b).1.Index = (s.Define a).1.Index + 1 := by
  obtain ⟨st, c, ext, ctx⟩ := s
  refine ⟨rfl, ?_, rfl, rfl, ?_⟩
  · exact GetDefine_hit (storeGet_storeSet_self _ _ _) _ _ _
  · simp [Define]

/-- Induction along the chain of enclosing tables. -/
theorem SymbolTable.chain_induction {P : SymbolTable → Prop}
    (outermost : ∀ st c ctx, P (.mk st c none ctx))
    (enclosed : ∀ st c e ctx, P e → P (.mk st c (some e) ctx)) : ∀ t, P t
  | .mk st c none ctx => outermost st c ctx
  | .mk st c (some e) ctx => enclosed st c e ctx (SymbolTable.chain_induction outermost enclosed e)

/-- **C7.** For a chain of enclosed tables of any depth and a name that no table below
the outermost one defines and that the outermost table maps to a `Global` or `Builtin`
symbol, `GetDefine(name)` on the innermost table returns that symbol with `true` and
leaves every table of the chain unchanged. -/
theorem C7_GetDefine_global_builtin (t : SymbolTable) (name : String) (sym : Symbol)
    (hout : t.outermostOnly name sym)
    (hscope : sym.Scope = GlobalScope ∨ sym.Scope = BuiltinScope) :
    t.GetDefine name = ((sym, true), t) := by
  induction t using SymbolTable.chain_induction with
  | outermost st c ctx => exact GetDefine_hit hout _ _ _
  | enclosed st c e ctx ih =>
    obtain ⟨hmiss, hrest⟩ := hout
    rw [GetDefine_miss hmiss, ih hrest]
    rcases hscope with h | h <;> simp [h]

/-- Witness of C7: a builtin seen through two enclosed tables. -/
theorem C7_GetDefine_global_builtin_witness :
    (NewEnclosedSymbolTable (NewEnclosedSymbolTable
        (NewSymbolTable.DefineBuiltin 0 "len").2)).GetDefine "len"
      = ((⟨BuiltinScope, 0, "len"⟩, true),
          NewEnclosedSymbolTable (NewEnclosedSymbolTable
            (NewSymbolTable.DefineBuiltin 0 "len").2)) :=
  C7_GetDefine_global_builtin _ "len" ⟨BuiltinScope, 0, "len"⟩
    ⟨rfl, rfl, rfl⟩ (Or.inr rfl)

/-- **C10.** Transitive promotion: with `T0` enclosing `T1` enclosing `T2` enclosing
`T3` and `x` defined only in `T1`, as `Symbol{Local, i, x}`, `T3.GetDefine(x)` appends
`Symbol{Local, i, x}` to `T2.Context` at position `j = len(T2.Context)`, appends
`Symbol{Context, j, x}` to `T3.Context` at position `k = len(T3.Context)`, returns
`Symbol{Context, k, x}` and leaves `T1` and `T0` unchanged. -/
theorem C10_transitive_promotion (T0 : SymbolTable) (st1 st2 st3 : List (String × Symbol))
    (c1 c2 c3 : Nat) (ctx1 ctx2 ctx3 : List Symbol) (x : String) (i : Int)
    (h1 : storeGet st1 x = some ⟨LocalScope, i, x⟩)
    (h2 : storeGet st2 x = none) (h3 : storeGet st3 x = none) :
    (SymbolTable.mk st3 c3 (some (.mk st2 c2 (some (.mk st1 c1 (some T0) ctx1)) ctx2))
        ctx3).GetDefine x
      = ((⟨ContextScope, ctx3.length, x⟩, true),
          .mk (storeSet st3 x ⟨ContextScope, ctx3.length, x⟩) c3
            (some (.mk (storeSet st2 x ⟨ContextScope, ctx2.length, x⟩) c2
              (some (.mk st1 c1 (some T0) ctx1))
              (ctx2 ++ [⟨LocalScope, i, x⟩])))
            (ctx3 ++ [⟨ContextScope, ctx2.length, x⟩])) := by
  rw [GetDefine_miss h3, GetDefine_miss h2, GetDefine_hit h1]
  simp [defineContext, LocalScope, GlobalScope, BuiltinScope, ContextScope]

/-- Witness of C10: `x` defined in `T1` after `a`, resolved from `T3`. -/
theorem C10_transitive_promotion_witness :
    (SymbolTable.mk [] 0 (some (.mk [] 0 (some (.mk
        [("x", ⟨LocalScope, 1, "x"⟩), ("a", ⟨LocalScope, 0, "a"⟩)] 2
        (some NewSymbolTable) [])) [])) []).GetDefine "x"
      = ((⟨ContextScope, 0, "x"⟩, true),
          .mk [("x", ⟨ContextScope, 0, "x"⟩)] 0
            (some (.mk [("x", ⟨ContextScope, 0, "x"⟩)] 0
              (some (.mk [("x", ⟨LocalScope, 1, "x"⟩), ("a", ⟨LocalScope, 0, "a"⟩)] 2
                (some NewSymbolTable) []))
              [⟨LocalScope, 1, "x"⟩]))
            [⟨ContextScope, 0, "x"⟩]) :=
  C10_transitive_promotion NewSymbolTable
    [("x", ⟨LocalScope, 1, "x"⟩), ("a", ⟨LocalScope, 0, "a"⟩)] [] [] 2 0 0 [] [] [] "x" 1
    rfl rfl rfl

theorem StoreAll_mk (P : String → Symbol → Prop) (st : List (String × Symbol)) (c : Nat)
    (ext : Option SymbolTable) (ctx : List Symbol) :
    (SymbolTable.mk st c ext ctx).StoreAll P
      ↔ (∀ kv ∈ st, P kv.1 kv.2) ∧ ∀ e, ext = some e → e.StoreAll P := by
  cases ext <;> simp [StoreAll]

theorem StoreAll_storeSet {P : String → Symbol → Prop} {st : List (String × Symbol)}
    {name : String} {sym : Symbol} (hst : ∀ kv ∈ st, P kv.1 kv.2) (hsym : P name sym) :
    ∀ kv ∈ storeSet st name sym, P kv.1 kv.2 := by
  intro kv hkv
  rcases mem_storeSet hkv with rfl | h
  · exact hsym
  · exact hst kv h

/-- `GetDefine` keeps a store invariant `P` that forces names to match and admits every
`Context` symbol; a symbol it returns with `true` satisfies `P` for the queried name. -/
theorem GetDefine_StoreAll (P : String → Symbol → Prop)
    (hname : ∀ k v, P k v → v.Name = k) (hctx : ∀ k (i : Int), P k ⟨ContextScope, i, k⟩)
    (name : String) (t : SymbolTable) (ht : t.StoreAll P) :
    (t.GetDefine name).2.StoreAll P ∧
      ((t.GetDefine name).1.2 = true → P name (t.GetDefine name).1.1) := by
  induction t using SymbolTable.chain_induction with
  | outermost st c ctx =>
    cases hget : storeGet st name with
    | none => rw [GetDefine_outermost hget]; exact ⟨ht, by simp⟩
    | some sym =>
      rw [GetDefine_hit hget]
      exact ⟨ht, fun _ => ((StoreAll_mk P st c none ctx).mp ht).1 _ (mem_of_storeGet hget)⟩
  | enclosed st c e ctx ih =>
    obtain ⟨hst, he⟩ := (StoreAll_mk P st c (some e) ctx).mp ht
    cases hget : storeGet st name with
    | some sym =>
      rw [GetDefine_hit hget]
      exact ⟨ht, fun _ => hst _ (mem_of_storeGet hget)⟩
    | none =>
      obtain ⟨ih1, ih2⟩ := ih (he e rfl)
      rw [GetDefine_miss hget]
      rcases hres : e.GetDefine name with ⟨⟨obj, ok⟩, e1⟩
      rw [hres] at ih1 ih2
      simp only at ih1 ih2 ⊢
      cases ok with
      | false =>
        simp only [Bool.not_false, if_true]
        exact ⟨(StoreAll_mk P st c (some e1) ctx).mpr ⟨hst, fun _ h => by cases h; exact ih1⟩,
          by simp⟩
      | true =>
        have hobj := ih2 rfl
        have hn := hname _ _ hobj
        simp only [Bool.not_true, Bool.false_eq_true, if_false]
        split
        · exact ⟨(StoreAll_mk P st c (some e1) ctx).mpr
            ⟨hst, fun _ h => by cases h; exact ih1⟩, fun _ => hobj⟩
        · simp only [defineContext, hn]
          refine ⟨(StoreAll_mk P _ c (some e1) _).mpr
            ⟨StoreAll_storeSet hst (hctx _ _), fun _ h => by cases h; exact ih1⟩,
            fun _ => hctx _ _⟩

theorem knownScope_wf_name (k : String) (v : Symbol) (h : v.Name = k ∧ knownScope v.Scope) :
    v.Name = k := h.1

theorem Step_WF {t t1 : SymbolTable} (hs : SymbolTable.Step t t1) (ht : t.WF) : t1.WF := by
  induction hs with
  | define t name =>
    obtain ⟨st, c, ext, ctx⟩ := t
    obtain ⟨hst, he⟩ := (StoreAll_mk _ st c ext ctx).mp ht
    refine (StoreAll_mk _ _ _ ext ctx).mpr ⟨StoreAll_storeSet (P := fun k v => v.Name = k ∧ knownScope v.Scope) hst ⟨rfl, ?_⟩, he⟩
    cases ext <;> simp [knownScope]
  | defineBuiltin t index name _ =>
    obtain ⟨st, c, ext, ctx⟩ := t
    obtain ⟨hst, he⟩ := (StoreAll_mk _ st c ext ctx).mp ht
    exact (StoreAll_mk _ _ _ ext ctx).mpr
      ⟨StoreAll_storeSet (P := fun k v => v.Name = k ∧ knownScope v.Scope) hst
        ⟨rfl, by simp [knownScope]⟩, he⟩
  | defineFunction t name =>
    obtain ⟨st, c, ext, ctx⟩ := t
    obtain ⟨hst, he⟩ := (StoreAll_mk _ st c ext ctx).mp ht
    exact (StoreAll_mk _ _ _ ext ctx).mpr
      ⟨StoreAll_storeSet (P := fun k v => v.Name = k ∧ knownScope v.Scope) hst
        ⟨rfl, by simp [knownScope]⟩, he⟩
  | getDefine t name =>
    exact (GetDefine_StoreAll _ knownScope_wf_name
      (fun k i => ⟨rfl, by simp [knownScope]⟩) name t ht).1
  | outer st c e e1 ctx _ ih =>
    obtain ⟨hst, he⟩ := (StoreAll_mk _ st c (some e) ctx).mp ht
    exact (StoreAll_mk _ st c (some e1) ctx).mpr ⟨hst, fun _ h => by cases h; exact ih (he e rfl)⟩

/-- Every table the package's methods build satisfies the representation invariant. -/
theorem Built_WF {t : SymbolTable} (hb : t.Built) : t.WF := by
  induction hb with
  | new => simp [NewSymbolTable, SymbolTable.WF, StoreAll]
  | enclosed t _ ih =>
    exact (StoreAll_mk _ [] 0 (some t) []).mpr ⟨by simp, fun _ h => by cases h; exact ih⟩
  | step t t1 _ hs ih => exact Step_WF hs ih

theorem WF_NamesOK {t : SymbolTable} (ht : t.WF) : t.NamesOK := by
  induction t using SymbolTable.chain_induction with
  | outermost st c ctx => exact fun kv hkv => (ht kv hkv).1
  | enclosed st c e ctx ih => exact ⟨fun kv hkv => (ht.1 kv hkv).1, ih ht.2⟩

/-- **C8.** Promotion: when a table `T` does not define `name` and its enclosing table
resolves `name` to a symbol `s` of scope `Local`, `Context` or `Function`,
`T.GetDefine(name)` appends `s` to `T.Context` and returns
`Symbol{Scope: ContextScope, Index: previous len(T.Context), Name: name}`; every later
`T.GetDefine(name)` returns that same symbol and changes nothing, in `T` or in the
tables it encloses. (`NamesOK` is the representation invariant of the enclosing
tables, see `Built_WF`.) -/
theorem C8_promotion (st : List (String × Symbol)) (c : Nat) (e : SymbolTable)
    (ctx : List Symbol) (name : String) (s : Symbol) (e1 : SymbolTable)
    (hnames : e.NamesOK) (hmiss : storeGet st name = none)
    (houter : e.GetDefine name = ((s, true), e1))
    (hscope : s.Scope = LocalScope ∨ s.Scope = ContextScope ∨ s.Scope = FunctionScope) :
    ∃ t1, (SymbolTable.mk st c (some e) ctx).GetDefine name
        = ((⟨ContextScope, ctx.length, name⟩, true), t1) ∧
      t1.Context = ctx ++ [s] ∧ t1.External = some e1 ∧ t1.count = c ∧
      t1.GetDefine name = ((⟨ContextScope, ctx.length, name⟩, true), t1) ∧
      ∀ n, (fun t => (SymbolTable.GetDefine t name).2)^[n] t1 = t1 := by
  have hn : s.Name = name := by
    have := (GetDefine_StoreAll (fun k v => v.Name = k) (fun _ _ h => h) (fun _ _ => rfl)
      name e hnames).2
    rw [houter] at this
    exact this rfl
  have hg : (s.Scope == GlobalScope || s.Scope == BuiltinScope) = false := by
    rcases hscope with h | h | h <;> rw [h] <;> decide
  have hfix : (SymbolTable.mk (storeSet st name ⟨ContextScope, ctx.length, name⟩) c (some e1)
      (ctx ++ [s])).GetDefine name = ((⟨ContextScope, ctx.length, name⟩, true),
        .mk (storeSet st name ⟨ContextScope, ctx.length, name⟩) c (some e1) (ctx ++ [s])) :=
    GetDefine_hit (storeGet_storeSet_self _ _ _) _ _ _
  refine ⟨.mk (storeSet st name ⟨ContextScope, ctx.length, name⟩) c (some e1) (ctx ++ [s]),
    ?_, rfl, rfl, rfl, hfix, fun n => Function.iterate_fixed (by simp only [hfix]) n⟩
  rw [GetDefine_miss hmiss, houter]
  simp [hg, defineContext, hn]

/-- Witness of C8: a local `a` of the enclosing function, resolved from an inner table. -/
theorem C8_promotion_witness :
    ∃ t1, (SymbolTable.mk [] 0 (some (.mk [("a", ⟨LocalScope, 0, "a"⟩)] 1
          (some NewSymbolTable) [])) []).GetDefine "a"
        = ((⟨ContextScope, (([] : List Symbol).length : Nat), "a"⟩, true), t1) ∧
      t1.Context = [] ++ [⟨LocalScope, 0, "a"⟩] ∧
      t1.External = some (.mk [("a", ⟨LocalScope, 0, "a"⟩)] 1 (some NewSymbolTable) []) ∧
      t1.count = 0 ∧
      t1.GetDefine "a" = ((⟨ContextScope, (([] : List Symbol).length : Nat), "a"⟩, true), t1) ∧
      ∀ n, (fun t => (SymbolTable.GetDefine t "a").2)^[n] t1 = t1 :=
  C8_promotion [] 0 (.mk [("a", ⟨LocalScope, 0, "a"⟩)] 1 (some NewSymbolTable) []) [] "a"
    ⟨LocalScope, 0, "a"⟩ (.mk [("a", ⟨LocalScope, 0, "a"⟩)] 1 (some NewSymbolTable) [])
    (by simp [SymbolTable.NamesOK, SymbolTable.StoreAll, NewSymbolTable]) rfl rfl (Or.inl rfl)

/-- **C9.** For an enclosed table built by the package's methods and every name: when
`GetDefine(name)` succeeds, the returned scope is `Global`, `Builtin`, `Context` or
`Function`, unless the symbol is a `Local` that this very table stores under `name`; a
`Local` of an enclosing table is never returned. -/
theorem C9_no_outer_local (t : SymbolTable) (hb : t.Built) (henc : t.External.isSome = true)
    (name : String) (sym : Symbol) (t1 : SymbolTable)
    (h : t.GetDefine name = ((sym, true), t1)) :
    (sym.Scope = GlobalScope ∨ sym.Scope = BuiltinScope ∨ sym.Scope = ContextScope ∨
        sym.Scope = FunctionScope) ∨
      (sym.Scope = LocalScope ∧ storeGet t.store name = some sym) := by
  have hwf := Built_WF hb
  obtain ⟨st, c, ext, ctx⟩ := t
  cases ext with
  | none => simp [SymbolTable.External] at henc
  | some e =>
    cases hget : storeGet st name with
    | some own =>
      rw [GetDefine_hit hget] at h
      have hs : own = sym := by injection h with h1 _; injection h1
      subst hs
      have hk := (hwf.1 _ (mem_of_storeGet hget)).2
      rcases hk with hk | hk | hk | hk | hk
      · exact Or.inl (Or.inl hk)
      · exact Or.inr ⟨hk, hget⟩
      · exact Or.inl (Or.inr (Or.inl hk))
      · exact Or.inl (Or.inr (Or.inr (Or.inl hk)))
      · exact Or.inl (Or.inr (Or.inr (Or.inr hk)))
    | none =>
      rw [GetDefine_miss hget] at h
      rcases hres : e.GetDefine name with ⟨⟨obj, ok⟩, e1⟩
      rw [hres] at h
      cases ok with
      | false => simp at h
      | true =>
        simp only [Bool.not_true, Bool.false_eq_true, if_false] at h
        split at h
        · rename_i hcond
          have hs : obj = sym := by injection h with h1 _; injection h1
          subst hs
          simp only [Bool.or_eq_true, beq_iff_eq] at hcond
          rcases hcond with hc | hc
          · exact Or.inl (Or.inl hc)
          · exact Or.inl (Or.inr (Or.inl hc))
        · have hs : sym.Scope = ContextScope := by
            injection h with h1 _
            injection h1 with h2 _
            rw [← h2]; rfl
          exact Or.inl (Or.inr (Or.inr (Or.inl hs)))

/-- Witness of C9: in a function body with parameter `a`, the free name `g` of the
enclosing function resolves to a `Context` symbol, not to the enclosing `Local`. -/
theorem C9_no_outer_local_witness :
    ((⟨ContextScope, 0, "g"⟩ : Symbol).Scope = GlobalScope ∨
        (⟨ContextScope, 0, "g"⟩ : Symbol).Scope = BuiltinScope ∨
        (⟨ContextScope, 0, "g"⟩ : Symbol).Scope = ContextScope ∨
        (⟨ContextScope, 0, "g"⟩ : Symbol).Scope = FunctionScope) ∨
      ((⟨ContextScope, 0, "g"⟩ : Symbol).Scope = LocalScope ∧
        storeGet ((NewEnclosedSymbolTable
          ((NewEnclosedSymbolTable NewSymbolTable).Define "g").2).Define "a").2.store "g"
          = some ⟨ContextScope, 0, "g"⟩) :=
  C9_no_outer_local
    ((NewEnclosedSymbolTable ((NewEnclosedSymbolTable NewSymbolTable).Define "g").2).Define "a").2
    (.step _ _ (.enclosed _ (.step _ _ (.enclosed _ .new) (.define _ "g"))) (.define _ "a"))
    rfl "g" ⟨ContextScope, 0, "g"⟩ _ rfl

/-! ## Theorems: compiling and running integer arithmetic -/

open Compiler VM

theorem M_bind_apply {σ α β : Type} (m : M σ α) (f : α → M σ β) (s : σ) :
    (m >>= f) s = match m s with
      | (.ok a, s1) => f a s1
      | (.error e, s1) => (.error e, s1) := rfl

theorem M_pure_apply {σ α : Type} (a : α) (s : σ) : (Pure.pure a : M σ α) s = (.ok a, s) := rfl

theorem getElem?_append_cons {α : Type} (pre : List α) (x : α) (post : List α) :
    (pre ++ x :: post)[pre.length]? = some x := by
  induction pre with
  | nil => simp
  | cons a pre ih => simpa using ih

theorem set_append_cons {α : Type} (pre : List α) (x y : α) (post : List α) :
    (pre ++ x :: post).set pre.length y = pre ++ y :: post := by
  induction pre with
  | nil => rfl
  | cons a pre ih => simp [ih]

theorem getAt_append_cons {α : Type} (pre : List α) (x : α) (post : List α) :
    getAt (pre ++ x :: post) (pre.length : Int) = .ok x := by
  have h : ¬ ((pre.length : Int) < 0) := by omega
  rw [getAt, if_neg h, Int.toNat_ofNat, getIndex, getElem?_append_cons]

theorem setAt_append_cons {α : Type} (pre : List α) (x y : α) (post : List α) :
    setAt (pre ++ x :: post) (pre.length : Int) y = .ok (pre ++ y :: post) := by
  have h : ¬ ((pre.length : Int) < 0) := by omega
  have h1 : pre.length < (pre ++ x :: post).length := by simp
  rw [setAt, if_neg h, Int.toNat_ofNat, setIndex, if_pos h1, set_append_cons]

theorem curScope_eq (cs : List Object) (tbl : Option SymbolTable)
    (pre post : List CompilationScope) (sc : CompilationScope) (hp : Nat) :
    curScope ⟨cs, tbl, pre ++ sc :: post, pre.length, hp⟩
      = (.ok sc, ⟨cs, tbl, pre ++ sc :: post, pre.length, hp⟩) := by
  simp [curScope, getAt_append_cons]

theorem setCurScope_eq (cs : List Object) (tbl : Option SymbolTable)
    (pre post : List CompilationScope) (sc sc1 : CompilationScope) (hp : Nat) :
    setCurScope sc1 ⟨cs, tbl, pre ++ sc :: post, pre.length, hp⟩
      = (.ok (), ⟨cs, tbl, pre ++ sc1 :: post, pre.length, hp⟩) := by
  simp [setCurScope, setAt_append_cons]

/-- What `emit` does when `Make` returns `bytes`: they are appended to the current
scope, whose records of the last two instructions move on. -/
theorem emit_eq (cs : List Object) (tbl : Option SymbolTable)
    (pre post : List CompilationScope) (sc : CompilationScope) (hp : Nat)
    (op : Opcode) (operands : List Int) (bytes : List Nat) (hm : Make op operands = .ok bytes) :
    emit op operands ⟨cs, tbl, pre ++ sc :: post, pre.length, hp⟩
      = (.ok sc.instructions.length, ⟨cs, tbl,
          pre ++ ⟨sc.instructions ++ bytes, ⟨op, sc.instructions.length⟩, sc.lastInstruction⟩
            :: post, pre.length, hp⟩) := by
  simp only [emit, addInstruction, curInstructions, setLastInstruction, M_bind_apply, M.lift, hm,
    curScope_eq, M_pure_apply, setCurScope_eq]

theorem make_OpConstant (k : Nat) :
    Make OpConstant [(k : Int)] = .ok [OpConstant, k / 256 % 256, k % 256] := by
  rw [make_eq_spec OpConstant ⟨"OpConstant", [2]⟩ [(k : Int)] rfl rfl]
  simp only [specInstruction, List.zipWith_cons_cons, List.zipWith_nil_right, List.flatten,
    specOperandBytes, List.append_nil]
  congr 2

theorem ArithExpr.consts_length (e : ArithExpr) (h : Nat) :
    (e.consts h).length = e.numLiterals := by
  induction e generalizing h with
  | lit v => rfl
  | add l r ihl ihr => simp [ArithExpr.consts, ArithExpr.numLiterals, ihl, ihr]
  | sub l r ihl ihr => simp [ArithExpr.consts, ArithExpr.numLiterals, ihl, ihr]
  | mul l r ihl ihr => simp [ArithExpr.consts, ArithExpr.numLiterals, ihl, ihr]
  | neg r ih => simp [ArithExpr.consts, ArithExpr.numLiterals, ih]

/-- Compiling an arithmetic expression appends its code to the current scope and its
literals to the constants. -/
theorem compile_arith (ks : Node → String) (e : ArithExpr) :
    ∀ (cs : List Object) (tbl : Option SymbolTable) (pre post : List CompilationScope)
      (sc : CompilationScope) (hp : Nat),
    ∃ sc1 : CompilationScope,
      Compile ks e.toNode ⟨cs, tbl, pre ++ sc :: post, pre.length, hp⟩
        = (.ok (), ⟨cs ++ e.consts hp, tbl, pre ++ sc1 :: post, pre.length,
            hp + e.numLiterals⟩) ∧
      sc1.instructions = sc.instructions ++ e.code cs.length := by
  induction e with
  | lit v =>
    intro cs tbl pre post sc hp
    refine ⟨⟨sc.instructions ++ [OpConstant, cs.length / 256 % 256, cs.length % 256],
      ⟨OpConstant, sc.instructions.length⟩, sc.lastInstruction⟩, ?_, rfl⟩
    simp only [ArithExpr.toNode, Compile, M_bind_apply, Compiler.alloc, addConstant, List.length_append,
      List.length_singleton, Nat.add_sub_cancel, emit_eq _ _ _ _ _ _ _ _ _ (make_OpConstant _),
      M_pure_apply, ArithExpr.consts, ArithExpr.numLiterals, ArithExpr.code]
  | add l r ihl ihr =>
    intro cs tbl pre post sc hp
    obtain ⟨sc1, h1, hi1⟩ := ihl cs tbl pre post sc hp
    obtain ⟨sc2, h2, hi2⟩ := ihr (cs ++ l.consts hp) tbl pre post sc1 (hp + l.numLiterals)
    refine ⟨⟨sc2.instructions ++ [OpAdd], ⟨OpAdd, sc2.instructions.length⟩, sc2.lastInstruction⟩,
      ?_, ?_⟩
    · have hne : ¬ ("+" = "<") := by decide
      simp only [ArithExpr.toNode, Compile, if_neg hne, M_bind_apply, h1, h2, emitInfix,
        ArithExpr.consts, ArithExpr.numLiterals, List.append_assoc, Nat.add_assoc]
      simp only [String.reduceEq, if_true, if_false, M_bind_apply,
        emit_eq _ _ _ _ _ _ _ _ _ (show Make OpAdd [] = .ok [OpAdd] from rfl), M_pure_apply]
    · simp only [hi2, hi1, ArithExpr.code, List.length_append, ArithExpr.consts_length,
        List.append_assoc]
  | sub l r ihl ihr =>
    intro cs tbl pre post sc hp
    obtain ⟨sc1, h1, hi1⟩ := ihl cs tbl pre post sc hp
    obtain ⟨sc2, h2, hi2⟩ := ihr (cs ++ l.consts hp) tbl pre post sc1 (hp + l.numLiterals)
    refine ⟨⟨sc2.instructions ++ [OpSub], ⟨OpSub, sc2.instructions.length⟩, sc2.lastInstruction⟩,
      ?_, ?_⟩
    · have hne : ¬ ("-" = "<") := by decide
      simp only [ArithExpr.toNode, Compile, if_neg hne, M_bind_apply, h1, h2, emitInfix,
        ArithExpr.consts, ArithExpr.numLiterals, List.append_assoc, Nat.add_assoc]
      simp only [String.reduceEq, if_true, if_false, M_bind_apply,
        emit_eq _ _ _ _ _ _ _ _ _ (show Make OpSub [] = .ok [OpSub] from rfl), M_pure_apply]
    · simp only [hi2, hi1, ArithExpr.code, List.length_append, ArithExpr.consts_length,
        List.append_assoc]
  | mul l r ihl ihr =>
    intro cs tbl pre post sc hp
    obtain ⟨sc1, h1, hi1⟩ := ihl cs tbl pre post sc hp
    obtain ⟨sc2, h2, hi2⟩ := ihr (cs ++ l.consts hp) tbl pre post sc1 (hp + l.numLiterals)
    refine ⟨⟨sc2.instructions ++ [OpMul], ⟨OpMul, sc2.instructions.length⟩, sc2.lastInstruction⟩,
      ?_, ?_⟩
    · have hne : ¬ ("*" = "<") := by decide
      simp only [ArithExpr.toNode, Compile, if_neg hne, M_bind_apply, h1, h2, emitInfix,
        ArithExpr.consts, ArithExpr.numLiterals, List.append_assoc, Nat.add_assoc]
      simp only [String.reduceEq, if_true, if_false, M_bind_apply,
        emit_eq _ _ _ _ _ _ _ _ _ (show Make OpMul [] = .ok [OpMul] from rfl), M_pure_apply]
    · simp only [hi2, hi1, ArithExpr.code, List.length_append, ArithExpr.consts_length,
        List.append_assoc]
  | neg r ih =>
    intro cs tbl pre post sc hp
    obtain ⟨sc1, h1, hi1⟩ := ih cs tbl pre post sc hp
    refine ⟨⟨sc1.instructions ++ [OpMinus], ⟨OpMinus, sc1.instructions.length⟩,
      sc1.lastInstruction⟩, ?_, ?_⟩
    · simp only [ArithExpr.toNode, Compile, M_bind_apply, h1, emitPrefixOp,
        ArithExpr.consts, ArithExpr.numLiterals]
      simp only [String.reduceEq, if_true, if_false, M_bind_apply,
        emit_eq _ _ _ _ _ _ _ _ _ (show Make OpMinus [] = .ok [OpMinus] from rfl), M_pure_apply]
    · simp only [hi1, ArithExpr.code, List.append_assoc]

theorem sliceFromAt_append {α : Type} (pre post : List α) :
    sliceFromAt (pre ++ post) (pre.length : Int) = .ok post := by
  have h : ¬ ((pre.length : Int) < 0) := by omega
  rw [sliceFromAt, if_neg h, Int.toNat_ofNat, sliceFrom, if_pos (by simp)]
  simp

/-! ### The machine at a known frame, instruction pointer and stack height -/

theorem curFrame_eq (cs : List Object) (st : List (Option Object)) (sp : Int)
    (g : List (Option Object)) (fpre fpost : List (Option Frame)) (f : Frame) (hp : Nat) :
    curFrame ⟨cs, st, sp, g, fpre ++ some f :: fpost, (fpre.length : Int) + 1, hp⟩
      = (.ok f, ⟨cs, st, sp, g, fpre ++ some f :: fpost, (fpre.length : Int) + 1, hp⟩) := by
  simp [curFrame, getAt_append_cons]

theorem setIp_eq (cs : List Object) (st : List (Option Object)) (sp : Int)
    (g : List (Option Object)) (fpre fpost : List (Option Frame)) (f : Frame) (hp : Nat)
    (ip : Int) :
    setIp ip ⟨cs, st, sp, g, fpre ++ some f :: fpost, (fpre.length : Int) + 1, hp⟩
      = (.ok (), ⟨cs, st, sp, g, fpre ++ some { f with ip := ip } :: fpost,
          (fpre.length : Int) + 1, hp⟩) := by
  simp [setIp, M_bind_apply, curFrame_eq, M.get, M.lift, M.set, setAt_append_cons]

theorem advanceIp_eq (cs : List Object) (st : List (Option Object)) (sp : Int)
    (g : List (Option Object)) (fpre fpost : List (Option Frame)) (f : Frame) (hp : Nat)
    (n : Int) :
    advanceIp n ⟨cs, st, sp, g, fpre ++ some f :: fpost, (fpre.length : Int) + 1, hp⟩
      = (.ok (), ⟨cs, st, sp, g, fpre ++ some { f with ip := f.ip + n } :: fpost,
          (fpre.length : Int) + 1, hp⟩) := by
  simp [advanceIp, M_bind_apply, curFrame_eq, setIp_eq]

theorem push_eq (cs : List Object) (lo hi : List (Option Object)) (x o : Option Object)
    (g : List (Option Object)) (frs : List (Option Frame)) (fi : Int) (hp : Nat)
    (hlt : lo.length < 2048) :
    push o ⟨cs, lo ++ x :: hi, (lo.length : Int), g, frs, fi, hp⟩
      = (.ok (), ⟨cs, lo ++ o :: hi, (lo.length : Int) + 1, g, frs, fi, hp⟩) := by
  have h : ¬ ((lo.length : Int) ≥ (StackSize : Nat)) := by simp [StackSize]; omega
  simp [push, M_bind_apply, M.get, M.lift, M.set, setAt_append_cons, h]

theorem pop_eq (cs : List Object) (lo hi : List (Option Object)) (x : Option Object)
    (g : List (Option Object)) (frs : List (Option Frame)) (fi : Int) (hp : Nat) :
    pop ⟨cs, lo ++ x :: hi, (lo.length : Int) + 1, g, frs, fi, hp⟩
      = (.ok x, ⟨cs, lo ++ x :: hi, (lo.length : Int), g, frs, fi, hp⟩) := by
  have h : ¬ ((lo.length : Int) + 1 ≤ 0) := by omega
  simp [pop, M_bind_apply, M.get, M.lift, M.set, getAt_append_cons, h, M_pure_apply]

theorem loopCondition_eq (cs : List Object) (st : List (Option Object)) (sp : Int)
    (g : List (Option Object)) (fpre fpost : List (Option Frame)) (f : Frame) (hp : Nat) :
    loopCondition ⟨cs, st, sp, g, fpre ++ some f :: fpost, (fpre.length : Int) + 1, hp⟩
      = (.ok (decide (f.ip < (f.Instructions.length : Int) - 1)),
          ⟨cs, st, sp, g, fpre ++ some f :: fpost, (fpre.length : Int) + 1, hp⟩) := by
  simp [loopCondition, M_bind_apply, curFrame_eq, M_pure_apply]

/-- One round of the loop of `defaultVmHandler`: the frame's next byte is `op`. -/
theorem loop_round (cs : List Object) (st : List (Option Object)) (sp : Int)
    (g : List (Option Object)) (fpre fpost : List (Option Frame)) (cl : Closure) (bp : Int)
    (hp : Nat) (ipre ipost : List Nat) (op : Nat) (fuel : Nat) (v1 : VM)
    (hins : cl.Fn.Instructions = ipre ++ op :: ipost)
    (hd : dispatch (ipre ++ op :: ipost) op
        ⟨cs, st, sp, g, fpre ++ some ⟨cl, (ipre.length : Int), bp⟩ :: fpost,
          (fpre.length : Int) + 1, hp⟩ = (.ok (), v1)) :
    defaultVmHandler (fuel + 1)
        ⟨cs, st, sp, g, fpre ++ some ⟨cl, (ipre.length : Int) - 1, bp⟩ :: fpost,
          (fpre.length : Int) + 1, hp⟩
      = defaultVmHandler fuel v1 := by
  have hlen : ((ipre.length : Int) - 1 < ((ipre ++ op :: ipost).length : Int) - 1) := by
    simp only [List.length_append, List.length_cons]; omega
  rw [defaultVmHandler, loopCondition_eq]
  simp only [Frame.Instructions, hins, hlen, decide_True]
  simp only [loopBody, M_bind_apply, advanceIp_eq, curFrame_eq, sub_add_cancel,
    Frame.Instructions, hins, M.lift, getAt_append_cons, hd]

theorem sliceFromAt_append_cons {α : Type} (pre : List α) (x : α) (post : List α) :
    sliceFromAt (pre ++ x :: post) ((pre.length : Int) + 1) = .ok post := by
  have h := sliceFromAt_append (pre ++ [x]) post
  simpa using h

theorem dispatch_OpConstant (cs : List Object) (lo hi : List (Option Object))
    (x : Option Object) (g : List (Option Object)) (fpre fpost : List (Option Frame))
    (cl : Closure) (bp : Int) (hp : Nat) (ipre ipost : List Nat) (b0 b1 : Nat) (c : Object)
    (hc : cs[b0 * 256 + b1]? = some c) (hlt : lo.length < 2048) :
    dispatch (ipre ++ OpConstant :: b0 :: b1 :: ipost) OpConstant
        ⟨cs, lo ++ x :: hi, (lo.length : Int), g,
          fpre ++ some ⟨cl, (ipre.length : Int), bp⟩ :: fpost, (fpre.length : Int) + 1, hp⟩
      = (.ok (), ⟨cs, lo ++ some c :: hi, (lo.length : Int) + 1, g,
          fpre ++ some ⟨cl, (ipre.length : Int) + 2, bp⟩ :: fpost,
          (fpre.length : Int) + 1, hp⟩) := by
  have hget : getAt cs ((b0 * 256 + b1 : Nat) : Int) = .ok c := by
    have h : ¬ (((b0 * 256 + b1 : Nat) : Int) < 0) := by omega
    rw [getAt, if_neg h, Int.toNat_ofNat, getIndex, hc]
  simp only [dispatch, if_true, M_bind_apply, readUint16After, curFrame_eq, M.lift,
    sliceFromAt_append_cons, ReadUint16, advanceIp_eq, M.get, hget, push_eq _ _ _ _ _ _ _ _ _ hlt]

theorem dispatch_arith (op : Opcode) (hop : op = OpAdd ∨ op = OpSub ∨ op = OpMul)
    (cs : List Object) (lo hi : List (Option Object))
    (a1 a2 : Nat) (x y : Int) (g : List (Option Object)) (frs : List (Option Frame))
    (fi : Int) (hp : Nat) (ins : List Nat) (hlt : lo.length < 2048) :
    dispatch ins op
        ⟨cs, lo ++ some (.Integer a1 x) :: some (.Integer a2 y) :: hi, (lo.length : Int) + 2, g,
          frs, fi, hp⟩
      = (.ok (), ⟨cs,
          lo ++ some (.Integer hp (wrapInt64
              (if op = OpAdd then x + y else if op = OpSub then x - y else x * y)))
            :: some (.Integer a2 y) :: hi,
          (lo.length : Int) + 1, g, frs, fi, hp + 1⟩) := by
  have hpop1 := pop_eq cs (lo ++ [some (.Integer a1 x)]) hi (some (.Integer a2 y)) g frs fi hp
  simp only [List.append_assoc, List.singleton_append, List.length_append, List.length_singleton,
    Nat.cast_add, Nat.cast_one, add_assoc, one_add_one_eq_two] at hpop1
  rcases hop with rfl | rfl | rfl <;>
  simp [dispatch, OpAdd, OpSub, OpMul, OpConstant, OpArray, OpMap, OpIndex, OpQuo,
    executeArithmeticOperation, M_bind_apply, hpop1, pop_eq, executeArithmeticIntegerOperation,
    M_pure_apply, VM.alloc, push_eq _ _ _ _ _ _ _ _ _ hlt]

theorem dispatch_OpMinus (cs : List Object) (lo hi : List (Option Object))
    (a1 : Nat) (x : Int) (g : List (Option Object)) (frs : List (Option Frame))
    (fi : Int) (hp : Nat) (ins : List Nat) (hlt : lo.length < 2048) :
    dispatch ins OpMinus
        ⟨cs, lo ++ some (.Integer a1 x) :: hi, (lo.length : Int) + 1, g, frs, fi, hp⟩
      = (.ok (), ⟨cs, lo ++ some (.Integer hp (wrapInt64 (-x))) :: hi,
          (lo.length : Int) + 1, g, frs, fi, hp + 1⟩) := by
  simp [dispatch, OpAdd, OpSub, OpMul, OpConstant, OpArray, OpMap, OpIndex, OpQuo, OpMinus,
    OpTrue, OpFalse, OpCall, OpReturnValue, OpReturn, OpGetBuiltin, OpSetGlobal, OpGetGlobal,
    OpSetLocal, OpGetLocal, OpEQL, OpNEQ, OpGTR,
    executeMinusOperation, M_bind_apply, pop_eq,
    M_pure_apply, VM.alloc, push_eq _ _ _ _ _ _ _ _ _ hlt]

theorem dispatch_OpPop (cs : List Object) (lo hi : List (Option Object))
    (x : Option Object) (g : List (Option Object)) (frs : List (Option Frame))
    (fi : Int) (hp : Nat) (ins : List Nat) :
    dispatch ins OpPop ⟨cs, lo ++ x :: hi, (lo.length : Int) + 1, g, frs, fi, hp⟩
      = (.ok (), ⟨cs, lo ++ x :: hi, (lo.length : Int), g, frs, fi, hp⟩) := by
  simp [dispatch, OpAdd, OpSub, OpMul, OpConstant, OpArray, OpMap, OpIndex, OpQuo, OpMinus,
    OpTrue, OpFalse, OpCall, OpReturnValue, OpReturn, OpGetBuiltin, OpSetGlobal, OpGetGlobal,
    OpSetLocal, OpGetLocal, OpEQL, OpNEQ, OpGTR, OpBang, OpJump, OpClosure, OpContext,
    OpCurrClosure, OpJumpConditionNotTrue, OpNil, OpPop, M_bind_apply, pop_eq, M_pure_apply]

theorem ArithExpr.stackNeed_pos (e : ArithExpr) : 0 < e.stackNeed := by
  induction e with
  | lit v => simp [ArithExpr.stackNeed]
  | add l r ihl ihr => simp [ArithExpr.stackNeed]
  | sub l r ihl ihr => simp [ArithExpr.stackNeed]
  | mul l r ihl ihr => simp [ArithExpr.stackNeed]
  | neg r ih => simpa [ArithExpr.stackNeed] using ih

/-- Running the code of a binary operation after its operands were evaluated. -/
theorem run_binary (op : Opcode) (hop : op = OpAdd ∨ op = OpSub ∨ op = OpMul)
    (cs : List Object) (lo hi : List (Option Object)) (a1 a2 : Nat) (x y : Int)
    (g : List (Option Object)) (fpre fpost : List (Option Frame)) (cl : Closure) (bp : Int)
    (hp : Nat) (ipre ipost : List Nat) (fuel : Nat)
    (hins : cl.Fn.Instructions = ipre ++ op :: ipost) (hlt : lo.length < 2048) :
    defaultVmHandler (fuel + 1)
        (VM.running cs (lo ++ [some (.Integer a1 x), some (.Integer a2 y)]) hi g fpre fpost cl
          ((ipre.length : Int) - 1) bp hp)
      = defaultVmHandler fuel
        (VM.running cs (lo ++ [some (.Integer hp (wrapInt64
            (if op = OpAdd then x + y else if op = OpSub then x - y else x * y)))])
          (some (.Integer a2 y) :: hi) g fpre fpost cl (ipre.length : Int) bp (hp + 1)) := by
  have hd := dispatch_arith op hop cs lo hi a1 a2 x y g
    (fpre ++ some ⟨cl, (ipre.length : Int), bp⟩ :: fpost) ((fpre.length : Int) + 1) hp
    (ipre ++ op :: ipost) hlt
  have := loop_round cs (lo ++ some (.Integer a1 x) :: some (.Integer a2 y) :: hi)
    ((lo.length : Int) + 2) g fpre fpost cl bp hp ipre ipost op fuel _ hins hd
  simp only [VM.running, List.append_assoc, List.cons_append, List.nil_append, List.length_append,
    List.length_cons, List.length_nil, Nat.cast_add, Nat.cast_one, Nat.cast_ofNat, zero_add,
    Nat.cast_zero, one_add_one_eq_two]
  exact this

theorem run_constant (cs : List Object) (lo hi : List (Option Object)) (x : Option Object)
    (g : List (Option Object)) (fpre fpost : List (Option Frame)) (cl : Closure) (bp : Int)
    (hp : Nat) (ipre ipost : List Nat) (b0 b1 : Nat) (c : Object) (fuel : Nat)
    (hins : cl.Fn.Instructions = ipre ++ OpConstant :: b0 :: b1 :: ipost)
    (hc : cs[b0 * 256 + b1]? = some c) (hlt : lo.length < 2048) :
    defaultVmHandler (fuel + 1)
        (VM.running cs lo (x :: hi) g fpre fpost cl ((ipre.length : Int) - 1) bp hp)
      = defaultVmHandler fuel
        (VM.running cs (lo ++ [some c]) hi g fpre fpost cl ((ipre.length : Int) + 2) bp hp) := by
  have hd := dispatch_OpConstant cs lo hi x g fpre fpost cl bp hp ipre ipost b0 b1 c hc hlt
  have := loop_round cs (lo ++ x :: hi) (lo.length : Int) g fpre fpost cl bp hp ipre
    (b0 :: b1 :: ipost) OpConstant fuel _ hins hd
  simp only [VM.running, List.append_assoc, List.cons_append, List.nil_append,
    List.length_append, List.length_cons, List.length_nil, Nat.cast_add, Nat.cast_one,
    zero_add]
  exact this

theorem run_minus (cs : List Object) (lo hi : List (Option Object)) (a1 : Nat) (x : Int)
    (g : List (Option Object)) (fpre fpost : List (Option Frame)) (cl : Closure) (bp : Int)
    (hp : Nat) (ipre ipost : List Nat) (fuel : Nat)
    (hins : cl.Fn.Instructions = ipre ++ OpMinus :: ipost) (hlt : lo.length < 2048) :
    defaultVmHandler (fuel + 1)
        (VM.running cs (lo ++ [some (.Integer a1 x)]) hi g fpre fpost cl
          ((ipre.length : Int) - 1) bp hp)
      = defaultVmHandler fuel
        (VM.running cs (lo ++ [some (.Integer hp (wrapInt64 (-x)))]) hi g fpre fpost cl
          (ipre.length : Int) bp (hp + 1)) := by
  have hd := dispatch_OpMinus cs lo hi a1 x g
    (fpre ++ some ⟨cl, (ipre.length : Int), bp⟩ :: fpost) ((fpre.length : Int) + 1) hp
    (ipre ++ OpMinus :: ipost) hlt
  have := loop_round cs (lo ++ some (.Integer a1 x) :: hi)
    ((lo.length : Int) + 1) g fpre fpost cl bp hp ipre ipost OpMinus fuel _ hins hd
  simp only [VM.running, List.append_assoc, List.cons_append, List.nil_append,
    List.length_append, List.length_cons, List.length_nil, Nat.cast_add, Nat.cast_one,
    zero_add]
  exact this

theorem run_pop (cs : List Object) (lo hi : List (Option Object)) (x : Option Object)
    (g : List (Option Object)) (fpre fpost : List (Option Frame)) (cl : Closure) (bp : Int)
    (hp : Nat) (ipre ipost : List Nat) (fuel : Nat)
    (hins : cl.Fn.Instructions = ipre ++ OpPop :: ipost) :
    defaultVmHandler (fuel + 1)
        (VM.running cs (lo ++ [x]) hi g fpre fpost cl ((ipre.length : Int) - 1) bp hp)
      = defaultVmHandler fuel
        (VM.running cs lo (x :: hi) g fpre fpost cl (ipre.length : Int) bp hp) := by
  have hd := dispatch_OpPop cs lo hi x g
    (fpre ++ some ⟨cl, (ipre.length : Int), bp⟩ :: fpost) ((fpre.length : Int) + 1) hp
    (ipre ++ OpPop :: ipost)
  have := loop_round cs (lo ++ x :: hi)
    ((lo.length : Int) + 1) g fpre fpost cl bp hp ipre ipost OpPop fuel _ hins hd
  simp only [VM.running, List.append_assoc, List.cons_append, List.nil_append,
    List.length_append, List.length_cons, List.length_nil, Nat.cast_add, Nat.cast_one,
    zero_add]
  exact this

/-- Running the code of an arithmetic expression pushes its value. -/
theorem exec_arith (e : ArithExpr) :
    ∀ (cpre cpost : List Object) (h0 : Nat) (lo hi : List (Option Object))
      (g : List (Option Object)) (fpre fpost : List (Option Frame)) (cl : Closure) (bp : Int)
      (hp : Nat) (ipre ipost : List Nat),
      cl.Fn.Instructions = ipre ++ e.code cpre.length ++ ipost →
      cpre.length + e.numLiterals ≤ 65536 →
      e.stackNeed ≤ hi.length → lo.length + e.stackNeed ≤ 2048 →
      ∃ (n a hp1 : Nat) (hi1 : List (Option Object)), hi1.length + 1 = hi.length ∧
        ∀ fuel, defaultVmHandler (n + fuel)
            (VM.running (cpre ++ e.consts h0 ++ cpost) lo hi g fpre fpost cl
              ((ipre.length : Int) - 1) bp hp)
          = defaultVmHandler fuel
            (VM.running (cpre ++ e.consts h0 ++ cpost) (lo ++ [some (.Integer a e.eval)]) hi1 g
              fpre fpost cl (((ipre ++ e.code cpre.length).length : Int) - 1) bp hp1) := by
  induction e with
  | lit v =>
    intro cpre cpost h0 lo hi g fpre fpost cl bp hp ipre ipost hins hk hneed hlo
    simp only [ArithExpr.stackNeed, ArithExpr.numLiterals] at hneed hlo hk
    obtain ⟨x, hi1, rfl⟩ : ∃ x hi1, hi = x :: hi1 := by
      cases hi with
      | nil => simp at hneed
      | cons x hi1 => exact ⟨x, hi1, rfl⟩
    refine ⟨1, h0, hp, hi1, rfl, fun fuel => ?_⟩
    have hc : (cpre ++ (ArithExpr.lit v).consts h0 ++ cpost)[cpre.length / 256 % 256 * 256
        + cpre.length % 256]? = some (.Integer h0 v) := by
      have e1 : cpre.length / 256 % 256 * 256 + cpre.length % 256 = cpre.length := by omega
      rw [e1]
      simp only [ArithExpr.consts, List.append_assoc, List.singleton_append]
      exact getElem?_append_cons _ _ _
    have hins1 : cl.Fn.Instructions = ipre ++ OpConstant :: (cpre.length / 256 % 256)
        :: (cpre.length % 256) :: ipost := by
      simpa [ArithExpr.code] using hins
    have := run_constant (cpre ++ (ArithExpr.lit v).consts h0 ++ cpost) lo hi1 x g fpre fpost cl
      bp hp ipre ipost _ _ _ fuel hins1 hc (by omega)
    rw [Nat.add_comm 1 fuel, this]
    congr 2
    simp [ArithExpr.code]
    omega
  | add l r ihl ihr =>
    intro cpre cpost h0 lo hi g fpre fpost cl bp hp ipre ipost hins hk hneed hlo
    simp only [ArithExpr.stackNeed, ArithExpr.numLiterals, max_le_iff] at hneed hlo hk
    have hlo1 : lo.length + l.stackNeed ≤ 2048 := by
      have := le_max_left l.stackNeed (r.stackNeed + 1); omega
    have hlo2 : lo.length + (r.stackNeed + 1) ≤ 2048 := by
      have := le_max_right l.stackNeed (r.stackNeed + 1); omega
    have hinsl : cl.Fn.Instructions = ipre ++ l.code cpre.length
        ++ (r.code (cpre.length + l.numLiterals) ++ [OpAdd] ++ ipost) := by
      simpa [ArithExpr.code, List.append_assoc] using hins
    obtain ⟨n1, a1, hp1, hi1, hlen1, hrun1⟩ := ihl cpre (r.consts (h0 + l.numLiterals) ++ cpost)
      h0 lo hi g fpre fpost cl bp hp ipre _ hinsl (by omega) hneed.1 hlo1
    have hinsr : cl.Fn.Instructions = (ipre ++ l.code cpre.length)
        ++ r.code (cpre ++ l.consts h0).length ++ ([OpAdd] ++ ipost) := by
      simpa [ArithExpr.code, List.append_assoc, ArithExpr.consts_length] using hins
    obtain ⟨n2, a2, hp2, hi2, hlen2, hrun2⟩ := ihr (cpre ++ l.consts h0) cpost
      (h0 + l.numLiterals) (lo ++ [some (.Integer a1 l.eval)]) hi1 g fpre fpost cl bp hp1
      (ipre ++ l.code cpre.length) _ hinsr
      (by simp only [List.length_append, ArithExpr.consts_length]; omega)
      (by omega) (by simp only [List.length_append, List.length_singleton]; omega)
    have hinso : cl.Fn.Instructions = (ipre ++ l.code cpre.length
        ++ r.code (cpre ++ l.consts h0).length) ++ OpAdd :: ipost := by
      simpa [ArithExpr.code, List.append_assoc, ArithExpr.consts_length] using hins
    have hcs : cpre ++ (ArithExpr.add l r).consts h0 ++ cpost
        = cpre ++ l.consts h0 ++ (r.consts (h0 + l.numLiterals) ++ cpost) := by
      simp [ArithExpr.consts, List.append_assoc]
    have hcs2 : cpre ++ l.consts h0 ++ r.consts (h0 + l.numLiterals) ++ cpost
        = cpre ++ l.consts h0 ++ (r.consts (h0 + l.numLiterals) ++ cpost) := by
      simp [List.append_assoc]
    refine ⟨n1 + (n2 + 1), hp2, hp2 + 1, some (.Integer a2 r.eval) :: hi2,
      by simp only [List.length_cons]; omega, fun fuel => ?_⟩
    rw [hcs, Nat.add_assoc, hrun1, Nat.add_assoc, ← hcs2, hrun2, Nat.add_comm 1 fuel]
    have hb := run_binary OpAdd (by simp) (cpre ++ l.consts h0
      ++ r.consts (h0 + l.numLiterals) ++ cpost) lo hi2 a1 a2 l.eval r.eval g fpre fpost cl bp hp2
      _ ipost fuel hinso (by omega)
    simp only [List.append_assoc, List.singleton_append] at hb ⊢
    rw [hb]
    congr 2
    simp only [ArithExpr.code, ArithExpr.consts_length, List.length_append, List.length_singleton,
      Nat.cast_add, Nat.cast_one]
    omega
  | sub l r ihl ihr =>
    intro cpre cpost h0 lo hi g fpre fpost cl bp hp ipre ipost hins hk hneed hlo
    simp only [ArithExpr.stackNeed, ArithExpr.numLiterals, max_le_iff] at hneed hlo hk
    have hlo1 : lo.length + l.stackNeed ≤ 2048 := by
      have := le_max_left l.stackNeed (r.stackNeed + 1); omega
    have hlo2 : lo.length + (r.stackNeed + 1) ≤ 2048 := by
      have := le_max_right l.stackNeed (r.stackNeed + 1); omega
    have hinsl : cl.Fn.Instructions = ipre ++ l.code cpre.length
        ++ (r.code (cpre.length + l.numLiterals) ++ [OpSub] ++ ipost) := by
      simpa [ArithExpr.code, List.append_assoc] using hins
    obtain ⟨n1, a1, hp1, hi1, hlen1, hrun1⟩ := ihl cpre (r.consts (h0 + l.numLiterals) ++ cpost)
      h0 lo hi g fpre fpost cl bp hp ipre _ hinsl (by omega) hneed.1 hlo1
    have hinsr : cl.Fn.Instructions = (ipre ++ l.code cpre.length)
        ++ r.code (cpre ++ l.consts h0).length ++ ([OpSub] ++ ipost) := by
      simpa [ArithExpr.code, List.append_assoc, ArithExpr.consts_length] using hins
    obtain ⟨n2, a2, hp2, hi2, hlen2, hrun2⟩ := ihr (cpre ++ l.consts h0) cpost
      (h0 + l.numLiterals) (lo ++ [some (.Integer a1 l.eval)]) hi1 g fpre fpost cl bp hp1
      (ipre ++ l.code cpre.length) _ hinsr
      (by simp only [List.length_append, ArithExpr.consts_length]; omega)
      (by omega) (by simp only [List.length_append, List.length_singleton]; omega)
    have hinso : cl.Fn.Instructions = (ipre ++ l.code cpre.length
        ++ r.code (cpre ++ l.consts h0).length) ++ OpSub :: ipost := by
      simpa [ArithExpr.code, List.append_assoc, ArithExpr.consts_length] using hins
    have hcs : cpre ++ (ArithExpr.sub l r).consts h0 ++ cpost
        = cpre ++ l.consts h0 ++ (r.consts (h0 + l.numLiterals) ++ cpost) := by
      simp [ArithExpr.consts, List.append_assoc]
    have hcs2 : cpre ++ l.consts h0 ++ r.consts (h0 + l.numLiterals) ++ cpost
        = cpre ++ l.consts h0 ++ (r.consts (h0 + l.numLiterals) ++ cpost) := by
      simp [List.append_assoc]
    refine ⟨n1 + (n2 + 1), hp2, hp2 + 1, some (.Integer a2 r.eval) :: hi2,
      by simp only [List.length_cons]; omega, fun fuel => ?_⟩
    rw [hcs, Nat.add_assoc, hrun1, Nat.add_assoc, ← hcs2, hrun2, Nat.add_comm 1 fuel]
    have hb := run_binary OpSub (by simp) (cpre ++ l.consts h0
      ++ r.consts (h0 + l.numLiterals) ++ cpost) lo hi2 a1 a2 l.eval r.eval g fpre fpost cl bp hp2
      _ ipost fuel hinso (by omega)
    simp only [List.append_assoc, List.singleton_append] at hb ⊢
    rw [hb]
    congr 2
    simp only [ArithExpr.code, ArithExpr.consts_length, List.length_append, List.length_singleton,
      Nat.cast_add, Nat.cast_one]
    omega
  | mul l r ihl ihr =>
    intro cpre cpost h0 lo hi g fpre fpost cl bp hp ipre ipost hins hk hneed hlo
    simp only [ArithExpr.stackNeed, ArithExpr.numLiterals, max_le_iff] at hneed hlo hk
    have hlo1 : lo.length + l.stackNeed ≤ 2048 := by
      have := le_max_left l.stackNeed (r.stackNeed + 1); omega
    have hlo2 : lo.length + (r.stackNeed + 1) ≤ 2048 := by
      have := le_max_right l.stackNeed (r.stackNeed + 1); omega
    have hinsl : cl.Fn.Instructions = ipre ++ l.code cpre.length
        ++ (r.code (cpre.length + l.numLiterals) ++ [OpMul] ++ ipost) := by
      simpa [ArithExpr.code, List.append_assoc] using hins
    obtain ⟨n1, a1, hp1, hi1, hlen1, hrun1⟩ := ihl cpre (r.consts (h0 + l.numLiterals) ++ cpost)
      h0 lo hi g fpre fpost cl bp hp ipre _ hinsl (by omega) hneed.1 hlo1
    have hinsr : cl.Fn.Instructions = (ipre ++ l.code cpre.length)
        ++ r.code (cpre ++ l.consts h0).length ++ ([OpMul] ++ ipost) := by
      simpa [ArithExpr.code, List.append_assoc, ArithExpr.consts_length] using hins
    obtain ⟨n2, a2, hp2, hi2, hlen2, hrun2⟩ := ihr (cpre ++ l.consts h0) cpost
      (h0 + l.numLiterals) (lo ++ [some (.Integer a1 l.eval)]) hi1 g fpre fpost cl bp hp1
      (ipre ++ l.code cpre.length) _ hinsr
      (by simp only [List.length_append, ArithExpr.consts_length]; omega)
      (by omega) (by simp only [List.length_append, List.length_singleton]; omega)
    have hinso : cl.Fn.Instructions = (ipre ++ l.code cpre.length
        ++ r.code (cpre ++ l.consts h0).length) ++ OpMul :: ipost := by
      simpa [ArithExpr.code, List.append_assoc, ArithExpr.consts_length] using hins
    have hcs : cpre ++ (ArithExpr.mul l r).consts h0 ++ cpost
        = cpre ++ l.consts h0 ++ (r.consts (h0 + l.numLiterals) ++ cpost) := by
      simp [ArithExpr.consts, List.append_assoc]
    have hcs2 : cpre ++ l.consts h0 ++ r.consts (h0 + l.numLiterals) ++ cpost
        = cpre ++ l.consts h0 ++ (r.consts (h0 + l.numLiterals) ++ cpost) := by
      simp [List.append_assoc]
    refine ⟨n1 + (n2 + 1), hp2, hp2 + 1, some (.Integer a2 r.eval) :: hi2,
      by simp only [List.length_cons]; omega, fun fuel => ?_⟩
    rw [hcs, Nat.add_assoc, hrun1, Nat.add_assoc, ← hcs2, hrun2, Nat.add_comm 1 fuel]
    have hb := run_binary OpMul (by simp) (cpre ++ l.consts h0
      ++ r.consts (h0 + l.numLiterals) ++ cpost) lo hi2 a1 a2 l.eval r.eval g fpre fpost cl bp hp2
      _ ipost fuel hinso (by omega)
    simp only [List.append_assoc, List.singleton_append] at hb ⊢
    rw [hb]
    congr 2
    simp only [ArithExpr.code, ArithExpr.consts_length, List.length_append, List.length_singleton,
      Nat.cast_add, Nat.cast_one]
    omega
  | neg r ih =>
    intro cpre cpost h0 lo hi g fpre fpost cl bp hp ipre ipost hins hk hneed hlo
    simp only [ArithExpr.stackNeed, ArithExpr.numLiterals] at hneed hlo hk
    have hinsr : cl.Fn.Instructions = ipre ++ r.code cpre.length ++ ([OpMinus] ++ ipost) := by
      simpa [ArithExpr.code, List.append_assoc] using hins
    obtain ⟨n1, a1, hp1, hi1, hlen1, hrun1⟩ := ih cpre cpost h0 lo hi g fpre fpost cl bp hp
      ipre _ hinsr hk hneed hlo
    have hinso : cl.Fn.Instructions = (ipre ++ r.code cpre.length) ++ OpMinus :: ipost := by
      simpa [ArithExpr.code, List.append_assoc] using hins
    have hpos := r.stackNeed_pos
    refine ⟨n1 + 1, hp1, hp1 + 1, hi1, hlen1, fun fuel => ?_⟩
    simp only [ArithExpr.consts] at hrun1 ⊢
    rw [Nat.add_assoc, hrun1, Nat.add_comm 1 fuel]
    have hb := run_minus (cpre ++ r.consts h0 ++ cpost) lo hi1 a1 r.eval g fpre fpost cl bp hp1
      _ ipost fuel hinso (by omega)
    rw [hb]
    congr 2
    simp only [ArithExpr.code, List.length_append, List.length_singleton, Nat.cast_add,
      Nat.cast_one]
    omega


/-- **C1.** Compiler correctness for integer arithmetic: for every expression `e` built
from integer literals with binary `+`, `-`, `*` and unary `-`, with at most 65536
literals and needing at most 2048 operand-stack slots, compiling the program made of
the expression statement `e` with a fresh compiler returns no error, running its
bytecode on a fresh machine returns no error (with any fuel from some `n` on), and
`LastPoppedStackElem` is then the `Integer` whose value is `e` evaluated in `int64`
arithmetic with wrap-around. -/
theorem C1_integer_arithmetic (keyString : Node → String) (e : ArithExpr)
    (heapC heapV : Nat) (hlits : e.numLiterals ≤ 65536) (hneed : e.stackNeed ≤ 2048) :
    ∃ c bc, Compile keyString (.Program [.ExprStmt e.toNode]) (NewCompiler heapC) = (.ok (), c) ∧
      Compiler.Bytecode c = (.ok bc, c) ∧
      ∃ n v o, (∀ fuel, n ≤ fuel → VM.Run fuel (NewVM bc heapV) = some (.ok (), v)) ∧
        v.LastPoppedStackElem = .ok o ∧ Object.isInteger o e.eval := by
  obtain ⟨sc1, hcomp, hsc1⟩ := compile_arith keyString e []
    (some (defineBuiltins builtinNames 0 NewSymbolTable)) [] [] ⟨[], ⟨0, 0⟩, ⟨0, 0⟩⟩ heapC
  simp only [List.nil_append, List.length_nil, Nat.cast_zero] at hcomp hsc1
  obtain ⟨ins1, last1, prev1⟩ := sc1
  simp only at hsc1
  subst hsc1
  have hprog : Compile keyString (.Program [.ExprStmt e.toNode]) (NewCompiler heapC)
      = (.ok (), ⟨e.consts heapC, some (defineBuiltins builtinNames 0 NewSymbolTable),
          [⟨e.code 0 ++ [OpPop], ⟨OpPop, (e.code 0).length⟩, last1⟩],
          0, heapC + e.numLiterals⟩) := by
    have hemit := emit_eq (e.consts heapC) (some (defineBuiltins builtinNames 0 NewSymbolTable))
      [] [] ⟨e.code 0, last1, prev1⟩ (heapC + e.numLiterals) OpPop [] [OpPop] rfl
    simp only [List.nil_append, List.length_nil, Nat.cast_zero] at hemit
    simp only [Compile, CompileList, NewCompiler, M_bind_apply, hcomp, hemit, M_pure_apply]
  refine ⟨_, ⟨e.code 0 ++ [OpPop], e.consts heapC⟩, hprog, ?_, ?_⟩
  · have hcur := curScope_eq (e.consts heapC)
      (some (defineBuiltins builtinNames 0 NewSymbolTable)) [] []
      ⟨e.code 0 ++ [OpPop], ⟨OpPop, (e.code 0).length⟩, last1⟩
      (heapC + e.numLiterals)
    simp only [List.nil_append, List.length_nil, Nat.cast_zero] at hcur
    simp only [Compiler.Bytecode, curInstructions, M_bind_apply, hcur, M_pure_apply, M.get]
  · have hnew : NewVM ⟨e.code 0 ++ [OpPop], e.consts heapC⟩ heapV
        = VM.running ([] ++ e.consts heapC ++ []) [] (List.replicate 2048 none)
            (List.replicate GlobalsSize none) [] (List.replicate 2047 none)
            ⟨heapV + 1, heapV, ⟨e.code 0 ++ [OpPop], 0, 0⟩, []⟩
            ((([] : List Nat).length : Int) - 1) 0 (heapV + 2) := by
      simp only [VM.running, List.nil_append, List.append_nil, List.length_nil,
        Nat.cast_zero, zero_sub, zero_add]
      rfl
    obtain ⟨n, a, hp1, hi1, hlen1, hrun⟩ := exec_arith e [] [] heapC []
      (List.replicate 2048 none) (List.replicate GlobalsSize none) [] (List.replicate 2047 none)
      ⟨heapV + 1, heapV, ⟨e.code 0 ++ [OpPop], 0, 0⟩, []⟩ 0 (heapV + 2) [] [OpPop]
      rfl
      (by simp only [List.length_nil, Nat.zero_add]; exact hlits)
      (by simp only [List.length_replicate]; exact hneed)
      (by simp only [List.length_nil, Nat.zero_add]; exact hneed)
    rw [show e.code ([] : List Object).length = e.code 0 from rfl] at hrun
    have hpop := fun fuel => run_pop ([] ++ e.consts heapC ++ []) [] hi1 (some (.Integer a e.eval))
      (List.replicate GlobalsSize none) [] (List.replicate 2047 none)
      ⟨heapV + 1, heapV, ⟨e.code 0 ++ [OpPop], 0, 0⟩, []⟩ 0 hp1 ([] ++ e.code 0) [] fuel
      rfl
    refine ⟨n + 2, VM.running ([] ++ e.consts heapC ++ []) [] (some (.Integer a e.eval) :: hi1)
      (List.replicate GlobalsSize none) [] (List.replicate 2047 none)
      ⟨heapV + 1, heapV, ⟨e.code 0 ++ [OpPop], 0, 0⟩, []⟩ (([] ++ e.code 0).length : Int) 0 hp1,
      some (.Integer a e.eval), fun fuel hfuel => ?_, ?_, a, rfl⟩
    · obtain ⟨k, rfl⟩ : ∃ k, fuel = n + (k + 1 + 1) := ⟨fuel - (n + 2), by omega⟩
      rw [VM.Run, hnew, hrun, hpop]
      have hcond := loopCondition_eq ([] ++ e.consts heapC ++ []) ([] ++ some (.Integer a e.eval) :: hi1)
        (([] : List (Option Object)).length : Int) (List.replicate GlobalsSize none) []
        (List.replicate 2047 none)
        ⟨⟨heapV + 1, heapV, ⟨e.code 0 ++ [OpPop], 0, 0⟩, []⟩, (([] ++ e.code 0).length : Int), 0⟩ hp1
      have hfalse : decide ((([] ++ e.code 0).length : Int)
          < ((e.code 0 ++ [OpPop]).length : Int) - 1) = false := by
        simp
      simp only [Frame.Instructions, hfalse] at hcond
      rw [defaultVmHandler]
      simp only [VM.running, hcond]
    · simp only [VM.LastPoppedStackElem, VM.running]
      exact getAt_append_cons [] _ hi1

/-- Witness of C1: `1 + 2 * (3 + 4)` compiles, runs without error and leaves `Integer 15`
as the last popped element. -/
theorem C1_integer_arithmetic_witness :
    ∃ c bc, Compile (fun _ => "")
        (.Program [.ExprStmt (.InfixExpr "+" (.Integer 1)
          (.InfixExpr "*" (.Integer 2) (.InfixExpr "+" (.Integer 3) (.Integer 4))))])
        (NewCompiler 3) = (.ok (), c) ∧
      Compiler.Bytecode c = (.ok bc, c) ∧
      ∃ n v o, (∀ fuel, n ≤ fuel → VM.Run fuel (NewVM bc 100) = some (.ok (), v)) ∧
        v.LastPoppedStackElem = .ok o ∧ Object.isInteger o 15 :=
  C1_integer_arithmetic (fun _ => "")
    (.add (.lit 1) (.mul (.lit 2) (.add (.lit 3) (.lit 4)))) 3 100 (by decide) (by decide)

/-! ## Theorems: the compiler -/

/-! ### What every compilation leaves untouched -/

theorem respects_pure {R : Compiler → Compiler → Prop}
    (hR : StepClosed R) {α : Type} (a : α) : Respects R (Pure.pure a : M Compiler α) :=
  fun c => hR.refl c

theorem respects_fail {R : Compiler → Compiler → Prop}
    (hR : StepClosed R) {α : Type} (e : Fault) : Respects R (M.fail e : M Compiler α) :=
  fun c => hR.refl c

theorem respects_lift {R : Compiler → Compiler → Prop}
    (hR : StepClosed R) {α : Type} (x : Except Fault α) : Respects R (M.lift x : M Compiler α) :=
  fun c => hR.refl c

theorem respects_get {R : Compiler → Compiler → Prop}
    (hR : StepClosed R) : Respects R (M.get : M Compiler Compiler) :=
  fun c => hR.refl c

theorem respects_bind {R : Compiler → Compiler → Prop}
    (hR : StepClosed R) {α β : Type} {m : M Compiler α} {f : α → M Compiler β}
    (hm : Respects R m) (hf : ∀ a, Respects R (f a)) : Respects R (m >>= f) := by
  intro c
  have h1 := hm c
  rw [M_bind_apply]
  rcases h : m c with ⟨r, c1⟩
  rw [h] at h1
  cases r with
  | error e => exact h1
  | ok a => exact hR.trans _ _ _ h1 (hf a c1)

theorem respects_ite {R : Compiler → Compiler → Prop}
    (hR : StepClosed R) {α : Type} {p : Prop} [Decidable p] {a b : M Compiler α}
    (ha : Respects R a) (hb : Respects R b) : Respects R (if p then a else b) := by
  split
  · exact ha
  · exact hb

theorem respects_curScope {R : Compiler → Compiler → Prop}
    (hR : StepClosed R) : Respects R curScope := fun c => hR.refl c

theorem respects_setCurScope {R : Compiler → Compiler → Prop}
    (hR : StepClosed R) (sc : CompilationScope) : Respects R (setCurScope sc) := by
  intro c
  obtain ⟨cs, t, l, i, h⟩ := c
  unfold setCurScope
  split
  · exact hR.scopes _ _ _ _ _ _
  · exact hR.refl _

theorem respects_alloc {R : Compiler → Compiler → Prop}
    (hR : StepClosed R) : Respects R Compiler.alloc :=
  fun c => hR.heap _ _ _ _ _ _

theorem respects_onSymbolTable {R : Compiler → Compiler → Prop}
    (hR : StepClosed R) {α : Type} (m : SymbolTable → α × SymbolTable) :
    Respects R (onSymbolTable m) := by
  intro c
  obtain ⟨cs, t, l, i, h⟩ := c
  cases t with
  | none => exact hR.refl _
  | some t => exact hR.table _ _ _ _ _ _

theorem respects_addConstant {R : Compiler → Compiler → Prop}
    (hR : StepClosed R) (obj : Object) : Respects R (addConstant obj) :=
  fun c => hR.constants _ _ _ _ _ obj

theorem respects_curInstructions {R : Compiler → Compiler → Prop}
    (hR : StepClosed R) : Respects R curInstructions :=
  respects_bind hR (respects_curScope hR) (fun _ => respects_pure hR _)

theorem respects_emit {R : Compiler → Compiler → Prop}
    (hR : StepClosed R) (op : Opcode) (operands : List Int) : Respects R (emit op operands) := by
  unfold emit addInstruction setLastInstruction
  repeat' (with_reducible first
    | exact respects_curScope hR | exact respects_setCurScope hR _ | exact respects_lift hR _
    | exact respects_curInstructions hR | exact respects_pure hR _
    | refine respects_bind hR ?_ (fun _ => ?_))

theorem respects_lastInstructionIs {R : Compiler → Compiler → Prop}
    (hR : StepClosed R) (op : Opcode) : Respects R (lastInstructionIs op) := by
  unfold lastInstructionIs
  repeat' (with_reducible first
    | exact respects_curScope hR | exact respects_curInstructions hR | exact respects_pure hR _
    | refine respects_bind hR ?_ (fun _ => ?_) | apply respects_ite hR)

theorem respects_removeLastPop {R : Compiler → Compiler → Prop}
    (hR : StepClosed R) : Respects R removeLastPop := by
  unfold removeLastPop
  repeat' (with_reducible first
    | exact respects_curScope hR | exact respects_setCurScope hR _ | exact respects_fail hR _
    | exact respects_pure hR _
    | refine respects_bind hR ?_ (fun _ => ?_) | apply respects_ite hR)

theorem respects_stripLastPop {R : Compiler → Compiler → Prop}
    (hR : StepClosed R) : Respects R stripLastPop := by
  unfold stripLastPop
  repeat' (with_reducible first
    | exact respects_lastInstructionIs hR _ | exact respects_removeLastPop hR
    | exact respects_pure hR _
    | refine respects_bind hR ?_ (fun _ => ?_) | apply respects_ite hR)

theorem respects_replaceInstructionLoop {R : Compiler → Compiler → Prop}
    (hR : StepClosed R) (pos : Nat) (bs : List Nat) (i : Nat) :
    Respects R (replaceInstructionLoop pos bs i) := by
  induction bs generalizing i with
  | nil => exact respects_pure hR _
  | cons b rest ih =>
    unfold replaceInstructionLoop
    repeat' (with_reducible first
      | exact respects_curScope hR | exact respects_setCurScope hR _ | exact respects_lift hR _
      | exact ih _
      | refine respects_bind hR ?_ (fun _ => ?_))

theorem respects_replaceLastPopWithReturn {R : Compiler → Compiler → Prop}
    (hR : StepClosed R) : Respects R replaceLastPopWithReturn := by
  unfold replaceLastPopWithReturn replaceInstruction
  repeat' (with_reducible first
    | exact respects_curScope hR | exact respects_setCurScope hR _ | exact respects_lift hR _
    | exact respects_replaceInstructionLoop hR _ _ _
    | refine respects_bind hR ?_ (fun _ => ?_))

theorem respects_changeOperand {R : Compiler → Compiler → Prop}
    (hR : StepClosed R) (opPos : Nat) (operand : Int) :
    Respects R (changeOperand opPos operand) := by
  unfold changeOperand replaceInstruction
  repeat' (with_reducible first
    | exact respects_curScope hR | exact respects_lift hR _
    | exact respects_replaceInstructionLoop hR _ _ _
    | refine respects_bind hR ?_ (fun _ => ?_))

theorem respects_leaveScope {R : Compiler → Compiler → Prop}
    (hR : StepClosed R) : Respects R leaveScope := by
  unfold leaveScope
  apply respects_bind hR (respects_curInstructions hR)
  intro ins c
  obtain ⟨cs, t, l, i, h⟩ := c
  simp only [M_bind_apply, M.get, M.set, M.fail]
  split
  · exact hR.refl _
  · cases t with
    | none => exact hR.trans _ _ _ (hR.scopes _ _ _ _ _ _) (hR.scopeIndex _ _ _ _ _ _)
    | some t =>
      exact hR.trans _ _ _ (hR.trans _ _ _ (hR.scopes _ _ _ _ _ _) (hR.scopeIndex _ _ _ _ _ _))
        (hR.table _ _ _ _ _ _)

theorem respects_enterScope {R : Compiler → Compiler → Prop}
    (hR : StepClosed R) : Respects R enterScope := by
  intro c
  obtain ⟨cs, t, l, i, h⟩ := c
  exact hR.trans _ _ _ (hR.trans _ _ _ (hR.table _ _ _ _ _ _) (hR.scopes _ _ _ _ _ _))
    (hR.scopeIndex _ _ _ _ _ _)

theorem respects_loadSymbol {R : Compiler → Compiler → Prop}
    (hR : StepClosed R) (s : Symbol) : Respects R (loadSymbol s) := by
  unfold loadSymbol
  repeat' (with_reducible first
    | exact respects_emit hR _ _ | exact respects_pure hR _
    | refine respects_bind hR ?_ (fun _ => ?_) | apply respects_ite hR)

theorem respects_loadSymbols {R : Compiler → Compiler → Prop}
    (hR : StepClosed R) (l : List Symbol) : Respects R (loadSymbols l) := by
  induction l with
  | nil => exact respects_pure hR _
  | cons s rest ih =>
    unfold loadSymbols
    exact respects_bind hR (respects_loadSymbol hR s) (fun _ => ih)

theorem respects_defineParams {R : Compiler → Compiler → Prop}
    (hR : StepClosed R) (l : List String) : Respects R (defineParams l) := by
  induction l with
  | nil => exact respects_pure hR _
  | cons s rest ih =>
    unfold defineParams
    exact respects_bind hR (respects_onSymbolTable hR _) (fun _ => ih)

theorem respects_runAll {R : Compiler → Compiler → Prop}
    (hR : StepClosed R) (l : List (String × M Compiler Unit))
    (h : ∀ a ∈ l, Respects R a.2) : Respects R (runAll l) := by
  induction l with
  | nil => exact respects_pure hR _
  | cons s rest ih =>
    unfold runAll
    exact respects_bind hR (h s (List.mem_cons_self _ _))
      (fun _ => ih (fun a ha => h a (List.mem_cons_of_mem _ ha)))

theorem respects_emitInfix {R : Compiler → Compiler → Prop}
    (hR : StepClosed R) (operator : String) : Respects R (emitInfix operator) := by
  unfold emitInfix
  repeat' (with_reducible first
    | exact respects_emit hR _ _ | exact respects_pure hR _ | exact respects_fail hR _
    | refine respects_bind hR ?_ (fun _ => ?_) | apply respects_ite hR)

theorem respects_emitPrefixOp {R : Compiler → Compiler → Prop}
    (hR : StepClosed R) (operator : String) : Respects R (emitPrefixOp operator) := by
  unfold emitPrefixOp
  repeat' (with_reducible first
    | exact respects_emit hR _ _ | exact respects_pure hR _ | exact respects_fail hR _
    | refine respects_bind hR ?_ (fun _ => ?_) | apply respects_ite hR)

theorem respects_finishFunction {R : Compiler → Compiler → Prop}
    (hR : StepClosed R) (symbol : Symbol) (numParams : Nat) :
    Respects R (finishFunction symbol numParams) := by
  unfold finishFunction
  repeat' (with_reducible first
    | exact respects_lastInstructionIs hR _ | exact respects_replaceLastPopWithReturn hR
    | exact respects_leaveScope hR | exact respects_emit hR _ _
    | exact respects_loadSymbols hR _ | exact respects_alloc hR
    | exact respects_addConstant hR _ | exact respects_get hR
    | exact respects_pure hR _ | exact respects_fail hR _
    | refine respects_bind hR ?_ (fun _ => ?_) | apply respects_ite hR | split)

theorem Node.induction {P : Node → Prop} {PL : List Node → Prop}
    {PP : List (Node × Node) → Prop}
    (hProgram : ∀ stmts, PL stmts → P (.Program stmts))
    (hIdentifier : ∀ value, P (.Identifier value))
    (hStringLit : ∀ value, P (.StringLit value))
    (hArray : ∀ elements, PL elements → P (.Array elements))
    (hMap : ∀ elements, PP elements → P (.Map elements))
    (hBoolean : ∀ value, P (.Boolean value))
    (hVarStmt : ∀ name value, P value → P (.VarStmt name value))
    (hBlockStmt : ∀ stmts, PL stmts → P (.BlockStmt stmts))
    (hExprStmt : ∀ expr, P expr → P (.ExprStmt expr))
    (hIfNone : ∀ condition consequence, P condition → P consequence →
      P (.IfExpr condition consequence none))
    (hIfSome : ∀ condition consequence alternative, P condition → P consequence →
      P alternative → P (.IfExpr condition consequence (some alternative)))
    (hReturnStmt : ∀ value, P value → P (.ReturnStmt value))
    (hFuncExpr : ∀ name params body, P body → P (.FuncExpr name params body))
    (hCallExpr : ∀ func args, P func → PL args → P (.CallExpr func args))
    (hInteger : ∀ value, P (.Integer value))
    (hInfixExpr : ∀ operator left right, P left → P right →
      P (.InfixExpr operator left right))
    (hPrefixExpr : ∀ operator right, P right → P (.PrefixExpr operator right))
    (hIndexExpr : ∀ left index, P left → P index → P (.IndexExpr left index))
    (hNil : PL [])
    (hCons : ∀ n rest, P n → PL rest → PL (n :: rest))
    (hPairsNil : PP [])
    (hPairsCons : ∀ k v rest, P k → P v → PP rest → PP ((k, v) :: rest))
    (n : Node) : P n := by
  refine @Node.rec P PL PP (fun o => ∀ a, o = some a → P a) (fun p => P p.1 ∧ P p.2)
    hProgram hIdentifier hStringLit hArray hMap hBoolean hVarStmt hBlockStmt hExprStmt
    ?_ hReturnStmt hFuncExpr hCallExpr hInteger hInfixExpr hPrefixExpr hIndexExpr
    hNil hCons hPairsNil ?_ ?_ ?_ ?_ n
  · intro condition consequence alternative h1 h2 h3
    cases alternative with
    | none => exact hIfNone _ _ h1 h2
    | some a => exact hIfSome _ _ _ h1 h2 (h3 a rfl)
  · intro head tail h1 h2
    exact hPairsCons head.1 head.2 tail h1.1 h1.2 h2
  · intro a h
    cases h
  · intro val h a e
    cases e
    exact h
  · intro fst snd h1 h2
    exact ⟨h1, h2⟩

theorem respects_Compile {R : Compiler → Compiler → Prop} (hR : StepClosed R)
    (ks : Node → String) (n : Node) : Respects R (Compile ks n) := by
  refine @Node.induction (fun n => Respects R (Compile ks n))
    (fun l => Respects R (CompileList ks l))
    (fun ps => ∀ a ∈ CompilePairs ks ps, Respects R a.2)
    ?_ ?_ ?_ ?_ ?_ ?_ ?_ ?_ ?_ ?_ ?_ ?_ ?_ ?_ ?_ ?_ ?_ ?_ ?_ ?_ ?_ ?_ n
  case refine_5 =>
    intro elements ih
    rw [Compile]
    refine respects_bind hR (respects_runAll hR _ ?_) (fun _ => ?_)
    · intro a ha
      exact ih a ((List.perm_insertionSort _ _).mem_iff.mp ha)
    · exact respects_bind hR (respects_emit hR _ _) (fun _ => respects_pure hR _)
  case refine_19 =>
    show Respects R (CompileList ks [])
    rw [CompileList]
    exact respects_pure hR _
  case refine_21 => intro a ha; cases ha
  case refine_22 =>
    intro k v rest h1 h2 h3 a ha
    rw [CompilePairs] at ha
    rcases List.mem_cons.mp ha with rfl | ha
    · exact respects_bind hR h1 (fun _ => h2)
    · exact h3 a ha
  all_goals intros
  all_goals first
    | rw [Compile]
    | rw [CompileList]
  all_goals repeat' (with_reducible first
    | assumption
    | exact respects_onSymbolTable hR _ | exact respects_alloc hR
    | exact respects_addConstant hR _ | exact respects_emit hR _ _
    | exact respects_loadSymbol hR _ | exact respects_stripLastPop hR
    | exact respects_curInstructions hR | exact respects_changeOperand hR _ _
    | exact respects_enterScope hR | exact respects_defineParams hR _
    | exact respects_finishFunction hR _ _ | exact respects_emitInfix hR _
    | exact respects_emitPrefixOp hR _
    | exact respects_pure hR _ | exact respects_fail hR _
    | refine respects_bind hR ?_ (fun _ => ?_) | apply respects_ite hR)

theorem constantsPrefix_stepClosed : StepClosed constantsPrefix where
  refl := fun _ => List.prefix_refl _
  trans := fun _ _ _ h1 h2 => List.IsPrefix.trans h1 h2
  scopes := fun _ _ _ _ _ _ => List.prefix_refl _
  table := fun _ _ _ _ _ _ => List.prefix_refl _
  heap := fun _ _ _ _ _ _ => List.prefix_refl _
  scopeIndex := fun _ _ _ _ _ _ => List.prefix_refl _
  constants := fun _ _ _ _ _ _ => List.prefix_append _ _

/-- C17: the constant pool is append-only. Whatever node is compiled from whatever
state, and whether the compilation returns an error or not, the constants before the
call are an initial segment of the constants after it; `addConstant(obj)` returns the
previous length of the pool and leaves `obj` at that index, after the old constants. -/
theorem C17_constants_append_only (ks : Node → String) (node : Node) (c : Compiler)
    (obj : Object) :
    c.constants <+: (Compile ks node c).2.constants
    ∧ (addConstant obj c).1 = .ok c.constants.length
    ∧ (addConstant obj c).2.constants = c.constants ++ [obj]
    ∧ (addConstant obj c).2.constants[c.constants.length]? = some obj := by
  refine ⟨respects_Compile constantsPrefix_stepClosed ks node c, ?_, rfl, ?_⟩
  · simp [addConstant]
  · simp [addConstant]

/-! ## Theorems: single instructions of the machine -/

theorem wrapInt64_of_isInt64 (x : Int) (h : isInt64 x) : wrapInt64 x = x := by
  unfold isInt64 at h
  unfold wrapInt64
  omega

theorem tdiv_isInt64 (a b : Int) (ha : isInt64 a) (hb : isInt64 b) (hb0 : b ≠ 0)
    (hne : ¬ (a = -9223372036854775808 ∧ b = -1)) : isInt64 (Int.tdiv a b) := by
  unfold isInt64 at *
  have h1 : (Int.tdiv a b).natAbs = a.natAbs / b.natAbs := Int.natAbs_tdiv a b
  have hb1 : 1 ≤ b.natAbs := Int.natAbs_pos.mpr hb0
  by_cases hb2 : b.natAbs = 1
  · rw [hb2, Nat.div_one] at h1
    rcases Int.natAbs_eq b with hbb | hbb
    · rw [hb2] at hbb
      simp only [Nat.cast_one] at hbb
      subst hbb
      simpa using ha
    · rw [hb2] at hbb
      simp only [Nat.cast_one] at hbb
      subst hbb
      have : Int.tdiv a (-1) = -a := by simp
      rw [this]
      omega
  · have hle : a.natAbs / b.natAbs ≤ a.natAbs / 2 := Nat.div_le_div_left (by omega) (by omega)
    have : (Int.tdiv a b).natAbs ≤ a.natAbs / 2 := h1 ▸ hle
    omega

theorem dispatch_arith4 (op : Opcode)
    (cs : List Object) (lo hi : List (Option Object))
    (a1 a2 : Nat) (x y : Int) (g : List (Option Object)) (frs : List (Option Frame))
    (fi : Int) (hp : Nat) (ins : List Nat) (hlt : lo.length < 2048)
    (hop : op = OpAdd ∨ op = OpSub ∨ op = OpMul ∨ (op = OpQuo ∧ y ≠ 0)) :
    dispatch ins op
        ⟨cs, lo ++ some (.Integer a1 x) :: some (.Integer a2 y) :: hi, (lo.length : Int) + 2, g,
          frs, fi, hp⟩
      = (.ok (), ⟨cs,
          lo ++ some (.Integer hp (wrapInt64 (exactArith op x y))) :: some (.Integer a2 y) :: hi,
          (lo.length : Int) + 1, g, frs, fi, hp + 1⟩) := by
  have hpop1 := pop_eq cs (lo ++ [some (.Integer a1 x)]) hi (some (.Integer a2 y)) g frs fi hp
  simp only [List.append_assoc, List.singleton_append, List.length_append, List.length_singleton,
    Nat.cast_add, Nat.cast_one, add_assoc, one_add_one_eq_two] at hpop1
  rcases hop with rfl | rfl | rfl | ⟨rfl, hy⟩ <;>
  simp [dispatch, OpAdd, OpSub, OpMul, OpConstant, OpArray, OpMap, OpIndex, OpQuo, exactArith,
    executeArithmeticOperation, M_bind_apply, hpop1, pop_eq, executeArithmeticIntegerOperation,
    M_pure_apply, VM.alloc, push_eq _ _ _ _ _ _ _ _ _ hlt, *]

/-- C20 (as amended): an integer arithmetic step. With `Integer x` below `Integer y` on
top of the stack, `OpAdd`, `OpSub`, `OpMul`, and `OpQuo` when `y` is not zero, return no
error, lower `sp` by exactly one, leave the stack below the two operands as it was and
put in their place a fresh `Integer` holding the exact result (sum, difference,
product, quotient rounded towards zero) reduced modulo 2^64 to the signed 64-bit
range. For `OpQuo` on 64-bit operands the reduction changes nothing, except for
`x = -2^63`, `y = -1`. -/
theorem C20_integer_arithmetic_step (op : Opcode)
    (cs : List Object) (lo hi : List (Option Object))
    (a1 a2 : Nat) (x y : Int) (g : List (Option Object)) (frs : List (Option Frame))
    (fi : Int) (hp : Nat) (ins : List Nat) (hlt : lo.length + 2 ≤ StackSize)
    (hop : op = OpAdd ∨ op = OpSub ∨ op = OpMul ∨ (op = OpQuo ∧ y ≠ 0)) :
    ∃ v, dispatch ins op
        ⟨cs, lo ++ some (.Integer a1 x) :: some (.Integer a2 y) :: hi, (lo.length : Int) + 2, g,
          frs, fi, hp⟩ = (.ok (), v)
      ∧ v.sp = (lo.length : Int) + 2 - 1
      ∧ v.stack.take lo.length = lo
      ∧ getAt v.stack (v.sp - 1) = .ok (some (.Integer hp (wrapInt64 (exactArith op x y))))
      ∧ (op = OpQuo → isInt64 x → isInt64 y → ¬ (x = -9223372036854775808 ∧ y = -1) →
          wrapInt64 (exactArith op x y) = Int.tdiv x y) := by
  have hlt1 : lo.length < 2048 := by unfold StackSize at hlt; omega
  refine ⟨_, dispatch_arith4 op cs lo hi a1 a2 x y g frs fi hp ins hlt1 hop, ?_, ?_, ?_, ?_⟩
  · show (lo.length : Int) + 1 = (lo.length : Int) + 2 - 1
    omega
  · show (lo ++ _).take lo.length = lo
    simp
  · show getAt (lo ++ _) ((lo.length : Int) + 1 - 1) = _
    rw [add_sub_cancel_right]
    exact getAt_append_cons lo _ _
  · intro hq hx hy hne
    have hy0 : y ≠ 0 := by
      rcases hop with h | h | h | h
      · rw [h] at hq; exact absurd hq (by decide)
      · rw [h] at hq; exact absurd hq (by decide)
      · rw [h] at hq; exact absurd hq (by decide)
      · exact h.2
    have he : exactArith op x y = Int.tdiv x y := by
      rw [hq]
      rfl
    rw [he]
    exact wrapInt64_of_isInt64 _ (tdiv_isInt64 x y hx hy hy0 hne)

/-- Witness of C20: `7 / 2` on a stack of two slots gives `3`. -/
theorem C20_integer_arithmetic_step_witness :
    ([] : List (Option Object)).length + 2 ≤ StackSize
    ∧ (OpQuo = OpAdd ∨ OpQuo = OpSub ∨ OpQuo = OpMul ∨ (OpQuo = OpQuo ∧ (2 : Int) ≠ 0))
    ∧ ∃ v, dispatch [OpQuo] OpQuo
        ⟨[], [] ++ some (.Integer 10 7) :: some (.Integer 11 2) :: [],
          (([] : List (Option Object)).length : Int) + 2, [], [], 0, 12⟩ = (.ok (), v)
      ∧ v.sp = (([] : List (Option Object)).length : Int) + 2 - 1
      ∧ v.stack.take ([] : List (Option Object)).length = []
      ∧ getAt v.stack (v.sp - 1) = .ok (some (.Integer 12 (wrapInt64 (exactArith OpQuo 7 2))))
      ∧ (OpQuo = OpQuo → isInt64 7 → isInt64 2 →
          ¬ ((7 : Int) = -9223372036854775808 ∧ (2 : Int) = -1) →
          wrapInt64 (exactArith OpQuo 7 2) = Int.tdiv 7 2) :=
  ⟨by decide, Or.inr (Or.inr (Or.inr ⟨rfl, by decide⟩)),
    C20_integer_arithmetic_step OpQuo [] [] [] 10 11 7 2 [] [] 0 12 [OpQuo] (by decide)
      (Or.inr (Or.inr (Or.inr ⟨rfl, by decide⟩)))⟩

/-- Counterexample to C20 as stated: `OpQuo` on `-2^63` and `-1`, on the stack of a
fresh machine, leaves `Integer -2^63`, whereas the quotient rounded towards zero is
`2^63`. -/
theorem C20_counterexample :
    ∃ v, dispatch [OpQuo] OpQuo
        ⟨[], [] ++ some (.Integer 10 (-9223372036854775808)) :: some (.Integer 11 (-1))
            :: List.replicate 2046 none,
          (([] : List (Option Object)).length : Int) + 2, [], [], 0, 12⟩ = (.ok (), v)
      ∧ v.stack.head? = some (some (.Integer 12 (-9223372036854775808)))
      ∧ Int.tdiv (-9223372036854775808) (-1) = 9223372036854775808 :=
  ⟨_, dispatch_arith4 OpQuo [] [] (List.replicate 2046 none) 10 11 _ _ [] [] 0 12 [OpQuo]
      (by decide) (Or.inr (Or.inr (Or.inr ⟨rfl, by decide⟩))), rfl, by decide⟩

/-! ## Theorems: identifiers -/

theorem GetDefine_ok_iff (name : String) (t : SymbolTable) :
    (t.GetDefine name).1.2 = t.resolves name := by
  induction t using SymbolTable.chain_induction with
  | outermost st c ctx =>
    cases hget : storeGet st name with
    | none => rw [GetDefine_outermost hget]; simp [SymbolTable.resolves, hget]
    | some sym => rw [GetDefine_hit hget]; simp [SymbolTable.resolves, hget]
  | enclosed st c e ctx ih =>
    cases hget : storeGet st name with
    | some sym => rw [GetDefine_hit hget]; simp [SymbolTable.resolves, hget]
    | none =>
      rw [GetDefine_miss hget]
      simp only [SymbolTable.resolves, hget, Option.isSome_none, Bool.false_or, ← ih]
      split
      · rfl
      · split
        · rfl
        · rename_i h _
          simpa using h

theorem GetDefine_unresolved (name : String) (t : SymbolTable)
    (h : t.resolves name = false) : (t.GetDefine name).2 = t := by
  induction t using SymbolTable.chain_induction with
  | outermost st c ctx =>
    cases hget : storeGet st name with
    | none => rw [GetDefine_outermost hget]
    | some sym => rw [GetDefine_hit hget]
  | enclosed st c e ctx ih =>
    cases hget : storeGet st name with
    | some sym => rw [GetDefine_hit hget]
    | none =>
      simp only [SymbolTable.resolves, hget, Option.isSome_none, Bool.false_or] at h
      rw [GetDefine_miss hget]
      have hok : (e.GetDefine name).1.2 = false := by rw [GetDefine_ok_iff, h]
      simp only [hok, Bool.not_false, if_true, ih h]

theorem GetDefine_knownScope (name : String) (t : SymbolTable) (ht : t.WF)
    (h : t.resolves name = true) : knownScope (t.GetDefine name).1.1.Scope := by
  have := (GetDefine_StoreAll (fun k v => v.Name = k ∧ knownScope v.Scope)
    (fun k v h => h.1) (fun k i => ⟨rfl, by simp [knownScope]⟩) name t ht).2
  rw [GetDefine_ok_iff] at this
  exact (this h).2

theorem loadSymbol_eq (s : Symbol) (op : Opcode) (operands : List Int) (d : Definition)
    (hs : specLoad s = some (op, operands)) (hd : definitions op = some d)
    (cs : List Object) (tbl : Option SymbolTable) (pre post : List CompilationScope)
    (sc : CompilationScope) (hp : Nat) :
    operands.length = d.OperandWidths.length ∧
    loadSymbol s ⟨cs, tbl, pre ++ sc :: post, pre.length, hp⟩
      = (.ok (), ⟨cs, tbl,
          pre ++ ⟨sc.instructions ++ specInstruction op d.OperandWidths operands,
            ⟨op, sc.instructions.length⟩, sc.lastInstruction⟩ :: post, pre.length, hp⟩) := by
  unfold specLoad at hs
  unfold loadSymbol
  split_ifs at hs with h1 h2 h3 h4 h5 <;>
    simp only [Option.some.injEq, Prod.mk.injEq] at hs <;>
    obtain ⟨rfl, rfl⟩ := hs
  · obtain rfl : (⟨"OpGetGlobal", [2]⟩ : Definition) = d := Option.some.inj hd
    refine ⟨rfl, ?_⟩
    rw [if_pos h1]
    simp only [M_bind_apply, M_pure_apply,
      emit_eq _ _ _ _ _ _ _ _ _ (make_eq_spec OpGetGlobal _ [s.Index] rfl rfl)]
  · obtain rfl : (⟨"OpGetLocal", [1]⟩ : Definition) = d := Option.some.inj hd
    refine ⟨rfl, ?_⟩
    rw [if_neg h1, if_pos h2]
    simp only [M_bind_apply, M_pure_apply,
      emit_eq _ _ _ _ _ _ _ _ _ (make_eq_spec OpGetLocal _ [s.Index] rfl rfl)]
  · obtain rfl : (⟨"OpGetBuiltin", [1]⟩ : Definition) = d := Option.some.inj hd
    refine ⟨rfl, ?_⟩
    rw [if_neg h1, if_neg h2, if_pos h3]
    simp only [M_bind_apply, M_pure_apply,
      emit_eq _ _ _ _ _ _ _ _ _ (make_eq_spec OpGetBuiltin _ [s.Index] rfl rfl)]
  · obtain rfl : (⟨"OpContext", [1]⟩ : Definition) = d := Option.some.inj hd
    refine ⟨rfl, ?_⟩
    rw [if_neg h1, if_neg h2, if_neg h3, if_pos h4]
    simp only [M_bind_apply, M_pure_apply,
      emit_eq _ _ _ _ _ _ _ _ _ (make_eq_spec OpContext _ [s.Index] rfl rfl)]
  · obtain rfl : (⟨"OpCurrClosure", []⟩ : Definition) = d := Option.some.inj hd
    refine ⟨rfl, ?_⟩
    rw [if_neg h1, if_neg h2, if_neg h3, if_neg h4, if_pos h5]
    simp only [M_bind_apply, M_pure_apply,
      emit_eq _ _ _ _ _ _ _ _ _ (make_eq_spec OpCurrClosure _ [] rfl rfl)]

theorem specLoad_of_knownScope (s : Symbol) (h : knownScope s.Scope) :
    ∃ op operands d, specLoad s = some (op, operands) ∧ definitions op = some d := by
  unfold specLoad
  rcases h with h | h | h | h | h <;> rw [h]
  · exact ⟨_, _, _, rfl, rfl⟩
  · exact ⟨_, _, _, rfl, rfl⟩
  · exact ⟨_, _, _, rfl, rfl⟩
  · exact ⟨_, _, _, rfl, rfl⟩
  · exact ⟨_, _, _, rfl, rfl⟩

/-- C19: compiling an identifier. From a state whose symbol table is well formed, the
compilation of `Identifier name` returns an error exactly when `name` is a key of
neither the current table nor an enclosing one; it then returns `undefined variable`
and leaves the whole state (instructions and constants included) as it was. When the
name resolves, to the symbol `GetDefine` returns, no error is returned, the constants
are unchanged, and exactly one instruction is appended to the current scope: the load
instruction of the symbol's scope (`OpGetGlobal`, `OpGetLocal`, `OpGetBuiltin` or
`OpContext` with the symbol's index, or `OpCurrClosure`). -/
theorem C19_identifier (ks : Node → String) (name : String) (cs : List Object)
    (t : SymbolTable) (pre post : List CompilationScope) (sc : CompilationScope) (hp : Nat)
    (hwf : t.WF) :
    ((∃ e, (Compile ks (.Identifier name)
        ⟨cs, some t, pre ++ sc :: post, pre.length, hp⟩).1 = .error e)
      ↔ t.resolves name = false)
    ∧ (t.resolves name = false →
        Compile ks (.Identifier name) ⟨cs, some t, pre ++ sc :: post, pre.length, hp⟩
          = (.error (.error ("undefined variable " ++ name)),
              ⟨cs, some t, pre ++ sc :: post, pre.length, hp⟩))
    ∧ (t.resolves name = true →
        ∃ op operands d, specLoad (t.GetDefine name).1.1 = some (op, operands)
          ∧ definitions op = some d ∧ operands.length = d.OperandWidths.length
          ∧ Compile ks (.Identifier name) ⟨cs, some t, pre ++ sc :: post, pre.length, hp⟩
            = (.ok (), ⟨cs, some (t.GetDefine name).2,
                pre ++ ⟨sc.instructions ++ specInstruction op d.OperandWidths operands,
                  ⟨op, sc.instructions.length⟩, sc.lastInstruction⟩ :: post,
                pre.length, hp⟩)) := by
  have hbad : t.resolves name = false →
      Compile ks (.Identifier name) ⟨cs, some t, pre ++ sc :: post, pre.length, hp⟩
        = (.error (.error ("undefined variable " ++ name)),
            ⟨cs, some t, pre ++ sc :: post, pre.length, hp⟩) := by
    intro h
    rw [Compile]
    simp only [M_bind_apply, onSymbolTable, GetDefine_ok_iff, h, Bool.not_false, if_true,
      GetDefine_unresolved name t h, M.fail]
  have hgood : t.resolves name = true →
      ∃ op operands d, specLoad (t.GetDefine name).1.1 = some (op, operands)
        ∧ definitions op = some d ∧ operands.length = d.OperandWidths.length
        ∧ Compile ks (.Identifier name) ⟨cs, some t, pre ++ sc :: post, pre.length, hp⟩
          = (.ok (), ⟨cs, some (t.GetDefine name).2,
              pre ++ ⟨sc.instructions ++ specInstruction op d.OperandWidths operands,
                ⟨op, sc.instructions.length⟩, sc.lastInstruction⟩ :: post,
              pre.length, hp⟩) := by
    intro h
    obtain ⟨op, operands, d, hs, hd⟩ :=
      specLoad_of_knownScope _ (GetDefine_knownScope name t hwf h)
    have hl := loadSymbol_eq _ op operands d hs hd cs (some (t.GetDefine name).2) pre post sc hp
    refine ⟨op, operands, d, hs, hd, hl.1, ?_⟩
    rw [Compile]
    simp only [M_bind_apply, onSymbolTable, GetDefine_ok_iff, h, Bool.not_true, if_false]
    exact hl.2
  refine ⟨⟨?_, ?_⟩, hbad, hgood⟩
  · rintro ⟨e, he⟩
    cases hr : t.resolves name with
    | false => rfl
    | true =>
      obtain ⟨_, _, _, _, _, _, hc⟩ := hgood hr
      rw [hc] at he
      cases he
  · intro h
    exact ⟨_, by rw [hbad h]⟩

/-- Witness of C19: in the table of a fresh compiler, `len` resolves (to a builtin) and
the table is well formed. -/
theorem C19_identifier_witness :
    (defineBuiltins builtinNames 0 NewSymbolTable).WF ∧
    (((∃ e, (Compile (fun _ => "") (.Identifier "len")
        ⟨[], some (defineBuiltins builtinNames 0 NewSymbolTable),
          [] ++ ⟨[], ⟨0, 0⟩, ⟨0, 0⟩⟩ :: [], ([] : List CompilationScope).length, 0⟩).1
          = .error e)
      ↔ (defineBuiltins builtinNames 0 NewSymbolTable).resolves "len" = false)
    ∧ ((defineBuiltins builtinNames 0 NewSymbolTable).resolves "len" = false →
        Compile (fun _ => "") (.Identifier "len")
          ⟨[], some (defineBuiltins builtinNames 0 NewSymbolTable),
            [] ++ ⟨[], ⟨0, 0⟩, ⟨0, 0⟩⟩ :: [], ([] : List CompilationScope).length, 0⟩
          = (.error (.error ("undefined variable " ++ "len")),
              ⟨[], some (defineBuiltins builtinNames 0 NewSymbolTable),
                [] ++ ⟨[], ⟨0, 0⟩, ⟨0, 0⟩⟩ :: [], ([] : List CompilationScope).length, 0⟩))
    ∧ ((defineBuiltins builtinNames 0 NewSymbolTable).resolves "len" = true →
        ∃ op operands d,
          specLoad ((defineBuiltins builtinNames 0 NewSymbolTable).GetDefine "len").1.1
            = some (op, operands)
          ∧ definitions op = some d ∧ operands.length = d.OperandWidths.length
          ∧ Compile (fun _ => "") (.Identifier "len")
              ⟨[], some (defineBuiltins builtinNames 0 NewSymbolTable),
                [] ++ ⟨[], ⟨0, 0⟩, ⟨0, 0⟩⟩ :: [], ([] : List CompilationScope).length, 0⟩
            = (.ok (), ⟨[],
                some ((defineBuiltins builtinNames 0 NewSymbolTable).GetDefine "len").2,
                [] ++ ⟨([] : List Nat) ++ specInstruction op d.OperandWidths operands,
                  ⟨op, ([] : List Nat).length⟩, ⟨0, 0⟩⟩ :: [],
                ([] : List CompilationScope).length, 0⟩))) :=
  ⟨by simp [SymbolTable.WF, SymbolTable.StoreAll, defineBuiltins, builtinNames,
      NewSymbolTable, DefineBuiltin, storeSet, knownScope],
    C19_identifier (fun _ => "") "len" [] (defineBuiltins builtinNames 0 NewSymbolTable)
      [] [] ⟨[], ⟨0, 0⟩, ⟨0, 0⟩⟩ 0
      (by simp [SymbolTable.WF, SymbolTable.StoreAll, defineBuiltins, builtinNames,
        NewSymbolTable, DefineBuiltin, storeSet, knownScope])⟩

/-! ## Theorems: map literals -/

theorem strLess_go_iff (xs ys : List Char) : strLess.go xs ys = true ↔ xs < ys := by
  induction xs generalizing ys with
  | nil =>
    cases ys with
    | nil =>
      simp only [strLess.go, Bool.false_eq_true, false_iff]
      exact fun h => by cases h
    | cons y ys =>
      simp only [strLess.go, true_iff]
      exact List.Lex.nil
  | cons x xs ih =>
    cases ys with
    | nil =>
      simp only [strLess.go, Bool.false_eq_true, false_iff]
      exact fun h => by cases h
    | cons y ys =>
      have hxy : x.toNat < y.toNat ↔ x < y := by
        rw [Char.lt_def]; exact Iff.rfl
      have hyx : y.toNat < x.toNat ↔ y < x := by
        rw [Char.lt_def]; exact Iff.rfl
      unfold strLess.go
      by_cases h1 : x.toNat < y.toNat
      · simp only [h1, if_true, true_iff]
        exact List.Lex.rel (hxy.mp h1)
      · by_cases h2 : y.toNat < x.toNat
        · simp only [h1, h2, if_true, if_false, Bool.false_eq_true, false_iff]
          intro h
          cases h with
          | cons h => exact h1 h2
          | rel h => exact h1 (hxy.mpr h)
        · have hxeq : x = y := Char.ext (UInt32.toNat.inj (by unfold Char.toNat at h1 h2; omega))
          subst hxeq
          simp only [h1, if_false, ih]
          exact (List.Lex.cons_iff (r := fun a b : Char => a < b)).symm

/-- The comparison of the source is the lexicographic order of strings. -/
theorem strLess_iff_lt (a b : String) : strLess a b = true ↔ a < b := by
  rw [String.lt_iff_toList_lt]
  exact strLess_go_iff a.data b.data

theorem not_strLess_iff_le (a b : String) : (!(strLess b a)) = true ↔ a ≤ b := by
  rw [Bool.not_eq_true', ← not_lt, ← strLess_iff_lt]
  simp

theorem CompilePairs_eq_map (ks : Node → String) (l : List (Node × Node)) :
    CompilePairs ks l = l.map (fun p => (ks p.1, do Compile ks p.1; Compile ks p.2)) := by
  induction l with
  | nil => rw [CompilePairs]; rfl
  | cons p rest ih =>
    obtain ⟨k, v⟩ := p
    rw [CompilePairs, ih]
    rfl

theorem runAll_CompilePairs (ks : Node → String) (l : List (Node × Node)) :
    runAll (CompilePairs ks l) = compileEntries ks l := by
  induction l with
  | nil => rw [CompilePairs]; rfl
  | cons p rest ih =>
    obtain ⟨k, v⟩ := p
    rw [CompilePairs, runAll, compileEntries, ih]
    funext c
    simp only [M_bind_apply]
    rcases Compile ks k c with ⟨r, c1⟩
    cases r with
    | error e => rfl
    | ok a => rfl

theorem sortByKey_CompilePairs (ks : Node → String) (l : List (Node × Node)) :
    sortByKey (CompilePairs ks l) = CompilePairs ks (sortEntries ks l) := by
  rw [CompilePairs_eq_map, CompilePairs_eq_map, sortByKey, sortEntries]
  exact (List.map_insertionSort
    (fun p q : Node × Node => (!(strLess (ks q.1) (ks p.1))) = true)
    (fun a b : String × M Compiler Unit => (!(strLess b.1 a.1)) = true)
    (fun p => (ks p.1, do Compile ks p.1; Compile ks p.2)) l (fun a _ b _ => Iff.rfl)).symm

theorem sortEntries_perm (ks : Node → String) (l : List (Node × Node)) :
    (sortEntries ks l).Perm l := List.perm_insertionSort _ l

theorem sortEntries_sorted (ks : Node → String) (l : List (Node × Node)) :
    (sortEntries ks l).Pairwise (fun p q => ks p.1 ≤ ks q.1) := by
  haveI : IsTotal (Node × Node) (fun p q => (!(strLess (ks q.1) (ks p.1))) = true) :=
    ⟨fun p q => by
      rw [not_strLess_iff_le, not_strLess_iff_le]
      exact le_total _ _⟩
  haveI : IsTrans (Node × Node) (fun p q => (!(strLess (ks q.1) (ks p.1))) = true) :=
    ⟨fun p q r => by
      rw [not_strLess_iff_le, not_strLess_iff_le, not_strLess_iff_le]
      exact le_trans⟩
  have h := List.sorted_insertionSort
    (fun p q : Node × Node => (!(strLess (ks q.1) (ks p.1))) = true) l
  exact List.Pairwise.imp (fun {p q} h => (not_strLess_iff_le _ _).mp h) h

theorem sortEntries_unique (ks : Node → String) (l l1 : List (Node × Node))
    (hd : (l.map (fun p => ks p.1)).Nodup) (hp : l1.Perm l) :
    sortEntries ks l1 = sortEntries ks l := by
  have hp1 : (sortEntries ks l1).Perm (sortEntries ks l) :=
    ((sortEntries_perm ks l1).trans hp).trans (sortEntries_perm ks l).symm
  refine List.Perm.eq_of_sorted ?_ (sortEntries_sorted ks l1) (sortEntries_sorted ks l) hp1
  intro a b ha hb hab hba
  have ha1 : a ∈ l := hp.mem_iff.mp ((sortEntries_perm ks l1).mem_iff.mp ha)
  have hb1 : b ∈ l := (sortEntries_perm ks l).mem_iff.mp hb
  exact List.inj_on_of_nodup_map hd ha1 hb1 (le_antisymm hab hba)

theorem sortEntries_strict (ks : Node → String) (l : List (Node × Node))
    (hd : (l.map (fun p => ks p.1)).Nodup) :
    ((sortEntries ks l).map (fun p => ks p.1)).Pairwise (fun a b => a < b) := by
  have hnd : ((sortEntries ks l).map (fun p => ks p.1)).Nodup :=
    (List.Perm.nodup_iff ((sortEntries_perm ks l).map _)).mpr hd
  have hs : ((sortEntries ks l).map (fun p => ks p.1)).Pairwise (fun a b => a ≤ b) :=
    List.pairwise_map.mpr (sortEntries_sorted ks l)
  exact (hs.and hnd).imp (fun {a b} h => lt_of_le_of_ne h.1 h.2)

/-- C18: the order of a map literal. For a map literal whose keys print pairwise
differently, the compiler runs the code of key 1, value 1, ..., key n, value n and then
emits `OpMap 2n`, where the entries are those of the literal taken in strictly
ascending lexicographic order of the printed keys; listing the entries of the literal
in another order gives the very same compilation. -/
theorem C18_map_literal_order (ks : Node → String) (elements : List (Node × Node))
    (hd : (elements.map (fun p => ks p.1)).Nodup) :
    ∃ sorted : List (Node × Node), sorted.Perm elements
      ∧ (sorted.map (fun p => ks p.1)).Pairwise (fun a b => strLess a b = true ∧ a < b)
      ∧ Compile ks (.Map elements) = (do
          compileEntries ks sorted
          let _ ← emit OpMap [elements.length * 2])
      ∧ ∀ elements1 : List (Node × Node), elements1.Perm elements →
          Compile ks (.Map elements1) = Compile ks (.Map elements) := by
  refine ⟨sortEntries ks elements, sortEntries_perm ks elements,
    (sortEntries_strict ks elements hd).imp (fun {a b} h => ⟨(strLess_iff_lt a b).mpr h, h⟩),
    ?_, ?_⟩
  · rw [Compile, sortByKey_CompilePairs, runAll_CompilePairs]
  · intro elements1 hp
    rw [Compile, Compile, sortByKey_CompilePairs, sortByKey_CompilePairs,
      sortEntries_unique ks elements elements1 hd hp, hp.length_eq]

/-- Witness of C18: the literal with the entries `"b": 2` and `"a": 1`, listed in this
order. -/
theorem C18_map_literal_order_witness :
    ([(Node.StringLit "b", Node.Integer 2), (Node.StringLit "a", Node.Integer 1)].map
        (fun p => witnessKeyString p.1)).Nodup
    ∧ ∃ sorted : List (Node × Node),
      sorted.Perm [(Node.StringLit "b", Node.Integer 2), (Node.StringLit "a", Node.Integer 1)]
      ∧ (sorted.map (fun p => witnessKeyString p.1)).Pairwise
          (fun a b => strLess a b = true ∧ a < b)
      ∧ Compile witnessKeyString
          (.Map [(Node.StringLit "b", Node.Integer 2), (Node.StringLit "a", Node.Integer 1)])
        = (do
          compileEntries witnessKeyString sorted
          let _ ← emit OpMap
            [[(Node.StringLit "b", Node.Integer 2),
              (Node.StringLit "a", Node.Integer 1)].length * 2])
      ∧ ∀ elements1 : List (Node × Node),
          elements1.Perm
            [(Node.StringLit "b", Node.Integer 2), (Node.StringLit "a", Node.Integer 1)] →
          Compile witnessKeyString (.Map elements1)
            = Compile witnessKeyString
                (.Map [(Node.StringLit "b", Node.Integer 2),
                  (Node.StringLit "a", Node.Integer 1)]) :=
  ⟨by decide, C18_map_literal_order witnessKeyString
    [(Node.StringLit "b", Node.Integer 2), (Node.StringLit "a", Node.Integer 1)] (by decide)⟩

/-! ## Theorems: single instructions, continued -/

/-! ### The body `dispatch` runs for an opcode -/

theorem dispatch_OpIndex_eq (ins : Instructions) :
    dispatch ins OpIndex = (do
      let index ← pop
      let left ← pop
      executeIndexOperation left index) := rfl

theorem dispatch_comparison_eq (ins : Instructions) (op : Opcode)
    (hop : op = OpEQL ∨ op = OpNEQ ∨ op = OpGTR) :
    dispatch ins op = executeComparisonOperation op := by
  rcases hop with rfl | rfl | rfl <;> rfl

theorem dispatch_OpBang_eq (ins : Instructions) :
    dispatch ins OpBang = executeBangOperation := rfl

theorem dispatch_OpJump_eq (ins : Instructions) :
    dispatch ins OpJump = (do
      let pos ← readUint16After ins 1
      setIp ((pos : Int) - 1)) := rfl

theorem dispatch_OpJumpConditionNotTrue_eq (ins : Instructions) :
    dispatch ins OpJumpConditionNotTrue = (do
      let pos ← readUint16After ins 1
      advanceIp 2
      let c ← pop
      if !(isTrue c) then setIp ((pos : Int) - 1)) := rfl

theorem dispatch_OpCall_eq (ins : Instructions) :
    dispatch ins OpCall = (do
      let args ← readUint8After ins 1
      advanceIp 1
      executeCall args) := rfl

theorem dispatch_OpReturnValue_eq (ins : Instructions) :
    dispatch ins OpReturnValue = (do
      let val ← pop
      let frame ← popFrame
      let v ← M.get
      M.set { v with sp := frame.basePointer - 1 }
      push val) := rfl

theorem dispatch_OpReturn_eq (ins : Instructions) :
    dispatch ins OpReturn = (do
      let frame ← popFrame
      let v ← M.get
      M.set { v with sp := frame.basePointer - 1 }
      push (some Nil)) := rfl

theorem dispatch_OpGetBuiltin_eq (ins : Instructions) :
    dispatch ins OpGetBuiltin = (do
      let idx ← readUint8After ins 1
      advanceIp 1
      let builtin ← M.lift (GetBuiltinByIndex idx)
      match builtin with
      | none => M.fail (.error "invalid built-in function index")
      | some b => push (some b)) := rfl

theorem dispatch_unknown (ins : Instructions) (op : Opcode) (hop : OpNil < op) :
    dispatch ins op = pure () := by
  have e : ∀ k : Nat, k ≤ 29 → ¬ op = k := fun k hk h => by
    subst h
    exact absurd hop (Nat.not_lt.mpr hk)
  unfold dispatch
  rw [if_neg (e OpConstant (by decide)), if_neg (e OpArray (by decide)),
    if_neg (e OpMap (by decide)), if_neg (e OpIndex (by decide)),
    if_neg (by rintro (h | h | h | h) <;> exact e _ (by decide) h),
    if_neg (e OpTrue (by decide)), if_neg (e OpFalse (by decide)),
    if_neg (e OpCall (by decide)), if_neg (e OpReturnValue (by decide)),
    if_neg (e OpReturn (by decide)), if_neg (e OpGetBuiltin (by decide)),
    if_neg (e OpSetGlobal (by decide)), if_neg (e OpGetGlobal (by decide)),
    if_neg (e OpSetLocal (by decide)), if_neg (e OpGetLocal (by decide)),
    if_neg (by rintro (h | h | h) <;> exact e _ (by decide) h),
    if_neg (e OpMinus (by decide)), if_neg (e OpBang (by decide)),
    if_neg (e OpJump (by decide)), if_neg (e OpClosure (by decide)),
    if_neg (e OpContext (by decide)), if_neg (e OpCurrClosure (by decide)),
    if_neg (e OpJumpConditionNotTrue (by decide)), if_neg (e OpNil (by decide)),
    if_neg (e OpPop (by decide))]

/-- One round of the loop of `defaultVmHandler` in which the instruction fails: the loop
ends with the failure. -/
theorem loop_round_error (cs : List Object) (st : List (Option Object)) (sp : Int)
    (g : List (Option Object)) (fpre fpost : List (Option Frame)) (cl : Closure) (bp : Int)
    (hp : Nat) (ipre ipost : List Nat) (op : Nat) (fuel : Nat) (v1 : VM) (e : Fault)
    (hins : cl.Fn.Instructions = ipre ++ op :: ipost)
    (hd : dispatch (ipre ++ op :: ipost) op
        ⟨cs, st, sp, g, fpre ++ some ⟨cl, (ipre.length : Int), bp⟩ :: fpost,
          (fpre.length : Int) + 1, hp⟩ = (.error e, v1)) :
    defaultVmHandler (fuel + 1)
        ⟨cs, st, sp, g, fpre ++ some ⟨cl, (ipre.length : Int) - 1, bp⟩ :: fpost,
          (fpre.length : Int) + 1, hp⟩
      = some (.error e, v1) := by
  have hlen : ((ipre.length : Int) - 1 < ((ipre ++ op :: ipost).length : Int) - 1) := by
    simp only [List.length_append, List.length_cons]; omega
  rw [defaultVmHandler, loopCondition_eq]
  simp only [Frame.Instructions, hins, hlen, decide_True]
  simp only [loopBody, M_bind_apply, advanceIp_eq, curFrame_eq, sub_add_cancel,
    Frame.Instructions, hins, M.lift, getAt_append_cons, hd]

/-- The loop of `defaultVmHandler` ends without error when the instruction pointer of the
current frame is at the last byte of its code (or beyond). -/
theorem loop_end (cs : List Object) (st : List (Option Object)) (sp : Int)
    (g : List (Option Object)) (fpre fpost : List (Option Frame)) (f : Frame) (hp : Nat)
    (fuel : Nat) (hip : (f.Instructions.length : Int) - 1 ≤ f.ip) :
    defaultVmHandler (fuel + 1)
        ⟨cs, st, sp, g, fpre ++ some f :: fpost, (fpre.length : Int) + 1, hp⟩
      = some (.ok (), ⟨cs, st, sp, g, fpre ++ some f :: fpost, (fpre.length : Int) + 1, hp⟩) := by
  have h : ¬ (f.ip < (f.Instructions.length : Int) - 1) := by omega
  rw [defaultVmHandler, loopCondition_eq]
  simp only [h, decide_False]

/-- The machine `NewVM` builds, with its stack and frames split at the first slot. -/
theorem NewVM_eq (ins : Instructions) (cs : List Object) (heap : Nat) :
    NewVM ⟨ins, cs⟩ heap
      = ⟨cs, [] ++ none :: List.replicate 2047 none, (([] : List (Option Object)).length : Int),
          List.replicate GlobalsSize none,
          [] ++ some ⟨⟨heap + 1, heap, ⟨ins, 0, 0⟩, []⟩, (([] : List Nat).length : Int) - 1, 0⟩
            :: List.replicate 2047 none,
          (([] : List (Option Frame)).length : Int) + 1, heap + 2⟩ := rfl

/-- C28: an undefined opcode is skipped, not reported. `Run` on the two bytes `255`,
`OpTrue` does not return an error at the fetch of `255`: it goes on with the following
byte, pushes `True` and returns without error, for every amount of fuel from 3 on. -/
theorem C28_unknown_opcode_skipped (heap fuel : Nat) :
    ∃ v, VM.Run (fuel + 3) (NewVM ⟨[255, OpTrue], []⟩ heap) = some (.ok (), v)
      ∧ v.sp = 1 ∧ getAt v.stack 0 = .ok (some True) := by
  have h1 := loop_round [] ([] ++ none :: List.replicate 2047 none)
    (([] : List (Option Object)).length : Int) (List.replicate GlobalsSize none) []
    (List.replicate 2047 none) ⟨heap + 1, heap, ⟨[255, OpTrue], 0, 0⟩, []⟩ 0 (heap + 2) []
    [OpTrue] 255 (fuel + 2) _ rfl
    (by rw [dispatch_unknown _ 255 (by decide)]; rfl)
  have hd2 : dispatch ([255] ++ OpTrue :: []) OpTrue
      ⟨[], [] ++ none :: List.replicate 2047 none, (([] : List (Option Object)).length : Int),
        List.replicate GlobalsSize none,
        [] ++ some ⟨⟨heap + 1, heap, ⟨[255, OpTrue], 0, 0⟩, []⟩, (([255] : List Nat).length : Int),
          0⟩ :: List.replicate 2047 none, (([] : List (Option Frame)).length : Int) + 1,
        heap + 2⟩ = (.ok (), _) :=
    push_eq [] [] (List.replicate 2047 none) none (some True) (List.replicate GlobalsSize none)
      _ _ (heap + 2) (by decide)
  have h2 := loop_round [] ([] ++ none :: List.replicate 2047 none)
    (([] : List (Option Object)).length : Int) (List.replicate GlobalsSize none) []
    (List.replicate 2047 none) ⟨heap + 1, heap, ⟨[255, OpTrue], 0, 0⟩, []⟩ 0 (heap + 2) [255]
    [] OpTrue (fuel + 1) _ rfl hd2
  have h3 := loop_end [] ([] ++ some True :: List.replicate 2047 none)
    ((([] : List (Option Object)).length : Int) + 1) (List.replicate GlobalsSize none) []
    (List.replicate 2047 none) ⟨⟨heap + 1, heap, ⟨[255, OpTrue], 0, 0⟩, []⟩,
      (([255] : List Nat).length : Int), 0⟩ (heap + 2) fuel
    (by show (([255, OpTrue] : List Nat).length : Int) - 1 ≤ (([255] : List Nat).length : Int)
        decide)
  have hrun := h1.trans (h2.trans h3)
  refine ⟨_, (congrArg (defaultVmHandler (fuel + 3)) (NewVM_eq _ _ _)).trans hrun, ?_, ?_⟩
  · show (([] : List (Option Object)).length : Int) + 1 = 1
    rfl
  · exact getAt_append_cons [] _ _

/-- C29: the bound of `GetBuiltinByIndex` is off by one. The two registered builtins are
returned for the indices 0 and 1, and nil for a negative index and for an index above
2; for the index 2, the number of builtins, the guard `idx > len(builtins)` lets the
index through and `builtins[2]` panics. -/
theorem C29_builtin_index_off_by_one :
    GetBuiltinByIndex 0 = .ok (some (.Builtin 0))
    ∧ GetBuiltinByIndex 1 = .ok (some (.Builtin 1))
    ∧ GetBuiltinByIndex (-1) = .ok none
    ∧ GetBuiltinByIndex 3 = .ok none
    ∧ GetBuiltinByIndex 255 = .ok none
    ∧ GetBuiltinByIndex (builtinNames.length : Nat) = .error (.panic "index out of range") :=
  ⟨rfl, rfl, rfl, rfl, rfl, rfl⟩

/-- C26 (as amended): overflow of the operand stack. `push` returns `ErrStackOverflow`
exactly when `sp >= StackSize`, and it then leaves the machine (`sp` and every stack slot)
as it was. When `0 <= sp < StackSize`, on the stack of `StackSize` slots, it returns no
error, stores the value at `stack[sp]`, changes no other slot and raises `sp` by one. -/
theorem C26_push (o : Option Object) (v : VM) :
    ((push o v).1 = .error ErrStackOverflow ↔ v.sp ≥ (StackSize : Int))
    ∧ (v.sp ≥ (StackSize : Int) → push o v = (.error ErrStackOverflow, v))
    ∧ (0 ≤ v.sp → v.sp < (StackSize : Int) → v.stack.length = StackSize →
        push o v = (.ok (), { v with stack := v.stack.set v.sp.toNat o, sp := v.sp + 1 })) := by
  have hover : v.sp ≥ (StackSize : Int) → push o v = (.error ErrStackOverflow, v) := by
    intro h
    simp only [push, M_bind_apply, M.get, h, if_true, M.fail]
  have hok : 0 ≤ v.sp → v.sp < (StackSize : Int) → v.stack.length = StackSize →
      push o v = (.ok (), { v with stack := v.stack.set v.sp.toNat o, sp := v.sp + 1 }) := by
    intro h0 h1 hlen
    have h2 : ¬ (v.sp ≥ (StackSize : Int)) := by omega
    have h3 : ¬ (v.sp < 0) := by omega
    have h4 : v.sp.toNat < v.stack.length := by omega
    simp only [push, M_bind_apply, M.get, h2, if_false, M.lift, setAt, h3, setIndex, h4, if_true,
      M.set]
  refine ⟨⟨fun h => ?_, fun h => by rw [hover h]⟩, hover, hok⟩
  by_contra hlt
  have h2 : ¬ (v.sp ≥ (StackSize : Int)) := hlt
  simp only [push, M_bind_apply, M.get, h2, if_false, M.lift, setAt, setIndex] at h
  split_ifs at h <;> simp [M.set, ErrStackOverflow] at h

/-- Witness of C26: a push on the empty stack of a fresh machine. -/
theorem C26_push_witness :
    push (some True) (NewVM ⟨[], []⟩ 0)
      = (.ok (), { NewVM ⟨[], []⟩ 0 with
          stack := (NewVM ⟨[], []⟩ 0).stack.set (NewVM ⟨[], []⟩ 0).sp.toNat (some True),
          sp := (NewVM ⟨[], []⟩ 0).sp + 1 }) :=
  (C26_push (some True) (NewVM ⟨[], []⟩ 0)).2.2 (by decide) (by decide)
    (List.length_replicate _ _)

/-- Counterexample to C26 as stated: with `sp = -1` (which is below `StackSize`), `push`
neither stores the value nor returns `ErrStackOverflow`: `stack[-1]` panics. -/
theorem C26_counterexample :
    ((-1 : Int) < (StackSize : Int))
    ∧ push (some True) ⟨[], List.replicate StackSize none, -1, [], [], 1, 0⟩
      = (.error (.panic "index out of range"),
          ⟨[], List.replicate StackSize none, -1, [], [], 1, 0⟩) :=
  ⟨by decide, rfl⟩

theorem False_ne_True : (False : Object) ≠ True := by
  intro h
  simp [False, True] at h

theorem dispatch_OpBang (cs : List Object) (lo hi : List (Option Object))
    (x : Option Object) (g : List (Option Object)) (frs : List (Option Frame))
    (fi : Int) (hp : Nat) (ins : List Nat) (hlt : lo.length < 2048) :
    dispatch ins OpBang ⟨cs, lo ++ x :: hi, (lo.length : Int) + 1, g, frs, fi, hp⟩
      = (.ok (), ⟨cs,
          lo ++ some (if sameObject x (some True) then False
            else if sameObject x (some False) then True
            else if sameObject x (some Nil) then True else False) :: hi,
          (lo.length : Int) + 1, g, frs, fi, hp⟩) := by
  rw [dispatch_OpBang_eq]
  simp only [executeBangOperation, M_bind_apply, pop_eq]
  split_ifs <;> exact push_eq _ _ _ _ _ _ _ _ _ hlt

/-- C22: `OpBang`. It returns no error, leaves `sp` as it is and replaces the top of the
stack `x` by a value `r` that is `False` when `x` is (the object) `True`, `True` when `x`
is `False`, `True` when `x` is `Nil`, and `False` for every other value, among them every
Integer (0 included), String, Array, Map and closure. A second `OpBang` then leaves
`True` exactly when `x` is neither `False` nor `Nil`. -/
theorem C22_bang (cs : List Object) (lo hi : List (Option Object))
    (x : Option Object) (g : List (Option Object)) (frs : List (Option Frame))
    (fi : Int) (hp : Nat) (ins : List Nat) (hlt : lo.length < StackSize) :
    ∃ r r2 : Object,
      dispatch ins OpBang ⟨cs, lo ++ x :: hi, (lo.length : Int) + 1, g, frs, fi, hp⟩
        = (.ok (), ⟨cs, lo ++ some r :: hi, (lo.length : Int) + 1, g, frs, fi, hp⟩)
      ∧ dispatch ins OpBang ⟨cs, lo ++ some r :: hi, (lo.length : Int) + 1, g, frs, fi, hp⟩
        = (.ok (), ⟨cs, lo ++ some r2 :: hi, (lo.length : Int) + 1, g, frs, fi, hp⟩)
      ∧ (x = some True → r = False) ∧ (x = some False → r = True) ∧ (x = some Nil → r = True)
      ∧ (sameObject x (some True) = false → sameObject x (some False) = false →
          sameObject x (some Nil) = false → r = False)
      ∧ (∀ a n, x = some (.Integer a n) → r = False)
      ∧ (∀ a s, x = some (.Stringer a s) → r = False)
      ∧ (∀ a l, x = some (.Array a l) → r = False)
      ∧ (∀ a l, x = some (.Map a l) → r = False)
      ∧ (∀ a fa fn ctx, x = some (.Closure a fa fn ctx) → r = False)
      ∧ (r2 = True ↔ (sameObject x (some False) = false ∧ sameObject x (some Nil) = false)) := by
  have hlt1 : lo.length < 2048 := hlt
  refine ⟨_, _, dispatch_OpBang cs lo hi x g frs fi hp ins hlt1,
    dispatch_OpBang cs lo hi _ g frs fi hp ins hlt1, ?_, ?_, ?_, ?_, ?_, ?_, ?_, ?_, ?_, ?_⟩
  · rintro rfl; rfl
  · rintro rfl; rfl
  · rintro rfl; rfl
  · intro h1 h2 h3
    simp only [h1, h2, h3, Bool.false_eq_true, if_false]
  · rintro a n rfl; rfl
  · rintro a s rfl; rfl
  · rintro a l rfl; rfl
  · rintro a l rfl; rfl
  · rintro a fa fn ctx rfl; rfl
  · by_cases h1 : sameObject x (some True) = true
    · have h2 : sameObject x (some False) = false := by
        rcases x with _ | x
        · rfl
        · cases x <;> simp_all [sameObject, True, False]
      have h3 : sameObject x (some Nil) = false := by
        rcases x with _ | x
        · rfl
        · cases x <;> simp_all [sameObject, True, Nil]
      simp only [h1, if_true, h2, h3, and_self, iff_true]
      rfl
    · by_cases h2 : sameObject x (some False) = true
      · simp only [h1, h2, if_true, if_false, Bool.true_eq_false, false_and, iff_false]
        exact False_ne_True
      · by_cases h3 : sameObject x (some Nil) = true
        · simp only [h1, h2, h3, if_true, if_false, Bool.true_eq_false, and_false, iff_false]
          exact False_ne_True
        · simp only [h1, h2, h3, if_false]
          simp only [Bool.not_eq_true] at h2 h3
          simp only [h2, h3, and_self, iff_true]
          rfl

/-- Witness of C22: `OpBang` on the integer 0 on a one-slot stack; the second `OpBang`
gives `True`. -/
theorem C22_bang_witness :
    ([] : List (Option Object)).length < StackSize
    ∧ ∃ r r2 : Object,
      dispatch [OpBang] OpBang ⟨[], [some (.Integer 5 0)], 1, [], [], 0, 6⟩
        = (.ok (), ⟨[], [some r], 1, [], [], 0, 6⟩)
      ∧ dispatch [OpBang] OpBang ⟨[], [some r], 1, [], [], 0, 6⟩
        = (.ok (), ⟨[], [some r2], 1, [], [], 0, 6⟩)
      ∧ r = False ∧ r2 = True :=
  ⟨by decide,
    match C22_bang [] [] [] (some (.Integer 5 0)) [] [] 0 6 [OpBang] (by decide) with
    | ⟨r, r2, h1, h2, _, _, _, _, h3, _, _, _, _, h4⟩ =>
      ⟨r, r2, h1, h2, h3 5 0 rfl, h4.mpr ⟨rfl, rfl⟩⟩⟩

theorem dispatch_comparison_other (op : Opcode) (cs : List Object)
    (lo hi : List (Option Object)) (l r : Option Object) (g : List (Option Object))
    (frs : List (Option Frame)) (fi : Int) (hp : Nat) (ins : List Nat)
    (hlt : lo.length < 2048) (hop : op = OpEQL ∨ op = OpNEQ)
    (hl : ∀ a n, l ≠ some (.Integer a n)) (hsome : l.isSome = true) :
    dispatch ins op ⟨cs, lo ++ l :: r :: hi, (lo.length : Int) + 2, g, frs, fi, hp⟩
      = (.ok (), ⟨cs,
          lo ++ some (translationBooleanObject
            (if op = OpEQL then sameObject l r else !(sameObject l r))) :: r :: hi,
          (lo.length : Int) + 1, g, frs, fi, hp⟩) := by
  have hpop1 := pop_eq cs (lo ++ [l]) hi r g frs fi hp
  simp only [List.append_assoc, List.singleton_append, List.length_append, List.length_singleton,
    Nat.cast_add, Nat.cast_one, add_assoc, one_add_one_eq_two] at hpop1
  rw [dispatch_comparison_eq ins op (hop.imp_right Or.inl)]
  simp only [executeComparisonOperation, M_bind_apply, hpop1, pop_eq]
  rcases l with _ | l
  · simp at hsome
  · cases l with
    | Integer a n => exact absurd rfl (hl a n)
    | _ =>
      rcases hop with rfl | rfl <;>
        simp [OpEQL, OpNEQ, push_eq _ _ _ _ _ _ _ _ _ hlt]

/-- C21 (as amended): equality of String objects is by identity. With two String objects
on top of the stack, `OpEQL` pushes `True` and `OpNEQ` pushes `False` exactly when the two
operands are the same object (same allocation), whatever their contents; for two
distinct objects `OpEQL` pushes `False` and `OpNEQ` pushes `True`, also when the contents
are equal. No error is returned and `sp` goes down by one. -/
theorem C21_string_equality (cs : List Object) (lo hi : List (Option Object))
    (a1 a2 : Nat) (s1 s2 : String) (g : List (Option Object)) (frs : List (Option Frame))
    (fi : Int) (hp : Nat) (ins : List Nat) (hlt : lo.length + 2 ≤ StackSize) :
    dispatch ins OpEQL
        ⟨cs, lo ++ some (.Stringer a1 s1) :: some (.Stringer a2 s2) :: hi,
          (lo.length : Int) + 2, g, frs, fi, hp⟩
      = (.ok (), ⟨cs,
          lo ++ some (if a1 = a2 then True else False) :: some (.Stringer a2 s2) :: hi,
          (lo.length : Int) + 1, g, frs, fi, hp⟩)
    ∧ dispatch ins OpNEQ
        ⟨cs, lo ++ some (.Stringer a1 s1) :: some (.Stringer a2 s2) :: hi,
          (lo.length : Int) + 2, g, frs, fi, hp⟩
      = (.ok (), ⟨cs,
          lo ++ some (if a1 = a2 then False else True) :: some (.Stringer a2 s2) :: hi,
          (lo.length : Int) + 1, g, frs, fi, hp⟩) := by
  have hlt1 : lo.length < 2048 := by unfold StackSize at hlt; omega
  have h1 := dispatch_comparison_other OpEQL cs lo hi (some (.Stringer a1 s1))
    (some (.Stringer a2 s2)) g frs fi hp ins hlt1 (Or.inl rfl) (fun a n h => by cases h) rfl
  have h2 := dispatch_comparison_other OpNEQ cs lo hi (some (.Stringer a1 s1))
    (some (.Stringer a2 s2)) g frs fi hp ins hlt1 (Or.inr rfl) (fun a n h => by cases h) rfl
  refine ⟨h1.trans ?_, h2.trans ?_⟩
  · by_cases h : a1 = a2 <;> simp [sameObject, translationBooleanObject, h]
  · by_cases h : a1 = a2 <;> simp [sameObject, translationBooleanObject, h, OpNEQ, OpEQL]

/-- Witness of C21: two distinct String objects holding `"a"`. -/
theorem C21_string_equality_witness :
    ([] : List (Option Object)).length + 2 ≤ StackSize
    ∧ dispatch [OpEQL] OpEQL
        ⟨[], [some (.Stringer 10 "a"), some (.Stringer 11 "a")], 2, [], [], 0, 12⟩
      = (.ok (), ⟨[], [some False, some (.Stringer 11 "a")], 1, [], [], 0, 12⟩) :=
  ⟨by decide, (C21_string_equality [] [] [] 10 11 "a" "a" [] [] 0 12 [OpEQL] (by decide)).1⟩

/-- Counterexample to C21 as stated: two String objects with the same contents `"a"`,
allocated separately (as the compiler does for two literals), on the stack of a fresh
machine: `OpEQL` pushes `False` and `OpNEQ` pushes `True`. -/
theorem C21_counterexample :
    dispatch [OpEQL] OpEQL
        ⟨[], [] ++ some (.Stringer 10 "a") :: some (.Stringer 11 "a")
            :: List.replicate 2046 none,
          (([] : List (Option Object)).length : Int) + 2, [], [], 0, 12⟩
      = (.ok (), ⟨[], [] ++ some False :: some (.Stringer 11 "a") :: List.replicate 2046 none,
          (([] : List (Option Object)).length : Int) + 1, [], [], 0, 12⟩)
    ∧ dispatch [OpNEQ] OpNEQ
        ⟨[], [] ++ some (.Stringer 10 "a") :: some (.Stringer 11 "a")
            :: List.replicate 2046 none,
          (([] : List (Option Object)).length : Int) + 2, [], [], 0, 12⟩
      = (.ok (), ⟨[], [] ++ some True :: some (.Stringer 11 "a") :: List.replicate 2046 none,
          (([] : List (Option Object)).length : Int) + 1, [], [], 0, 12⟩) :=
  ⟨dispatch_comparison_other OpEQL [] [] (List.replicate 2046 none) (some (.Stringer 10 "a"))
      (some (.Stringer 11 "a")) [] [] 0 12 [OpEQL] (by decide) (Or.inl rfl)
      (fun a n h => by cases h) rfl,
    dispatch_comparison_other OpNEQ [] [] (List.replicate 2046 none) (some (.Stringer 10 "a"))
      (some (.Stringer 11 "a")) [] [] 0 12 [OpNEQ] (by decide) (Or.inr rfl)
      (fun a n h => by cases h) rfl⟩

theorem isTrue_eq_false_iff (c : Option Object) :
    isTrue c = false ↔ (∃ a, c = some (.Boolean a false)) ∨ (∃ a, c = some (.Nil a)) := by
  rcases c with _ | c
  · simp [VM.isTrue]
  · cases c <;> simp [VM.isTrue]

theorem readUint16After_eq (cs : List Object) (st : List (Option Object)) (sp : Int)
    (g : List (Option Object)) (fpre fpost : List (Option Frame)) (cl : Closure) (bp : Int)
    (hp : Nat) (ipre ipost : List Nat) (op b0 b1 : Nat) :
    readUint16After (ipre ++ op :: b0 :: b1 :: ipost) 1
        ⟨cs, st, sp, g, fpre ++ some ⟨cl, (ipre.length : Int), bp⟩ :: fpost,
          (fpre.length : Int) + 1, hp⟩
      = (.ok (b0 * 256 + b1),
          ⟨cs, st, sp, g, fpre ++ some ⟨cl, (ipre.length : Int), bp⟩ :: fpost,
            (fpre.length : Int) + 1, hp⟩) := by
  simp only [readUint16After, M_bind_apply, curFrame_eq, M.lift, sliceFromAt_append_cons,
    ReadUint16]

theorem readUint8After_eq (cs : List Object) (st : List (Option Object)) (sp : Int)
    (g : List (Option Object)) (fpre fpost : List (Option Frame)) (cl : Closure) (bp : Int)
    (hp : Nat) (ipre ipost : List Nat) (op b0 : Nat) :
    readUint8After (ipre ++ op :: b0 :: ipost) 1
        ⟨cs, st, sp, g, fpre ++ some ⟨cl, (ipre.length : Int), bp⟩ :: fpost,
          (fpre.length : Int) + 1, hp⟩
      = (.ok b0,
          ⟨cs, st, sp, g, fpre ++ some ⟨cl, (ipre.length : Int), bp⟩ :: fpost,
            (fpre.length : Int) + 1, hp⟩) := by
  simp only [readUint8After, M_bind_apply, curFrame_eq, M.lift, sliceFromAt_append_cons,
    ReadUint8]

theorem dispatch_OpJump (cs : List Object) (st : List (Option Object)) (sp : Int)
    (g : List (Option Object)) (fpre fpost : List (Option Frame)) (cl : Closure) (bp : Int)
    (hp : Nat) (ipre ipost : List Nat) (b0 b1 : Nat) :
    dispatch (ipre ++ OpJump :: b0 :: b1 :: ipost) OpJump
        ⟨cs, st, sp, g, fpre ++ some ⟨cl, (ipre.length : Int), bp⟩ :: fpost,
          (fpre.length : Int) + 1, hp⟩
      = (.ok (), ⟨cs, st, sp, g,
          fpre ++ some ⟨cl, ((b0 * 256 + b1 : Nat) : Int) - 1, bp⟩ :: fpost,
          (fpre.length : Int) + 1, hp⟩) := by
  rw [dispatch_OpJump_eq]
  simp only [M_bind_apply, readUint16After_eq, setIp_eq]

theorem dispatch_OpJumpConditionNotTrue (cs : List Object) (lo hi : List (Option Object))
    (c : Option Object)
    (g : List (Option Object)) (fpre fpost : List (Option Frame)) (cl : Closure) (bp : Int)
    (hp : Nat) (ipre ipost : List Nat) (b0 b1 : Nat) :
    dispatch (ipre ++ OpJumpConditionNotTrue :: b0 :: b1 :: ipost) OpJumpConditionNotTrue
        ⟨cs, lo ++ c :: hi, (lo.length : Int) + 1, g,
          fpre ++ some ⟨cl, (ipre.length : Int), bp⟩ :: fpost, (fpre.length : Int) + 1, hp⟩
      = (.ok (), ⟨cs, lo ++ c :: hi, (lo.length : Int), g,
          fpre ++ some ⟨cl, if isTrue c then (ipre.length : Int) + 2
            else ((b0 * 256 + b1 : Nat) : Int) - 1, bp⟩ :: fpost,
          (fpre.length : Int) + 1, hp⟩) := by
  rw [dispatch_OpJumpConditionNotTrue_eq]
  simp only [M_bind_apply, readUint16After_eq, advanceIp_eq, pop_eq]
  cases h : isTrue c
  · simp only [Bool.not_false, if_true, setIp_eq, Bool.false_eq_true, if_false]
  · simp only [Bool.not_true, Bool.false_eq_true, if_false, if_true, M_pure_apply]

/-- C24: the jumps. In a frame whose next instruction is `OpJumpConditionNotTrue t` and
with a value `c` on top of the stack, one round of the loop pops exactly `c` (nothing
else on the stack changes) and leaves the instruction pointer so that the next
instruction fetched is the one at offset `t` when `c` is not truthy, and the one after
the jump (three bytes further) when it is. A value is not truthy exactly when it is a
Boolean `false` or a Nil; Integer 0 and the empty String are truthy. In a frame whose
next instruction is `OpJump t`, one round leaves the stack and `sp` as they are and the
next instruction fetched is the one at offset `t`. -/
theorem C24_jumps (cs : List Object) (lo hi : List (Option Object)) (c : Option Object)
    (st : List (Option Object)) (sp : Int)
    (g : List (Option Object)) (fpre fpost : List (Option Frame)) (cl cl2 : Closure)
    (bp : Int) (hp : Nat) (ipre ipost : List Nat) (b0 b1 : Nat) (fuel : Nat)
    (hins : cl.Fn.Instructions = ipre ++ OpJumpConditionNotTrue :: b0 :: b1 :: ipost)
    (hins2 : cl2.Fn.Instructions = ipre ++ OpJump :: b0 :: b1 :: ipost) :
    defaultVmHandler (fuel + 1)
        ⟨cs, lo ++ c :: hi, (lo.length : Int) + 1, g,
          fpre ++ some ⟨cl, (ipre.length : Int) - 1, bp⟩ :: fpost, (fpre.length : Int) + 1, hp⟩
      = defaultVmHandler fuel
        ⟨cs, lo ++ c :: hi, (lo.length : Int), g,
          fpre ++ some ⟨cl, (if isTrue c then ((ipre.length + 3 : Nat) : Int)
            else ((b0 * 256 + b1 : Nat) : Int)) - 1, bp⟩ :: fpost,
          (fpre.length : Int) + 1, hp⟩
    ∧ (isTrue c = false ↔ (∃ a, c = some (.Boolean a false)) ∨ (∃ a, c = some (.Nil a)))
    ∧ (∀ a, isTrue (some (.Integer a 0)) = true) ∧ (∀ a, isTrue (some (.Stringer a "")) = true)
    ∧ defaultVmHandler (fuel + 1)
        ⟨cs, st, sp, g,
          fpre ++ some ⟨cl2, (ipre.length : Int) - 1, bp⟩ :: fpost, (fpre.length : Int) + 1, hp⟩
      = defaultVmHandler fuel
        ⟨cs, st, sp, g,
          fpre ++ some ⟨cl2, ((b0 * 256 + b1 : Nat) : Int) - 1, bp⟩ :: fpost,
          (fpre.length : Int) + 1, hp⟩ := by
  refine ⟨?_, isTrue_eq_false_iff c, fun _ => rfl, fun _ => rfl, ?_⟩
  · have hd := dispatch_OpJumpConditionNotTrue cs lo hi c g fpre fpost cl bp hp ipre ipost b0 b1
    rw [loop_round cs _ _ g fpre fpost cl bp hp ipre (b0 :: b1 :: ipost) OpJumpConditionNotTrue
      fuel _ hins hd]
    cases isTrue c
    · rfl
    · simp only [if_true, Nat.cast_add, Nat.cast_ofNat]
      congr 6
      omega
  · have hd := dispatch_OpJump cs st sp g fpre fpost cl2 bp hp ipre ipost b0 b1
    exact loop_round cs _ _ g fpre fpost cl2 bp hp ipre (b0 :: b1 :: ipost) OpJump
      fuel _ hins2 hd

/-- Witness of C24: a frame holding `OpJumpConditionNotTrue 7` with `False` on top of
the stack, and a frame holding `OpJump 7`. -/
theorem C24_jumps_witness :
    (⟨0, 0, ⟨[OpJumpConditionNotTrue, 0, 7], 0, 0⟩, []⟩ : Closure).Fn.Instructions
        = [] ++ OpJumpConditionNotTrue :: 0 :: 7 :: []
    ∧ (⟨0, 0, ⟨[OpJump, 0, 7], 0, 0⟩, []⟩ : Closure).Fn.Instructions
        = [] ++ OpJump :: 0 :: 7 :: []
    ∧ defaultVmHandler (0 + 1)
        ⟨[], [] ++ some False :: [], (([] : List (Option Object)).length : Int) + 1, [],
          [] ++ some ⟨⟨0, 0, ⟨[OpJumpConditionNotTrue, 0, 7], 0, 0⟩, []⟩,
            (([] : List Nat).length : Int) - 1, 0⟩ :: [],
          (([] : List (Option Frame)).length : Int) + 1, 0⟩
      = defaultVmHandler 0
        ⟨[], [] ++ some False :: [], (([] : List (Option Object)).length : Int), [],
          [] ++ some ⟨⟨0, 0, ⟨[OpJumpConditionNotTrue, 0, 7], 0, 0⟩, []⟩,
            (if isTrue (some False) then (((([] : List Nat).length + 3 : Nat)) : Int)
              else ((0 * 256 + 7 : Nat) : Int)) - 1, 0⟩ :: [],
          (([] : List (Option Frame)).length : Int) + 1, 0⟩ :=
  ⟨rfl, rfl,
    (C24_jumps [] [] [] (some False) [] 0 [] [] []
      ⟨0, 0, ⟨[OpJumpConditionNotTrue, 0, 7], 0, 0⟩, []⟩ ⟨0, 0, ⟨[OpJump, 0, 7], 0, 0⟩, []⟩
      0 0 [] [] 0 7 0 rfl rfl).1⟩

theorem dispatch_OpIndex (cs : List Object) (lo hi : List (Option Object))
    (l r : Option Object) (g : List (Option Object))
    (frs : List (Option Frame)) (fi : Int) (hp : Nat) (ins : List Nat) :
    dispatch ins OpIndex ⟨cs, lo ++ l :: r :: hi, (lo.length : Int) + 2, g, frs, fi, hp⟩
      = executeIndexOperation l r
          ⟨cs, lo ++ l :: r :: hi, (lo.length : Int), g, frs, fi, hp⟩ := by
  have hpop1 := pop_eq cs (lo ++ [l]) hi r g frs fi hp
  simp only [List.append_assoc, List.singleton_append, List.length_append, List.length_singleton,
    Nat.cast_add, Nat.cast_one, add_assoc, one_add_one_eq_two] at hpop1
  rw [dispatch_OpIndex_eq]
  simp only [M_bind_apply, hpop1, pop_eq]

/-- C23: `OpIndex`. With `left` below `index` on top of the stack: for an Array of
length `n` and an Integer `i`, element `i` is pushed when `0 <= i < n` and `Nil`
otherwise, without error; for a Map and a key, an error is returned when the key is not
hashable, `Nil` is pushed when the hash key is absent and the stored value otherwise;
for an Array with an index that is not an Integer, and for a left operand that is
neither an Array nor a Map, an error is returned. Whenever no error is returned the
result takes the place of `left` and `sp` goes down by exactly one. -/
theorem C23_index (cs : List Object) (lo hi : List (Option Object))
    (left index : Object) (g : List (Option Object))
    (frs : List (Option Frame)) (fi : Int) (hp : Nat) (ins : List Nat)
    (hlt : lo.length + 2 ≤ StackSize) :
    (∀ a elements b i, left = .Array a elements → index = .Integer b i →
      dispatch ins OpIndex
          ⟨cs, lo ++ some left :: some index :: hi, (lo.length : Int) + 2, g, frs, fi, hp⟩
        = (.ok (), ⟨cs,
            lo ++ (if 0 ≤ i ∧ i < (elements.length : Int) then elements.getD i.toNat none
                else some Nil) :: some index :: hi,
            (lo.length : Int) + 1, g, frs, fi, hp⟩))
    ∧ (∀ a elements, left = .Map a elements →
        (hashKey (some index) = none →
          dispatch ins OpIndex
              ⟨cs, lo ++ some left :: some index :: hi, (lo.length : Int) + 2, g, frs, fi, hp⟩
            = (.error (.error ("unusable as hash key: " ++ index.Type)),
                ⟨cs, lo ++ some left :: some index :: hi, (lo.length : Int), g, frs, fi, hp⟩))
        ∧ (∀ key, hashKey (some index) = some key →
          dispatch ins OpIndex
              ⟨cs, lo ++ some left :: some index :: hi, (lo.length : Int) + 2, g, frs, fi, hp⟩
            = (.ok (), ⟨cs,
                lo ++ (match elements.lookup key with
                    | none => some Nil
                    | some val => val.2) :: some index :: hi,
                (lo.length : Int) + 1, g, frs, fi, hp⟩)))
    ∧ ((∀ a elements, left ≠ .Map a elements) →
        ((∀ a elements, left ≠ .Array a elements) ∨ (∀ b i, index ≠ .Integer b i)) →
        dispatch ins OpIndex
            ⟨cs, lo ++ some left :: some index :: hi, (lo.length : Int) + 2, g, frs, fi, hp⟩
          = (.error (.error ("unsupported types for operation " ++ left.Type)),
              ⟨cs, lo ++ some left :: some index :: hi, (lo.length : Int), g, frs, fi, hp⟩)) := by
  have hlt1 : lo.length < 2048 := by unfold StackSize at hlt; omega
  refine ⟨?_, ?_, ?_⟩
  · rintro a elements b i rfl rfl
    rw [dispatch_OpIndex]
    simp only [executeIndexOperation, executeArrayIndex]
    by_cases h : 0 ≤ i ∧ i < (elements.length : Int)
    · have h1 : ¬ (i < 0 ∨ i > (elements.length : Int) - 1) := by omega
      have h2 : ¬ (i < 0) := by omega
      have h3 : i.toNat < elements.length := by omega
      have hg : getAt elements i = .ok (elements.getD i.toNat none) := by
        simp only [getAt, h2, if_false, getIndex, List.getElem?_eq_getElem h3,
          List.getD_eq_getElem?_getD, Option.getD_some]
      rw [if_neg h1, if_pos h]
      simp only [M_bind_apply, M.lift, hg]
      exact push_eq _ _ _ _ _ _ _ _ _ hlt1
    · have h1 : (i < 0 ∨ i > (elements.length : Int) - 1) := by omega
      rw [if_pos h1, if_neg h]
      exact push_eq _ _ _ _ _ _ _ _ _ hlt1
  · rintro a elements rfl
    refine ⟨fun hk => ?_, fun key hk => ?_⟩
    · rw [dispatch_OpIndex]
      simp only [executeIndexOperation, executeMapIndex, hk, M_bind_apply, M.lift, typeOf, M.fail]
    · rw [dispatch_OpIndex]
      simp only [executeIndexOperation, executeMapIndex, hk]
      cases elements.lookup key with
      | none => exact push_eq _ _ _ _ _ _ _ _ _ hlt1
      | some val => exact push_eq _ _ _ _ _ _ _ _ _ hlt1
  · intro hmap harr
    rw [dispatch_OpIndex]
    cases left with
    | Map a elements => exact absurd rfl (hmap a elements)
    | Array a elements =>
      rcases harr with harr | hidx
      · exact absurd rfl (harr a elements)
      · cases index with
        | Integer b i => exact absurd rfl (hidx b i)
        | _ => simp only [executeIndexOperation, M.fail]
    | _ => cases index <;> simp only [executeIndexOperation, M.fail]

/-- Witness of C23: the array `[10, 20]` indexed by 1. -/
theorem C23_index_witness :
    ([] : List (Option Object)).length + 2 ≤ StackSize
    ∧ dispatch [OpIndex] OpIndex
        ⟨[], [some (.Array 3 [some (.Integer 1 10), some (.Integer 2 20)]),
          some (.Integer 4 1)], 2, [], [], 0, 5⟩
      = (.ok (), ⟨[], [some (.Integer 2 20), some (.Integer 4 1)], 1, [], [], 0, 5⟩) :=
  ⟨by decide,
    (C23_index [] [] [] (.Array 3 [some (.Integer 1 10), some (.Integer 2 20)]) (.Integer 4 1)
      [] [] 0 5 [OpIndex] (by decide)).1 3 _ 4 1 rfl rfl⟩

theorem getAt_of_getElem? {α : Type} (l : List α) (i : Nat) (x : α) (h : l[i]? = some x) :
    getAt l (i : Int) = .ok x := by
  have h0 : ¬ ((i : Int) < 0) := by omega
  rw [getAt, if_neg h0, Int.toNat_ofNat, getIndex, h]

theorem setAt_of_lt {α : Type} (l : List α) (i : Nat) (x : α) (h : i < l.length) :
    setAt l (i : Int) x = .ok (l.set i x) := by
  have h0 : ¬ ((i : Int) < 0) := by omega
  rw [setAt, if_neg h0, Int.toNat_ofNat, setIndex, if_pos h]

theorem dispatch_OpCall_closure (cs : List Object) (st : List (Option Object)) (s : Nat)
    (g : List (Option Object)) (fpre fpost : List (Option Frame)) (cl : Closure) (bp : Int)
    (x : Option Frame) (hp : Nat) (ipre ipost : List Nat) (argc : Nat)
    (a fa : Nat) (fn : CompiledFunction) (ctx : List (Option Object))
    (hs : argc + 1 ≤ s)
    (hcallee : st[s - 1 - argc]? = some (some (.Closure a fa fn ctx)))
    (hargs : fn.NumParameters = argc) :
    dispatch (ipre ++ OpCall :: argc :: ipost) OpCall
        ⟨cs, st, (s : Int), g, fpre ++ some ⟨cl, (ipre.length : Int), bp⟩ :: x :: fpost,
          (fpre.length : Int) + 1, hp⟩
      = (.ok (), ⟨cs, st, ((s - argc + fn.NumLocals : Nat) : Int), g,
          fpre ++ some ⟨cl, (ipre.length : Int) + 1, bp⟩
            :: some ⟨⟨a, fa, fn, ctx⟩, -1, ((s - argc : Nat) : Int)⟩ :: fpost,
          (fpre.length : Int) + 2, hp⟩) := by
  rw [dispatch_OpCall_eq]
  simp only [M_bind_apply, readUint8After_eq, advanceIp_eq]
  have hidx : (s : Int) - 1 - (argc : Int) = ((s - 1 - argc : Nat) : Int) := by omega
  have hset := setAt_append_cons (fpre ++ [some ⟨cl, (ipre.length : Int) + 1, bp⟩]) x
    (some (NewFrame ⟨a, fa, fn, ctx⟩ ((s : Int) - (argc : Int)))) fpost
  simp only [List.append_assoc, List.singleton_append, List.length_append, List.length_singleton,
    Nat.cast_add, Nat.cast_one, NewFrame] at hset
  have hne : ¬ ((argc : Int) ≠ (fn.NumParameters : Int)) := by
    rw [hargs]; simp
  have e1 : ((s - argc + fn.NumLocals : Nat) : Int) = (s : Int) - argc + fn.NumLocals := by
    omega
  have e2 : ((s - argc : Nat) : Int) = (s : Int) - argc := by omega
  have e3 : (fpre.length : Int) + 2 = (fpre.length : Int) + 1 + 1 := by omega
  simp only [executeCall, M_bind_apply, M.get, M.lift, hidx, getAt_of_getElem? _ _ _ hcallee,
    callClosure, hne, if_false, pushFrame, NewFrame, hset, M.set, e1, e2, e3]

theorem push_at (cs : List Object) (st : List (Option Object)) (n : Nat) (o : Option Object)
    (g : List (Option Object)) (frs : List (Option Frame)) (fi : Int) (hp : Nat)
    (hlt : n < 2048) (hlen : n < st.length) :
    push o ⟨cs, st, (n : Int), g, frs, fi, hp⟩
      = (.ok (), ⟨cs, st.set n o, (n : Int) + 1, g, frs, fi, hp⟩) := by
  have h : ¬ ((n : Int) ≥ (StackSize : Nat)) := by simp [StackSize]; omega
  simp only [push, M_bind_apply, M.get, h, if_false, M.lift, setAt_of_lt _ _ _ hlen, M.set]

theorem popFrame_eq (cs : List Object) (st : List (Option Object)) (sp : Int)
    (g : List (Option Object)) (fpre fpost : List (Option Frame)) (fr1 : Option Frame)
    (f : Frame) (hp : Nat) :
    popFrame ⟨cs, st, sp, g, fpre ++ fr1 :: some f :: fpost, (fpre.length : Int) + 2, hp⟩
      = (.ok f, ⟨cs, st, sp, g, fpre ++ fr1 :: some f :: fpost, (fpre.length : Int) + 1, hp⟩) := by
  have hget := getAt_append_cons (fpre ++ [fr1]) (some f) fpost
  simp only [List.append_assoc, List.singleton_append, List.length_append, List.length_singleton,
    Nat.cast_add, Nat.cast_one] at hget
  have e : (fpre.length : Int) + 2 - 1 = (fpre.length : Int) + 1 := by omega
  simp only [popFrame, M_bind_apply, M.get, M.set, e, M.lift, hget, M_pure_apply]

theorem dispatch_OpReturnValue (cs : List Object) (lo hi : List (Option Object))
    (v : Option Object) (g : List (Option Object)) (fpre fpost : List (Option Frame))
    (fr1 : Option Frame) (cl2 : Closure) (ip2 : Int) (bpn : Nat) (hp : Nat) (ins : List Nat)
    (hlt : bpn < 2048) (hlen : bpn < (lo ++ v :: hi).length) :
    dispatch ins OpReturnValue
        ⟨cs, lo ++ v :: hi, (lo.length : Int) + 1, g,
          fpre ++ fr1 :: some ⟨cl2, ip2, (bpn : Int) + 1⟩ :: fpost, (fpre.length : Int) + 2, hp⟩
      = (.ok (), ⟨cs, (lo ++ v :: hi).set bpn v, (bpn : Int) + 1, g,
          fpre ++ fr1 :: some ⟨cl2, ip2, (bpn : Int) + 1⟩ :: fpost, (fpre.length : Int) + 1,
          hp⟩) := by
  rw [dispatch_OpReturnValue_eq]
  simp only [M_bind_apply, pop_eq, popFrame_eq, M.get, M.set, add_sub_cancel_right,
    push_at _ _ _ _ _ _ _ _ hlt hlen]

theorem dispatch_OpReturn (cs : List Object) (st : List (Option Object)) (sp : Int)
    (g : List (Option Object)) (fpre fpost : List (Option Frame))
    (fr1 : Option Frame) (cl2 : Closure) (ip2 : Int) (bpn : Nat) (hp : Nat) (ins : List Nat)
    (hlt : bpn < 2048) (hlen : bpn < st.length) :
    dispatch ins OpReturn
        ⟨cs, st, sp, g,
          fpre ++ fr1 :: some ⟨cl2, ip2, (bpn : Int) + 1⟩ :: fpost, (fpre.length : Int) + 2, hp⟩
      = (.ok (), ⟨cs, st.set bpn (some Nil), (bpn : Int) + 1, g,
          fpre ++ fr1 :: some ⟨cl2, ip2, (bpn : Int) + 1⟩ :: fpost, (fpre.length : Int) + 1,
          hp⟩) := by
  rw [dispatch_OpReturn_eq]
  simp only [M_bind_apply, popFrame_eq, M.get, M.set, add_sub_cancel_right,
    push_at _ _ _ _ _ _ _ _ hlt hlen]

/-- C25: the stack effect of a call and of the return from it. `OpCall argc`, executed
with `sp = s` on a closure stored at `stack[s-1-argc]` whose parameter count is `argc`,
pushes a frame for the closure with base pointer `s - argc` and raises `framesIndex` by
one. Whenever later that frame is the current one and executes `OpReturnValue` with a
value `v` on top of the stack (respectively `OpReturn`), then immediately afterwards
`framesIndex` is back to its value before the call, `sp = s - argc`, the slot
`stack[s-argc-1]`, which held the callee, holds `v` (respectively `Nil`), and every slot
below it is unchanged by the return. -/
theorem C25_call_return (cs : List Object) (st : List (Option Object)) (s argc : Nat)
    (g : List (Option Object)) (fpre fpost : List (Option Frame)) (cl : Closure) (bp : Int)
    (x : Option Frame) (hp : Nat) (ipre ipost : List Nat)
    (a fa : Nat) (fn : CompiledFunction) (ctx : List (Option Object))
    (hs : argc + 1 ≤ s) (hst : st.length = StackSize)
    (hcallee : st[s - 1 - argc]? = some (some (.Closure a fa fn ctx)))
    (hargs : fn.NumParameters = argc) :
    dispatch (ipre ++ OpCall :: argc :: ipost) OpCall
        ⟨cs, st, (s : Int), g, fpre ++ some ⟨cl, (ipre.length : Int), bp⟩ :: x :: fpost,
          (fpre.length : Int) + 1, hp⟩
      = (.ok (), ⟨cs, st, ((s - argc + fn.NumLocals : Nat) : Int), g,
          fpre ++ some ⟨cl, (ipre.length : Int) + 1, bp⟩
            :: some ⟨⟨a, fa, fn, ctx⟩, -1, ((s - argc : Nat) : Int)⟩ :: fpost,
          (fpre.length : Int) + 2, hp⟩)
    ∧ (∀ (cs1 : List Object) (lo hi : List (Option Object)) (v : Option Object)
        (g1 : List (Option Object)) (fr1 : Option Frame) (ip2 : Int)
        (fpost1 : List (Option Frame)) (hp1 : Nat) (ins1 : List Nat),
        (lo ++ v :: hi).length = StackSize →
        ∃ st1, dispatch ins1 OpReturnValue
            ⟨cs1, lo ++ v :: hi, (lo.length : Int) + 1, g1,
              fpre ++ fr1 :: some ⟨⟨a, fa, fn, ctx⟩, ip2, ((s - argc : Nat) : Int)⟩ :: fpost1,
              (fpre.length : Int) + 2, hp1⟩
          = (.ok (), ⟨cs1, st1, ((s - argc : Nat) : Int), g1,
              fpre ++ fr1 :: some ⟨⟨a, fa, fn, ctx⟩, ip2, ((s - argc : Nat) : Int)⟩ :: fpost1,
              (fpre.length : Int) + 1, hp1⟩)
          ∧ st1[s - argc - 1]? = some v
          ∧ ∀ i, i < s - argc - 1 → st1[i]? = (lo ++ v :: hi)[i]?)
    ∧ (∀ (cs1 : List Object) (st2 : List (Option Object)) (sp2 : Int)
        (g1 : List (Option Object)) (fr1 : Option Frame) (ip2 : Int)
        (fpost1 : List (Option Frame)) (hp1 : Nat) (ins1 : List Nat),
        st2.length = StackSize →
        ∃ st1, dispatch ins1 OpReturn
            ⟨cs1, st2, sp2, g1,
              fpre ++ fr1 :: some ⟨⟨a, fa, fn, ctx⟩, ip2, ((s - argc : Nat) : Int)⟩ :: fpost1,
              (fpre.length : Int) + 2, hp1⟩
          = (.ok (), ⟨cs1, st1, ((s - argc : Nat) : Int), g1,
              fpre ++ fr1 :: some ⟨⟨a, fa, fn, ctx⟩, ip2, ((s - argc : Nat) : Int)⟩ :: fpost1,
              (fpre.length : Int) + 1, hp1⟩)
          ∧ st1[s - argc - 1]? = some (some Nil)
          ∧ ∀ i, i < s - argc - 1 → st1[i]? = st2[i]?) := by
  have hidx : s - 1 - argc < st.length := by
    by_contra h
    rw [List.getElem?_eq_none (by omega)] at hcallee
    cases hcallee
  have hlt : s - argc - 1 < 2048 := by
    rw [hst] at hidx; unfold StackSize at hidx; omega
  have e : ((s - argc : Nat) : Int) = ((s - argc - 1 : Nat) : Int) + 1 := by omega
  refine ⟨dispatch_OpCall_closure cs st s g fpre fpost cl bp x hp ipre ipost argc a fa fn ctx hs
    hcallee hargs, ?_, ?_⟩
  · intro cs1 lo hi v g1 fr1 ip2 fpost1 hp1 ins1 hlen
    have hlen1 : s - argc - 1 < (lo ++ v :: hi).length := by
      rw [hlen]; unfold StackSize; omega
    refine ⟨(lo ++ v :: hi).set (s - argc - 1) v, ?_, ?_, ?_⟩
    · rw [e]
      exact dispatch_OpReturnValue cs1 lo hi v g1 fpre fpost1 fr1 _ ip2 _ hp1 ins1 hlt hlen1
    · rw [List.getElem?_set_self hlen1]
    · intro i hi1
      rw [List.getElem?_set_ne (by omega)]
  · intro cs1 st2 sp2 g1 fr1 ip2 fpost1 hp1 ins1 hlen
    have hlen1 : s - argc - 1 < st2.length := by
      rw [hlen]; unfold StackSize; omega
    refine ⟨st2.set (s - argc - 1) (some Nil), ?_, ?_, ?_⟩
    · rw [e]
      exact dispatch_OpReturn cs1 st2 sp2 g1 fpre fpost1 fr1 _ ip2 _ hp1 ins1 hlt hlen1
    · rw [List.getElem?_set_self hlen1]
    · intro i hi1
      rw [List.getElem?_set_ne (by omega)]

/-- Witness of C25: a call without arguments of a closure in slot 0 of a fresh stack. -/
theorem C25_call_return_witness :
    0 + 1 ≤ 1
    ∧ (some (Object.Closure 7 6 ⟨[OpReturn], 0, 0⟩ []) :: List.replicate 2047 none).length
        = StackSize
    ∧ (some (Object.Closure 7 6 ⟨[OpReturn], 0, 0⟩ []) :: List.replicate 2047 none)[1 - 1 - 0]?
        = some (some (Object.Closure 7 6 ⟨[OpReturn], 0, 0⟩ []))
    ∧ (⟨[OpReturn], 0, 0⟩ : CompiledFunction).NumParameters = 0
    ∧ dispatch ([] ++ OpCall :: 0 :: []) OpCall
        ⟨[], some (Object.Closure 7 6 ⟨[OpReturn], 0, 0⟩ []) :: List.replicate 2047 none,
          ((1 : Nat) : Int), [],
          [] ++ some ⟨⟨1, 0, ⟨[OpCall, 0], 0, 0⟩, []⟩, (([] : List Nat).length : Int), 0⟩
            :: none :: [],
          (([] : List (Option Frame)).length : Int) + 1, 8⟩
      = (.ok (), ⟨[], some (Object.Closure 7 6 ⟨[OpReturn], 0, 0⟩ []) :: List.replicate 2047 none,
          ((1 - 0 + (⟨[OpReturn], 0, 0⟩ : CompiledFunction).NumLocals : Nat) : Int), [],
          [] ++ some ⟨⟨1, 0, ⟨[OpCall, 0], 0, 0⟩, []⟩, (([] : List Nat).length : Int) + 1, 0⟩
            :: some ⟨⟨7, 6, ⟨[OpReturn], 0, 0⟩, []⟩, -1, ((1 - 0 : Nat) : Int)⟩ :: [],
          (([] : List (Option Frame)).length : Int) + 2, 8⟩) :=
  ⟨by decide, by rw [List.length_cons, List.length_replicate]; rfl,
    List.getElem?_cons_zero, rfl,
    (C25_call_return []
      (some (Object.Closure 7 6 ⟨[OpReturn], 0, 0⟩ []) :: List.replicate 2047 none)
      1 0 [] [] [] ⟨1, 0, ⟨[OpCall, 0], 0, 0⟩, []⟩ 0 none 8 [] [] 7 6 ⟨[OpReturn], 0, 0⟩ []
      (by decide) (by rw [List.length_cons, List.length_replicate]; rfl)
      List.getElem?_cons_zero rfl).1⟩

theorem setAt_length {α : Type} (l : List α) (x : α) :
    setAt l (l.length : Int) x = .error (.panic "index out of range") := by
  have h0 : ¬ ((l.length : Int) < 0) := by omega
  rw [setAt, if_neg h0, Int.toNat_ofNat, setIndex, if_neg (lt_irrefl _)]

/-- `OpCall` on a closure when the frame vector is full: `pushFrame` indexes past its end. -/
theorem dispatch_OpCall_overflow (cs : List Object) (st : List (Option Object)) (s : Nat)
    (g : List (Option Object)) (fpre : List (Option Frame)) (cl : Closure) (bp : Int)
    (hp : Nat) (ipre ipost : List Nat) (argc : Nat)
    (a fa : Nat) (fn : CompiledFunction) (ctx : List (Option Object))
    (hs : argc + 1 ≤ s)
    (hcallee : st[s - 1 - argc]? = some (some (.Closure a fa fn ctx)))
    (hargs : fn.NumParameters = argc) :
    dispatch (ipre ++ OpCall :: argc :: ipost) OpCall
        ⟨cs, st, (s : Int), g, fpre ++ some ⟨cl, (ipre.length : Int), bp⟩ :: [],
          (fpre.length : Int) + 1, hp⟩
      = (.error (.panic "index out of range"), ⟨cs, st, (s : Int), g,
          fpre ++ some ⟨cl, (ipre.length : Int) + 1, bp⟩ :: [], (fpre.length : Int) + 1, hp⟩) := by
  rw [dispatch_OpCall_eq]
  simp only [M_bind_apply, readUint8After_eq, advanceIp_eq]
  have hidx : (s : Int) - 1 - (argc : Int) = ((s - 1 - argc : Nat) : Int) := by omega
  have hset := setAt_length (fpre ++ [some ⟨cl, (ipre.length : Int) + 1, bp⟩])
    (some (NewFrame ⟨a, fa, fn, ctx⟩ ((s : Int) - (argc : Int))))
  simp only [List.length_append, List.length_singleton,
    Nat.cast_add, Nat.cast_one, NewFrame] at hset
  have hne : ¬ ((argc : Int) ≠ (fn.NumParameters : Int)) := by
    rw [hargs]; simp
  simp only [executeCall, M_bind_apply, M.get, M.lift, hidx, getAt_of_getElem? _ _ _ hcallee,
    callClosure, hne, if_false, pushFrame, NewFrame, hset]

/-- C27: frame overflow is not detected. With `FrameSize` frames active (the frame vector
is full) and a closure without parameters on top of the stack, `OpCall 0` does not return
an error value: `pushFrame` writes to `frames[FrameSize]`, which panics, and the loop of
`Run` is left by that panic. -/
theorem C27_frame_overflow_panics (cs : List Object) (lo hi : List (Option Object))
    (g : List (Option Object)) (fpre : List (Option Frame)) (cl : Closure) (bp : Int)
    (hp : Nat) (ipre ipost : List Nat) (a fa : Nat) (fn : CompiledFunction)
    (ctx : List (Option Object)) (fuel : Nat)
    (hfull : (fpre ++ [some (⟨cl, (ipre.length : Int) - 1, bp⟩ : Frame)]).length = FrameSize)
    (hins : cl.Fn.Instructions = ipre ++ OpCall :: 0 :: ipost)
    (hargs : fn.NumParameters = 0) :
    VM.Run (fuel + 1)
        ⟨cs, lo ++ some (.Closure a fa fn ctx) :: hi, ((lo.length + 1 : Nat) : Int), g,
          fpre ++ some ⟨cl, (ipre.length : Int) - 1, bp⟩ :: [], (fpre.length : Int) + 1, hp⟩
      = some (.error (.panic "index out of range"),
          ⟨cs, lo ++ some (.Closure a fa fn ctx) :: hi, ((lo.length + 1 : Nat) : Int), g,
            fpre ++ some ⟨cl, (ipre.length : Int) + 1, bp⟩ :: [], (fpre.length : Int) + 1,
            hp⟩) := by
  have hd := dispatch_OpCall_overflow cs (lo ++ some (.Closure a fa fn ctx) :: hi)
    (lo.length + 1) g fpre cl bp hp ipre ipost 0 a fa fn ctx (by omega)
    (by simpa using getElem?_append_cons lo (some (.Closure a fa fn ctx)) hi) hargs
  exact loop_round_error cs _ _ g fpre [] cl bp hp ipre (0 :: ipost) OpCall fuel _ _ hins hd

/-- Witness of C27: a full frame vector whose last frame is about to execute `OpCall 0` on
a closure in slot 0. -/
theorem C27_frame_overflow_panics_witness :
    (List.replicate 2047 (none : Option Frame)
        ++ [some (⟨⟨1, 0, ⟨[OpCall, 0], 0, 0⟩, []⟩, (([] : List Nat).length : Int) - 1, 0⟩
          : Frame)]).length = FrameSize
    ∧ (⟨1, 0, ⟨[OpCall, 0], 0, 0⟩, []⟩ : Closure).Fn.Instructions = [] ++ OpCall :: 0 :: []
    ∧ (⟨[OpCall, 0], 0, 0⟩ : CompiledFunction).NumParameters = 0
    ∧ VM.Run (0 + 1)
        ⟨[], [] ++ some (.Closure 1 0 ⟨[OpCall, 0], 0, 0⟩ []) :: [],
          ((([] : List (Option Object)).length + 1 : Nat) : Int), [],
          List.replicate 2047 none
            ++ some ⟨⟨1, 0, ⟨[OpCall, 0], 0, 0⟩, []⟩, (([] : List Nat).length : Int) - 1, 0⟩
              :: [],
          ((List.replicate 2047 (none : Option Frame)).length : Int) + 1, 2⟩
      = some (.error (.panic "index out of range"),
          ⟨[], [] ++ some (.Closure 1 0 ⟨[OpCall, 0], 0, 0⟩ []) :: [],
            ((([] : List (Option Object)).length + 1 : Nat) : Int), [],
            List.replicate 2047 none
              ++ some ⟨⟨1, 0, ⟨[OpCall, 0], 0, 0⟩, []⟩, (([] : List Nat).length : Int) + 1, 0⟩
                :: [],
            ((List.replicate 2047 (none : Option Frame)).length : Int) + 1, 2⟩) :=
  ⟨by rw [List.length_append, List.length_replicate]; rfl, rfl, rfl,
    C27_frame_overflow_panics [] [] [] [] (List.replicate 2047 none)
      ⟨1, 0, ⟨[OpCall, 0], 0, 0⟩, []⟩ 0 2 [] [] 1 0 ⟨[OpCall, 0], 0, 0⟩ [] 0
      (by rw [List.length_append, List.length_replicate]; rfl) rfl rfl⟩

/-! ## Theorems: compiling concrete programs -/

/-- `emit` in the outermost scope. -/
theorem emit_at0 (cs : List Object) (tbl : Option SymbolTable) (sc : CompilationScope)
    (hp : Nat) (op : Opcode) (operands : List Int) :
    emit op operands ⟨cs, tbl, [sc], 0, hp⟩
      = match Make op operands with
        | .ok bytes => (.ok sc.instructions.length, ⟨cs, tbl,
            [⟨sc.instructions ++ bytes, ⟨op, sc.instructions.length⟩, sc.lastInstruction⟩],
            0, hp⟩)
        | .error e => (.error e, ⟨cs, tbl, [sc], 0, hp⟩) := by
  cases h : Make op operands with
  | ok bytes => exact emit_eq cs tbl [] [] sc hp op operands bytes h
  | error e => simp only [emit, M_bind_apply, M.lift, h]

theorem make_OpConstant_lit (k : Nat) (hk : k < 256) :
    Make OpConstant [(k : Int)] = .ok [OpConstant, 0, k] := by
  rw [make_OpConstant]
  congr 3
  · omega
  · congr 1; omega

theorem compile_Integer_at0 (ks : Node → String) (cs : List Object) (tbl : Option SymbolTable)
    (sc : CompilationScope) (hp : Nat) (value : Int) (hk : cs.length < 256) :
    Compile ks (.Integer value) ⟨cs, tbl, [sc], 0, hp⟩
      = (.ok (), ⟨cs ++ [.Integer hp value], tbl,
          [⟨sc.instructions ++ [OpConstant, 0, cs.length], ⟨OpConstant, sc.instructions.length⟩,
            sc.lastInstruction⟩], 0, hp + 1⟩) := by
  rw [Compile]
  simp only [M_bind_apply, Compiler.alloc, addConstant, List.length_append, List.length_singleton,
    Nat.add_sub_cancel, emit_at0, make_OpConstant_lit _ hk, M_pure_apply]

/-- The program `return 1` compiles to `OpConstant 0; OpReturnValue`. -/
theorem compile_return_one (ks : Node → String) (h : Nat) :
    compileProgram ks (.Program [.ReturnStmt (.Integer 1)]) h
      = .ok ⟨[OpConstant, 0, 0, OpReturnValue], [.Integer h 1]⟩ := by
  unfold compileProgram
  rw [Compile, CompileList, CompileList, Compile]
  simp only [M_bind_apply, M_pure_apply, NewCompiler,
    compile_Integer_at0 ks [] _ _ h 1 (by decide), emit_at0,
    show Make OpReturnValue [] = .ok [OpReturnValue] from rfl]
  rfl

/-- `OpReturnValue` in the main frame (base pointer 0, no frame below): the frame is
popped, `sp` becomes -1 and the push of the value indexes the stack at -1. -/
theorem dispatch_OpReturnValue_main (cs : List Object) (lo hi : List (Option Object))
    (v : Option Object) (g : List (Option Object)) (fpost : List (Option Frame))
    (cl : Closure) (ip : Int) (hp : Nat) (ins : List Nat) :
    dispatch ins OpReturnValue
        ⟨cs, lo ++ v :: hi, (lo.length : Int) + 1, g, some ⟨cl, ip, 0⟩ :: fpost, 1, hp⟩
      = (.error (.panic "index out of range"),
          ⟨cs, lo ++ v :: hi, -1, g, some ⟨cl, ip, 0⟩ :: fpost, 0, hp⟩) := by
  have hpf : popFrame ⟨cs, lo ++ v :: hi, (lo.length : Int), g,
        some ⟨cl, ip, 0⟩ :: fpost, 1, hp⟩
      = (.ok ⟨cl, ip, 0⟩, ⟨cs, lo ++ v :: hi, (lo.length : Int), g,
          some ⟨cl, ip, 0⟩ :: fpost, 0, hp⟩) := by
    have hg : getAt (some (⟨cl, ip, 0⟩ : Frame) :: fpost) 0 = .ok (some ⟨cl, ip, 0⟩) :=
      getAt_append_cons [] _ _
    simp only [popFrame, M_bind_apply, M.get, M.set, M.lift, sub_self, hg, M_pure_apply]
  have hpush : push v ⟨cs, lo ++ v :: hi, -1, g, some ⟨cl, ip, 0⟩ :: fpost, 0, hp⟩
      = (.error (.panic "index out of range"),
          ⟨cs, lo ++ v :: hi, -1, g, some ⟨cl, ip, 0⟩ :: fpost, 0, hp⟩) := by
    have h1 : ¬ ((-1 : Int) ≥ (StackSize : Nat)) := by simp [StackSize]
    have h2 : (-1 : Int) < 0 := by decide
    simp only [push, M_bind_apply, M.get, h1, if_false, M.lift, setAt, h2, if_true]
  rw [dispatch_OpReturnValue_eq]
  simp only [M_bind_apply, pop_eq, hpf, M.get, M.set, zero_sub, hpush]

/-- The machine `NewVM` builds, with the first slot of its stack, of its globals and of
its frames set apart. -/
theorem NewVM_eq_cons (ins : Instructions) (cs : List Object) (heap : Nat) :
    NewVM ⟨ins, cs⟩ heap
      = ⟨cs, none :: List.replicate 2047 none, 0, none :: List.replicate 65535 none,
          some ⟨⟨heap + 1, heap, ⟨ins, 0, 0⟩, []⟩, -1, 0⟩ :: List.replicate 2047 none, 1,
          heap + 2⟩ := rfl

/-- The run of `OpConstant 0; OpReturnValue` in a main frame. -/
theorem run_return_one (c : Object) (hi g : List (Option Object))
    (frs : List (Option Frame)) (a fa hp fuel : Nat) (x : Option Object) :
    defaultVmHandler (fuel + 2)
        ⟨[c], x :: hi, 0, g,
          some ⟨⟨a, fa, ⟨[OpConstant, 0, 0, OpReturnValue], 0, 0⟩, []⟩, -1, 0⟩ :: frs, 1, hp⟩
      = some (.error (.panic "index out of range"),
          ⟨[c], some c :: hi, -1, g,
          some ⟨⟨a, fa, ⟨[OpConstant, 0, 0, OpReturnValue], 0, 0⟩, []⟩, 3, 0⟩ :: frs, 0, hp⟩) := by
  have h1 := run_constant [c] [] hi x g [] frs
    ⟨a, fa, ⟨[OpConstant, 0, 0, OpReturnValue], 0, 0⟩, []⟩ 0 hp []
    [OpReturnValue] 0 0 c (fuel + 1) rfl rfl (by decide)
  have hd := dispatch_OpReturnValue_main [c] [] hi (some c) g frs
    ⟨a, fa, ⟨[OpConstant, 0, 0, OpReturnValue], 0, 0⟩, []⟩
    ((([OpConstant, 0, 0] : List Nat).length : Int)) hp
    ([OpConstant, 0, 0] ++ OpReturnValue :: [])
  have h2 := loop_round_error [c] ([] ++ some c :: hi)
    ((([] : List (Option Object)).length : Int) + 1) g [] frs
    ⟨a, fa, ⟨[OpConstant, 0, 0, OpReturnValue], 0, 0⟩, []⟩ 0 hp
    [OpConstant, 0, 0] [] OpReturnValue fuel _ _ rfl hd
  simp only [VM.running, List.nil_append, List.length_nil, List.singleton_append,
    List.length_cons, Nat.cast_zero, zero_add, zero_sub, Nat.cast_ofNat, Nat.cast_add,
    Nat.cast_one, List.append_nil] at h1 h2
  norm_num at h1 h2
  rw [h1, h2]

/-- C30: a compiled program can abort the machine. The program `return 1` is accepted by
the compiler (bytecode `OpConstant 0; OpReturnValue`), and running it on a fresh machine
does not end with `Run` returning nil or an error value: the return in the main frame
pops that frame, sets `sp = -1` and indexes the operand stack at -1, which panics. -/
theorem C30_top_level_return_panics (ks : Node → String) (heapC heapV fuel : Nat) :
    compileProgram ks (.Program [.ReturnStmt (.Integer 1)]) heapC
      = .ok ⟨[OpConstant, 0, 0, OpReturnValue], [.Integer heapC 1]⟩
    ∧ ∃ v, VM.Run (fuel + 2)
          (NewVM ⟨[OpConstant, 0, 0, OpReturnValue], [.Integer heapC 1]⟩ heapV)
        = some (.error (.panic "index out of range"), v)
      ∧ v.sp = -1 ∧ v.framesIndex = 0 :=
  ⟨compile_return_one ks heapC, _,
    (congrArg (defaultVmHandler (fuel + 2)) (NewVM_eq_cons _ _ _)).trans
      (run_return_one _ _ _ _ _ _ _ _ _), rfl, rfl⟩

/-! ## Theorems: compiling and running whole programs -/

/-! ### The bytes `Make` gives for the opcodes the programs use -/

theorem Make_OpConstant (x : Int) :
    Make OpConstant [x] = .ok (specInstruction OpConstant [2] [x]) :=
  make_eq_spec _ ⟨_, _⟩ _ rfl rfl

theorem Make_OpPop : Make OpPop [] = .ok [OpPop] := rfl

theorem Make_OpAdd : Make OpAdd [] = .ok [OpAdd] := rfl

theorem Make_OpSub : Make OpSub [] = .ok [OpSub] := rfl

theorem Make_OpEQL : Make OpEQL [] = .ok [OpEQL] := rfl

theorem Make_OpReturnValue : Make OpReturnValue [] = .ok [OpReturnValue] := rfl

theorem Make_OpReturn : Make OpReturn [] = .ok [OpReturn] := rfl

theorem Make_OpCurrClosure : Make OpCurrClosure [] = .ok [OpCurrClosure] := rfl

theorem Make_OpNil : Make OpNil [] = .ok [OpNil] := rfl

theorem Make_OpCall (x : Int) : Make OpCall [x] = .ok (specInstruction OpCall [1] [x]) :=
  make_eq_spec _ ⟨_, _⟩ _ rfl rfl

theorem Make_OpGetGlobal (x : Int) :
    Make OpGetGlobal [x] = .ok (specInstruction OpGetGlobal [2] [x]) :=
  make_eq_spec _ ⟨_, _⟩ _ rfl rfl

theorem Make_OpSetGlobal (x : Int) :
    Make OpSetGlobal [x] = .ok (specInstruction OpSetGlobal [2] [x]) :=
  make_eq_spec _ ⟨_, _⟩ _ rfl rfl

theorem Make_OpGetLocal (x : Int) :
    Make OpGetLocal [x] = .ok (specInstruction OpGetLocal [1] [x]) :=
  make_eq_spec _ ⟨_, _⟩ _ rfl rfl

theorem Make_OpSetLocal (x : Int) :
    Make OpSetLocal [x] = .ok (specInstruction OpSetLocal [1] [x]) :=
  make_eq_spec _ ⟨_, _⟩ _ rfl rfl

theorem Make_OpContext (x : Int) :
    Make OpContext [x] = .ok (specInstruction OpContext [1] [x]) :=
  make_eq_spec _ ⟨_, _⟩ _ rfl rfl

theorem Make_OpClosure (x y : Int) :
    Make OpClosure [x, y] = .ok (specInstruction OpClosure [2, 1] [x, y]) :=
  make_eq_spec _ ⟨_, _⟩ _ rfl rfl

theorem Make_OpJump (x : Int) : Make OpJump [x] = .ok (specInstruction OpJump [2] [x]) :=
  make_eq_spec _ ⟨_, _⟩ _ rfl rfl

theorem Make_OpJumpConditionNotTrue (x : Int) :
    Make OpJumpConditionNotTrue [x] = .ok (specInstruction OpJumpConditionNotTrue [2] [x]) :=
  make_eq_spec _ ⟨_, _⟩ _ rfl rfl

/-! ### The body `dispatch` runs for the remaining opcodes -/

theorem dispatch_OpConstant_eq (ins : Instructions) :
    dispatch ins OpConstant = (do
      let index ← readUint16After ins 1
      advanceIp 2
      let v ← M.get
      let c ← M.lift (getAt v.constants index)
      push (some c)) := rfl

theorem dispatch_OpSetGlobal_eq (ins : Instructions) :
    dispatch ins OpSetGlobal = (do
      let index ← readUint16After ins 1
      advanceIp 2
      let val ← pop
      let v ← M.get
      let globals ← M.lift (setAt v.globals index val)
      M.set { v with globals := globals }) := rfl

theorem dispatch_OpGetGlobal_eq (ins : Instructions) :
    dispatch ins OpGetGlobal = (do
      let index ← readUint16After ins 1
      advanceIp 2
      let v ← M.get
      let g ← M.lift (getAt v.globals index)
      push g) := rfl

theorem dispatch_OpSetLocal_eq (ins : Instructions) :
    dispatch ins OpSetLocal = (do
      let idx ← readUint8After ins 1
      advanceIp 1
      let f ← curFrame
      let val ← pop
      let v ← M.get
      let stack ← M.lift (setAt v.stack (f.basePointer + idx) val)
      M.set { v with stack := stack }) := rfl

theorem dispatch_OpGetLocal_eq (ins : Instructions) :
    dispatch ins OpGetLocal = (do
      let idx ← readUint8After ins 1
      advanceIp 1
      let f ← curFrame
      let v ← M.get
      let o ← M.lift (getAt v.stack (f.basePointer + idx))
      push o) := rfl

theorem dispatch_OpClosure_eq (ins : Instructions) :
    dispatch ins OpClosure = (do
      let idx ← readUint16After ins 1
      let countCtx ← readUint8After ins 3
      advanceIp 3
      pushClosure idx countCtx) := rfl

theorem dispatch_OpContext_eq (ins : Instructions) :
    dispatch ins OpContext = (do
      let idx ← readUint8After ins 1
      advanceIp 1
      let f ← curFrame
      let o ← M.lift (getAt f.cl.Ctx idx)
      push o) := rfl

theorem dispatch_OpCurrClosure_eq (ins : Instructions) :
    dispatch ins OpCurrClosure = (do
      let f ← curFrame
      push (some f.cl.toObject)) := rfl

theorem dispatch_OpPop_eq (ins : Instructions) :
    dispatch ins OpPop = (do
      let _ ← pop) := rfl

theorem dispatch_OpAdd_eq (ins : Instructions) :
    dispatch ins OpAdd = executeArithmeticOperation OpAdd := rfl

theorem dispatch_OpSub_eq (ins : Instructions) :
    dispatch ins OpSub = executeArithmeticOperation OpSub := rfl

theorem dispatch_OpEQL_eq (ins : Instructions) :
    dispatch ins OpEQL = executeComparisonOperation OpEQL := rfl

/-! ### Rounds of the loop -/

theorem defaultVmHandler_succ (fuel : Nat) (v : VM) :
    defaultVmHandler (fuel + 1) v =
      match loopCondition v with
      | (.error e, v1) => some (.error e, v1)
      | (.ok false, v1) => some (.ok (), v1)
      | (.ok true, v1) =>
        match loopBody v1 with
        | (.error e, v2) => some (.error e, v2)
        | (.ok _, v2) => defaultVmHandler fuel v2 := rfl

theorem rounds_succ (n : Nat) (v : VM) :
    VM.rounds (n + 1) v =
      match loopCondition v with
      | (.ok true, v1) =>
        match loopBody v1 with
        | (.ok _, v2) => VM.rounds n v2
        | (.error _, _) => none
      | _ => none := rfl

theorem rounds_zero (v : VM) : VM.rounds 0 v = some v := rfl

/-- The loop of `defaultVmHandler` goes through the rounds of `VM.rounds`. -/
theorem defaultVmHandler_rounds (n : Nat) :
    ∀ (v v1 : VM) (fuel : Nat), VM.rounds n v = some v1 →
      defaultVmHandler (fuel + n) v = defaultVmHandler fuel v1 := by
  induction n with
  | zero =>
    intro v v1 fuel h
    rw [rounds_zero] at h
    cases h
    rfl
  | succ n ih =>
    intro v v1 fuel h
    rw [rounds_succ] at h
    show defaultVmHandler (fuel + n + 1) v = _
    rw [defaultVmHandler_succ]
    rcases hc : loopCondition v with ⟨_ | b, w⟩
    · rw [hc] at h; cases h
    · rw [hc] at h
      cases b with
      | false => cases h
      | true =>
        simp only at h ⊢
        rcases hb : loopBody w with ⟨_ | u, w1⟩
        · rw [hb] at h; cases h
        · rw [hb] at h
          exact ih w1 v1 fuel h

/-- The machine `NewVM` builds, with the first slots of its stack, of its globals and of
its frames set apart. -/
theorem NewVM_eq_slots (ins : Instructions) (cs : List Object) (heap : Nat) :
    NewVM ⟨ins, cs⟩ heap
      = ⟨cs, none :: none :: none :: none :: none :: none :: none :: none
            :: List.replicate 2040 none, 0,
          none :: none :: List.replicate 65534 none,
          some ⟨⟨heap + 1, heap, ⟨ins, 0, 0⟩, []⟩, -1, 0⟩ :: none :: none :: none
            :: List.replicate 2044 none, 1,
          heap + 2⟩ := rfl

/-- The current frame when two frames are active. -/
theorem curFrame_second (cs : List Object) (st : List (Option Object)) (sp : Int)
    (g : List (Option Object)) (f0 : Option Frame) (f1 : Frame) (frs : List (Option Frame))
    (hp : Nat) :
    curFrame ⟨cs, st, sp, g, f0 :: some f1 :: frs, 2, hp⟩
      = (.ok f1, ⟨cs, st, sp, g, f0 :: some f1 :: frs, 2, hp⟩) := by
  simp only [curFrame, getAt, getIndex, Int.reduceSub, Int.reduceLT, if_false, Int.reduceToNat,
    List.getElem?_cons_succ, List.getElem?_cons_zero]

/-- What `LastPoppedStackElem` reads when the stack is empty again. -/
theorem LastPoppedStackElem_zero (cs : List Object) (x : Option Object)
    (st : List (Option Object)) (g : List (Option Object)) (frs : List (Option Frame))
    (fi : Int) (hp : Nat) :
    LastPoppedStackElem ⟨cs, x :: st, 0, g, frs, fi, hp⟩ = .ok x := by
  simp only [LastPoppedStackElem, getAt, getIndex, Int.reduceLT, if_false, Int.toNat_zero,
    List.getElem?_cons_zero]

/-! ### A function statement inside a function body -/

theorem compile_balanceProgram (ks : Node → String) (heap : Nat) :
    compileProgram ks balanceProgram heap = .ok (balanceBytecode heap) := by
  simp only [compileProgram, balanceProgram, Compile, CompileList, NewCompiler, defineBuiltins,
    builtinNames, NewSymbolTable, NewEnclosedSymbolTable, SymbolTable.DefineBuiltin,
    SymbolTable.Define, SymbolTable.defineFunction, SymbolTable.GetDefine,
    SymbolTable.defineContext, SymbolTable.Context, SymbolTable.count, SymbolTable.External,
    SymbolTable.store, storeGet, storeSet,
    M_bind_apply, M_pure_apply, M.get, M.set, M.lift, M.fail,
    onSymbolTable, curScope, setCurScope, curInstructions, addConstant, addInstruction,
    setLastInstruction, emit, lastInstructionIs, removeLastPop, replaceInstructionLoop,
    replaceInstruction, replaceLastPopWithReturn, changeOperand, leaveScope, enterScope,
    loadSymbol, loadSymbols, defineParams, finishFunction, stripLastPop, emitInfix, emitPrefixOp,
    Compiler.alloc, Compiler.Bytecode,
    Make_OpConstant, Make_OpPop, Make_OpAdd, Make_OpSub, Make_OpEQL, Make_OpReturnValue,
    Make_OpReturn, Make_OpCurrClosure, Make_OpNil, Make_OpCall, Make_OpGetGlobal,
    Make_OpSetGlobal, Make_OpGetLocal, Make_OpSetLocal, Make_OpContext, Make_OpClosure,
    Make_OpJump, Make_OpJumpConditionNotTrue, specInstruction, specOperandBytes,
    List.zipWith_cons_cons, List.zipWith_nil_right, List.zipWith_nil_left, List.flatten,
    List.append_nil, List.nil_append, List.cons_append, List.singleton_append, List.append_assoc,
    getAt, getIndex, setAt, setIndex,
    GlobalScope, LocalScope, BuiltinScope, ContextScope, FunctionScope,
    List.lookup, List.filter, List.length_cons, List.length_nil, List.length_append,
    List.getElem?_cons_zero, List.getElem?_cons_succ, List.set_cons_zero, List.set_cons_succ,
    List.take_succ_cons, List.take_zero, Option.isSome,
    String.reduceEq, String.reduceNe, String.reduceBEq, String.reduceBNe,
    Int.reduceSub, Int.reduceAdd, Int.reduceLT, Int.reduceLE, Int.reduceToNat, Int.reduceNeg,
    Int.reduceEq, Int.reduceMod, Int.reduceDiv,
    Nat.reduceAdd, Nat.reduceMul, Nat.reduceLT, Nat.reduceLeDiff, Nat.reduceEqDiff, Nat.reduceSub,
    Nat.reduceBEq, Nat.reduceBNe,
    Nat.cast_ofNat, Nat.cast_zero, Nat.cast_one, Int.toNat_zero, sub_zero, add_zero, zero_add,
    if_true, if_false, ite_true, ite_false, decide_True, decide_False, ge_iff_le, ne_eq,
    not_true_eq_false, not_false_eq_true, Bool.not_true, Bool.not_false, Bool.false_eq_true,
    Bool.true_or, Bool.or_true, Bool.or_false, Bool.false_or, beq_self_eq_true, bne_self_eq_false,
    Nat.zero_lt_succ, Nat.lt_add_one, or_true, true_or, Nat.add_assoc, beq_iff_eq, bne_iff_ne,
    reduceCtorEq]
  rfl

/-- The run of `balanceProgram` up to the call of `f`: five rounds. -/
theorem balance_rounds_call (hc hv : Nat) (hi g : List (Option Object)) (frs : List (Option Frame)) :
    VM.rounds 5
        ⟨(balanceBytecode hc).Constants,
          none :: none :: none :: none :: none :: none :: none :: none :: hi, 0,
          none :: none :: g,
          some ⟨⟨hv + 1, hv, ⟨(balanceBytecode hc).Instructions, 0, 0⟩, []⟩, -1, 0⟩ :: none :: none :: none :: frs, 1,
          hv + 2⟩
      = some
        ⟨(balanceBytecode hc).Constants,
          some (.Closure (hv + 2) (hc + 4) balanceOuter []) :: none :: none :: none :: none :: none :: none :: none :: hi, 4,
          some (.Closure (hv + 2) (hc + 4) balanceOuter []) :: none :: g,
          some ⟨⟨hv + 1, hv, ⟨(balanceBytecode hc).Instructions, 0, 0⟩, []⟩, 12, 0⟩ :: some ⟨⟨hv + 2, hc + 4, balanceOuter, []⟩, -1, 1⟩ :: none :: none :: frs, 2,
          hv + 3⟩ := by
  simp only [rounds_succ, rounds_zero, loopCondition, loopBody, curFrame, M_bind_apply, M_pure_apply, M.get, M.set,
    M.lift, M.fail, advanceIp, setIp,
    dispatch_OpClosure_eq, dispatch_OpConstant_eq, dispatch_OpSetGlobal_eq,
    dispatch_OpGetGlobal_eq, dispatch_OpSetLocal_eq, dispatch_OpGetLocal_eq,
    dispatch_OpContext_eq, dispatch_OpCurrClosure_eq, dispatch_OpPop_eq, dispatch_OpAdd_eq,
    dispatch_OpSub_eq, dispatch_OpEQL_eq, dispatch_OpCall_eq, dispatch_OpReturnValue_eq,
    dispatch_OpJump_eq, dispatch_OpJumpConditionNotTrue_eq,
    readUint16After, readUint8After, sliceFromAt, sliceFrom, ReadUint16, ReadUint8,
    pushClosure, push, pop, pushFrame, popFrame, newArrayLoop, VM.alloc, executeCall,
    callClosure, NewFrame, executeArithmeticOperation, executeArithmeticIntegerOperation,
    executeComparisonOperation, executeComparisonIntegerOperation, translationBooleanObject,
    VM.isTrue, Closure.toObject, wrapInt64,
    getAt, getIndex, setAt, setIndex, Frame.Instructions, StackSize,
    Int.reduceSub, Int.reduceAdd, Int.reduceLT, Int.reduceLE, Int.reduceToNat, Int.reduceNeg,
    Int.reduceEq, Int.reduceMod,
    Nat.reduceAdd, Nat.reduceMul, Nat.reduceLT, Nat.reduceLeDiff, Nat.reduceEqDiff, Nat.reduceSub,
    Nat.cast_ofNat, Nat.cast_zero, Nat.cast_one, Int.toNat_zero, sub_zero, add_zero, zero_add,
    if_true, if_false, ite_true, ite_false, decide_True, decide_False, ge_iff_le, ne_eq,
    not_true_eq_false, not_false_eq_true,
    List.getElem?_cons_zero, List.getElem?_cons_succ, List.set_cons_zero, List.set_cons_succ,
    List.length_cons, List.length_nil, List.drop_succ_cons, List.drop_zero,
    Nat.zero_lt_succ, Nat.lt_add_one, lt_add_iff_pos_left, add_pos_iff, zero_lt_one, or_true,
    true_or, Nat.succ_lt_succ_iff, Nat.add_lt_add_iff_right, Nat.lt_add_left_iff_pos,
    Nat.add_assoc,
    balanceBytecode, balanceOuter, balanceInner]

/-- The three instructions of the statement `func g() { 1 }` in the body of `f`. -/
theorem balance_rounds_statement (hc hv : Nat) (hi g : List (Option Object)) (frs : List (Option Frame)) :
    VM.rounds 3
        ⟨(balanceBytecode hc).Constants,
          some (.Closure (hv + 2) (hc + 4) balanceOuter []) :: none :: none :: none :: none :: none :: none :: none :: hi, 4,
          some (.Closure (hv + 2) (hc + 4) balanceOuter []) :: none :: g,
          some ⟨⟨hv + 1, hv, ⟨(balanceBytecode hc).Instructions, 0, 0⟩, []⟩, 12, 0⟩ :: some ⟨⟨hv + 2, hc + 4, balanceOuter, []⟩, -1, 1⟩ :: none :: none :: frs, 2,
          hv + 3⟩
      = some
        ⟨(balanceBytecode hc).Constants,
          some (.Closure (hv + 2) (hc + 4) balanceOuter []) :: some (.Closure (hv + 3) (hc + 1) balanceInner []) :: none :: none :: some (.Closure (hv + 3) (hc + 1) balanceInner []) :: none :: none :: none :: hi, 3,
          some (.Closure (hv + 2) (hc + 4) balanceOuter []) :: none :: g,
          some ⟨⟨hv + 1, hv, ⟨(balanceBytecode hc).Instructions, 0, 0⟩, []⟩, 12, 0⟩ :: some ⟨⟨hv + 2, hc + 4, balanceOuter, []⟩, 6, 1⟩ :: none :: none :: frs, 2,
          hv + 4⟩ := by
  simp only [rounds_succ, rounds_zero, loopCondition, loopBody, curFrame, M_bind_apply, M_pure_apply, M.get, M.set,
    M.lift, M.fail, advanceIp, setIp,
    dispatch_OpClosure_eq, dispatch_OpConstant_eq, dispatch_OpSetGlobal_eq,
    dispatch_OpGetGlobal_eq, dispatch_OpSetLocal_eq, dispatch_OpGetLocal_eq,
    dispatch_OpContext_eq, dispatch_OpCurrClosure_eq, dispatch_OpPop_eq, dispatch_OpAdd_eq,
    dispatch_OpSub_eq, dispatch_OpEQL_eq, dispatch_OpCall_eq, dispatch_OpReturnValue_eq,
    dispatch_OpJump_eq, dispatch_OpJumpConditionNotTrue_eq,
    readUint16After, readUint8After, sliceFromAt, sliceFrom, ReadUint16, ReadUint8,
    pushClosure, push, pop, pushFrame, popFrame, newArrayLoop, VM.alloc, executeCall,
    callClosure, NewFrame, executeArithmeticOperation, executeArithmeticIntegerOperation,
    executeComparisonOperation, executeComparisonIntegerOperation, translationBooleanObject,
    VM.isTrue, Closure.toObject, wrapInt64,
    getAt, getIndex, setAt, setIndex, Frame.Instructions, StackSize,
    Int.reduceSub, Int.reduceAdd, Int.reduceLT, Int.reduceLE, Int.reduceToNat, Int.reduceNeg,
    Int.reduceEq, Int.reduceMod,
    Nat.reduceAdd, Nat.reduceMul, Nat.reduceLT, Nat.reduceLeDiff, Nat.reduceEqDiff, Nat.reduceSub,
    Nat.cast_ofNat, Nat.cast_zero, Nat.cast_one, Int.toNat_zero, sub_zero, add_zero, zero_add,
    if_true, if_false, ite_true, ite_false, decide_True, decide_False, ge_iff_le, ne_eq,
    not_true_eq_false, not_false_eq_true,
    List.getElem?_cons_zero, List.getElem?_cons_succ, List.set_cons_zero, List.set_cons_succ,
    List.length_cons, List.length_nil, List.drop_succ_cons, List.drop_zero,
    Nat.zero_lt_succ, Nat.lt_add_one, lt_add_iff_pos_left, add_pos_iff, zero_lt_one, or_true,
    true_or, Nat.succ_lt_succ_iff, Nat.add_lt_add_iff_right, Nat.lt_add_left_iff_pos,
    Nat.add_assoc,
    balanceBytecode, balanceOuter, balanceInner]

/-- The rest of the run of `balanceProgram`. -/
theorem balance_run_rest (hc hv : Nat) (hi g : List (Option Object)) (frs : List (Option Frame)) (fuel : Nat) :
    defaultVmHandler (fuel + 10)
        ⟨(balanceBytecode hc).Constants,
          some (.Closure (hv + 2) (hc + 4) balanceOuter []) :: some (.Closure (hv + 3) (hc + 1) balanceInner []) :: none :: none :: some (.Closure (hv + 3) (hc + 1) balanceInner []) :: none :: none :: none :: hi, 3,
          some (.Closure (hv + 2) (hc + 4) balanceOuter []) :: none :: g,
          some ⟨⟨hv + 1, hv, ⟨(balanceBytecode hc).Instructions, 0, 0⟩, []⟩, 12, 0⟩ :: some ⟨⟨hv + 2, hc + 4, balanceOuter, []⟩, 6, 1⟩ :: none :: none :: frs, 2,
          hv + 4⟩
      = some (.ok (),
        ⟨(balanceBytecode hc).Constants,
          some (.Integer (hv + 4) 10) :: some (.Closure (hv + 3) (hc + 1) balanceInner []) :: some (.Integer (hc + 2) 5) :: some (.Integer (hv + 4) 10) :: some (.Integer (hc + 2) 5) :: none :: none :: none :: hi, 0,
          some (.Closure (hv + 2) (hc + 4) balanceOuter []) :: none :: g,
          some ⟨⟨hv + 1, hv, ⟨(balanceBytecode hc).Instructions, 0, 0⟩, []⟩, 13, 0⟩ :: some ⟨⟨hv + 2, hc + 4, balanceOuter, []⟩, 22, 1⟩ :: none :: none :: frs, 1,
          hv + 5⟩) := by
  simp only [defaultVmHandler_succ, loopCondition, loopBody, curFrame, M_bind_apply, M_pure_apply, M.get, M.set,
    M.lift, M.fail, advanceIp, setIp,
    dispatch_OpClosure_eq, dispatch_OpConstant_eq, dispatch_OpSetGlobal_eq,
    dispatch_OpGetGlobal_eq, dispatch_OpSetLocal_eq, dispatch_OpGetLocal_eq,
    dispatch_OpContext_eq, dispatch_OpCurrClosure_eq, dispatch_OpPop_eq, dispatch_OpAdd_eq,
    dispatch_OpSub_eq, dispatch_OpEQL_eq, dispatch_OpCall_eq, dispatch_OpReturnValue_eq,
    dispatch_OpJump_eq, dispatch_OpJumpConditionNotTrue_eq,
    readUint16After, readUint8After, sliceFromAt, sliceFrom, ReadUint16, ReadUint8,
    pushClosure, push, pop, pushFrame, popFrame, newArrayLoop, VM.alloc, executeCall,
    callClosure, NewFrame, executeArithmeticOperation, executeArithmeticIntegerOperation,
    executeComparisonOperation, executeComparisonIntegerOperation, translationBooleanObject,
    VM.isTrue, Closure.toObject, wrapInt64,
    getAt, getIndex, setAt, setIndex, Frame.Instructions, StackSize,
    Int.reduceSub, Int.reduceAdd, Int.reduceLT, Int.reduceLE, Int.reduceToNat, Int.reduceNeg,
    Int.reduceEq, Int.reduceMod,
    Nat.reduceAdd, Nat.reduceMul, Nat.reduceLT, Nat.reduceLeDiff, Nat.reduceEqDiff, Nat.reduceSub,
    Nat.cast_ofNat, Nat.cast_zero, Nat.cast_one, Int.toNat_zero, sub_zero, add_zero, zero_add,
    if_true, if_false, ite_true, ite_false, decide_True, decide_False, ge_iff_le, ne_eq,
    not_true_eq_false, not_false_eq_true,
    List.getElem?_cons_zero, List.getElem?_cons_succ, List.set_cons_zero, List.set_cons_succ,
    List.length_cons, List.length_nil, List.drop_succ_cons, List.drop_zero,
    Nat.zero_lt_succ, Nat.lt_add_one, lt_add_iff_pos_left, add_pos_iff, zero_lt_one, or_true,
    true_or, Nat.succ_lt_succ_iff, Nat.add_lt_add_iff_right, Nat.lt_add_left_iff_pos,
    Nat.add_assoc,
    balanceBytecode, balanceOuter, balanceInner]

/-- C15: a statement does not always leave `sp` as it found it. The program
`func f() { func g() { 1 }  var b = 5  var c = 7  b + c }  f()` compiles without error.
Five rounds into its run the machine is at the start of the body of `f` (second frame,
`ip = -1`) with `sp = 4`. The statement `func g() { 1 }` is the first three instructions
of that body, `OpClosure 1 0; OpSetLocal 0; OpPop` (bytes 0 to 6). After these three
rounds, none of which fails or leaves the frame, `sp = 3`: `OpSetLocal` has popped the
closure and `OpPop` pops once more. The run then ends without error, and what the last
statement `b + c` leaves is 10, not 12: the slot of `c` was overwritten. -/
theorem C15_function_statement_lowers_sp (ks : Node → String) (heapC heapV fuel : Nat) :
    compileProgram ks balanceProgram heapC = .ok (balanceBytecode heapC)
    ∧ ∃ v1 v2 v3 cl bp,
        VM.rounds 5 (NewVM (balanceBytecode heapC) heapV) = some v1
        ∧ VM.rounds 3 v1 = some v2
        ∧ VM.Run (fuel + 18) (NewVM (balanceBytecode heapC) heapV) = some (.ok (), v3)
        ∧ cl.Fn = balanceOuter
        ∧ curFrame v1 = (.ok ⟨cl, -1, bp⟩, v1) ∧ v1.framesIndex = 2 ∧ v1.sp = 4
        ∧ curFrame v2 = (.ok ⟨cl, 6, bp⟩, v2) ∧ v2.framesIndex = 2 ∧ v2.sp = 3
        ∧ LastPoppedStackElem v3 = .ok (some (.Integer (heapV + 4) 10)) := by
  have h5 := (congrArg (VM.rounds 5)
    (NewVM_eq_slots (balanceBytecode heapC).Instructions (balanceBytecode heapC).Constants
      heapV)).trans
    (balance_rounds_call heapC heapV (List.replicate 2040 none) (List.replicate 65534 none)
      (List.replicate 2044 none))
  have h3 := balance_rounds_statement heapC heapV (List.replicate 2040 none)
    (List.replicate 65534 none) (List.replicate 2044 none)
  have hr := balance_run_rest heapC heapV (List.replicate 2040 none)
    (List.replicate 65534 none) (List.replicate 2044 none) fuel
  have hrun := ((defaultVmHandler_rounds 5 _ _ (fuel + 13) h5).trans
    (defaultVmHandler_rounds 3 _ _ (fuel + 10) h3)).trans hr
  exact ⟨compile_balanceProgram ks heapC, _, _, _, ⟨heapV + 2, heapC + 4, balanceOuter, []⟩, 1,
    h5, h3, hrun, rfl, curFrame_second _ _ _ _ _ _ _ _, rfl, rfl,
    curFrame_second _ _ _ _ _ _ _ _, rfl, rfl, LastPoppedStackElem_zero _ _ _ _ _ _ _⟩

/-! ## Theorems: termination of the disassembler -/

/-- The decoding loop goes through well-formed instructions placed between `pre` and
`suf` in one round each. -/
theorem stringLoop_prefix (instrs : List (Opcode × List Int)) (chunks : List (List Nat))
    (h : List.Forall₂ (fun p c => wellFormedInstr p ∧ Make p.1 p.2 = .ok c) instrs chunks)
    (pre suf : List Nat) (out : String) (fuel : Nat) :
    StringLoop (pre ++ (chunks.flatten ++ suf)) (fuel + instrs.length) pre.length out
      = StringLoop (pre ++ (chunks.flatten ++ suf)) fuel (pre ++ chunks.flatten).length
          (out ++ concatStrings (List.zipWith specLine (specOffsets chunks pre.length) instrs)) := by
  induction h generalizing pre out with
  | nil =>
    simp [specOffsets, concatStrings]
  | @cons p c instrs chunks hpc _ ih =>
    obtain ⟨⟨d, hd, hlen⟩, hmake⟩ := hpc
    rw [make_eq_spec p.1 d p.2 hd hlen] at hmake
    have hc : c = specInstruction p.1 d.OperandWidths p.2 := by
      injection hmake with h1; exact h1.symm
    have hclen : c.length = 1 + d.OperandWidths.sum := by
      rw [hc]; exact specInstruction_length _ _ _ (definitions_widths hd) hlen
    have hread := readOperands_spec p.1 d p.2 (chunks.flatten ++ suf) hd hlen
    rw [← hc] at hread
    have hc0 : c = p.1 :: c.drop 1 := by rw [hc]; rfl
    have hget : (pre ++ ((c :: chunks).flatten ++ suf)).getD pre.length 0 = p.1 := by
      rw [hc0]; exact getD_append_cons _ _ _ _
    have hslice : sliceFrom (pre ++ ((c :: chunks).flatten ++ suf)) (pre.length + 1)
        = .ok (c.drop 1 ++ (chunks.flatten ++ suf)) := by
      have hl : pre.length + 1 ≤ (pre ++ ((c :: chunks).flatten ++ suf)).length := by
        simp [List.flatten]; omega
      simp only [sliceFrom, if_pos hl]
      congr 1
      rw [List.drop_append_eq_append_drop]
      have : pre.length + 1 - pre.length = 1 := by omega
      rw [this, List.drop_of_length_le (by omega)]
      simp only [List.flatten, List.nil_append, List.append_assoc]
      rw [List.drop_append_of_le_length (by omega)]
    have hlt : pre.length < (pre ++ ((c :: chunks).flatten ++ suf)).length := by
      simp [List.flatten]; omega
    have hnext := ih (pre ++ c) (out ++ fmt04d pre.length ++ " "
      ++ format d (List.zipWith specDecoded d.OperandWidths p.2) ++ "\n")
    show StringLoop _ (fuel + instrs.length + 1) _ _ = _
    rw [StringLoop, if_pos hlt, hget]
    simp only [FindDefinitionByOp, hd, hslice, hread]
    have e1 : pre.length + (d.OperandWidths.sum + 1) = (pre ++ c).length := by
      simp [hclen]; omega
    have e2 : pre ++ ((c :: chunks).flatten ++ suf) = (pre ++ c) ++ (chunks.flatten ++ suf) := by
      simp [List.flatten]
    have e3 : pre ++ (c :: chunks).flatten = (pre ++ c) ++ chunks.flatten := by
      simp [List.flatten]
    rw [e1, e2, e3, hnext]
    simp only [specOffsets, List.zipWith_cons_cons, concatStrings, specLine, hd,
      format_eq_spec p.1 d p.2 hd hlen, List.length_append, String.append_assoc]

/-- At a byte that is not a defined opcode the decoding loop stays where it is. -/
theorem stringLoop_stuck (ins : List Nat) (i : Nat) (hi : i < ins.length)
    (hb : definitions (ins.getD i 0) = none) (fuel : Nat) :
    ∀ out, StringLoop ins fuel i out = none := by
  induction fuel with
  | zero => intro out; rfl
  | succ fuel ih =>
    intro out
    rw [StringLoop, if_pos hi]
    simp only [FindDefinitionByOp, hb]
    exact ih _

/-- C40: the disassembler ends on well-formed streams only. On the concatenation of `n`
instructions, each the output of `Make` on a defined opcode with matching arity, the loop
of `Instructions.String` makes one round per instruction: `n` rounds and the final test
of the loop condition give the result, `n` rounds alone do not. When such a stream is
followed by a byte `b` that is not a defined opcode, a round at that byte appends the
line `ERROR: opcode b undefined` and leaves the offset where it is, and `String` does not
return, whatever the fuel. -/
theorem C40_disassembler_totality (instrs : List (Opcode × List Int))
    (chunks : List (List Nat))
    (h : List.Forall₂ (fun p c => wellFormedInstr p ∧ Make p.1 p.2 = .ok c) instrs chunks) :
    (∃ s, Instructions.String chunks.flatten (instrs.length + 1) = some (.ok s))
    ∧ Instructions.String chunks.flatten instrs.length = none
    ∧ ∀ (b : Nat) (rest : List Nat), definitions b = none →
        (∀ fuel out,
          StringLoop (chunks.flatten ++ b :: rest) (fuel + 1) chunks.flatten.length out
            = StringLoop (chunks.flatten ++ b :: rest) fuel chunks.flatten.length
                (out ++ "ERROR: " ++ ("opcode " ++ toString b ++ " undefined") ++ "\n"))
        ∧ ∀ fuel, Instructions.String (chunks.flatten ++ b :: rest) fuel = none := by
  refine ⟨?_, ?_, fun b rest hb => ⟨fun fuel out => ?_, fun fuel => ?_⟩⟩
  · have h1 := stringLoop_prefix instrs chunks h [] [] "" 1
    simp only [List.nil_append, List.append_nil, List.length_nil] at h1
    refine ⟨"" ++ concatStrings (List.zipWith specLine (specOffsets chunks 0) instrs), ?_⟩
    rw [Instructions.String, Nat.add_comm, h1, StringLoop, if_neg (lt_irrefl _)]
  · have h0 := stringLoop_prefix instrs chunks h [] [] "" 0
    simp only [List.nil_append, List.append_nil, List.length_nil, Nat.zero_add] at h0
    rw [Instructions.String, h0]
    rfl
  · have hlt : chunks.flatten.length < (chunks.flatten ++ b :: rest).length := by simp
    have hget : (chunks.flatten ++ b :: rest).getD chunks.flatten.length 0 = b :=
      getD_append_cons _ _ _ _
    rw [StringLoop, if_pos hlt, hget]
    simp only [FindDefinitionByOp, hb]
  · have hlt : chunks.flatten.length < (chunks.flatten ++ b :: rest).length := by simp
    have hget : (chunks.flatten ++ b :: rest).getD chunks.flatten.length 0 = b :=
      getD_append_cons _ _ _ _
    by_cases hf : instrs.length ≤ fuel
    · obtain ⟨k, rfl⟩ : ∃ k, fuel = k + instrs.length := ⟨fuel - instrs.length, by omega⟩
      have h1 := stringLoop_prefix instrs chunks h [] (b :: rest) "" k
      simp only [List.nil_append, List.length_nil] at h1
      rw [Instructions.String, h1]
      exact stringLoop_stuck _ _ hlt (by rw [hget]; exact hb) k _
    · have ht := List.forall₂_take fuel h
      have hlen : (instrs.take fuel).length = fuel := by
        rw [List.length_take]; omega
      have h1 := stringLoop_prefix (instrs.take fuel) (chunks.take fuel) ht []
        ((chunks.drop fuel).flatten ++ b :: rest) "" 0
      rw [hlen] at h1
      simp only [List.nil_append, List.length_nil, Nat.zero_add, ← List.append_assoc,
        ← List.flatten_append, List.take_append_drop] at h1
      rw [Instructions.String, h1]
      rfl

/-- Witness of C40: the stream `OpAdd`, alone and followed by the undefined byte 255. -/
theorem C40_disassembler_totality_witness :
    List.Forall₂ (fun p c => wellFormedInstr p ∧ Make p.1 p.2 = .ok c)
        [(OpAdd, ([] : List Int))] [[5]]
    ∧ Instructions.String ([[5]] : List (List Nat)).flatten
        ([(OpAdd, ([] : List Int))] : List (Opcode × List Int)).length = none
    ∧ ∀ fuel, Instructions.String (([[5]] : List (List Nat)).flatten ++ 255 :: []) fuel = none :=
  ⟨List.Forall₂.cons ⟨⟨_, rfl, rfl⟩, rfl⟩ List.Forall₂.nil,
    (C40_disassembler_totality [(OpAdd, [])] [[5]]
      (List.Forall₂.cons ⟨⟨_, rfl, rfl⟩, rfl⟩ List.Forall₂.nil)).2.1,
    fun fuel => ((C40_disassembler_totality [(OpAdd, [])] [[5]]
      (List.Forall₂.cons ⟨⟨_, rfl, rfl⟩, rfl⟩ List.Forall₂.nil)).2.2 255 [] rfl).2 fuel⟩

/-! ## Theorems: operands of one byte -/

/-- The bytes of an instruction with a single operand of width 1. -/
theorem specInstruction_one (op : Opcode) (x : Int) :
    specInstruction op [1] [x] = [op, (x % 256).toNat] := rfl

/-- C39: operands of one byte wrap without an error. When the callee and the `n`
arguments of a call expression have been compiled, the compiler appends `OpCall` with
the operand byte `n mod 256` and returns no error; with 256 arguments the instruction is
`OpCall 0`. In the same way a symbol of local or of context scope with index `i` is
loaded by `OpGetLocal`, respectively `OpContext`, with the operand byte `i mod 256`, and
`OpSetLocal` is emitted with the byte `i mod 256`. -/
theorem C39_one_byte_operands_wrap (ks : Node → String) (func : Node) (args : List Node)
    (c c1 : Compiler) (cs : List Object) (tbl : Option SymbolTable)
    (pre post : List CompilationScope) (sc : CompilationScope) (hp : Nat)
    (hf : Compile ks func c = (.ok (), c1))
    (ha : CompileList ks args c1 = (.ok (), ⟨cs, tbl, pre ++ sc :: post, pre.length, hp⟩)) :
    Compile ks (.CallExpr func args) c
      = (.ok (), ⟨cs, tbl,
          pre ++ ⟨sc.instructions ++ [OpCall, args.length % 256],
            ⟨OpCall, sc.instructions.length⟩, sc.lastInstruction⟩ :: post, pre.length, hp⟩)
    ∧ (args.length = 256 →
        Compile ks (.CallExpr func args) c
          = (.ok (), ⟨cs, tbl,
              pre ++ ⟨sc.instructions ++ [OpCall, 0],
                ⟨OpCall, sc.instructions.length⟩, sc.lastInstruction⟩ :: post, pre.length, hp⟩))
    ∧ (∀ (i : Int) (name : String),
        loadSymbol ⟨LocalScope, i, name⟩ ⟨cs, tbl, pre ++ sc :: post, pre.length, hp⟩
          = (.ok (), ⟨cs, tbl,
              pre ++ ⟨sc.instructions ++ [OpGetLocal, (i % 256).toNat],
                ⟨OpGetLocal, sc.instructions.length⟩, sc.lastInstruction⟩ :: post,
              pre.length, hp⟩))
    ∧ (∀ (i : Int) (name : String),
        loadSymbol ⟨ContextScope, i, name⟩ ⟨cs, tbl, pre ++ sc :: post, pre.length, hp⟩
          = (.ok (), ⟨cs, tbl,
              pre ++ ⟨sc.instructions ++ [OpContext, (i % 256).toNat],
                ⟨OpContext, sc.instructions.length⟩, sc.lastInstruction⟩ :: post,
              pre.length, hp⟩))
    ∧ (∀ i : Int,
        emit OpSetLocal [i] ⟨cs, tbl, pre ++ sc :: post, pre.length, hp⟩
          = (.ok sc.instructions.length, ⟨cs, tbl,
              pre ++ ⟨sc.instructions ++ [OpSetLocal, (i % 256).toNat],
                ⟨OpSetLocal, sc.instructions.length⟩, sc.lastInstruction⟩ :: post,
              pre.length, hp⟩)) := by
  have hcall : Compile ks (.CallExpr func args) c
      = (.ok (), ⟨cs, tbl,
          pre ++ ⟨sc.instructions ++ [OpCall, args.length % 256],
            ⟨OpCall, sc.instructions.length⟩, sc.lastInstruction⟩ :: post, pre.length, hp⟩) := by
    have hm : Make OpCall [(args.length : Int)] = .ok [OpCall, args.length % 256] := by
      rw [Make_OpCall, specInstruction_one]
      congr 3
    rw [Compile]
    simp only [M_bind_apply, hf, ha, emit_eq _ _ _ _ _ _ _ _ _ hm, M_pure_apply]
  refine ⟨hcall, fun h256 => ?_, fun i name => ?_, fun i name => ?_, fun i => ?_⟩
  · rw [hcall, h256]
  · have hm : Make OpGetLocal [i] = .ok [OpGetLocal, (i % 256).toNat] := by
      rw [Make_OpGetLocal, specInstruction_one]
    have h1 : ¬ (LocalScope = GlobalScope) := by decide
    simp only [loadSymbol, h1, if_false, if_true, M_bind_apply, emit_eq _ _ _ _ _ _ _ _ _ hm,
      M_pure_apply]
  · have hm : Make OpContext [i] = .ok [OpContext, (i % 256).toNat] := by
      rw [Make_OpContext, specInstruction_one]
    have h1 : ¬ (ContextScope = GlobalScope) := by decide
    have h2 : ¬ (ContextScope = LocalScope) := by decide
    have h3 : ¬ (ContextScope = BuiltinScope) := by decide
    simp only [loadSymbol, h1, h2, h3, if_false, if_true, M_bind_apply,
      emit_eq _ _ _ _ _ _ _ _ _ hm, M_pure_apply]
  · have hm : Make OpSetLocal [i] = .ok [OpSetLocal, (i % 256).toNat] := by
      rw [Make_OpSetLocal, specInstruction_one]
    exact emit_eq _ _ _ _ _ _ _ _ _ hm

/-- Witness of C39: the call `7(8)` compiled in an empty scope. -/
theorem C39_one_byte_operands_wrap_witness :
    Compile (fun _ => "") (.Integer 7) ⟨[], none, [⟨[], ⟨0, 0⟩, ⟨0, 0⟩⟩], 0, 0⟩
      = (.ok (), ⟨[.Integer 0 7], none, [⟨[OpConstant, 0, 0], ⟨OpConstant, 0⟩, ⟨0, 0⟩⟩], 0, 1⟩)
    ∧ CompileList (fun _ => "") [.Integer 8]
        ⟨[.Integer 0 7], none, [⟨[OpConstant, 0, 0], ⟨OpConstant, 0⟩, ⟨0, 0⟩⟩], 0, 1⟩
      = (.ok (), ⟨[.Integer 0 7, .Integer 1 8], none,
          [] ++ ⟨[OpConstant, 0, 0, OpConstant, 0, 1], ⟨OpConstant, 3⟩, ⟨OpConstant, 0⟩⟩ :: [],
          (([] : List CompilationScope).length : Int), 2⟩)
    ∧ Compile (fun _ => "") (.CallExpr (.Integer 7) [.Integer 8])
        ⟨[], none, [⟨[], ⟨0, 0⟩, ⟨0, 0⟩⟩], 0, 0⟩
      = (.ok (), ⟨[.Integer 0 7, .Integer 1 8], none,
          [] ++ ⟨[OpConstant, 0, 0, OpConstant, 0, 1] ++ [OpCall, [Node.Integer 8].length % 256],
            ⟨OpCall, [OpConstant, 0, 0, OpConstant, 0, 1].length⟩, ⟨OpConstant, 3⟩⟩ :: [],
          (([] : List CompilationScope).length : Int), 2⟩) := by
  have hf : Compile (fun _ => "") (.Integer 7) ⟨[], none, [⟨[], ⟨0, 0⟩, ⟨0, 0⟩⟩], 0, 0⟩
      = (.ok (), ⟨[.Integer 0 7], none, [⟨[OpConstant, 0, 0], ⟨OpConstant, 0⟩, ⟨0, 0⟩⟩], 0, 1⟩) :=
    compile_Integer_at0 _ [] none _ 0 7 (by decide)
  have ha : CompileList (fun _ => "") [.Integer 8]
        ⟨[.Integer 0 7], none, [⟨[OpConstant, 0, 0], ⟨OpConstant, 0⟩, ⟨0, 0⟩⟩], 0, 1⟩
      = (.ok (), ⟨[.Integer 0 7, .Integer 1 8], none,
          [] ++ ⟨[OpConstant, 0, 0, OpConstant, 0, 1], ⟨OpConstant, 3⟩, ⟨OpConstant, 0⟩⟩ :: [],
          (([] : List CompilationScope).length : Int), 2⟩) := by
    rw [CompileList, CompileList]
    simp only [M_bind_apply, M_pure_apply,
      compile_Integer_at0 _ [.Integer 0 7] none _ 1 8 (by decide)]
    rfl
  exact ⟨hf, ha, (C39_one_byte_operands_wrap _ _ _ _ _ _ _ _ _ _ _ hf ha).1⟩

/-! ## Theorems: indices given by `Define` -/

theorem storeGet_storeSet_ne (st : List (String × Symbol)) (name other : String)
    (sym : Symbol) (h : other ≠ name) :
    storeGet (storeSet st name sym) other = storeGet st other := by
  have h1 : (other == name) = false := by simpa using h
  simp only [storeGet, storeSet, List.lookup, h1]
  induction st with
  | nil => rfl
  | cons kv st ih =>
    obtain ⟨k, v⟩ := kv
    by_cases hk : k = name
    · subst hk
      simp only [List.filter, bne_self_eq_false, List.lookup, h1]
      exact ih
    · have h3 : (k != name) = true := by simpa using hk
      simp only [List.filter, h3, List.lookup]
      cases other == k
      · exact ih
      · rfl

theorem storeSet_length_of_none (st : List (String × Symbol)) (name : String) (sym : Symbol)
    (h : storeGet st name = none) : (storeSet st name sym).length = st.length + 1 := by
  have hall : ∀ kv ∈ st, (kv.1 != name) = true := by
    intro kv hkv
    have hnone := List.lookup_eq_none_iff.mp h kv hkv
    simp only [bne_iff_ne, ne_eq] at hnone ⊢
    exact fun heq => hnone heq.symm
  simp only [storeSet, List.length_cons, List.filter_eq_self.mpr hall]

/-- What a sequence of `Define` calls leaves: the counter counts the calls, a name that is
not defined again later keeps the index of its call, and other names are untouched. -/
theorem defineAll_spec (names : List String) :
    ∀ (st : List (String × Symbol)) (c : Nat) (ext : Option SymbolTable) (ctx : List Symbol),
      (defineAll names (.mk st c ext ctx)).count = c + names.length
      ∧ (defineAll names (.mk st c ext ctx)).External = ext
      ∧ (∀ n, n ∉ names →
          storeGet (defineAll names (.mk st c ext ctx)).store n = storeGet st n)
      ∧ (∀ k (hk : k < names.length), names[k] ∉ names.drop (k + 1) →
          storeGet (defineAll names (.mk st c ext ctx)).store names[k]
            = some ⟨if ext.isSome then LocalScope else GlobalScope, ((c + k : Nat) : Int),
                names[k]⟩) := by
  induction names with
  | nil =>
    intro st c ext ctx
    exact ⟨rfl, rfl, fun _ _ => rfl, fun k hk => absurd hk (Nat.not_lt_zero k)⟩
  | cons n rest ih =>
    intro st c ext ctx
    have hstep : defineAll (n :: rest) (.mk st c ext ctx)
        = defineAll rest (.mk (storeSet st n
            ⟨if ext.isSome then LocalScope else GlobalScope, (c : Int), n⟩) (c + 1) ext ctx) :=
      rfl
    obtain ⟨h1, h2, h3, h4⟩ := ih (storeSet st n
      ⟨if ext.isSome then LocalScope else GlobalScope, (c : Int), n⟩) (c + 1) ext ctx
    rw [hstep]
    refine ⟨?_, h2, ?_, ?_⟩
    · rw [h1, List.length_cons]; omega
    · intro m hm
      rw [List.mem_cons, not_or] at hm
      rw [h3 m hm.2, storeGet_storeSet_ne _ _ _ _ hm.1]
    · intro k hk hlast
      cases k with
      | zero =>
        simp only [List.getElem_cons_zero, Nat.zero_add, List.drop_succ_cons,
          List.drop_zero] at hlast ⊢
        rw [h3 n hlast, storeGet_storeSet_self]
        rfl
      | succ k =>
        simp only [List.getElem_cons_succ, List.drop_succ_cons] at hlast ⊢
        have hk1 : k < rest.length := by simpa using hk
        rw [h4 k hk1 hlast]
        congr 2
        omega

theorem defineAll_store_length (names : List String) :
    ∀ (st : List (String × Symbol)) (c : Nat) (ext : Option SymbolTable) (ctx : List Symbol),
      names.Nodup → (∀ n ∈ names, storeGet st n = none) →
      (defineAll names (.mk st c ext ctx)).store.length = st.length + names.length := by
  induction names with
  | nil => intro st c ext ctx _ _; rfl
  | cons n rest ih =>
    intro st c ext ctx hnd hnone
    have hstep : defineAll (n :: rest) (.mk st c ext ctx)
        = defineAll rest (.mk (storeSet st n
            ⟨if ext.isSome then LocalScope else GlobalScope, (c : Int), n⟩) (c + 1) ext ctx) :=
      rfl
    rw [List.nodup_cons] at hnd
    rw [hstep, ih _ _ _ _ hnd.2 (fun m hm => by
      rw [storeGet_storeSet_ne _ _ _ _ (fun h => hnd.1 (by rw [← h]; exact hm))]
      exact hnone m (List.mem_cons_of_mem _ hm)),
      storeSet_length_of_none _ _ _ (hnone n (List.mem_cons_self _ _)), List.length_cons]
    omega

/-- C36: dense indices, for names that do not repeat. After a sequence of `Define` calls
with pairwise distinct names on a freshly created table (outermost or enclosed), the
counter equals the number of names the table maps, the `k`-th name is mapped to the
Global (respectively Local) symbol with index `k`, and nothing else is mapped: the
indices are exactly `0, ..., counter - 1`. -/
theorem C36_dense_indices (ext : Option SymbolTable) (names : List String)
    (hnd : names.Nodup) :
    (defineAll names (.mk [] 0 ext [])).count = names.length
    ∧ (defineAll names (.mk [] 0 ext [])).store.length
        = (defineAll names (.mk [] 0 ext [])).count
    ∧ (∀ k (hk : k < names.length),
        storeGet (defineAll names (.mk [] 0 ext [])).store names[k]
          = some ⟨if ext.isSome then LocalScope else GlobalScope, (k : Int), names[k]⟩)
    ∧ (∀ name sym, storeGet (defineAll names (.mk [] 0 ext [])).store name = some sym →
        ∃ k, ∃ hk : k < names.length, name = names[k]
          ∧ sym = ⟨if ext.isSome then LocalScope else GlobalScope, (k : Int), name⟩) := by
  obtain ⟨h1, _, h3, h4⟩ := defineAll_spec names [] 0 ext []
  have hlater : ∀ k (hk : k < names.length), names[k] ∉ names.drop (k + 1) := by
    intro k hk hmem
    obtain ⟨j, hj, hjk⟩ := List.getElem_of_mem hmem
    rw [List.getElem_drop] at hjk
    have hj1 : k + 1 + j < names.length := by
      rw [List.length_drop] at hj; omega
    have := (@List.Nodup.getElem_inj_iff _ names hnd (k + 1 + j) hj1 k hk).mp hjk
    omega
  have hk3 : ∀ k (hk : k < names.length),
      storeGet (defineAll names (.mk [] 0 ext [])).store names[k]
        = some ⟨if ext.isSome then LocalScope else GlobalScope, (k : Int), names[k]⟩ := by
    intro k hk
    rw [h4 k hk (hlater k hk), Nat.zero_add]
  refine ⟨by rw [h1, Nat.zero_add], ?_, hk3, ?_⟩
  · rw [defineAll_store_length names [] 0 ext [] hnd (fun _ _ => rfl), h1]
    rfl
  · intro name sym hsym
    have hmem : name ∈ names := by
      by_contra hn
      rw [h3 name hn] at hsym
      cases hsym
    obtain ⟨k, hk, rfl⟩ := List.getElem_of_mem hmem
    refine ⟨k, hk, rfl, ?_⟩
    rw [hk3 k hk] at hsym
    exact (Option.some.inj hsym).symm

/-- Witness of C36: `a`, `b` defined on the outermost table. -/
theorem C36_dense_indices_witness :
    ["a", "b"].Nodup
    ∧ (defineAll ["a", "b"] (.mk [] 0 none [])).count = ["a", "b"].length
    ∧ (defineAll ["a", "b"] (.mk [] 0 none [])).store.length
        = (defineAll ["a", "b"] (.mk [] 0 none [])).count :=
  ⟨by decide, (C36_dense_indices none ["a", "b"] (by decide)).1,
    (C36_dense_indices none ["a", "b"] (by decide)).2.1⟩

/-- Names that repeat leave a gap: after `Define("a")` twice on a fresh table the counter
is 2, yet the table maps the single name `a`, to index 1, and no name to index 0. -/
theorem C36_counterexample :
    (defineAll ["a", "a"] NewSymbolTable).count = 2
    ∧ (defineAll ["a", "a"] NewSymbolTable).store = [("a", ⟨GlobalScope, 1, "a"⟩)] := by
  decide

/-! ## Theorems: the set-up of a closure call -/

theorem dispatch_OpGetLocal_at (cs : List Object) (st : List (Option Object)) (n : Nat)
    (g : List (Option Object)) (fpre fpost : List (Option Frame)) (cl : Closure) (bpn : Nat)
    (hp : Nat) (ipre ipost : List Nat) (idx : Nat) (o : Option Object)
    (hlt : n < 2048) (hlen : n < st.length) (ho : st[bpn + idx]? = some o) :
    dispatch (ipre ++ OpGetLocal :: idx :: ipost) OpGetLocal
        ⟨cs, st, (n : Int), g, fpre ++ some ⟨cl, (ipre.length : Int), (bpn : Int)⟩ :: fpost,
          (fpre.length : Int) + 1, hp⟩
      = (.ok (), ⟨cs, st.set n o, (n : Int) + 1, g,
          fpre ++ some ⟨cl, (ipre.length : Int) + 1, (bpn : Int)⟩ :: fpost,
          (fpre.length : Int) + 1, hp⟩) := by
  have hget : getAt st ((bpn : Int) + (idx : Int)) = .ok o := by
    have := getAt_of_getElem? st (bpn + idx) o ho
    rwa [Nat.cast_add] at this
  rw [dispatch_OpGetLocal_eq]
  simp only [M_bind_apply, readUint8After_eq, advanceIp_eq, curFrame_eq, M.get, M.lift, hget,
    push_at _ _ _ _ _ _ _ _ hlt hlen]

/-- C32: the set-up of a closure call. `executeCall argc`, run with `sp = s` and a Closure
at `stack[s-1-argc]`: when `argc` differs from the closure's `NumParameters` it returns
the wrong-number-of-arguments error and leaves the machine (`sp`, stack, frames) as it
was. Otherwise, the frame vector having a free slot, it pushes exactly one frame, with
`ip = -1` and `basePointer = s - argc`, sets `sp = basePointer + NumLocals` and changes no
stack slot; and whenever a frame with that base pointer is current on a stack that still
holds the arguments, `OpGetLocal i` with `i < argc` pushes `stack[s-argc+i]`, which is
argument `i`. -/
theorem C32_closure_call_setup (cs : List Object) (st : List (Option Object)) (s argc : Nat)
    (g : List (Option Object)) (fpre fpost : List (Option Frame)) (cur : Frame)
    (x : Option Frame) (hp : Nat) (a fa : Nat) (fn : CompiledFunction)
    (ctx : List (Option Object))
    (hs : argc + 1 ≤ s)
    (hcallee : st[s - 1 - argc]? = some (some (.Closure a fa fn ctx))) :
    (fn.NumParameters ≠ argc →
      ∀ (frs : List (Option Frame)) (fi : Int),
        executeCall argc ⟨cs, st, (s : Int), g, frs, fi, hp⟩
          = (.error (.error ("wrong number of arguments: want=" ++ toString fn.NumParameters
              ++ ", got=" ++ toString (argc : Int))), ⟨cs, st, (s : Int), g, frs, fi, hp⟩))
    ∧ (fn.NumParameters = argc →
        executeCall argc
            ⟨cs, st, (s : Int), g, fpre ++ some cur :: x :: fpost, (fpre.length : Int) + 1, hp⟩
          = (.ok (), ⟨cs, st, ((s - argc : Nat) : Int) + (fn.NumLocals : Int), g,
              fpre ++ some cur :: some ⟨⟨a, fa, fn, ctx⟩, -1, ((s - argc : Nat) : Int)⟩ :: fpost,
              (fpre.length : Int) + 2, hp⟩))
    ∧ (∀ (i : Nat) (arg : Option Object), i < argc → st[s - argc + i]? = some arg →
        ∀ (st1 : List (Option Object)) (n : Nat) (g1 : List (Option Object))
          (fpre1 fpost1 : List (Option Frame)) (hp1 : Nat) (ipre ipost : List Nat),
          st1[s - argc + i]? = some arg → n < 2048 → n < st1.length →
          dispatch (ipre ++ OpGetLocal :: i :: ipost) OpGetLocal
              ⟨cs, st1, (n : Int), g1,
                fpre1 ++ some ⟨⟨a, fa, fn, ctx⟩, (ipre.length : Int), ((s - argc : Nat) : Int)⟩
                  :: fpost1, (fpre1.length : Int) + 1, hp1⟩
            = (.ok (), ⟨cs, st1.set n arg, (n : Int) + 1, g1,
                fpre1 ++ some ⟨⟨a, fa, fn, ctx⟩, (ipre.length : Int) + 1,
                  ((s - argc : Nat) : Int)⟩ :: fpost1, (fpre1.length : Int) + 1, hp1⟩)) := by
  have hidx : (s : Int) - 1 - (argc : Int) = ((s - 1 - argc : Nat) : Int) := by omega
  refine ⟨fun hne frs fi => ?_, fun heq => ?_, ?_⟩
  · have hne1 : ((argc : Int) ≠ (fn.NumParameters : Int)) := by
      intro h; exact hne (by exact_mod_cast h.symm)
    simp only [executeCall, M_bind_apply, M.get, M.lift, hidx, getAt_of_getElem? _ _ _ hcallee,
      callClosure, hne1, if_true, M.fail, ne_eq, not_false_eq_true]
  · have hset := setAt_append_cons (fpre ++ [some cur]) x
      (some (NewFrame ⟨a, fa, fn, ctx⟩ ((s : Int) - (argc : Int)))) fpost
    simp only [List.append_assoc, List.singleton_append, List.length_append,
      List.length_singleton, Nat.cast_add, Nat.cast_one, NewFrame] at hset
    have hne : ¬ ((argc : Int) ≠ (fn.NumParameters : Int)) := by
      rw [heq]; simp
    have e2 : ((s - argc : Nat) : Int) = (s : Int) - argc := by omega
    have e3 : (fpre.length : Int) + 2 = (fpre.length : Int) + 1 + 1 := by omega
    simp only [executeCall, M_bind_apply, M.get, M.lift, hidx, getAt_of_getElem? _ _ _ hcallee,
      callClosure, hne, if_false, pushFrame, NewFrame, hset, M.set, e2, e3]
  · intro i arg _ _ st1 n g1 fpre1 fpost1 hp1 ipre ipost harg hlt hlen
    exact dispatch_OpGetLocal_at cs st1 n g1 fpre1 fpost1 _ _ hp1 ipre ipost i arg hlt hlen harg

/-- Witness of C32: a call with one argument of a closure of one parameter in slot 0. -/
theorem C32_closure_call_setup_witness :
    1 + 1 ≤ 2
    ∧ ([some (Object.Closure 7 6 ⟨[OpGetLocal, 0, OpReturnValue], 1, 1⟩ []),
          some (Object.Integer 8 5), none] : List (Option Object))[2 - 1 - 1]?
        = some (some (Object.Closure 7 6 ⟨[OpGetLocal, 0, OpReturnValue], 1, 1⟩ []))
    ∧ executeCall ((1 : Nat) : Int)
        ⟨[], [some (Object.Closure 7 6 ⟨[OpGetLocal, 0, OpReturnValue], 1, 1⟩ []),
            some (Object.Integer 8 5), none], ((2 : Nat) : Int), [],
          [] ++ some ⟨⟨1, 0, ⟨[OpCall, 1], 0, 0⟩, []⟩, 1, 0⟩ :: none :: [],
          (([] : List (Option Frame)).length : Int) + 1, 9⟩
      = (.ok (), ⟨[], [some (Object.Closure 7 6 ⟨[OpGetLocal, 0, OpReturnValue], 1, 1⟩ []),
            some (Object.Integer 8 5), none],
          ((2 - 1 : Nat) : Int)
            + ((⟨[OpGetLocal, 0, OpReturnValue], 1, 1⟩ : CompiledFunction).NumLocals : Int), [],
          [] ++ some ⟨⟨1, 0, ⟨[OpCall, 1], 0, 0⟩, []⟩, 1, 0⟩
            :: some ⟨⟨7, 6, ⟨[OpGetLocal, 0, OpReturnValue], 1, 1⟩, []⟩, -1, ((2 - 1 : Nat) : Int)⟩
            :: [],
          (([] : List (Option Frame)).length : Int) + 2, 9⟩) :=
  ⟨by decide, rfl,
    (C32_closure_call_setup []
      [some (Object.Closure 7 6 ⟨[OpGetLocal, 0, OpReturnValue], 1, 1⟩ []),
        some (Object.Integer 8 5), none] 2 1 [] [] []
      ⟨⟨1, 0, ⟨[OpCall, 1], 0, 0⟩, []⟩, 1, 0⟩ none 9 7 6 ⟨[OpGetLocal, 0, OpReturnValue], 1, 1⟩ []
      (by decide) rfl).2.1 rfl⟩

/-! ## Theorems: compilation scopes -/

/-- A sequence of `emit` calls appends the bytes of its instructions to the current
scope. -/
theorem emitAll_eq (instrs : List (Opcode × List Int)) (chunks : List (List Nat))
    (h : List.Forall₂ (fun p c => Make p.1 p.2 = .ok c) instrs chunks) :
    ∀ (cs : List Object) (tbl : Option SymbolTable) (pre post : List CompilationScope)
      (sc : CompilationScope) (hp : Nat),
      ∃ sc1 : CompilationScope,
        emitAll instrs ⟨cs, tbl, pre ++ sc :: post, pre.length, hp⟩
          = (.ok (), ⟨cs, tbl, pre ++ sc1 :: post, pre.length, hp⟩)
        ∧ sc1.instructions = sc.instructions ++ chunks.flatten := by
  induction h with
  | nil =>
    intro cs tbl pre post sc hp
    exact ⟨sc, rfl, by simp⟩
  | @cons p c instrs chunks hpc _ ih =>
    intro cs tbl pre post sc hp
    obtain ⟨sc1, h1, h2⟩ := ih cs tbl pre post
      ⟨sc.instructions ++ c, ⟨p.1, sc.instructions.length⟩, sc.lastInstruction⟩ hp
    refine ⟨sc1, ?_, ?_⟩
    · rw [emitAll]
      simp only [M_bind_apply, emit_eq _ _ _ _ _ _ _ _ _ hpc, h1]
    · rw [h2]; simp [List.flatten]

theorem scopes_nest_aux (cs : List Object) (tbl : Option SymbolTable)
    (scopes : List CompilationScope) (hp : Nat)
    (instrs : List (Opcode × List Int)) (chunks : List (List Nat))
    (h : List.Forall₂ (fun p c => Make p.1 p.2 = .ok c) instrs chunks)
    (t1 : SymbolTable) (hext : t1.External = tbl)
    (henter : enterScope ⟨cs, tbl, scopes, (scopes.length : Int) - 1, hp⟩
      = (.ok (), ⟨cs, some t1, scopes ++ [⟨[], ⟨0, 0⟩, ⟨0, 0⟩⟩], (scopes.length : Int), hp⟩)) :
    (do enterScope; emitAll instrs; leaveScope) ⟨cs, tbl, scopes, (scopes.length : Int) - 1, hp⟩
      = (.ok chunks.flatten, ⟨cs, tbl, scopes, (scopes.length : Int) - 1, hp⟩) := by
  obtain ⟨sc1, h1, h2⟩ := emitAll_eq instrs chunks h cs (some t1) scopes []
    ⟨[], ⟨0, 0⟩, ⟨0, 0⟩⟩ hp
  have hleave : leaveScope ⟨cs, some t1, scopes ++ [sc1], (scopes.length : Int), hp⟩
      = (.ok sc1.instructions, ⟨cs, tbl, scopes, (scopes.length : Int) - 1, hp⟩) := by
    have hne : ¬ ((scopes ++ [sc1]).length = 0) := by simp
    have htake : (scopes ++ [sc1]).take ((scopes ++ [sc1]).length - 1) = scopes := by simp
    simp only [leaveScope, curInstructions, M_bind_apply, curScope_eq, M_pure_apply, M.get, hne,
      if_false, M.set, htake, hext]
  simp only [M_bind_apply, henter, h1, hleave, h2, List.nil_append]

/-- C35: compilation scopes nest. From a compiler whose current scope is the last one of
`scopes`, `enterScope`, then any sequence of `emit` calls, then `leaveScope` ends in the
very state it started from (`scopeIndex`, the symbol table, and every outer scope with
its bytes and its records of the last two instructions), and `leaveScope` returns the
concatenation of the bytes emitted in between. -/
theorem C35_scopes_nest (cs : List Object) (tbl : Option SymbolTable)
    (scopes : List CompilationScope) (hp : Nat)
    (instrs : List (Opcode × List Int)) (chunks : List (List Nat))
    (h : List.Forall₂ (fun p c => Make p.1 p.2 = .ok c) instrs chunks) :
    (do enterScope; emitAll instrs; leaveScope) ⟨cs, tbl, scopes, (scopes.length : Int) - 1, hp⟩
      = (.ok chunks.flatten, ⟨cs, tbl, scopes, (scopes.length : Int) - 1, hp⟩) := by
  cases tbl with
  | none =>
    exact scopes_nest_aux cs none scopes hp instrs chunks h (.mk [] 0 none []) rfl
      (by simp only [enterScope, M_bind_apply, M.get, M.set, sub_add_cancel])
  | some t =>
    exact scopes_nest_aux cs (some t) scopes hp instrs chunks h (NewEnclosedSymbolTable t) rfl
      (by simp only [enterScope, M_bind_apply, M.get, M.set, sub_add_cancel])

/-- Witness of C35: `OpSub` emitted in a scope entered from a fresh compiler. -/
theorem C35_scopes_nest_witness :
    List.Forall₂ (fun p c => Make p.1 p.2 = .ok c) [(OpSub, ([] : List Int))] [[OpSub]]
    ∧ (do enterScope; emitAll [(OpSub, ([] : List Int))]; leaveScope)
        ⟨[], some NewSymbolTable, [⟨[OpAdd], ⟨OpAdd, 0⟩, ⟨0, 0⟩⟩],
          (([⟨[OpAdd], ⟨OpAdd, 0⟩, ⟨0, 0⟩⟩] : List CompilationScope).length : Int) - 1, 0⟩
      = (.ok ([[OpSub]] : List (List Nat)).flatten,
          ⟨[], some NewSymbolTable, [⟨[OpAdd], ⟨OpAdd, 0⟩, ⟨0, 0⟩⟩],
            (([⟨[OpAdd], ⟨OpAdd, 0⟩, ⟨0, 0⟩⟩] : List CompilationScope).length : Int) - 1, 0⟩) :=
  ⟨List.Forall₂.cons rfl List.Forall₂.nil,
    C35_scopes_nest [] (some NewSymbolTable) [⟨[OpAdd], ⟨OpAdd, 0⟩, ⟨0, 0⟩⟩] 0
      [(OpSub, [])] [[OpSub]] (List.Forall₂.cons rfl List.Forall₂.nil)⟩

/-! ## Theorems: closures and recursion end to end -/

/-- The opcodes other than `OpPop` and `OpReturnValue`, as `lastInstructionIs` compares
them. -/
theorem lastInstruction_beq :
    (OpConstant == OpPop) = false
    ∧ (OpAdd == OpPop) = false
    ∧ (OpSub == OpPop) = false
    ∧ (OpMul == OpPop) = false
    ∧ (OpQuo == OpPop) = false
    ∧ (OpTrue == OpPop) = false
    ∧ (OpFalse == OpPop) = false
    ∧ (OpEQL == OpPop) = false
    ∧ (OpNEQ == OpPop) = false
    ∧ (OpGTR == OpPop) = false
    ∧ (OpMinus == OpPop) = false
    ∧ (OpBang == OpPop) = false
    ∧ (OpIndex == OpPop) = false
    ∧ (OpArray == OpPop) = false
    ∧ (OpMap == OpPop) = false
    ∧ (OpCall == OpPop) = false
    ∧ (OpReturnValue == OpPop) = false
    ∧ (OpReturn == OpPop) = false
    ∧ (OpGetBuiltin == OpPop) = false
    ∧ (OpGetGlobal == OpPop) = false
    ∧ (OpSetGlobal == OpPop) = false
    ∧ (OpGetLocal == OpPop) = false
    ∧ (OpSetLocal == OpPop) = false
    ∧ (OpClosure == OpPop) = false
    ∧ (OpContext == OpPop) = false
    ∧ (OpCurrClosure == OpPop) = false
    ∧ (OpJump == OpPop) = false
    ∧ (OpJumpConditionNotTrue == OpPop) = false
    ∧ (OpNil == OpPop) = false
    ∧ (OpConstant == OpReturnValue) = false
    ∧ (OpPop == OpReturnValue) = false
    ∧ (OpAdd == OpReturnValue) = false
    ∧ (OpSub == OpReturnValue) = false
    ∧ (OpMul == OpReturnValue) = false
    ∧ (OpQuo == OpReturnValue) = false
    ∧ (OpTrue == OpReturnValue) = false
    ∧ (OpFalse == OpReturnValue) = false
    ∧ (OpEQL == OpReturnValue) = false
    ∧ (OpNEQ == OpReturnValue) = false
    ∧ (OpGTR == OpReturnValue) = false
    ∧ (OpMinus == OpReturnValue) = false
    ∧ (OpBang == OpReturnValue) = false
    ∧ (OpIndex == OpReturnValue) = false
    ∧ (OpArray == OpReturnValue) = false
    ∧ (OpMap == OpReturnValue) = false
    ∧ (OpCall == OpReturnValue) = false
    ∧ (OpReturn == OpReturnValue) = false
    ∧ (OpGetBuiltin == OpReturnValue) = false
    ∧ (OpGetGlobal == OpReturnValue) = false
    ∧ (OpSetGlobal == OpReturnValue) = false
    ∧ (OpGetLocal == OpReturnValue) = false
    ∧ (OpSetLocal == OpReturnValue) = false
    ∧ (OpClosure == OpReturnValue) = false
    ∧ (OpContext == OpReturnValue) = false
    ∧ (OpCurrClosure == OpReturnValue) = false
    ∧ (OpJump == OpReturnValue) = false
    ∧ (OpJumpConditionNotTrue == OpReturnValue) = false
    ∧ (OpNil == OpReturnValue) = false := by
  decide

/-! ### A closure that outlives the frame of the function that made it -/

theorem compile_captureProgram (ks : Node → String) (x y : Int) (heap : Nat) :
    compileProgram ks (captureProgram x y) heap = .ok (captureBytecode x y heap) := by
  simp only [compileProgram, captureProgram, Compile, CompileList, NewCompiler, defineBuiltins,
    builtinNames, NewSymbolTable, NewEnclosedSymbolTable, SymbolTable.DefineBuiltin,
    SymbolTable.Define, SymbolTable.defineFunction, SymbolTable.GetDefine,
    SymbolTable.defineContext, SymbolTable.Context, SymbolTable.count, SymbolTable.External,
    SymbolTable.store, storeGet, storeSet,
    M_bind_apply, M_pure_apply, M.get, M.set, M.lift, M.fail,
    onSymbolTable, curScope, setCurScope, curInstructions, addConstant, addInstruction,
    setLastInstruction, emit, lastInstructionIs, removeLastPop, replaceInstructionLoop,
    replaceInstruction, replaceLastPopWithReturn, changeOperand, leaveScope, enterScope,
    loadSymbol, loadSymbols, defineParams, finishFunction, stripLastPop, emitInfix, emitPrefixOp,
    Compiler.alloc, Compiler.Bytecode,
    Make_OpConstant, Make_OpPop, Make_OpAdd, Make_OpSub, Make_OpEQL, Make_OpReturnValue,
    Make_OpReturn, Make_OpCurrClosure, Make_OpNil, Make_OpCall, Make_OpGetGlobal,
    Make_OpSetGlobal, Make_OpGetLocal, Make_OpSetLocal, Make_OpContext, Make_OpClosure,
    Make_OpJump, Make_OpJumpConditionNotTrue, specInstruction, specOperandBytes,
    List.zipWith_cons_cons, List.zipWith_nil_right, List.zipWith_nil_left, List.flatten,
    List.append_nil, List.nil_append, List.cons_append, List.singleton_append, List.append_assoc,
    getAt, getIndex, setAt, setIndex,
    GlobalScope, LocalScope, BuiltinScope, ContextScope, FunctionScope,
    List.lookup, List.filter, List.length_cons, List.length_nil, List.length_append,
    List.getElem?_cons_zero, List.getElem?_cons_succ, List.set_cons_zero, List.set_cons_succ,
    List.take_succ_cons, List.take_zero, Option.isSome,
    String.reduceEq, String.reduceNe, String.reduceBEq, String.reduceBNe,
    Int.reduceSub, Int.reduceAdd, Int.reduceLT, Int.reduceLE, Int.reduceToNat, Int.reduceNeg,
    Int.reduceEq, Int.reduceMod, Int.reduceDiv,
    Nat.reduceAdd, Nat.reduceMul, Nat.reduceLT, Nat.reduceLeDiff, Nat.reduceEqDiff, Nat.reduceSub,
    Nat.reduceBEq, Nat.reduceBNe,
    Nat.cast_ofNat, Nat.cast_zero, Nat.cast_one, Int.toNat_zero, sub_zero, add_zero, zero_add,
    if_true, if_false, ite_true, ite_false, decide_True, decide_False, ge_iff_le, ne_eq,
    not_true_eq_false, not_false_eq_true, Bool.not_true, Bool.not_false, Bool.false_eq_true,
    Bool.true_or, Bool.or_true, Bool.or_false, Bool.false_or, beq_self_eq_true, bne_self_eq_false,
    Nat.zero_lt_succ, Nat.lt_add_one, or_true, true_or, Nat.add_assoc, lastInstruction_beq,
    reduceCtorEq]
  rfl

/-- The run of `captureProgram` up to the call of the closure that `test1` returned:
fourteen rounds. -/
theorem capture_rounds_inner (x y : Int) (hc hv : Nat) (hi g : List (Option Object)) (frs : List (Option Frame)) :
    VM.rounds 14
        ⟨(captureBytecode x y hc).Constants,
          none
            :: none
            :: none
            :: none
            :: none
            :: none
            :: none
            :: none :: hi, 0,
          none :: none :: g,
          some ⟨⟨hv + 1, hv, ⟨(captureBytecode x y hc).Instructions, 0, 0⟩, []⟩, -1, 0⟩ :: none :: none :: none :: frs, 1,
          hv + 2⟩
      = some
        ⟨(captureBytecode x y hc).Constants,
          some (.Closure (hv + 3) hc captureInner [some (.Integer (hc + 2) x)])
            :: some (.Integer (hc + 3) y)
            :: some (.Closure (hv + 3) hc captureInner [some (.Integer (hc + 2) x)])
            :: some (.Closure (hv + 3) hc captureInner [some (.Integer (hc + 2) x)])
            :: none
            :: none
            :: none
            :: none :: hi, 2,
          some (.Closure (hv + 2) (hc + 1) captureOuter []) :: none :: g,
          some ⟨⟨hv + 1, hv, ⟨(captureBytecode x y hc).Instructions, 0, 0⟩, []⟩, 20, 0⟩ :: some ⟨⟨hv + 3, hc, captureInner, [some (.Integer (hc + 2) x)]⟩, -1, 1⟩ :: none :: none :: frs, 2,
          hv + 4⟩ := by
  simp only [rounds_succ, rounds_zero, loopCondition, loopBody, curFrame, M_bind_apply, M_pure_apply, M.get, M.set,
    M.lift, M.fail, advanceIp, setIp,
    dispatch_OpClosure_eq, dispatch_OpConstant_eq, dispatch_OpSetGlobal_eq,
    dispatch_OpGetGlobal_eq, dispatch_OpSetLocal_eq, dispatch_OpGetLocal_eq,
    dispatch_OpContext_eq, dispatch_OpCurrClosure_eq, dispatch_OpPop_eq, dispatch_OpAdd_eq,
    dispatch_OpSub_eq, dispatch_OpEQL_eq, dispatch_OpCall_eq, dispatch_OpReturnValue_eq,
    dispatch_OpJump_eq, dispatch_OpJumpConditionNotTrue_eq,
    readUint16After, readUint8After, sliceFromAt, sliceFrom, ReadUint16, ReadUint8,
    pushClosure, push, pop, pushFrame, popFrame, newArrayLoop, VM.alloc, executeCall,
    callClosure, NewFrame, executeArithmeticOperation, executeArithmeticIntegerOperation,
    executeComparisonOperation, executeComparisonIntegerOperation, translationBooleanObject,
    VM.isTrue, Closure.toObject,
    getAt, getIndex, setAt, setIndex, Frame.Instructions, StackSize,
    Int.reduceSub, Int.reduceAdd, Int.reduceLT, Int.reduceLE, Int.reduceToNat, Int.reduceNeg,
    Int.reduceEq, Int.reduceMod,
    Nat.reduceAdd, Nat.reduceMul, Nat.reduceLT, Nat.reduceLeDiff, Nat.reduceEqDiff, Nat.reduceSub,
    Nat.cast_ofNat, Nat.cast_zero, Nat.cast_one, Int.toNat_zero, sub_zero, add_zero, zero_add,
    if_true, if_false, ite_true, ite_false, decide_True, decide_False, ge_iff_le, ne_eq,
    not_true_eq_false, not_false_eq_true,
    List.getElem?_cons_zero, List.getElem?_cons_succ, List.set_cons_zero, List.set_cons_succ,
    List.length_cons, List.length_nil, List.drop_succ_cons, List.drop_zero,
    Nat.zero_lt_succ, Nat.lt_add_one, lt_add_iff_pos_left, add_pos_iff, zero_lt_one, or_true,
    true_or, Nat.succ_lt_succ_iff, Nat.add_lt_add_iff_right, Nat.lt_add_left_iff_pos,
    Nat.add_assoc,
    captureBytecode, captureOuter, captureInner]

/-- The rest of the run of `captureProgram`. -/
theorem capture_run_rest (x y : Int) (hc hv : Nat) (hi g : List (Option Object)) (frs : List (Option Frame)) (fuel : Nat) :
    defaultVmHandler (fuel + 6)
        ⟨(captureBytecode x y hc).Constants,
          some (.Closure (hv + 3) hc captureInner [some (.Integer (hc + 2) x)])
            :: some (.Integer (hc + 3) y)
            :: some (.Closure (hv + 3) hc captureInner [some (.Integer (hc + 2) x)])
            :: some (.Closure (hv + 3) hc captureInner [some (.Integer (hc + 2) x)])
            :: none
            :: none
            :: none
            :: none :: hi, 2,
          some (.Closure (hv + 2) (hc + 1) captureOuter []) :: none :: g,
          some ⟨⟨hv + 1, hv, ⟨(captureBytecode x y hc).Instructions, 0, 0⟩, []⟩, 20, 0⟩ :: some ⟨⟨hv + 3, hc, captureInner, [some (.Integer (hc + 2) x)]⟩, -1, 1⟩ :: none :: none :: frs, 2,
          hv + 4⟩
      = some (.ok (),
        ⟨(captureBytecode x y hc).Constants,
          some (.Integer (hv + 4) (wrapInt64 (x + y)))
            :: some (.Integer (hc + 3) y)
            :: some (.Integer (hv + 4) (wrapInt64 (x + y)))
            :: some (.Integer (hc + 3) y)
            :: none
            :: none
            :: none
            :: none :: hi, 0,
          some (.Closure (hv + 2) (hc + 1) captureOuter []) :: none :: g,
          some ⟨⟨hv + 1, hv, ⟨(captureBytecode x y hc).Instructions, 0, 0⟩, []⟩, 21, 0⟩ :: some ⟨⟨hv + 3, hc, captureInner, [some (.Integer (hc + 2) x)]⟩, 5, 1⟩ :: none :: none :: frs, 1,
          hv + 5⟩) := by
  simp only [defaultVmHandler_succ, loopCondition, loopBody, curFrame, M_bind_apply, M_pure_apply, M.get, M.set,
    M.lift, M.fail, advanceIp, setIp,
    dispatch_OpClosure_eq, dispatch_OpConstant_eq, dispatch_OpSetGlobal_eq,
    dispatch_OpGetGlobal_eq, dispatch_OpSetLocal_eq, dispatch_OpGetLocal_eq,
    dispatch_OpContext_eq, dispatch_OpCurrClosure_eq, dispatch_OpPop_eq, dispatch_OpAdd_eq,
    dispatch_OpSub_eq, dispatch_OpEQL_eq, dispatch_OpCall_eq, dispatch_OpReturnValue_eq,
    dispatch_OpJump_eq, dispatch_OpJumpConditionNotTrue_eq,
    readUint16After, readUint8After, sliceFromAt, sliceFrom, ReadUint16, ReadUint8,
    pushClosure, push, pop, pushFrame, popFrame, newArrayLoop, VM.alloc, executeCall,
    callClosure, NewFrame, executeArithmeticOperation, executeArithmeticIntegerOperation,
    executeComparisonOperation, executeComparisonIntegerOperation, translationBooleanObject,
    VM.isTrue, Closure.toObject,
    getAt, getIndex, setAt, setIndex, Frame.Instructions, StackSize,
    Int.reduceSub, Int.reduceAdd, Int.reduceLT, Int.reduceLE, Int.reduceToNat, Int.reduceNeg,
    Int.reduceEq, Int.reduceMod,
    Nat.reduceAdd, Nat.reduceMul, Nat.reduceLT, Nat.reduceLeDiff, Nat.reduceEqDiff, Nat.reduceSub,
    Nat.cast_ofNat, Nat.cast_zero, Nat.cast_one, Int.toNat_zero, sub_zero, add_zero, zero_add,
    if_true, if_false, ite_true, ite_false, decide_True, decide_False, ge_iff_le, ne_eq,
    not_true_eq_false, not_false_eq_true,
    List.getElem?_cons_zero, List.getElem?_cons_succ, List.set_cons_zero, List.set_cons_succ,
    List.length_cons, List.length_nil, List.drop_succ_cons, List.drop_zero,
    Nat.zero_lt_succ, Nat.lt_add_one, lt_add_iff_pos_left, add_pos_iff, zero_lt_one, or_true,
    true_or, Nat.succ_lt_succ_iff, Nat.add_lt_add_iff_right, Nat.lt_add_left_iff_pos,
    Nat.add_assoc,
    captureBytecode, captureOuter, captureInner]

/-- C13: closure capture end to end. For all integers `x` and `y` the program
`func test1(a) { func test2(b) { a + b }  return test2 }  test1(x)(y)` compiles without
error; the code of `test2` reads `a` through `OpContext 0`. Fourteen rounds into the run
on a fresh machine the frame of `test1` has returned and the current frame (the second
one) is that of the closure it made, whose captured list holds the value of `a`. The
run ends without error with `sp = 0` and only the main frame active, and
`LastPoppedStackElem` is the Integer `x + y` reduced to the range of `int64`. -/
theorem C13_closure_capture (ks : Node → String) (x y : Int) (heapC heapV fuel : Nat) :
    compileProgram ks (captureProgram x y) heapC = .ok (captureBytecode x y heapC)
    ∧ ∃ v1 v,
        VM.rounds 14 (NewVM (captureBytecode x y heapC) heapV) = some v1
        ∧ curFrame v1
          = (.ok ⟨⟨heapV + 3, heapC, captureInner, [some (.Integer (heapC + 2) x)]⟩, -1, 1⟩, v1)
        ∧ v1.framesIndex = 2
        ∧ VM.Run (fuel + 20) (NewVM (captureBytecode x y heapC) heapV) = some (.ok (), v)
        ∧ v.sp = 0 ∧ v.framesIndex = 1
        ∧ LastPoppedStackElem v = .ok (some (.Integer (heapV + 4) (wrapInt64 (x + y)))) := by
  have h14 := (congrArg (VM.rounds 14)
    (NewVM_eq_slots (captureBytecode x y heapC).Instructions
      (captureBytecode x y heapC).Constants heapV)).trans
    (capture_rounds_inner x y heapC heapV (List.replicate 2040 none)
      (List.replicate 65534 none) (List.replicate 2044 none))
  have hr := capture_run_rest x y heapC heapV (List.replicate 2040 none)
    (List.replicate 65534 none) (List.replicate 2044 none) fuel
  have hrun := (defaultVmHandler_rounds 14 _ _ (fuel + 6) h14).trans hr
  exact ⟨compile_captureProgram ks x y heapC, _, _, h14, curFrame_second _ _ _ _ _ _ _ _, rfl,
    hrun, rfl, rfl, LastPoppedStackElem_zero _ _ _ _ _ _ _⟩

theorem levelDefined_refl (st : List (String × Symbol)) (c : Nat) (ctx : List Symbol) :
    levelDefined [] st c ctx st c ctx :=
  ⟨rfl, fun _ s h => ⟨s, h, Or.inl rfl⟩, fun _ h => absurd h (List.not_mem_nil _),
    [], (List.append_nil _).symm, fun _ h => absurd h (List.not_mem_nil _)⟩

theorem levelDefined_trans {D D1 : List String} {st st1 st2 : List (String × Symbol)}
    {c c1 c2 : Nat} {ctx ctx1 ctx2 : List Symbol}
    (h : levelDefined D st c ctx st1 c1 ctx1) (h1 : levelDefined D1 st1 c1 ctx1 st2 c2 ctx2) :
    levelDefined (D ++ D1) st c ctx st2 c2 ctx2 := by
  obtain ⟨hc, hk, hd, ex, hx, hxn⟩ := h
  obtain ⟨hc1, hk1, hd1, ex1, hx1, hxn1⟩ := h1
  have hcc : (c : Int) ≤ c1 := by omega
  have hcc1 : (c1 : Int) ≤ c2 := by omega
  refine ⟨by rw [hc1, hc, List.length_append]; omega, ?_, ?_, ex ++ ex1, by
    rw [hx1, hx, List.append_assoc], ?_⟩
  · intro n s hs
    obtain ⟨s1, hs1, h1⟩ := hk n s hs
    obtain ⟨s2, hs2, h2⟩ := hk1 n s1 hs1
    refine ⟨s2, hs2, ?_⟩
    rcases h2 with rfl | ⟨hm, ha, hb⟩
    · rcases h1 with rfl | ⟨hm, ha, hb⟩
      · exact Or.inl rfl
      · exact Or.inr ⟨List.mem_append_left _ hm, ha, by omega⟩
    · exact Or.inr ⟨List.mem_append_right _ hm, by omega, hb⟩
  · intro n hn
    rcases List.mem_append.mp hn with hm | hm
    · obtain ⟨s1, hs1, ha, hb⟩ := hd n hm
      obtain ⟨s2, hs2, h2⟩ := hk1 n s1 hs1
      refine ⟨s2, hs2, ?_⟩
      rcases h2 with rfl | ⟨_, ha2, hb2⟩
      · exact ⟨ha, by omega⟩
      · exact ⟨by omega, hb2⟩
    · obtain ⟨s2, hs2, ha, hb⟩ := hd1 n hm
      exact ⟨s2, hs2, by omega, hb⟩
  · intro s hs
    rcases List.mem_append.mp hs with hm | hm
    · exact hxn s hm
    · have := hxn1 s hm
      cases hg : storeGet st s.Name with
      | none => rfl
      | some v =>
        obtain ⟨s1, hs1, _⟩ := hk _ _ hg
        rw [hs1] at this
        cases this

theorem levelDefined_perm {D D1 : List String} {st st1 : List (String × Symbol)}
    {c c1 : Nat} {ctx ctx1 : List Symbol} (hp : D.Perm D1)
    (h : levelDefined D st c ctx st1 c1 ctx1) : levelDefined D1 st c ctx st1 c1 ctx1 := by
  obtain ⟨hc, hk, hd, hx⟩ := h
  refine ⟨by rw [hc, hp.length_eq], ?_, fun n hn => hd n (hp.mem_iff.mpr hn), hx⟩
  intro n s hs
  obtain ⟨s1, hs1, h1⟩ := hk n s hs
  exact ⟨s1, hs1, h1.imp id (fun ⟨hm, h⟩ => ⟨hp.mem_iff.mp hm, h⟩)⟩

theorem Defined_mk (D : List String) (st : List (String × Symbol)) (c : Nat)
    (ext : Option SymbolTable) (ctx : List Symbol) (st1 : List (String × Symbol)) (c1 : Nat)
    (ext1 : Option SymbolTable) (ctx1 : List Symbol) :
    SymbolTable.Defined D (.mk st c ext ctx) (.mk st1 c1 ext1 ctx1)
      ↔ levelDefined D st c ctx st1 c1 ctx1
        ∧ ((ext = none ∧ ext1 = none)
          ∨ ∃ e e1, ext = some e ∧ ext1 = some e1 ∧ SymbolTable.Defined [] e e1) := by
  cases ext <;> cases ext1 <;>
    simp [SymbolTable.Defined, SymbolTable.store, SymbolTable.count, SymbolTable.Context,
      SymbolTable.External]

theorem Defined_refl (t : SymbolTable) : SymbolTable.Defined [] t t := by
  induction t using SymbolTable.chain_induction with
  | outermost st c ctx => exact (Defined_mk _ _ _ _ _ _ _ _ _).mpr ⟨levelDefined_refl _ _ _, Or.inl ⟨rfl, rfl⟩⟩
  | enclosed st c e ctx ih =>
    exact (Defined_mk _ _ _ _ _ _ _ _ _).mpr ⟨levelDefined_refl _ _ _, Or.inr ⟨e, e, rfl, rfl, ih⟩⟩

theorem Defined_trans {D D1 : List String} {t t1 t2 : SymbolTable}
    (h : SymbolTable.Defined D t t1) (h1 : SymbolTable.Defined D1 t1 t2) :
    SymbolTable.Defined (D ++ D1) t t2 := by
  induction t using SymbolTable.chain_induction generalizing D D1 t1 t2 with
  | outermost st c ctx =>
    obtain ⟨st1, c1, ext1, ctx1⟩ := t1
    obtain ⟨st2, c2, ext2, ctx2⟩ := t2
    rw [Defined_mk] at h h1 ⊢
    obtain ⟨hl, he⟩ := h
    obtain ⟨hl1, he1⟩ := h1
    refine ⟨levelDefined_trans hl hl1, ?_⟩
    rcases he with ⟨_, rfl⟩ | ⟨e, e1, h, _⟩
    · rcases he1 with ⟨_, rfl⟩ | ⟨e, e1, h, _⟩
      · exact Or.inl ⟨rfl, rfl⟩
      · cases h
    · cases h
  | enclosed st c e ctx ih =>
    obtain ⟨st1, c1, ext1, ctx1⟩ := t1
    obtain ⟨st2, c2, ext2, ctx2⟩ := t2
    rw [Defined_mk] at h h1 ⊢
    obtain ⟨hl, he⟩ := h
    obtain ⟨hl1, he1⟩ := h1
    refine ⟨levelDefined_trans hl hl1, ?_⟩
    rcases he with ⟨h, _⟩ | ⟨e0, e1, h, rfl, hd⟩
    · cases h
    · cases h
      rcases he1 with ⟨h, _⟩ | ⟨e1b, e2, h, rfl, hd1⟩
      · cases h
      · cases h
        exact Or.inr ⟨_, _, rfl, rfl, ih hd hd1⟩

theorem Defined_perm {D D1 : List String} {t t1 : SymbolTable} (hp : D.Perm D1)
    (h : SymbolTable.Defined D t t1) : SymbolTable.Defined D1 t t1 := by
  obtain ⟨st, c, ext, ctx⟩ := t
  obtain ⟨st1, c1, ext1, ctx1⟩ := t1
  rw [Defined_mk] at h ⊢
  exact ⟨levelDefined_perm hp h.1, h.2⟩

theorem Defined_depth {D : List String} {t t1 : SymbolTable}
    (h : SymbolTable.Defined D t t1) : t1.depth = t.depth := by
  induction t using SymbolTable.chain_induction generalizing D t1 with
  | outermost st c ctx =>
    obtain ⟨st1, c1, ext1, ctx1⟩ := t1
    rw [Defined_mk] at h
    rcases h.2 with ⟨_, rfl⟩ | ⟨e, e1, h, _⟩
    · rfl
    · cases h
  | enclosed st c e ctx ih =>
    obtain ⟨st1, c1, ext1, ctx1⟩ := t1
    rw [Defined_mk] at h
    rcases h.2 with ⟨h, _⟩ | ⟨e0, e1, h, rfl, hd⟩
    · cases h
    · cases h
      cases h
      simp only [SymbolTable.depth, ih hd]

theorem Defined_Define (t : SymbolTable) (name : String) :
    SymbolTable.Defined [name] t (t.Define name).2 := by
  obtain ⟨st, c, ext, ctx⟩ := t
  simp only [Define]
  rw [Defined_mk]
  refine ⟨⟨rfl, ?_, ?_, [], (List.append_nil _).symm,
    fun _ h => absurd h (List.not_mem_nil _)⟩, ?_⟩
  · intro n s hs
    by_cases hn : n = name
    · subst hn
      exact ⟨_, storeGet_storeSet_self _ _ _, Or.inr ⟨List.mem_singleton.mpr rfl, by simp, by simp⟩⟩
    · exact ⟨s, by rw [storeGet_storeSet_ne _ _ _ _ hn]; exact hs, Or.inl rfl⟩
  · intro n hn
    obtain rfl := List.mem_singleton.mp hn
    exact ⟨_, storeGet_storeSet_self _ _ _, by simp, by simp⟩
  · cases ext with
    | none => exact Or.inl ⟨rfl, rfl⟩
    | some e => exact Or.inr ⟨e, e, rfl, rfl, Defined_refl e⟩

theorem Defined_GetDefine (name : String) (t : SymbolTable) (ht : t.NamesOK) :
    SymbolTable.Defined [] t (t.GetDefine name).2 := by
  induction t using SymbolTable.chain_induction with
  | outermost st c ctx =>
    cases hget : storeGet st name with
    | none => rw [GetDefine_outermost hget]; exact Defined_refl _
    | some sym => rw [GetDefine_hit hget]; exact Defined_refl _
  | enclosed st c e ctx ih =>
    cases hget : storeGet st name with
    | some sym => rw [GetDefine_hit hget]; exact Defined_refl _
    | none =>
      obtain ⟨hst, he⟩ := (StoreAll_mk _ st c (some e) ctx).mp ht
      have ihe := ih (he e rfl)
      have hnm := (GetDefine_StoreAll (fun k v => v.Name = k) (fun _ _ h => h)
        (fun _ _ => rfl) name e (he e rfl)).2
      rw [GetDefine_miss hget]
      split
      · exact (Defined_mk _ _ _ _ _ _ _ _ _).mpr
          ⟨levelDefined_refl _ _ _, Or.inr ⟨_, _, rfl, rfl, ihe⟩⟩
      · rename_i hok
        split
        · exact (Defined_mk _ _ _ _ _ _ _ _ _).mpr
            ⟨levelDefined_refl _ _ _, Or.inr ⟨_, _, rfl, rfl, ihe⟩⟩
        · have hname : (e.GetDefine name).1.1.Name = name := hnm (by simpa using hok)
          simp only [defineContext]
          rw [Defined_mk]
          refine ⟨⟨rfl, ?_, fun _ h => absurd h (List.not_mem_nil _), [_], rfl, ?_⟩,
            Or.inr ⟨_, _, rfl, rfl, ihe⟩⟩
          · intro n s hs
            have hn : n ≠ (e.GetDefine name).1.1.Name := by
              rw [hname]; rintro rfl; rw [hget] at hs; cases hs
            exact ⟨s, by rw [storeGet_storeSet_ne _ _ _ _ hn]; exact hs, Or.inl rfl⟩
          · intro s hs
            obtain rfl := List.mem_singleton.mp hs
            rw [hname]; exact hget

theorem outer_add {t x y : SymbolTable} {k j : Nat} (h : t.outer k = some x)
    (h1 : x.outer j = some y) : t.outer (k + j) = some y := by
  induction k generalizing t with
  | zero =>
    simp only [SymbolTable.outer] at h
    cases h
    simpa using h1
  | succ k ih =>
    obtain ⟨st, c, ext, ctx⟩ := t
    cases ext with
    | none => simp [SymbolTable.outer] at h
    | some e =>
      simp only [SymbolTable.outer] at h
      rw [show k + 1 + j = (k + j) + 1 by omega]
      simp only [SymbolTable.outer]
      exact ih h

theorem outer_Defined {D : List String} {t t1 tl : SymbolTable} {k : Nat}
    (h : SymbolTable.Defined D t t1) (hk : t.outer k = some tl) :
    ∃ D1 tl1, t1.outer k = some tl1 ∧ SymbolTable.Defined D1 tl tl1 := by
  induction k generalizing D t t1 with
  | zero =>
    simp only [SymbolTable.outer] at hk
    cases hk
    exact ⟨D, t1, rfl, h⟩
  | succ k ih =>
    obtain ⟨st, c, ext, ctx⟩ := t
    obtain ⟨st1, c1, ext1, ctx1⟩ := t1
    cases ext with
    | none => simp [SymbolTable.outer] at hk
    | some e =>
      simp only [SymbolTable.outer] at hk
      rw [Defined_mk] at h
      rcases h.2 with ⟨h, _⟩ | ⟨e0, e1, h0, rfl, hd⟩
      · cases h
      · cases h0
        simp only [SymbolTable.outer]
        exact ih hd hk

theorem Reaches_of_Defined {D : List String} {t t1 : SymbolTable}
    (h : SymbolTable.Defined D t t1) : SymbolTable.Reaches t t1 := ⟨0, t1, D, rfl, h⟩

theorem Reaches_refl (t : SymbolTable) : SymbolTable.Reaches t t :=
  Reaches_of_Defined (Defined_refl t)

theorem Reaches_trans {t t1 t2 : SymbolTable} (h : SymbolTable.Reaches t t1)
    (h1 : SymbolTable.Reaches t1 t2) : SymbolTable.Reaches t t2 := by
  obtain ⟨k, tl, D, hk, hd⟩ := h
  obtain ⟨k1, tl1, D1, hk1, hd1⟩ := h1
  obtain ⟨D2, tl2, hk2, hd2⟩ := outer_Defined hd1 hk
  exact ⟨k1 + k, tl2, D ++ D2, outer_add hk1 hk2, Defined_trans hd hd2⟩

theorem Reaches_enclosed (t : SymbolTable) (st : List (String × Symbol)) (c : Nat)
    (ctx : List Symbol) : SymbolTable.Reaches t (.mk st c (some t) ctx) :=
  ⟨1, t, [], rfl, Defined_refl t⟩

theorem ConstsGrow_refl (c : Compiler) : ConstsGrow c c :=
  ⟨[], (List.append_nil _).symm, fun _ h => absurd h (List.not_mem_nil _)⟩

theorem ConstsGrow_trans {c c1 c2 : Compiler} (h : ConstsGrow c c1) (h1 : ConstsGrow c1 c2) :
    ConstsGrow c c2 := by
  obtain ⟨n, hn, ho⟩ := h
  obtain ⟨n1, hn1, ho1⟩ := h1
  refine ⟨n ++ n1, by rw [hn1, hn, List.append_assoc], fun o h => ?_⟩
  rcases List.mem_append.mp h with h | h
  · exact ho o h
  · exact ho1 o h

/-! ### Steps that leave the symbol table alone -/

theorem frame_pure {α : Type} (a : α) : TableFrame (Pure.pure a : M Compiler α) :=
  fun c => ⟨rfl, ConstsGrow_refl c⟩

theorem frame_fail {α : Type} (e : Fault) : TableFrame (M.fail e : M Compiler α) :=
  fun c => ⟨rfl, ConstsGrow_refl c⟩

theorem frame_lift {α : Type} (x : Except Fault α) : TableFrame (M.lift x : M Compiler α) :=
  fun c => ⟨rfl, ConstsGrow_refl c⟩

theorem frame_bind {α β : Type} {m : M Compiler α} {f : α → M Compiler β}
    (hm : TableFrame m) (hf : ∀ a, TableFrame (f a)) : TableFrame (m >>= f) := by
  intro c
  have h1 := hm c
  rw [M_bind_apply]
  rcases h : m c with ⟨r, c1⟩
  rw [h] at h1
  cases r with
  | error e => exact h1
  | ok a => exact ⟨(hf a c1).1.trans h1.1, ConstsGrow_trans h1.2 (hf a c1).2⟩

theorem frame_ite {α : Type} {p : Prop} [Decidable p] {a b : M Compiler α}
    (ha : TableFrame a) (hb : TableFrame b) : TableFrame (if p then a else b) := by
  split
  · exact ha
  · exact hb

theorem frame_curScope : TableFrame curScope := fun c => ⟨rfl, ConstsGrow_refl c⟩

theorem frame_setCurScope (sc : CompilationScope) : TableFrame (setCurScope sc) := by
  intro c
  unfold setCurScope
  split
  · exact ⟨rfl, ConstsGrow_refl c⟩
  · exact ⟨rfl, ConstsGrow_refl c⟩

theorem frame_alloc : TableFrame Compiler.alloc := fun c => ⟨rfl, ConstsGrow_refl c⟩

theorem frame_addConstant (obj : Object) (h : LocalsOK obj) : TableFrame (addConstant obj) :=
  fun c => ⟨rfl, [obj], rfl, fun o ho => by rw [List.mem_singleton.mp ho]; exact h⟩

theorem frame_curInstructions : TableFrame curInstructions :=
  frame_bind frame_curScope (fun _ => frame_pure _)

theorem frame_emit (op : Opcode) (operands : List Int) : TableFrame (emit op operands) := by
  unfold emit addInstruction setLastInstruction
  repeat' (with_reducible first
    | exact frame_curScope | exact frame_setCurScope _ | exact frame_lift _
    | exact frame_curInstructions | exact frame_pure _
    | refine frame_bind ?_ (fun _ => ?_))

theorem frame_lastInstructionIs (op : Opcode) : TableFrame (lastInstructionIs op) := by
  unfold lastInstructionIs
  repeat' (with_reducible first
    | exact frame_curScope | exact frame_curInstructions | exact frame_pure _
    | refine frame_bind ?_ (fun _ => ?_) | apply frame_ite)

theorem frame_removeLastPop : TableFrame removeLastPop := by
  unfold removeLastPop
  repeat' (with_reducible first
    | exact frame_curScope | exact frame_setCurScope _ | exact frame_fail _
    | exact frame_pure _
    | refine frame_bind ?_ (fun _ => ?_) | apply frame_ite)

theorem frame_stripLastPop : TableFrame stripLastPop := by
  unfold stripLastPop
  repeat' (with_reducible first
    | exact frame_lastInstructionIs _ | exact frame_removeLastPop
    | exact frame_pure _
    | refine frame_bind ?_ (fun _ => ?_) | apply frame_ite)

theorem frame_replaceInstructionLoop (pos : Nat) (bs : List Nat) (i : Nat) :
    TableFrame (replaceInstructionLoop pos bs i) := by
  induction bs generalizing i with
  | nil => exact frame_pure _
  | cons b rest ih =>
    unfold replaceInstructionLoop
    repeat' (with_reducible first
      | exact frame_curScope | exact frame_setCurScope _ | exact frame_lift _
      | exact ih _
      | refine frame_bind ?_ (fun _ => ?_))

theorem frame_replaceLastPopWithReturn : TableFrame replaceLastPopWithReturn := by
  unfold replaceLastPopWithReturn replaceInstruction
  repeat' (with_reducible first
    | exact frame_curScope | exact frame_setCurScope _ | exact frame_lift _
    | exact frame_replaceInstructionLoop _ _ _
    | refine frame_bind ?_ (fun _ => ?_))

theorem frame_changeOperand (opPos : Nat) (operand : Int) :
    TableFrame (changeOperand opPos operand) := by
  unfold changeOperand replaceInstruction
  repeat' (with_reducible first
    | exact frame_curScope | exact frame_lift _
    | exact frame_replaceInstructionLoop _ _ _
    | refine frame_bind ?_ (fun _ => ?_))

theorem frame_loadSymbol (s : Symbol) : TableFrame (loadSymbol s) := by
  unfold loadSymbol
  repeat' (with_reducible first
    | exact frame_emit _ _ | exact frame_pure _
    | refine frame_bind ?_ (fun _ => ?_) | apply frame_ite)

theorem frame_loadSymbols (l : List Symbol) : TableFrame (loadSymbols l) := by
  induction l with
  | nil => exact frame_pure _
  | cons s rest ih =>
    unfold loadSymbols
    exact frame_bind (frame_loadSymbol s) (fun _ => ih)

theorem frame_emitInfix (operator : String) : TableFrame (emitInfix operator) := by
  unfold emitInfix
  repeat' (with_reducible first
    | exact frame_emit _ _ | exact frame_pure _ | exact frame_fail _
    | refine frame_bind ?_ (fun _ => ?_) | apply frame_ite)

theorem frame_emitPrefixOp (operator : String) : TableFrame (emitPrefixOp operator) := by
  unfold emitPrefixOp
  repeat' (with_reducible first
    | exact frame_emit _ _ | exact frame_pure _ | exact frame_fail _
    | refine frame_bind ?_ (fun _ => ?_) | apply frame_ite)

/-! ### The symbol table through a compilation -/

theorem tspec_of_frame {α : Type} {m : M Compiler α} (h : TableFrame m) : TSpec [] m := by
  intro c t ht hwf
  refine ⟨t, (h c).1.trans ht, hwf, Reaches_refl t, fun _ _ => ⟨Defined_refl t, (h c).2⟩⟩

theorem tspec_bind {α β : Type} {D D1 : List String} {m : M Compiler α}
    {f : α → M Compiler β} (hm : TSpec D m) (hf : ∀ a, TSpec D1 (f a)) :
    TSpec (D ++ D1) (m >>= f) := by
  intro c t ht hwf
  obtain ⟨t1, ht1, hwf1, hr1, hok1⟩ := hm c t ht hwf
  rw [M_bind_apply]
  rcases h : m c with ⟨r, c1⟩
  rw [h] at ht1 hok1
  cases r with
  | error e => exact ⟨t1, ht1, hwf1, hr1, fun a ha => by cases ha⟩
  | ok a =>
    obtain ⟨t2, ht2, hwf2, hr2, hok2⟩ := hf a c1 t1 ht1 hwf1
    refine ⟨t2, ht2, hwf2, Reaches_trans hr1 hr2, fun b hb => ?_⟩
    obtain ⟨hd1, hc1⟩ := hok1 a rfl
    obtain ⟨hd2, hc2⟩ := hok2 b hb
    exact ⟨Defined_trans hd1 hd2, ConstsGrow_trans hc1 hc2⟩

theorem tspec_perm {α : Type} {D D1 : List String} {m : M Compiler α} (hm : TSpec D m)
    (hp : D.Perm D1) : TSpec D1 m := by
  intro c t ht hwf
  obtain ⟨t1, ht1, hwf1, hr1, hok1⟩ := hm c t ht hwf
  exact ⟨t1, ht1, hwf1, hr1, fun a ha => ⟨Defined_perm hp (hok1 a ha).1, (hok1 a ha).2⟩⟩

theorem tspec_ite {α : Type} {D : List String} {p : Prop} [Decidable p] {a b : M Compiler α}
    (ha : TSpec D a) (hb : TSpec D b) : TSpec D (if p then a else b) := by
  split
  · exact ha
  · exact hb

theorem tspec_Define (name : String) : TSpec [name] (onSymbolTable (fun t => t.Define name)) := by
  intro c t ht hwf
  simp only [onSymbolTable, ht]
  exact ⟨_, rfl, Step_WF (.define t name) hwf, Reaches_of_Defined (Defined_Define t name),
    fun _ _ => ⟨Defined_Define t name, ConstsGrow_refl _⟩⟩

theorem tspec_GetDefine (name : String) :
    TSpec [] (onSymbolTable (fun t => t.GetDefine name)) := by
  intro c t ht hwf
  simp only [onSymbolTable, ht]
  have hd := Defined_GetDefine name t (WF_NamesOK hwf)
  exact ⟨_, rfl, Step_WF (.getDefine t name) hwf, Reaches_of_Defined hd,
    fun _ _ => ⟨hd, ConstsGrow_refl _⟩⟩

theorem tspec_defineParams (l : List String) : TSpec l (defineParams l) := by
  induction l with
  | nil => exact tspec_of_frame (frame_pure _)
  | cons s rest ih =>
    unfold defineParams
    exact tspec_bind (tspec_Define s) (fun _ => ih)

theorem directNamesPairs_perm {l l1 : List (Node × Node)} (h : l.Perm l1) :
    (directNamesPairs l).Perm (directNamesPairs l1) := by
  induction h with
  | nil => exact List.Perm.refl _
  | cons x _ ih =>
    obtain ⟨k, v⟩ := x
    simp only [directNamesPairs]
    exact (ih.append_left _).append_left _
  | swap x y l =>
    obtain ⟨k, v⟩ := x
    obtain ⟨k1, v1⟩ := y
    have hsw : ∀ a b L : List String, (a ++ (b ++ L)).Perm (b ++ (a ++ L)) := fun a b L => by
      rw [← List.append_assoc, ← List.append_assoc]
      exact List.Perm.append_right _ List.perm_append_comm
    have e1 : directNamesPairs ((k1, v1) :: (k, v) :: l)
        = (directNames k1 ++ directNames v1) ++ ((directNames k ++ directNames v)
          ++ directNamesPairs l) := by
      simp only [directNamesPairs, List.append_assoc]
    have e2 : directNamesPairs ((k, v) :: (k1, v1) :: l)
        = (directNames k ++ directNames v) ++ ((directNames k1 ++ directNames v1)
          ++ directNamesPairs l) := by
      simp only [directNamesPairs, List.append_assoc]
    rw [e1, e2]
    exact hsw _ _ _
  | trans _ _ ih1 ih2 => exact ih1.trans ih2

theorem tspec_compileEntries (ks : Node → String) (l : List (Node × Node))
    (h : ∀ p ∈ l, TSpec (directNames p.1) (Compile ks p.1)
      ∧ TSpec (directNames p.2) (Compile ks p.2)) :
    TSpec (directNamesPairs l) (compileEntries ks l) := by
  induction l with
  | nil => exact tspec_of_frame (frame_pure _)
  | cons p rest ih =>
    obtain ⟨k, v⟩ := p
    rw [compileEntries, directNamesPairs]
    exact tspec_bind (h _ (List.mem_cons_self _ _)).1 (fun _ =>
      tspec_bind (h _ (List.mem_cons_self _ _)).2 (fun _ =>
        ih (fun p hp => h p (List.mem_cons_of_mem _ hp))))

theorem enterScope_apply (c : Compiler) :
    enterScope c = (.ok (),
      { c with
        symbolTable := some (match c.symbolTable with
          | some t => NewEnclosedSymbolTable t
          | none => .mk [] 0 none [])
        scopes := c.scopes ++ [⟨[], ⟨0, 0⟩, ⟨0, 0⟩⟩]
        scopeIndex := c.scopeIndex + 1 }) := rfl

/-- What `leaveScope` does to the symbol table and the constants: with no error the table
becomes the enclosing one; with an error it is left as it was. -/
theorem leaveScope_table (c : Compiler) :
    (leaveScope c).2.constants = c.constants
    ∧ ((∃ ins, (leaveScope c).1 = .ok ins
          ∧ ∃ t, c.symbolTable = some t ∧ (leaveScope c).2.symbolTable = t.External)
      ∨ ((∃ e, (leaveScope c).1 = .error e)
          ∧ (leaveScope c).2.symbolTable = c.symbolTable)) := by
  obtain ⟨cs, t, l, i, h⟩ := c
  unfold leaveScope curInstructions curScope
  simp only [M_bind_apply, M_pure_apply, M.get, M.set, M.fail]
  cases hg : getAt l i with
  | error e => exact ⟨rfl, Or.inr ⟨⟨e, rfl⟩, rfl⟩⟩
  | ok sc =>
    simp only []
    split
    · exact ⟨rfl, Or.inr ⟨⟨_, rfl⟩, rfl⟩⟩
    · cases t with
      | none => exact ⟨rfl, Or.inr ⟨⟨_, rfl⟩, rfl⟩⟩
      | some t => exact ⟨rfl, Or.inl ⟨_, rfl, t, rfl, rfl⟩⟩

theorem finspec_frame_bind {numParams : Nat} {α β : Type} {m : M Compiler α}
    {f : α → M Compiler β} (hm : TableFrame m) (hf : ∀ a, FinSpec numParams (f a)) :
    FinSpec numParams (m >>= f) := by
  intro c tb e1 ht he hn
  have h1 := hm c
  rw [M_bind_apply]
  rcases h : m c with ⟨r, c1⟩
  rw [h] at h1
  cases r with
  | error e => exact ⟨Or.inl (h1.1.trans ht), fun a ha => by cases ha⟩
  | ok a =>
    obtain ⟨h2, h3⟩ := hf a c1 tb e1 (h1.1.trans ht) he hn
    exact ⟨h2, fun b hb => ⟨(h3 b hb).1, ConstsGrow_trans h1.2 (h3 b hb).2⟩⟩

theorem finspec_leave (symbol : Symbol) (numParams : Nat) :
    FinSpec numParams (do
      let c ← (M.get : M Compiler Compiler)
      match c.symbolTable with
      | none => M.fail (.panic "nil pointer dereference")
      | some t =>
        let ctx := t.Context
        let numLocals := t.count
        let instructions ← leaveScope
        loadSymbols ctx
        let a ← Compiler.alloc
        let compiledFn : Object := .CompiledFunction a ⟨instructions, numLocals, numParams⟩
        let idx ← addConstant compiledFn
        let _ ← emit OpClosure [idx, ctx.length]
        if symbol.Scope = GlobalScope then
          let _ ← emit OpSetGlobal [symbol.Index]
        else
          let _ ← emit OpSetLocal [symbol.Index]) := by
  intro c tb e1 ht he hn
  simp only [M_bind_apply, M.get, ht]
  obtain ⟨hcs, hl⟩ := leaveScope_table c
  rcases hres : leaveScope c with ⟨r, c1⟩
  rw [hres] at hcs hl
  rcases hl with ⟨ins, hr, t, htt, ht1⟩ | ⟨⟨e, hr⟩, ht1⟩
  · simp only at hr
    subst hr
    rw [ht] at htt
    cases htt
    simp only at ht1
    rw [he] at ht1
    simp only []
    have hloc : ∀ a, LocalsOK (.CompiledFunction a ⟨ins, tb.count, numParams⟩) :=
      fun a _ _ h => by cases h; exact hn
    have hfr : TableFrame (do
        loadSymbols tb.Context
        let a ← Compiler.alloc
        let idx ← addConstant (.CompiledFunction a ⟨ins, tb.count, numParams⟩)
        let _ ← emit OpClosure [idx, tb.Context.length]
        if symbol.Scope = GlobalScope then
          let _ ← emit OpSetGlobal [symbol.Index]
        else
          let _ ← emit OpSetLocal [symbol.Index]) := by
      repeat' (with_reducible first
        | exact frame_loadSymbols _ | exact frame_alloc | exact frame_emit _ _
        | exact frame_pure _
        | exact frame_addConstant _ (hloc _)
        | refine frame_bind ?_ (fun _ => ?_) | apply frame_ite)
    have h2 := hfr c1
    refine ⟨Or.inr (h2.1.trans ht1), fun a _ => ⟨h2.1.trans ht1, ?_⟩⟩
    obtain ⟨new, hnew, hok⟩ := h2.2
    exact ⟨new, hnew.trans (congrArg (fun l => l ++ new) hcs), hok⟩
  · simp only at hr
    subst hr
    simp only at ht1
    exact ⟨Or.inl (ht1.trans ht), fun a ha => by cases ha⟩

theorem finspec_ite {numParams : Nat} {α : Type} {p : Prop} [Decidable p]
    {a b : M Compiler α} (ha : FinSpec numParams a) (hb : FinSpec numParams b) :
    FinSpec numParams (if p then a else b) := by
  split
  · exact ha
  · exact hb

theorem finspec_finishFunction (symbol : Symbol) (numParams : Nat) :
    FinSpec numParams (finishFunction symbol numParams) := by
  unfold finishFunction
  repeat' (first
    | exact finspec_leave symbol numParams
    | with_reducible first
    | refine finspec_frame_bind ?_ (fun _ => ?_)
    | apply finspec_ite
    | exact frame_lastInstructionIs _ | exact frame_replaceLastPopWithReturn
    | exact frame_emit _ _ | exact frame_pure _)

theorem tspec_elim {D : List String} {α β : Type} {m : M Compiler α} {f : α → M Compiler β}
    (hm : TSpec D m) (c : Compiler) (tf : SymbolTable) (htf : c.symbolTable = some tf)
    (hwf : tf.WF) (Q : Except Fault β × Compiler → Prop)
    (herr : ∀ e c1 t1, c1.symbolTable = some t1 → t1.WF → SymbolTable.Reaches tf t1 →
      Q (.error e, c1))
    (hok : ∀ a c1 t1, c1.symbolTable = some t1 → t1.WF → SymbolTable.Defined D tf t1 →
      ConstsGrow c c1 → Q (f a c1)) : Q ((m >>= f) c) := by
  obtain ⟨t1, ht1, hwf1, hr1, hok1⟩ := hm c tf htf hwf
  rw [M_bind_apply]
  rcases h : m c with ⟨r, c1⟩
  rw [h] at ht1 hok1
  cases r with
  | error e => exact herr e c1 t1 ht1 hwf1 hr1
  | ok a => exact hok a c1 t1 ht1 hwf1 (hok1 a rfl).1 (hok1 a rfl).2

theorem tspec_function (ks : Node → String) (name : String) (params : List String)
    (body : Node) (symbol : Symbol) (ih : TSpec (directNames body) (Compile ks body)) :
    TSpec [] (do
      enterScope
      let _ ← onSymbolTable (fun t => t.defineFunction name)
      defineParams params
      Compile ks body
      finishFunction symbol params.length) := by
  intro c t ht hwf
  rw [M_bind_apply, enterScope_apply]
  simp only [ht]
  rw [M_bind_apply]
  simp only [onSymbolTable, NewEnclosedSymbolTable, defineFunction]
  have hwfE : (SymbolTable.mk [] 0 (some t) []).WF :=
    (StoreAll_mk _ [] 0 (some t) []).mpr ⟨by simp, fun _ h => by cases h; exact hwf⟩
  have hwfF : (SymbolTable.mk (storeSet [] name ⟨FunctionScope, 0, name⟩) 0 (some t) []).WF :=
    Step_WF (.defineFunction (.mk [] 0 (some t) []) name) hwfE
  have hrF : SymbolTable.Reaches t
      (SymbolTable.mk (storeSet [] name ⟨FunctionScope, 0, name⟩) 0 (some t) []) :=
    Reaches_enclosed t _ 0 []
  refine tspec_elim (tspec_defineParams params) _ _ rfl hwfF
    (fun r => ∃ t1, r.2.symbolTable = some t1 ∧ t1.WF ∧ SymbolTable.Reaches t t1 ∧
      ∀ a, r.1 = .ok a → SymbolTable.Defined [] t t1 ∧ ConstsGrow c r.2) ?_ ?_
  · intro e c1 t1 ht1 hwf1 hr1
    exact ⟨t1, ht1, hwf1, Reaches_trans hrF hr1, fun a ha => by cases ha⟩
  · intro _ cp tp htp hwfp hdp hcp
    refine tspec_elim ih cp tp htp hwfp
      (fun r => ∃ t1, r.2.symbolTable = some t1 ∧ t1.WF ∧ SymbolTable.Reaches t t1 ∧
        ∀ a, r.1 = .ok a → SymbolTable.Defined [] t t1 ∧ ConstsGrow c r.2) ?_ ?_
    · intro e c1 t1 ht1 hwf1 hr1
      exact ⟨t1, ht1, hwf1, Reaches_trans hrF (Reaches_trans (Reaches_of_Defined hdp) hr1),
        fun a ha => by cases ha⟩
    · intro _ cb tb htb hwfb hdb hcb
      have hd := Defined_trans hdp hdb
      obtain ⟨stb, cnt, extb, ctxb⟩ := tb
      rw [Defined_mk] at hd
      obtain ⟨⟨hcnt, -⟩, hext⟩ := hd
      rcases hext with ⟨h, _⟩ | ⟨e0, e1, h0, rfl, hde⟩
      · cases h
      · cases h0
        have hwfe : e1.WF := ((StoreAll_mk _ _ _ _ _).mp hwfb).2 e1 rfl
        obtain ⟨h1, h2⟩ := finspec_finishFunction symbol params.length cb _ e1 htb rfl
          (by simp only [SymbolTable.count, hcnt, List.length_append]; omega)
        cases hres : (finishFunction symbol params.length cb).1 with
        | ok a =>
          exact ⟨e1, (h2 a hres).1, hwfe, Reaches_of_Defined hde, fun _ _ =>
            ⟨hde, ConstsGrow_trans (ConstsGrow_trans hcp hcb) (h2 a hres).2⟩⟩
        | error e =>
          rcases h1 with h1 | h1
          · exact ⟨_, h1, hwfb,
              Reaches_trans hrF (Reaches_of_Defined (Defined_trans hdp hdb)),
              fun a ha => by cases ha⟩
          · exact ⟨e1, h1, hwfe, Reaches_of_Defined hde, fun a ha => by cases ha⟩

theorem localsOK_Integer (a : Nat) (v : Int) : LocalsOK (.Integer a v) :=
  fun _ _ h => by cases h

theorem localsOK_Stringer (a : Nat) (v : String) : LocalsOK (.Stringer a v) :=
  fun _ _ h => by cases h

/-- Compiling a node from a state whose table satisfies the representation invariant:
whatever the result, the table at the end is the initial one after definitions or a table
opened inside it; with no error it is the initial table with the names of
`directNames` defined. -/
theorem tspec_Compile (ks : Node → String) (n : Node) :
    TSpec (directNames n) (Compile ks n) := by
  refine @Node.induction (fun n => TSpec (directNames n) (Compile ks n))
    (fun l => TSpec (directNamesList l) (CompileList ks l))
    (fun ps => ∀ p ∈ ps, TSpec (directNames p.1) (Compile ks p.1)
      ∧ TSpec (directNames p.2) (Compile ks p.2))
    ?_ ?_ ?_ ?_ ?_ ?_ ?_ ?_ ?_ ?_ ?_ ?_ ?_ ?_ ?_ ?_ ?_ ?_ ?_ ?_ ?_ ?_ n
  case refine_5 =>
    intro elements ih
    rw [Compile, sortByKey_CompilePairs, runAll_CompilePairs, directNames]
    refine tspec_perm (tspec_bind (tspec_compileEntries ks _ (fun p hp =>
      ih p ((sortEntries_perm ks elements).mem_iff.mp hp)))
      (fun _ => tspec_of_frame (frame_bind (frame_emit _ _) (fun _ => frame_pure _)))) ?_
    rw [List.append_nil]
    exact directNamesPairs_perm (sortEntries_perm ks elements)
  case refine_13 =>
    intro name params body ih
    rw [Compile, directNames]
    exact tspec_perm (tspec_bind (tspec_Define name)
      (fun symbol => tspec_function ks name params body symbol ih)) (List.Perm.refl _)
  case refine_16 =>
    intro operator left right ihl ihr
    rw [Compile, directNames]
    split
    · refine tspec_perm (tspec_bind ihr (fun _ => tspec_bind ihl (fun _ =>
        tspec_of_frame (frame_bind (frame_emit _ _) (fun _ => frame_pure _))))) ?_
      rw [List.append_nil]
      exact List.perm_append_comm
    · refine tspec_perm (tspec_bind ihl (fun _ => tspec_bind ihr (fun _ =>
        tspec_of_frame (frame_emitInfix _)))) ?_
      rw [List.append_nil]
  case refine_19 =>
    show TSpec (directNamesList []) (CompileList ks [])
    rw [CompileList, directNamesList]
    exact tspec_of_frame (frame_pure _)
  case refine_21 => intro p hp; cases hp
  case refine_22 =>
    intro k v rest h1 h2 h3 p hp
    rcases List.mem_cons.mp hp with rfl | hp
    · exact ⟨h1, h2⟩
    · exact h3 p hp
  all_goals intros
  all_goals first
    | rw [Compile, directNames]
    | rw [CompileList, directNamesList]
  all_goals apply tspec_perm
  all_goals repeat' (with_reducible first
    | assumption
    | exact tspec_GetDefine _ | exact tspec_Define _
    | exact tspec_of_frame frame_alloc
    | exact tspec_of_frame (frame_addConstant _ (localsOK_Integer _ _))
    | exact tspec_of_frame (frame_addConstant _ (localsOK_Stringer _ _))
    | exact tspec_of_frame (frame_emit _ _)
    | exact tspec_of_frame (frame_loadSymbol _) | exact tspec_of_frame frame_stripLastPop
    | exact tspec_of_frame frame_curInstructions
    | exact tspec_of_frame (frame_changeOperand _ _)
    | exact tspec_of_frame (frame_emitPrefixOp _)
    | exact tspec_of_frame (frame_pure _) | exact tspec_of_frame (frame_fail _)
    | apply tspec_bind | intro _ | apply tspec_ite)
  all_goals simp

theorem WF_outer {t tl : SymbolTable} {k : Nat} (hwf : t.WF) (hk : t.outer k = some tl) :
    tl.WF := by
  induction k generalizing t with
  | zero =>
    simp only [SymbolTable.outer] at hk
    cases hk
    exact hwf
  | succ k ih =>
    obtain ⟨st, c, ext, ctx⟩ := t
    cases ext with
    | none => simp [SymbolTable.outer] at hk
    | some e =>
      simp only [SymbolTable.outer] at hk
      exact ih (((StoreAll_mk _ _ _ _ _).mp hwf).2 e rfl) hk

/-- A reference to a name that the current table holds compiles without error on a
compiler made by `NewCompilerWithSymbol`. -/
theorem compile_Identifier_hit (ks : Node → String) (name : String) (t : SymbolTable)
    (sym : Symbol) (hwf : t.WF) (hget : storeGet t.store name = some sym) (cs : List Object)
    (heap : Nat) :
    (Compile ks (.Identifier name) (NewCompilerWithSymbol (some t) cs heap)).1 = .ok () := by
  obtain ⟨st, c, ext, ctx⟩ := t
  simp only [SymbolTable.store] at hget
  have hk : knownScope sym.Scope :=
    (((StoreAll_mk _ _ _ _ _).mp hwf).1 _ (mem_of_storeGet hget)).2
  obtain ⟨op, operands, d, hs, hd⟩ := specLoad_of_knownScope sym hk
  rw [Compile, M_bind_apply]
  simp only [onSymbolTable, NewCompilerWithSymbol, GetDefine_hit hget, Bool.not_true,
    Bool.false_eq_true, if_false]
  exact congrArg Prod.fst (loadSymbol_eq sym op operands d hs hd cs _ [] [] ⟨[], ⟨0, 0⟩, ⟨0, 0⟩⟩ heap).2

/-- **C37.** A failed compilation is not rolled back. When the value `e` of the statement
`var x = e` does not compile from the state in which `x` has just been defined, compiling
the statement returns that error, and the table on which `x` was defined (found in the
chain of the final table, at the depth of the initial one; its store satisfies the
representation invariant `WF` at the start) still holds `x`, with an index allocated
during this compilation (at least the old counter and below the new one), and its counter
is larger than before. A compiler created afterwards on that table compiles a reference
to `x` without error. -/
theorem C37_failed_compilation_not_rolled_back (ks : Node → String) (x : String) (e : Node)
    (c c1 : Compiler) (t : SymbolTable) (err : Fault) (cs : List Object) (heap : Nat)
    (ht : c.symbolTable = some t) (hwf : t.WF)
    (hfail : Compile ks e { c with symbolTable := some (t.Define x).2 } = (.error err, c1)) :
    Compile ks (.VarStmt x e) c = (.error err, c1)
    ∧ ∃ t1 k tl sym, c1.symbolTable = some t1 ∧ t1.outer k = some tl ∧ tl.depth = t.depth
        ∧ storeGet tl.store x = some sym
        ∧ (t.count : Int) ≤ sym.Index ∧ sym.Index < (tl.count : Int) ∧ t.count < tl.count
        ∧ (Compile ks (.Identifier x) (NewCompilerWithSymbol (some tl) cs heap)).1 = .ok () := by
  refine ⟨?_, ?_⟩
  · rw [Compile, M_bind_apply]
    simp only [onSymbolTable, ht]
    rw [M_bind_apply, hfail]
  · have hwf1 : (t.Define x).2.WF := Step_WF (.define t x) hwf
    obtain ⟨t1, ht1, hwft1, ⟨k, tl, D, hk, hd⟩, -⟩ :=
      tspec_Compile ks e { c with symbolTable := some (t.Define x).2 } _ rfl hwf1
    rw [hfail] at ht1
    have hwfl : tl.WF := WF_outer hwft1 hk
    have hdep : tl.depth = t.depth := by
      rw [Defined_depth hd]
      exact Defined_depth (Defined_Define t x)
    obtain ⟨st, cnt, ext, ctx⟩ := t
    obtain ⟨stl, cntl, extl, ctxl⟩ := tl
    simp only [Define] at hd
    rw [Defined_mk] at hd
    obtain ⟨⟨hcnt, hkeep, -, -⟩, -⟩ := hd
    obtain ⟨s1, hs1, hor⟩ := hkeep x _ (storeGet_storeSet_self _ _ _)
    refine ⟨t1, k, _, s1, ht1, hk, hdep, hs1, ?_, ?_, ?_,
      compile_Identifier_hit ks x _ s1 hwfl hs1 cs heap⟩
    · rcases hor with rfl | ⟨_, h1, _⟩
      · simp [SymbolTable.count]
      · simp only [SymbolTable.count]; push_cast at h1; omega
    · rcases hor with rfl | ⟨_, _, h2⟩
      · simp only [SymbolTable.count, hcnt]; push_cast; omega
      · exact h2
    · simp only [SymbolTable.count, hcnt]; omega

/-- C37 on an example: `var x = y` with `y` undefined, compiled by a fresh compiler. -/
theorem C37_failed_compilation_not_rolled_back_witness :
    (NewCompiler 0).symbolTable = some (defineBuiltins builtinNames 0 NewSymbolTable)
    ∧ (defineBuiltins builtinNames 0 NewSymbolTable).WF
    ∧ Compile witnessKeyString (.Identifier "y")
        ⟨[], some ((defineBuiltins builtinNames 0 NewSymbolTable).Define "x").2,
          [⟨[], ⟨0, 0⟩, ⟨0, 0⟩⟩], 0, 0⟩
        = (.error (.error "undefined variable y"),
            ⟨[], some ((defineBuiltins builtinNames 0 NewSymbolTable).Define "x").2,
          [⟨[], ⟨0, 0⟩, ⟨0, 0⟩⟩], 0, 0⟩)
    ∧ Compile witnessKeyString (.VarStmt "x" (.Identifier "y")) (NewCompiler 0)
        = (.error (.error "undefined variable y"),
            ⟨[], some ((defineBuiltins builtinNames 0 NewSymbolTable).Define "x").2,
          [⟨[], ⟨0, 0⟩, ⟨0, 0⟩⟩], 0, 0⟩) :=
  have hwf : (defineBuiltins builtinNames 0 NewSymbolTable).WF := by
    simp [defineBuiltins, builtinNames, NewSymbolTable, DefineBuiltin, SymbolTable.WF,
      SymbolTable.StoreAll, storeSet, knownScope]
  have hfail : Compile witnessKeyString (.Identifier "y")
        ⟨[], some ((defineBuiltins builtinNames 0 NewSymbolTable).Define "x").2,
          [⟨[], ⟨0, 0⟩, ⟨0, 0⟩⟩], 0, 0⟩
        = (.error (.error "undefined variable y"),
            ⟨[], some ((defineBuiltins builtinNames 0 NewSymbolTable).Define "x").2,
          [⟨[], ⟨0, 0⟩, ⟨0, 0⟩⟩], 0, 0⟩) := by
    rw [Compile, M_bind_apply]
    rfl
  ⟨rfl, hwf, hfail,
    (C37_failed_compilation_not_rolled_back witnessKeyString "x" (.Identifier "y")
      (NewCompiler 0) _ _ (.error "undefined variable y") [] 0 rfl hwf hfail).1⟩

theorem M_bind_assoc {σ α β γ : Type} (m : M σ α) (f : α → M σ β) (g : β → M σ γ) :
    (m >>= f) >>= g = m >>= fun a => f a >>= g := by
  funext s
  simp only [M_bind_apply]
  rcases m s with ⟨r, s1⟩
  cases r <;> rfl

theorem M_pure_bind {σ α β : Type} (a : α) (f : α → M σ β) :
    (Pure.pure a : M σ α) >>= f = f a := rfl

theorem finishFunction_eq (symbol : Symbol) (numParams : Nat) :
    finishFunction symbol numParams = (returnFix >>= fun _ => closeFunction symbol numParams) := by
  unfold finishFunction returnFix closeFunction
  simp only [M_bind_assoc]
  congr 1
  funext b
  cases b
  · simp only [Bool.false_eq_true, if_false, M_bind_assoc, M_pure_bind]
    congr 1
    funext b2
    cases b2 <;> simp only [Bool.not_false, Bool.not_true, Bool.false_eq_true, if_false, if_true,
      M_bind_assoc, M_pure_bind] <;> rfl
  · simp only [if_true, M_bind_assoc, M_pure_bind]
    congr 1
    funext _
    congr 1
    funext b2
    cases b2 <;> simp only [Bool.not_false, Bool.not_true, Bool.false_eq_true, if_false, if_true,
      M_bind_assoc, M_pure_bind] <;> rfl

theorem M_bind_ok {σ α β : Type} {m : M σ α} {f : α → M σ β} {s s2 : σ} {b : β}
    (h : (m >>= f) s = (.ok b, s2)) : ∃ a s1, m s = (.ok a, s1) ∧ f a s1 = (.ok b, s2) := by
  rw [M_bind_apply] at h
  rcases hm : m s with ⟨r, s1⟩
  rw [hm] at h
  cases r with
  | error e => cases h
  | ok a => exact ⟨a, s1, rfl, h⟩

/-! ### Steps that change the compilation scopes only -/

theorem scopeStep_pure {α : Type} (a : α) : ScopeStep (Pure.pure a : M Compiler α) :=
  fun _ => ⟨rfl, rfl, rfl, rfl⟩

theorem scopeStep_fail {α : Type} (e : Fault) : ScopeStep (M.fail e : M Compiler α) :=
  fun _ => ⟨rfl, rfl, rfl, rfl⟩

theorem scopeStep_lift {α : Type} (x : Except Fault α) : ScopeStep (M.lift x : M Compiler α) :=
  fun _ => ⟨rfl, rfl, rfl, rfl⟩

theorem scopeStep_bind {α β : Type} {m : M Compiler α} {f : α → M Compiler β}
    (hm : ScopeStep m) (hf : ∀ a, ScopeStep (f a)) : ScopeStep (m >>= f) := by
  intro c
  have h1 := hm c
  rw [M_bind_apply]
  rcases h : m c with ⟨r, c1⟩
  rw [h] at h1
  cases r with
  | error e => exact h1
  | ok a =>
    obtain ⟨a1, a2, a3, a4⟩ := hf a c1
    exact ⟨a1.trans h1.1, a2.trans h1.2.1, a3.trans h1.2.2.1, a4.trans h1.2.2.2⟩

theorem scopeStep_ite {α : Type} {p : Prop} [Decidable p] {a b : M Compiler α}
    (ha : ScopeStep a) (hb : ScopeStep b) : ScopeStep (if p then a else b) := by
  split
  · exact ha
  · exact hb

theorem scopeStep_curScope : ScopeStep curScope := fun _ => ⟨rfl, rfl, rfl, rfl⟩

theorem scopeStep_setCurScope (sc : CompilationScope) : ScopeStep (setCurScope sc) := by
  intro c
  unfold setCurScope
  split
  · exact ⟨rfl, rfl, rfl, rfl⟩
  · exact ⟨rfl, rfl, rfl, rfl⟩

theorem scopeStep_curInstructions : ScopeStep curInstructions :=
  scopeStep_bind scopeStep_curScope (fun _ => scopeStep_pure _)

theorem scopeStep_emit (op : Opcode) (operands : List Int) : ScopeStep (emit op operands) := by
  unfold emit addInstruction setLastInstruction
  repeat' (with_reducible first
    | exact scopeStep_curScope | exact scopeStep_setCurScope _ | exact scopeStep_lift _
    | exact scopeStep_curInstructions | exact scopeStep_pure _
    | refine scopeStep_bind ?_ (fun _ => ?_))

theorem scopeStep_lastInstructionIs (op : Opcode) : ScopeStep (lastInstructionIs op) := by
  unfold lastInstructionIs
  repeat' (with_reducible first
    | exact scopeStep_curScope | exact scopeStep_curInstructions | exact scopeStep_pure _
    | refine scopeStep_bind ?_ (fun _ => ?_) | apply scopeStep_ite)

theorem scopeStep_removeLastPop : ScopeStep removeLastPop := by
  unfold removeLastPop
  repeat' (with_reducible first
    | exact scopeStep_curScope | exact scopeStep_setCurScope _ | exact scopeStep_fail _
    | exact scopeStep_pure _
    | refine scopeStep_bind ?_ (fun _ => ?_) | apply scopeStep_ite)

theorem scopeStep_stripLastPop : ScopeStep stripLastPop := by
  unfold stripLastPop
  repeat' (with_reducible first
    | exact scopeStep_lastInstructionIs _ | exact scopeStep_removeLastPop
    | exact scopeStep_pure _
    | refine scopeStep_bind ?_ (fun _ => ?_) | apply scopeStep_ite)

theorem scopeStep_replaceInstructionLoop (pos : Nat) (bs : List Nat) (i : Nat) :
    ScopeStep (replaceInstructionLoop pos bs i) := by
  induction bs generalizing i with
  | nil => exact scopeStep_pure _
  | cons b rest ih =>
    unfold replaceInstructionLoop
    repeat' (with_reducible first
      | exact scopeStep_curScope | exact scopeStep_setCurScope _ | exact scopeStep_lift _
      | exact ih _
      | refine scopeStep_bind ?_ (fun _ => ?_))

theorem scopeStep_replaceLastPopWithReturn : ScopeStep replaceLastPopWithReturn := by
  unfold replaceLastPopWithReturn replaceInstruction
  repeat' (with_reducible first
    | exact scopeStep_curScope | exact scopeStep_setCurScope _ | exact scopeStep_lift _
    | exact scopeStep_replaceInstructionLoop _ _ _
    | refine scopeStep_bind ?_ (fun _ => ?_))

theorem scopeStep_changeOperand (opPos : Nat) (operand : Int) :
    ScopeStep (changeOperand opPos operand) := by
  unfold changeOperand replaceInstruction
  repeat' (with_reducible first
    | exact scopeStep_curScope | exact scopeStep_lift _
    | exact scopeStep_replaceInstructionLoop _ _ _
    | refine scopeStep_bind ?_ (fun _ => ?_))

theorem scopeStep_loadSymbol (s : Symbol) : ScopeStep (loadSymbol s) := by
  unfold loadSymbol
  repeat' (with_reducible first
    | exact scopeStep_emit _ _ | exact scopeStep_pure _
    | refine scopeStep_bind ?_ (fun _ => ?_) | apply scopeStep_ite)

theorem scopeStep_loadSymbols (l : List Symbol) : ScopeStep (loadSymbols l) := by
  induction l with
  | nil => exact scopeStep_pure _
  | cons s rest ih =>
    unfold loadSymbols
    exact scopeStep_bind (scopeStep_loadSymbol s) (fun _ => ih)

theorem scopeStep_emitInfix (operator : String) : ScopeStep (emitInfix operator) := by
  unfold emitInfix
  repeat' (with_reducible first
    | exact scopeStep_emit _ _ | exact scopeStep_pure _ | exact scopeStep_fail _
    | refine scopeStep_bind ?_ (fun _ => ?_) | apply scopeStep_ite)

theorem scopeStep_emitPrefixOp (operator : String) : ScopeStep (emitPrefixOp operator) := by
  unfold emitPrefixOp
  repeat' (with_reducible first
    | exact scopeStep_emit _ _ | exact scopeStep_pure _ | exact scopeStep_fail _
    | refine scopeStep_bind ?_ (fun _ => ?_) | apply scopeStep_ite)

theorem scopeStep_returnFix : ScopeStep returnFix := by
  unfold returnFix
  repeat' (with_reducible first
    | exact scopeStep_lastInstructionIs _ | exact scopeStep_replaceLastPopWithReturn
    | exact scopeStep_emit _ _ | exact scopeStep_pure _
    | refine scopeStep_bind ?_ (fun _ => ?_) | apply scopeStep_ite)

/-! ### The steps of a function expression compiled without error -/

/-- The steps of `closeFunction` when it returns no error. -/
theorem closeFunction_ok {symbol : Symbol} {numParams : Nat} {cr c1 : Compiler}
    (h : closeFunction symbol numParams cr = (.ok (), c1)) :
    ∃ tb ins cl cld ccl p p2, cr.symbolTable = some tb ∧ leaveScope cr = (.ok ins, cl)
      ∧ loadSymbols tb.Context cl = (.ok (), cld)
      ∧ emit OpClosure [(cld.constants.length : Int), (tb.Context.length : Int)]
          ⟨cld.constants ++ [.CompiledFunction cld.heap ⟨ins, tb.count, numParams⟩],
            cld.symbolTable, cld.scopes, cld.scopeIndex, cld.heap + 1⟩ = (.ok p, ccl)
      ∧ emit (if symbol.Scope = GlobalScope then OpSetGlobal else OpSetLocal) [symbol.Index] ccl
          = (.ok p2, c1) := by
  unfold closeFunction at h
  simp only [M_bind_apply, M.get] at h
  cases htb : cr.symbolTable with
  | none => rw [htb] at h; cases h
  | some tb =>
    rw [htb] at h
    simp only [] at h
    obtain ⟨ins, cl, hl, h⟩ := M_bind_ok h
    obtain ⟨_, cld, hld, h⟩ := M_bind_ok h
    obtain ⟨a, ca, ha, h⟩ := M_bind_ok h
    simp only [Compiler.alloc, Prod.mk.injEq, Except.ok.injEq] at ha
    obtain ⟨rfl, rfl⟩ := ha
    obtain ⟨idx, cb, hb, h⟩ := M_bind_ok h
    simp only [addConstant, Prod.mk.injEq, Except.ok.injEq, List.length_append,
      List.length_singleton, Nat.add_sub_cancel] at hb
    obtain ⟨rfl, rfl⟩ := hb
    obtain ⟨p, ccl, hcl, h⟩ := M_bind_ok h
    refine ⟨tb, ins, cl, cld, ccl, p, ?_⟩
    by_cases hg : symbol.Scope = GlobalScope
    · rw [if_pos hg] at h ⊢
      obtain ⟨p2, c2, hs, h⟩ := M_bind_ok h
      cases h
      exact ⟨p2, rfl, hl, hld, hcl, hs⟩
    · rw [if_neg hg] at h ⊢
      obtain ⟨p2, c2, hs, h⟩ := M_bind_ok h
      cases h
      exact ⟨p2, rfl, hl, hld, hcl, hs⟩

/-- The steps of the `FuncExpr` case when it returns no error. -/
theorem funcExpr_ok {ks : Node → String} {name : String} {params : List String} {body : Node}
    {c c1 : Compiler} (h : Compile ks (.FuncExpr name params body) c = (.ok (), c1)) :
    ∃ t cp cb cr, c.symbolTable = some t
      ∧ defineParams params
          ⟨c.constants, some (.mk (storeSet [] name ⟨FunctionScope, 0, name⟩) 0
            (some (t.Define name).2) []), c.scopes ++ [⟨[], ⟨0, 0⟩, ⟨0, 0⟩⟩],
            c.scopeIndex + 1, c.heap⟩ = (.ok (), cp)
      ∧ Compile ks body cp = (.ok (), cb)
      ∧ returnFix cb = (.ok (), cr)
      ∧ closeFunction (t.Define name).1 params.length cr = (.ok (), c1) := by
  rw [Compile] at h
  obtain ⟨sym, c0, h0, h⟩ := M_bind_ok h
  cases ht : c.symbolTable with
  | none => simp only [onSymbolTable, ht] at h0; cases h0
  | some t =>
    simp only [onSymbolTable, ht, Prod.mk.injEq, Except.ok.injEq] at h0
    obtain ⟨rfl, rfl⟩ := h0
    obtain ⟨_, ce, he, h⟩ := M_bind_ok h
    rw [enterScope_apply] at he
    simp only [Prod.mk.injEq, Except.ok.injEq, true_and] at he
    subst he
    obtain ⟨_, cf, hf, h⟩ := M_bind_ok h
    simp only [onSymbolTable, NewEnclosedSymbolTable, defineFunction, Prod.mk.injEq,
      Except.ok.injEq] at hf
    obtain ⟨rfl, rfl⟩ := hf
    simp only [] at h
    obtain ⟨_, cp, hp, h⟩ := M_bind_ok h
    obtain ⟨_, cb, hb, h⟩ := M_bind_ok h
    rw [finishFunction_eq] at h
    obtain ⟨_, cr, hr, hc⟩ := M_bind_ok h
    exact ⟨t, cp, cb, cr, rfl, hp, hb, hr, hc⟩

theorem callClosure_sp {cl : Closure} {args : Int} {v v1 : VM}
    (h : callClosure cl args v = (.ok (), v1)) :
    v1.sp = v.sp - (cl.Fn.NumParameters : Int) + (cl.Fn.NumLocals : Int) := by
  unfold callClosure at h
  split at h
  · cases h
  · rename_i hargs
    have ha : args = (cl.Fn.NumParameters : Int) := by
      by_contra hne
      exact hargs hne
    subst ha
    simp only [M_bind_apply, M.get, pushFrame, M.lift, M.set, NewFrame] at h
    split at h
    · rename_i heq
      split at heq
      · cases heq
        cases h
        rfl
      · cases heq
    · cases h

/-- The constant pool after a function expression compiled without error: the constants
of the body, all satisfying `LocalsOK`, then the compiled function, whose `NumLocals` is
the number of parameters plus the number of names defined directly in the body. -/
theorem function_locals (ks : Node → String) (name : String) (params : List String)
    (body : Node) (c c1 : Compiler) (t : SymbolTable) (ht : c.symbolTable = some t)
    (hwf : t.WF) (h : Compile ks (.FuncExpr name params body) c = (.ok (), c1)) :
    ∃ inner a ins, c1.constants = c.constants ++ inner
        ++ [.CompiledFunction a ⟨ins, params.length + (directNames body).length, params.length⟩]
      ∧ ∀ o ∈ inner, LocalsOK o := by
  obtain ⟨t0, cp, cb, cr, ht0, hp, hb, hr, hc⟩ := funcExpr_ok h
  rw [ht] at ht0
  cases ht0
  have hwfF : (SymbolTable.mk (storeSet [] name ⟨FunctionScope, 0, name⟩) 0
      (some (t.Define name).2) []).WF :=
    Step_WF (.defineFunction (.mk [] 0 (some (t.Define name).2) []) name)
      ((StoreAll_mk _ [] 0 (some (t.Define name).2) []).mpr
        ⟨by simp, fun _ h => by cases h; exact Step_WF (.define t name) hwf⟩)
  obtain ⟨tp, htp, hwfp, -, hokp⟩ := tspec_defineParams params
    ⟨c.constants, some (.mk (storeSet [] name ⟨FunctionScope, 0, name⟩) 0
      (some (t.Define name).2) []), c.scopes ++ [⟨[], ⟨0, 0⟩, ⟨0, 0⟩⟩],
      c.scopeIndex + 1, c.heap⟩ _ rfl hwfF
  rw [hp] at htp hokp
  obtain ⟨hdp, hcp⟩ := hokp () rfl
  obtain ⟨tb, htb, hwfb, -, hokb⟩ := tspec_Compile ks body cp tp htp hwfp
  rw [hb] at htb hokb
  obtain ⟨hdb, hcb⟩ := hokb () rfl
  have hd := Defined_trans hdp hdb
  obtain ⟨stb, cnt, extb, ctxb⟩ := tb
  rw [Defined_mk] at hd
  obtain ⟨⟨hcnt, -⟩, -⟩ := hd
  have hfix := scopeStep_returnFix cb
  rw [hr] at hfix
  obtain ⟨tb1, ins, cl, cld, ccl, p, p2, htb1, hl, hld, hcl, hs⟩ := closeFunction_ok hc
  rw [hfix.2.1, htb] at htb1
  cases htb1
  have h1 := (leaveScope_table cr).1
  rw [hl] at h1
  simp only [SymbolTable.Context, SymbolTable.count] at hld hcl
  have h2 := (scopeStep_loadSymbols ctxb cl).1
  rw [hld] at h2
  have h3 := (scopeStep_emit OpClosure [(cld.constants.length : Int), (ctxb.length : Int)]
    ⟨cld.constants ++ [.CompiledFunction cld.heap ⟨ins, cnt, params.length⟩],
      cld.symbolTable, cld.scopes, cld.scopeIndex, cld.heap + 1⟩).1
  rw [hcl] at h3
  have h4 := (scopeStep_emit (if ((t.Define name).1).Scope = GlobalScope then OpSetGlobal
    else OpSetLocal) [((t.Define name).1).Index] ccl).1
  rw [hs] at h4
  obtain ⟨n1, hn1, ho1⟩ := ConstsGrow_trans hcp hcb
  simp only at h1 h2 h3 h4 hn1
  refine ⟨n1, cld.heap, ins, ?_, ho1⟩
  rw [h4, h3, h2, h1, hfix.1, hn1, hcnt, List.length_append]
  simp only [Nat.zero_add]

/-- **C38.** Locals cover parameters. A function expression compiled without error (from
a state whose table satisfies the representation invariant) appends to the constant pool
the constants of its body and then its compiled function, whose `NumParameters` is the
number of declared parameters and whose `NumLocals` is the number of `Define` calls made
in the function's own scope: one per parameter plus one per var statement and per function
expression compiled directly in the body. Every compiled function added on the way has
`NumParameters ≤ NumLocals`, and a closure call of such a function that returns no error
leaves `sp` at least where it was. -/
theorem C38_locals_cover_parameters (ks : Node → String) (name : String)
    (params : List String) (body : Node) (c c1 : Compiler) (t : SymbolTable)
    (ht : c.symbolTable = some t) (hwf : t.WF)
    (h : Compile ks (.FuncExpr name params body) c = (.ok (), c1)) :
    (∃ inner a ins, c1.constants = c.constants ++ inner
        ++ [.CompiledFunction a ⟨ins, params.length + (directNames body).length, params.length⟩]
      ∧ ∀ o ∈ inner, ∀ a1 fn, o = .CompiledFunction a1 fn → fn.NumParameters ≤ fn.NumLocals)
    ∧ ∀ (cl : Closure) (args : Int) (v v1 : VM), cl.Fn.NumParameters ≤ cl.Fn.NumLocals →
        callClosure cl args v = (.ok (), v1) → v.sp ≤ v1.sp := by
  refine ⟨function_locals ks name params body c c1 t ht hwf h, ?_⟩
  intro cl args v v1 hle hcall
  rw [callClosure_sp hcall]
  omega

theorem builtins_WF : (defineBuiltins builtinNames 0 NewSymbolTable).WF := by
  simp [defineBuiltins, builtinNames, NewSymbolTable, DefineBuiltin, SymbolTable.WF,
    SymbolTable.StoreAll, storeSet, knownScope]

/-- The function `func f(a) { var b = 1 }` compiled by a fresh compiler. -/
theorem compile_locals_example :
    Compile witnessKeyString (.FuncExpr "f" ["a"] (.BlockStmt [.VarStmt "b" (.Integer 1)]))
        (NewCompiler 0)
      = (.ok (), ⟨[.Integer 0 1, .CompiledFunction 1 ⟨[0, 0, 0, 23, 1, 18], 2, 1⟩],
          some (.mk [("f", ⟨GlobalScope, 0, "f"⟩), ("print", ⟨BuiltinScope, 1, "print"⟩),
            ("len", ⟨BuiltinScope, 0, "len"⟩)] 1 none []),
          [⟨[24, 0, 1, 0, 21, 0, 0], ⟨21, 4⟩, ⟨24, 0⟩⟩], 0, 2⟩) := by
  simp only [Compile, CompileList, NewCompiler, defineBuiltins,
    builtinNames, NewSymbolTable, NewEnclosedSymbolTable, SymbolTable.DefineBuiltin,
    SymbolTable.Define, SymbolTable.defineFunction, SymbolTable.GetDefine,
    SymbolTable.defineContext, SymbolTable.Context, SymbolTable.count, SymbolTable.External,
    SymbolTable.store, storeGet, storeSet,
    M_bind_apply, M_pure_apply, M.get, M.set, M.lift, M.fail,
    onSymbolTable, curScope, setCurScope, curInstructions, addConstant, addInstruction,
    setLastInstruction, emit, lastInstructionIs, removeLastPop, replaceInstructionLoop,
    replaceInstruction, replaceLastPopWithReturn, changeOperand, leaveScope, enterScope,
    loadSymbol, loadSymbols, defineParams, finishFunction, stripLastPop, emitInfix, emitPrefixOp,
    Compiler.alloc, Compiler.Bytecode,
    Make_OpConstant, Make_OpPop, Make_OpAdd, Make_OpSub, Make_OpEQL, Make_OpReturnValue,
    Make_OpReturn, Make_OpCurrClosure, Make_OpNil, Make_OpCall, Make_OpGetGlobal,
    Make_OpSetGlobal, Make_OpGetLocal, Make_OpSetLocal, Make_OpContext, Make_OpClosure,
    Make_OpJump, Make_OpJumpConditionNotTrue, specInstruction, specOperandBytes,
    List.zipWith_cons_cons, List.zipWith_nil_right, List.zipWith_nil_left, List.flatten,
    List.append_nil, List.nil_append, List.cons_append, List.singleton_append, List.append_assoc,
    getAt, getIndex, setAt, setIndex,
    GlobalScope, LocalScope, BuiltinScope, ContextScope, FunctionScope,
    List.lookup, List.filter, List.length_cons, List.length_nil, List.length_append,
    List.getElem?_cons_zero, List.getElem?_cons_succ, List.set_cons_zero, List.set_cons_succ,
    List.take_succ_cons, List.take_zero, Option.isSome,
    String.reduceEq, String.reduceNe, String.reduceBEq, String.reduceBNe,
    Int.reduceSub, Int.reduceAdd, Int.reduceLT, Int.reduceLE, Int.reduceToNat, Int.reduceNeg,
    Int.reduceEq, Int.reduceMod, Int.reduceDiv,
    Nat.reduceAdd, Nat.reduceMul, Nat.reduceLT, Nat.reduceLeDiff, Nat.reduceEqDiff, Nat.reduceSub,
    Nat.reduceBEq, Nat.reduceBNe,
    Nat.cast_ofNat, Nat.cast_zero, Nat.cast_one, Int.toNat_zero, sub_zero, add_zero, zero_add,
    if_true, if_false, ite_true, ite_false, decide_True, decide_False, ge_iff_le, ne_eq,
    not_true_eq_false, not_false_eq_true, Bool.not_true, Bool.not_false, Bool.false_eq_true,
    Bool.true_or, Bool.or_true, Bool.or_false, Bool.false_or, beq_self_eq_true, bne_self_eq_false,
    Nat.zero_lt_succ, Nat.lt_add_one, or_true, true_or, Nat.add_assoc, lastInstruction_beq,
    reduceCtorEq]
  rfl

/-- C38 on an example: `func f(a) { var b = 1 }` has one parameter and two locals. -/
theorem C38_locals_cover_parameters_witness :
    (NewCompiler 0).symbolTable = some (defineBuiltins builtinNames 0 NewSymbolTable)
    ∧ (defineBuiltins builtinNames 0 NewSymbolTable).WF
    ∧ Compile witnessKeyString (.FuncExpr "f" ["a"] (.BlockStmt [.VarStmt "b" (.Integer 1)]))
        (NewCompiler 0)
      = (.ok (), ⟨[.Integer 0 1, .CompiledFunction 1 ⟨[0, 0, 0, 23, 1, 18], 2, 1⟩],
          some (.mk [("f", ⟨GlobalScope, 0, "f"⟩), ("print", ⟨BuiltinScope, 1, "print"⟩),
            ("len", ⟨BuiltinScope, 0, "len"⟩)] 1 none []),
          [⟨[24, 0, 1, 0, 21, 0, 0], ⟨21, 4⟩, ⟨24, 0⟩⟩], 0, 2⟩)
    ∧ ∃ inner a ins, [Object.Integer 0 1, .CompiledFunction 1 ⟨[0, 0, 0, 23, 1, 18], 2, 1⟩]
        = [] ++ inner ++ [.CompiledFunction a ⟨ins, 1 + 1, 1⟩]
      ∧ ∀ o ∈ inner, ∀ a1 fn, o = .CompiledFunction a1 fn → fn.NumParameters ≤ fn.NumLocals :=
  ⟨rfl, builtins_WF, compile_locals_example,
    (C38_locals_cover_parameters witnessKeyString "f" ["a"]
      (.BlockStmt [.VarStmt "b" (.Integer 1)]) (NewCompiler 0) _ _ rfl builtins_WF
      compile_locals_example).1⟩

theorem stateAfter_eq_some {α : Type} {m : M Compiler α} {c c1 : Compiler}
    (h : stateAfter m c = some c1) : ∃ a, m c = (.ok a, c1) := by
  unfold stateAfter at h
  rcases hm : m c with ⟨r, c2⟩
  rw [hm] at h
  cases r with
  | error e => cases h
  | ok a => cases h; exact ⟨a, rfl⟩

theorem mem_after {α : Type} {g : Compiler → List (Node × Compiler)} {m : M Compiler α}
    {c : Compiler} {p : Node × Compiler}
    (h : p ∈ (match stateAfter m c with
      | some c1 => g c1
      | none => [])) : ∃ c1, stateAfter m c = some c1 ∧ p ∈ g c1 := by
  cases hs : stateAfter m c with
  | none => rw [hs] at h; cases h
  | some c1 => rw [hs] at h; exact ⟨c1, rfl, h⟩

/-- A step that does not define `f` keeps the binding of `f` to its `Function` symbol. -/
theorem bound_after {f : String} {D : List String} {α : Type} {m : M Compiler α}
    (hm : TSpec D m) (hf : f ∉ D) {c c1 : Compiler} (hb : selfBound f c)
    (h : stateAfter m c = some c1) : selfBound f c1 := by
  obtain ⟨t, ht, hwf, hget⟩ := hb
  obtain ⟨a, ha⟩ := stateAfter_eq_some h
  obtain ⟨t1, ht1, hwf1, -, hok⟩ := hm c t ht hwf
  rw [ha] at ht1 hok
  obtain ⟨hd, -⟩ := hok a rfl
  refine ⟨t1, ht1, hwf1, ?_⟩
  obtain ⟨st, cnt, ext, ctx⟩ := t
  obtain ⟨st1, cnt1, ext1, ctx1⟩ := t1
  rw [Defined_mk] at hd
  obtain ⟨⟨-, hkeep, -⟩, -⟩ := hd
  obtain ⟨s1, hs1, hor⟩ := hkeep f _ hget
  rcases hor with rfl | ⟨hm, -⟩
  · exact hs1
  · exact absurd hm hf

theorem tspec_condition (ks : Node → String) (condition : Node) :
    TSpec (directNames condition) (do
      Compile ks condition
      emit OpJumpConditionNotTrue [fakeAddress]) := by
  refine tspec_perm (tspec_bind (tspec_Compile ks condition)
    (fun _ => tspec_of_frame (frame_emit _ _))) ?_
  rw [List.append_nil]

theorem tspec_consequence (ks : Node → String) (condition consequence : Node) :
    TSpec (directNames condition ++ directNames consequence) (do
      Compile ks condition
      let jumpNotTrue ← emit OpJumpConditionNotTrue [fakeAddress]
      Compile ks consequence
      stripLastPop
      let _ ← emit OpJump [fakeAddress]
      let curPos := (← curInstructions).length
      changeOperand jumpNotTrue curPos) := by
  refine tspec_perm (tspec_bind (tspec_Compile ks condition)
    (fun _ => tspec_bind (tspec_of_frame (frame_emit _ _))
      (fun _ => tspec_bind (tspec_Compile ks consequence)
        (fun _ => tspec_bind (tspec_of_frame frame_stripLastPop)
          (fun _ => tspec_bind (tspec_of_frame (frame_emit _ _))
            (fun _ => tspec_bind (tspec_of_frame frame_curInstructions)
              (fun _ => tspec_of_frame (frame_changeOperand _ _)))))))) ?_
  simp

theorem tspec_entry (ks : Node → String) (k v : Node) :
    TSpec (directNames k ++ directNames v) (do
      Compile ks k
      Compile ks v) :=
  tspec_bind (tspec_Compile ks k) (fun _ => tspec_Compile ks v)

theorem runStarts_bound (f : String)
    (l : List (String × (Compiler → List (Node × Compiler)) × M Compiler Unit))
    (h : ∀ e ∈ l, (∀ c, selfBound f c → ∀ p ∈ e.2.1 c, selfBound f p.2)
      ∧ (∀ c c1, selfBound f c → stateAfter e.2.2 c = some c1 → selfBound f c1)) :
    ∀ c, selfBound f c → ∀ p ∈ runStarts l c, selfBound f p.2 := by
  induction l with
  | nil => intro c _ p hp; cases hp
  | cons e rest ih =>
    intro c hb p hp
    rw [runStarts] at hp
    rcases List.mem_append.mp hp with hp | hp
    · exact (h e (List.mem_cons_self _ _)).1 c hb p hp
    · obtain ⟨c1, h1, hp⟩ := mem_after hp
      exact ih (fun e he => h e (List.mem_cons_of_mem _ he)) c1
        ((h e (List.mem_cons_self _ _)).2 c c1 hb h1) p hp

/-- While a node that does not define `f` directly is compiled from a state whose table
binds `f` to its `Function` symbol, every compilation started in the same scope starts
from a state whose table still binds `f` to that symbol. -/
theorem directStarts_bound (ks : Node → String) (f : String) (n : Node) :
    ∀ c, selfBound f c → f ∉ directNames n → ∀ p ∈ directStarts ks n c, selfBound f p.2 := by
  refine @Node.induction
    (fun n => ∀ c, selfBound f c → f ∉ directNames n →
      ∀ p ∈ directStarts ks n c, selfBound f p.2)
    (fun l => ∀ c, selfBound f c → f ∉ directNamesList l →
      ∀ p ∈ directStartsList ks l c, selfBound f p.2)
    (fun ps => f ∉ directNamesPairs ps → ∀ e ∈ directStartsPairs ks ps,
      (∀ c, selfBound f c → ∀ p ∈ e.2.1 c, selfBound f p.2)
      ∧ (∀ c c1, selfBound f c → stateAfter e.2.2 c = some c1 → selfBound f c1))
    ?_ ?_ ?_ ?_ ?_ ?_ ?_ ?_ ?_ ?_ ?_ ?_ ?_ ?_ ?_ ?_ ?_ ?_ ?_ ?_ ?_ ?_ n
  · -- Program
    intro stmts ih c hb hf p hp
    rw [directStarts] at hp
    rw [directNames] at hf
    rcases List.mem_cons.mp hp with rfl | hp
    · exact hb
    · exact ih c hb hf p hp
  · -- Identifier
    intro value c hb _ p hp
    rw [directStarts] at hp
    obtain rfl := List.mem_singleton.mp hp
    exact hb
  · -- StringLit
    intro value c hb _ p hp
    rw [directStarts] at hp
    obtain rfl := List.mem_singleton.mp hp
    exact hb
  · -- Array
    intro elements ih c hb hf p hp
    rw [directStarts] at hp
    rw [directNames] at hf
    rcases List.mem_cons.mp hp with rfl | hp
    · exact hb
    · exact ih c hb hf p hp
  · -- Map
    intro elements ih c hb hf p hp
    rw [directStarts] at hp
    rw [directNames] at hf
    rcases List.mem_cons.mp hp with rfl | hp
    · exact hb
    · exact runStarts_bound f _
        (fun e he => ih hf e ((List.perm_insertionSort _ _).mem_iff.mp he)) c hb p hp
  · -- Boolean
    intro value c hb _ p hp
    rw [directStarts] at hp
    obtain rfl := List.mem_singleton.mp hp
    exact hb
  · -- VarStmt
    intro name value ih c hb hf p hp
    rw [directStarts] at hp
    rw [directNames] at hf
    rcases List.mem_cons.mp hp with rfl | hp
    · exact hb
    · obtain ⟨c1, h1, hp⟩ := mem_after hp
      exact ih c1 (bound_after (tspec_Define name)
        (fun h => hf (List.mem_cons.mpr (Or.inl (List.mem_singleton.mp h)))) hb h1)
        (fun h => hf (List.mem_cons_of_mem _ h)) p hp
  · -- BlockStmt
    intro stmts ih c hb hf p hp
    rw [directStarts] at hp
    rw [directNames] at hf
    rcases List.mem_cons.mp hp with rfl | hp
    · exact hb
    · exact ih c hb hf p hp
  · -- ExprStmt
    intro expr ih c hb hf p hp
    rw [directStarts] at hp
    rw [directNames] at hf
    rcases List.mem_cons.mp hp with rfl | hp
    · exact hb
    · exact ih c hb hf p hp
  · -- IfExpr without alternative
    intro condition consequence ih1 ih2 c hb hf p hp
    rw [directStarts] at hp
    rw [directNames] at hf
    have hf1 : f ∉ directNames condition := fun h => hf (List.mem_append_left _ h)
    have hf2 : f ∉ directNames consequence := fun h => hf (List.mem_append_right _ h)
    rcases List.mem_cons.mp hp with rfl | hp
    · exact hb
    · rcases List.mem_append.mp hp with hp | hp
      · exact ih1 c hb hf1 p hp
      · obtain ⟨c1, h1, hp⟩ := mem_after hp
        exact ih2 c1 (bound_after (tspec_condition ks condition) hf1 hb h1) hf2 p hp
  · -- IfExpr with alternative
    intro condition consequence alternative ih1 ih2 ih3 c hb hf p hp
    rw [directStarts] at hp
    rw [directNames] at hf
    have hf1 : f ∉ directNames condition := fun h => hf (List.mem_append_left _ h)
    have hf2 : f ∉ directNames consequence :=
      fun h => hf (List.mem_append_right _ (List.mem_append_left _ h))
    have hf3 : f ∉ directNames alternative :=
      fun h => hf (List.mem_append_right _ (List.mem_append_right _ h))
    rcases List.mem_cons.mp hp with rfl | hp
    · exact hb
    · rcases List.mem_append.mp hp with hp | hp
      · exact ih1 c hb hf1 p hp
      · rcases List.mem_append.mp hp with hp | hp
        · obtain ⟨c1, h1, hp⟩ := mem_after hp
          exact ih2 c1 (bound_after (tspec_condition ks condition) hf1 hb h1) hf2 p hp
        · obtain ⟨c1, h1, hp⟩ := mem_after hp
          exact ih3 c1 (bound_after (tspec_consequence ks condition consequence)
            (fun h => (List.mem_append.mp h).elim hf1 hf2) hb h1) hf3 p hp
  · -- ReturnStmt
    intro value ih c hb hf p hp
    rw [directStarts] at hp
    rw [directNames] at hf
    rcases List.mem_cons.mp hp with rfl | hp
    · exact hb
    · exact ih c hb hf p hp
  · -- FuncExpr
    intro name params body _ c hb _ p hp
    rw [directStarts] at hp
    obtain rfl := List.mem_singleton.mp hp
    exact hb
  · -- CallExpr
    intro func args ih1 ih2 c hb hf p hp
    rw [directStarts] at hp
    rw [directNames] at hf
    have hf1 : f ∉ directNames func := fun h => hf (List.mem_append_left _ h)
    have hf2 : f ∉ directNamesList args := fun h => hf (List.mem_append_right _ h)
    rcases List.mem_cons.mp hp with rfl | hp
    · exact hb
    · rcases List.mem_append.mp hp with hp | hp
      · exact ih1 c hb hf1 p hp
      · obtain ⟨c1, h1, hp⟩ := mem_after hp
        exact ih2 c1 (bound_after (tspec_Compile ks func) hf1 hb h1) hf2 p hp
  · -- Integer
    intro value c hb _ p hp
    rw [directStarts] at hp
    obtain rfl := List.mem_singleton.mp hp
    exact hb
  · -- InfixExpr
    intro operator left right ih1 ih2 c hb hf p hp
    rw [directStarts] at hp
    rw [directNames] at hf
    have hf1 : f ∉ directNames left := fun h => hf (List.mem_append_left _ h)
    have hf2 : f ∉ directNames right := fun h => hf (List.mem_append_right _ h)
    rcases List.mem_cons.mp hp with rfl | hp
    · exact hb
    · split at hp
      · rcases List.mem_append.mp hp with hp | hp
        · exact ih2 c hb hf2 p hp
        · obtain ⟨c1, h1, hp⟩ := mem_after hp
          exact ih1 c1 (bound_after (tspec_Compile ks right) hf2 hb h1) hf1 p hp
      · rcases List.mem_append.mp hp with hp | hp
        · exact ih1 c hb hf1 p hp
        · obtain ⟨c1, h1, hp⟩ := mem_after hp
          exact ih2 c1 (bound_after (tspec_Compile ks left) hf1 hb h1) hf2 p hp
  · -- PrefixExpr
    intro operator right ih c hb hf p hp
    rw [directStarts] at hp
    rw [directNames] at hf
    rcases List.mem_cons.mp hp with rfl | hp
    · exact hb
    · exact ih c hb hf p hp
  · -- IndexExpr
    intro left index ih1 ih2 c hb hf p hp
    rw [directStarts] at hp
    rw [directNames] at hf
    have hf1 : f ∉ directNames left := fun h => hf (List.mem_append_left _ h)
    have hf2 : f ∉ directNames index := fun h => hf (List.mem_append_right _ h)
    rcases List.mem_cons.mp hp with rfl | hp
    · exact hb
    · rcases List.mem_append.mp hp with hp | hp
      · exact ih1 c hb hf1 p hp
      · obtain ⟨c1, h1, hp⟩ := mem_after hp
        exact ih2 c1 (bound_after (tspec_Compile ks left) hf1 hb h1) hf2 p hp
  · -- the empty list
    intro c _ _ p hp
    rw [directStartsList] at hp
    cases hp
  · -- a list
    intro n rest ih1 ih2 c hb hf p hp
    rw [directStartsList] at hp
    rw [directNamesList] at hf
    have hf1 : f ∉ directNames n := fun h => hf (List.mem_append_left _ h)
    have hf2 : f ∉ directNamesList rest := fun h => hf (List.mem_append_right _ h)
    rcases List.mem_append.mp hp with hp | hp
    · exact ih1 c hb hf1 p hp
    · obtain ⟨c1, h1, hp⟩ := mem_after hp
      exact ih2 c1 (bound_after (tspec_Compile ks n) hf1 hb h1) hf2 p hp
  · -- no entries
    intro _ e he
    rw [directStartsPairs] at he
    cases he
  · -- entries
    intro k v rest ih1 ih2 ih3 hf e he
    rw [directStartsPairs] at he
    rw [directNamesPairs] at hf
    have hf1 : f ∉ directNames k := fun h => hf (List.mem_append_left _ h)
    have hf2 : f ∉ directNames v :=
      fun h => hf (List.mem_append_right _ (List.mem_append_left _ h))
    have hf3 : f ∉ directNamesPairs rest :=
      fun h => hf (List.mem_append_right _ (List.mem_append_right _ h))
    rcases List.mem_cons.mp he with rfl | he
    · refine ⟨fun c hb p hp => ?_, fun c c1 hb h1 => ?_⟩
      · rcases List.mem_append.mp hp with hp | hp
        · exact ih1 c hb hf1 p hp
        · obtain ⟨c1, h1, hp⟩ := mem_after hp
          exact ih2 c1 (bound_after (tspec_Compile ks k) hf1 hb h1) hf2 p hp
      · exact bound_after (tspec_entry ks k v)
          (fun h => (List.mem_append.mp h).elim hf1 hf2) hb h1
    · exact ih3 hf3 e he

theorem loadSymbol_function (f : String) :
    loadSymbol ⟨FunctionScope, 0, f⟩ = (do
      let _ ← emit OpCurrClosure []
      pure ()) := by
  simp [loadSymbol, FunctionScope, GlobalScope, LocalScope, BuiltinScope, ContextScope]

/-- In a state whose table binds `f` to its `Function` symbol, a reference to `f` compiles
to the emission of `OpCurrClosure` and nothing else. -/
theorem compile_self_reference (ks : Node → String) (f : String) (c : Compiler)
    (hb : selfBound f c) :
    Compile ks (.Identifier f) c = (do
      let _ ← emit OpCurrClosure []
      pure ()) c := by
  obtain ⟨t, ht, -, hget⟩ := hb
  obtain ⟨cs, tbl, scs, i, h⟩ := c
  simp only at ht
  subst ht
  obtain ⟨st, cnt, ext, ctx⟩ := t
  simp only [SymbolTable.store] at hget
  rw [Compile, M_bind_apply]
  simp only [onSymbolTable, GetDefine_hit hget, Bool.not_true, Bool.false_eq_true, if_false]
  rw [loadSymbol_function]

theorem funcExpr_body (ks : Node → String) (f : String) (params : List String) (body : Node)
    (c cp : Compiler) (t : SymbolTable) (ht : c.symbolTable = some t)
    (hdp : defineParams params
      ⟨c.constants, some (.mk (storeSet [] f ⟨FunctionScope, 0, f⟩) 0
        (some (t.Define f).2) []), c.scopes ++ [⟨[], ⟨0, 0⟩, ⟨0, 0⟩⟩],
        c.scopeIndex + 1, c.heap⟩ = (.ok (), cp)) :
    Compile ks (.FuncExpr f params body) c = (do
      Compile ks body
      finishFunction (t.Define f).1 params.length) cp := by
  rw [Compile]
  simp only [M_bind_apply, onSymbolTable, ht, enterScope_apply, NewEnclosedSymbolTable,
    defineFunction, hdp]

/-- **C11.** Self-reference. Let `func f(params){body}` be compiled from a state whose
table satisfies the representation invariant, with `f` neither a parameter nor a name
defined directly in the body (by a var statement or a function expression outside nested
functions). The body is compiled from the state `cp` that the definitions of the
parameters leave, and every reference `Identifier f` whose compilation is started in the
scope of the body (not inside a nested function) compiles to the emission of the single
instruction `OpCurrClosure`: on a state whose current scope is `sc` it appends the one byte
`OpCurrClosure` to `sc` and changes neither the symbol table nor the constants. When the
function expression compiles without error with final state `c1`, the compilation is this
chain: the parameters are defined (state `cp`), the body is compiled (state `cb`, table
`tb`), the return is fixed (state `cr`, same table), the scope is left, the symbols of
`tb.Context` are loaded, `OpClosure` is emitted with the length of `tb.Context` as its
second operand, and the store that ends in `c1` is emitted; no symbol of `tb.Context` is
named `f`. -/
theorem C11_self_reference (ks : Node → String) (f : String) (params : List String)
    (body : Node) (c : Compiler) (t : SymbolTable) (ht : c.symbolTable = some t)
    (hwf : t.WF) (hparams : f ∉ params) (hbody : f ∉ directNames body) :
    (∀ cp, defineParams params
        ⟨c.constants, some (.mk (storeSet [] f ⟨FunctionScope, 0, f⟩) 0
          (some (t.Define f).2) []), c.scopes ++ [⟨[], ⟨0, 0⟩, ⟨0, 0⟩⟩],
          c.scopeIndex + 1, c.heap⟩ = (.ok (), cp) →
      Compile ks (.FuncExpr f params body) c = (do
          Compile ks body
          finishFunction (t.Define f).1 params.length) cp
      ∧ ∀ c1, (Node.Identifier f, c1) ∈ directStarts ks body cp →
        Compile ks (.Identifier f) c1 = (do
            let _ ← emit OpCurrClosure []
            pure ()) c1
        ∧ ∀ cs tbl pre sc post hp, c1 = ⟨cs, tbl, pre ++ sc :: post, pre.length, hp⟩ →
          Compile ks (.Identifier f) c1
            = (.ok (), ⟨cs, tbl, pre ++ ⟨sc.instructions ++ [OpCurrClosure],
                ⟨OpCurrClosure, sc.instructions.length⟩, sc.lastInstruction⟩ :: post,
                pre.length, hp⟩))
    ∧ ∀ c1, Compile ks (.FuncExpr f params body) c = (.ok (), c1) →
        ∃ cp cb cr tb ins cl cld ccl p p2,
          defineParams params
            ⟨c.constants, some (.mk (storeSet [] f ⟨FunctionScope, 0, f⟩) 0
              (some (t.Define f).2) []), c.scopes ++ [⟨[], ⟨0, 0⟩, ⟨0, 0⟩⟩],
              c.scopeIndex + 1, c.heap⟩ = (.ok (), cp)
          ∧ Compile ks body cp = (.ok (), cb)
          ∧ cb.symbolTable = some tb
          ∧ (∀ s ∈ tb.Context, s.Name ≠ f)
          ∧ returnFix cb = (.ok (), cr)
          ∧ cr.symbolTable = some tb
          ∧ leaveScope cr = (.ok ins, cl)
          ∧ loadSymbols tb.Context cl = (.ok (), cld)
          ∧ emit OpClosure [(cld.constants.length : Int), (tb.Context.length : Int)]
              ⟨cld.constants ++ [.CompiledFunction cld.heap ⟨ins, tb.count, params.length⟩],
                cld.symbolTable, cld.scopes, cld.scopeIndex, cld.heap + 1⟩ = (.ok p, ccl)
          ∧ emit (if (t.Define f).1.Scope = GlobalScope then OpSetGlobal else OpSetLocal)
              [(t.Define f).1.Index] ccl = (.ok p2, c1) := by
  have hwfF : (SymbolTable.mk (storeSet [] f ⟨FunctionScope, 0, f⟩) 0
      (some (t.Define f).2) []).WF :=
    Step_WF (.defineFunction (.mk [] 0 (some (t.Define f).2) []) f)
      ((StoreAll_mk _ [] 0 (some (t.Define f).2) []).mpr
        ⟨by simp, fun _ h => by cases h; exact Step_WF (.define t f) hwf⟩)
  have hbF : selfBound f
      ⟨c.constants, some (.mk (storeSet [] f ⟨FunctionScope, 0, f⟩) 0
        (some (t.Define f).2) []), c.scopes ++ [⟨[], ⟨0, 0⟩, ⟨0, 0⟩⟩],
        c.scopeIndex + 1, c.heap⟩ :=
    ⟨_, rfl, hwfF, storeGet_storeSet_self _ _ _⟩
  refine ⟨fun cp hdp => ⟨funcExpr_body ks f params body c cp t ht hdp, fun c1 hmem => ?_⟩,
    fun c1 h => ?_⟩
  · have hbp : selfBound f cp :=
      bound_after (tspec_defineParams params) hparams hbF (by
        unfold stateAfter
        rw [hdp])
    have hb1 := directStarts_bound ks f body cp hbp hbody _ hmem
    have heq := compile_self_reference ks f c1 hb1
    refine ⟨heq, ?_⟩
    rintro cs tbl pre sc post hp rfl
    rw [heq, M_bind_apply, emit_eq _ _ _ _ _ _ _ _ _ Make_OpCurrClosure]
    rfl
  · obtain ⟨t0, cp, cb, cr, ht0, hp, hb, hr, hc⟩ := funcExpr_ok h
    rw [ht] at ht0
    cases ht0
    obtain ⟨tp, htp, hwfp, -, hokp⟩ := tspec_defineParams params
      ⟨c.constants, some (.mk (storeSet [] f ⟨FunctionScope, 0, f⟩) 0
        (some (t.Define f).2) []), c.scopes ++ [⟨[], ⟨0, 0⟩, ⟨0, 0⟩⟩],
        c.scopeIndex + 1, c.heap⟩ _ rfl hwfF
    rw [hp] at htp hokp
    obtain ⟨hdp, -⟩ := hokp () rfl
    obtain ⟨tb, htb, hwfb, -, hokb⟩ := tspec_Compile ks body cp tp htp hwfp
    rw [hb] at htb hokb
    obtain ⟨hdb, -⟩ := hokb () rfl
    have hd := Defined_trans hdp hdb
    have hfix := scopeStep_returnFix cb
    rw [hr] at hfix
    obtain ⟨tb1, ins, cl, cld, ccl, p, p2, htb1, hl, hld, hcl, hset⟩ := closeFunction_ok hc
    have htbeq : some tb1 = some tb := by rw [← htb1, hfix.2.1, ← htb]
    cases htbeq
    refine ⟨cp, cb, cr, tb, ins, cl, cld, ccl, p, p2, hp, hb, htb, ?_, hr, htb1, hl, hld, hcl,
      hset⟩
    obtain ⟨stb, cnt, extb, ctxb⟩ := tb
    rw [Defined_mk] at hd
    obtain ⟨⟨-, -, -, extra, hx, hxn⟩, -⟩ := hd
    intro s hs heq
    rw [SymbolTable.Context, hx, List.nil_append] at hs
    have := hxn s hs
    rw [heq, storeGet_storeSet_self] at this
    cases this

/-- The function `func f() { f }` compiled by a fresh compiler. -/
theorem compile_self_example :
    Compile witnessKeyString (.FuncExpr "f" [] (.Identifier "f")) (NewCompiler 0)
      = (.ok (), ⟨[.CompiledFunction 0 ⟨[OpCurrClosure, OpReturn], 0, 0⟩],
          some (.mk [("f", ⟨GlobalScope, 0, "f"⟩), ("print", ⟨BuiltinScope, 1, "print"⟩),
            ("len", ⟨BuiltinScope, 0, "len"⟩)] 1 none []),
          [⟨[OpClosure, 0, 0, 0, OpSetGlobal, 0, 0], ⟨OpSetGlobal, 4⟩, ⟨OpClosure, 0⟩⟩],
          0, 1⟩) := by
  simp only [Compile, CompileList, NewCompiler, defineBuiltins,
    builtinNames, NewSymbolTable, NewEnclosedSymbolTable, SymbolTable.DefineBuiltin,
    SymbolTable.Define, SymbolTable.defineFunction, SymbolTable.GetDefine,
    SymbolTable.defineContext, SymbolTable.Context, SymbolTable.count, SymbolTable.External,
    SymbolTable.store, storeGet, storeSet,
    M_bind_apply, M_pure_apply, M.get, M.set, M.lift, M.fail,
    onSymbolTable, curScope, setCurScope, curInstructions, addConstant, addInstruction,
    setLastInstruction, emit, lastInstructionIs, removeLastPop, replaceInstructionLoop,
    replaceInstruction, replaceLastPopWithReturn, changeOperand, leaveScope, enterScope,
    loadSymbol, loadSymbols, defineParams, finishFunction, stripLastPop, emitInfix, emitPrefixOp,
    Compiler.alloc, Compiler.Bytecode,
    Make_OpConstant, Make_OpPop, Make_OpAdd, Make_OpSub, Make_OpEQL, Make_OpReturnValue,
    Make_OpReturn, Make_OpCurrClosure, Make_OpNil, Make_OpCall, Make_OpGetGlobal,
    Make_OpSetGlobal, Make_OpGetLocal, Make_OpSetLocal, Make_OpContext, Make_OpClosure,
    Make_OpJump, Make_OpJumpConditionNotTrue, specInstruction, specOperandBytes,
    List.zipWith_cons_cons, List.zipWith_nil_right, List.zipWith_nil_left, List.flatten,
    List.append_nil, List.nil_append, List.cons_append, List.singleton_append, List.append_assoc,
    getAt, getIndex, setAt, setIndex,
    GlobalScope, LocalScope, BuiltinScope, ContextScope, FunctionScope,
    List.lookup, List.filter, List.length_cons, List.length_nil, List.length_append,
    List.getElem?_cons_zero, List.getElem?_cons_succ, List.set_cons_zero, List.set_cons_succ,
    List.take_succ_cons, List.take_zero, Option.isSome,
    String.reduceEq, String.reduceNe, String.reduceBEq, String.reduceBNe,
    Int.reduceSub, Int.reduceAdd, Int.reduceLT, Int.reduceLE, Int.reduceToNat, Int.reduceNeg,
    Int.reduceEq, Int.reduceMod, Int.reduceDiv,
    Nat.reduceAdd, Nat.reduceMul, Nat.reduceLT, Nat.reduceLeDiff, Nat.reduceEqDiff, Nat.reduceSub,
    Nat.reduceBEq, Nat.reduceBNe,
    Nat.cast_ofNat, Nat.cast_zero, Nat.cast_one, Int.toNat_zero, sub_zero, add_zero, zero_add,
    if_true, if_false, ite_true, ite_false, decide_True, decide_False, ge_iff_le, ne_eq,
    not_true_eq_false, not_false_eq_true, Bool.not_true, Bool.not_false, Bool.false_eq_true,
    Bool.true_or, Bool.or_true, Bool.or_false, Bool.false_or, beq_self_eq_true, bne_self_eq_false,
    Nat.zero_lt_succ, Nat.lt_add_one, or_true, true_or, Nat.add_assoc, lastInstruction_beq,
    reduceCtorEq]

/-- C11 on an example: in `func f() { f }` compiled by a fresh compiler, the reference to
`f` that makes the body appends the one byte `OpCurrClosure` to the scope of the body; the
function compiles to `OpCurrClosure; OpReturn`, the `Context` list of its table holds no
symbol named `f`, and the `OpClosure` emitted for it has the second operand 0. -/
theorem C11_self_reference_witness :
    (NewCompiler 0).symbolTable = some (defineBuiltins builtinNames 0 NewSymbolTable)
    ∧ (defineBuiltins builtinNames 0 NewSymbolTable).WF
    ∧ "f" ∉ ([] : List String) ∧ "f" ∉ directNames (.Identifier "f")
    ∧ Compile witnessKeyString (.Identifier "f")
        ⟨[], some (.mk (storeSet [] "f" ⟨FunctionScope, 0, "f"⟩) 0
          (some ((defineBuiltins builtinNames 0 NewSymbolTable).Define "f").2) []),
          [⟨[], ⟨0, 0⟩, ⟨0, 0⟩⟩, ⟨[], ⟨0, 0⟩, ⟨0, 0⟩⟩], 1, 0⟩
      = (.ok (), ⟨[], some (.mk (storeSet [] "f" ⟨FunctionScope, 0, "f"⟩) 0
          (some ((defineBuiltins builtinNames 0 NewSymbolTable).Define "f").2) []),
          [⟨[], ⟨0, 0⟩, ⟨0, 0⟩⟩, ⟨[OpCurrClosure], ⟨OpCurrClosure, 0⟩, ⟨0, 0⟩⟩], 1, 0⟩)
    ∧ Compile witnessKeyString (.FuncExpr "f" [] (.Identifier "f")) (NewCompiler 0)
      = (.ok (), ⟨[.CompiledFunction 0 ⟨[OpCurrClosure, OpReturn], 0, 0⟩],
          some (.mk [("f", ⟨GlobalScope, 0, "f"⟩), ("print", ⟨BuiltinScope, 1, "print"⟩),
            ("len", ⟨BuiltinScope, 0, "len"⟩)] 1 none []),
          [⟨[OpClosure, 0, 0, 0, OpSetGlobal, 0, 0], ⟨OpSetGlobal, 4⟩, ⟨OpClosure, 0⟩⟩],
          0, 1⟩)
    ∧ ∃ cb tb, Compile witnessKeyString (.Identifier "f")
          ⟨[], some (.mk (storeSet [] "f" ⟨FunctionScope, 0, "f"⟩) 0
            (some ((defineBuiltins builtinNames 0 NewSymbolTable).Define "f").2) []),
            [⟨[], ⟨0, 0⟩, ⟨0, 0⟩⟩, ⟨[], ⟨0, 0⟩, ⟨0, 0⟩⟩], 1, 0⟩ = (.ok (), cb)
        ∧ cb.symbolTable = some tb ∧ ∀ s ∈ tb.Context, s.Name ≠ "f" := by
  have hn : "f" ∉ directNames (.Identifier "f") := by
    rw [directNames]
    exact List.not_mem_nil _
  have h := C11_self_reference witnessKeyString "f" [] (.Identifier "f") (NewCompiler 0) _
    rfl builtins_WF (List.not_mem_nil _) hn
  obtain ⟨cp, cb, cr, tb, ins, cl, cld, ccl, p, p2, hdp, hb, htb, hctx, -⟩ :=
    h.2 _ compile_self_example
  cases hdp
  exact ⟨rfl, builtins_WF, List.not_mem_nil _, hn,
    ((h.1 _ rfl).2 _ (by
        rw [directStarts]
        exact List.mem_singleton.mpr rfl)).2 [] _ [⟨[], ⟨0, 0⟩, ⟨0, 0⟩⟩] ⟨[], ⟨0, 0⟩, ⟨0, 0⟩⟩
        [] 0 rfl, compile_self_example, cb, tb, hb, htb, hctx⟩

theorem isInstr_of_make {op : Opcode} {xs : List Int} {k : List Nat} {d : Definition}
    (hd : definitions op = some d) (hlen : xs.length = d.OperandWidths.length)
    (hm : Make op xs = .ok k) : isInstr k :=
  ⟨(op, xs), ⟨d, hd, hlen⟩, hm⟩

theorem isInstr_spec {k : List Nat} (h : isInstr k) :
    ∃ op d xs, definitions op = some d ∧ xs.length = d.OperandWidths.length
      ∧ k = specInstruction op d.OperandWidths xs := by
  obtain ⟨⟨op, xs⟩, ⟨d, hd, hlen⟩, hm⟩ := h
  rw [make_eq_spec op d xs hd hlen] at hm
  exact ⟨op, d, xs, hd, hlen, (Except.ok.inj hm).symm⟩

theorem isInstr_length_pos {k : List Nat} (h : isInstr k) : 1 ≤ k.length := by
  obtain ⟨op, d, xs, -, -, rfl⟩ := isInstr_spec h
  simp [specInstruction]

/-- An instruction whose opcode declares no operand is its opcode byte. -/
theorem isInstr_no_operand {k : List Nat} (h : isInstr k) {op : Opcode} {d : Definition}
    (hk : k.head? = some op) (hd : definitions op = some d) (hw : d.OperandWidths = []) :
    k = [op] := by
  obtain ⟨op1, d1, xs, hd1, -, rfl⟩ := isInstr_spec h
  simp only [specInstruction, List.head?_cons, Option.some.injEq] at hk
  subst hk
  rw [hd] at hd1
  cases hd1
  simp [specInstruction, hw]

/-- A jump instruction has three bytes. -/
theorem isInstr_jump {k : List Nat} (h : isInstr k) {op : Opcode}
    (hk : k.head? = some op) (hop : op = OpJump ∨ op = OpJumpConditionNotTrue) :
    ∃ x y, k = [op, x, y] := by
  obtain ⟨op1, d1, xs, hd1, hlen, rfl⟩ := isInstr_spec h
  simp only [specInstruction, List.head?_cons, Option.some.injEq] at hk
  subst hk
  rcases hop with rfl | rfl
  · simp only [definitions, OpJump, Option.some.injEq] at hd1
    subst hd1
    rcases xs with _ | ⟨x, _ | ⟨y, xs⟩⟩
    · simp at hlen
    · exact ⟨(x / 256 % 256).toNat, (x % 256).toNat, by simp [specInstruction, specOperandBytes]⟩
    · simp at hlen
  · simp only [definitions, OpJumpConditionNotTrue, Option.some.injEq] at hd1
    subst hd1
    rcases xs with _ | ⟨x, _ | ⟨y, xs⟩⟩
    · simp at hlen
    · exact ⟨(x / 256 % 256).toNat, (x % 256).toNat, by simp [specInstruction, specOperandBytes]⟩
    · simp at hlen

theorem shapesLength_nil : shapesLength [] = 0 := rfl

theorem shapesLength_append (a b : List (Option Nat × Nat)) :
    shapesLength (a ++ b) = shapesLength a + shapesLength b := by
  simp [shapesLength]

theorem shapesLength_singleton (h : Option Nat × Nat) : shapesLength [h] = h.2 := by
  simp [shapesLength]

theorem shapesLength_map (chunks : List (List Nat)) :
    shapesLength (chunks.map chunkShape) = chunks.flatten.length := by
  induction chunks with
  | nil => rfl
  | cons k rest ih =>
    simp only [List.map_cons, List.flatten_cons, List.length_append, ← ih]
    simp [shapesLength, chunkShape]

theorem map_eq_concat {α β : Type} {f : α → β} {l : List α} {L : List β} {y : β}
    (h : l.map f = L ++ [y]) : ∃ l0 x, l = l0 ++ [x] ∧ l0.map f = L ∧ f x = y := by
  rcases List.eq_nil_or_concat l with rfl | ⟨l0, x, rfl⟩
  · simp at h
  · rw [List.concat_eq_append, List.map_append, List.map_singleton] at h
    obtain ⟨h1, h2⟩ := List.append_inj' h rfl
    exact ⟨l0, x, List.concat_eq_append _ _, h1, by simpa using h2⟩

theorem head_of_record {r : EmittedInstruction} {h : Option Nat × Nat} {k : List Nat}
    (hl : h.1 = some r.OpCode) (hk : chunkShape k = h) : k.head? = some r.OpCode := by
  rw [← hk] at hl
  exact hl

theorem take_flatten_concat (ks : List (List Nat)) (k : List Nat) :
    ((ks ++ [k]).flatten).take ks.flatten.length = ks.flatten := by
  rw [List.flatten_append]
  exact List.take_left' rfl

theorem recordsOK_bound {last pre : EmittedInstruction} {hs : List (Option Nat × Nat)} {b : Nat}
    (h : recordsOK last pre hs b) : b ≤ shapesLength hs + 1 := by
  rcases h with ⟨-, -, -, rfl⟩ | ⟨hs0, h, rfl, -, -, rfl⟩ | ⟨hs0, h0, h, rfl, -, hl, rfl⟩
  · exact Nat.le_refl _
  · omega
  · split
    · rw [hl.1]
      simp only [shapesLength_append, shapesLength]
      simp
      omega
    · omega

theorem recordsOK_emit {last pre : EmittedInstruction} {hs : List (Option Nat × Nat)} {b : Nat}
    (h : recordsOK last pre hs b) (op : Opcode) (n : Nat) (hn : 1 ≤ n) :
    ∃ b1, recordsOK ⟨op, shapesLength hs⟩ last (hs ++ [(some op, n)]) b1 ∧ b ≤ b1
      ∧ (op ≠ OpPop → shapesLength (hs ++ [(some op, n)]) ≤ b1) := by
  rcases h with ⟨he, hp, ho, rfl⟩ | ⟨hs0, h, rfl, hl, -, rfl⟩ | ⟨hs0, h0, h, rfl, -, hl, rfl⟩
  · refine ⟨shapesLength (hs ++ [(some op, n)]), Or.inr (Or.inl ⟨hs, _, rfl, ⟨rfl, rfl⟩,
      Or.inr ⟨hp, ho⟩, rfl⟩), ?_, fun _ => Nat.le_refl _⟩
    rw [shapesLength_append, shapesLength_singleton]
    simp only
    omega
  · refine ⟨if op = OpPop then shapesLength (hs0 ++ [h])
        else shapesLength (hs0 ++ [h] ++ [(some op, n)]),
      Or.inr (Or.inr ⟨hs0, h, (some op, n), by simp, hl, ⟨?_, rfl⟩, rfl⟩), ?_, fun hne => ?_⟩
    · simp only [shapesLength_append, shapesLength_singleton]
    · split
      · exact Nat.le_refl _
      · rw [shapesLength_append (hs0 ++ [h])]
        omega
    · rw [if_neg hne]
  · refine ⟨if op = OpPop then shapesLength (hs0 ++ [h0, h])
        else shapesLength (hs0 ++ [h0, h] ++ [(some op, n)]),
      Or.inr (Or.inr ⟨hs0 ++ [h0], h, (some op, n), by simp, ⟨?_, hl.2⟩, ⟨?_, rfl⟩, rfl⟩), ?_, fun hne => ?_⟩
    · rw [hl.1, shapesLength_append, shapesLength_singleton]
    · simp only [shapesLength_append, shapesLength]
      simp
      omega
    · have hle : last.Pos ≤ shapesLength (hs0 ++ [h0, h]) := by
        rw [hl.1]
        simp only [shapesLength_append, shapesLength]
        simp
      have hle2 : shapesLength (hs0 ++ [h0, h])
          ≤ shapesLength (hs0 ++ [h0, h] ++ [(some op, n)]) := by
        rw [shapesLength_append (hs0 ++ [h0, h])]
        omega
      split <;> split <;> omega
    · rw [if_neg hne]

theorem rep_bound {sc : CompilationScope} {chunks : List (List Nat)} {b : Nat}
    (h : ScopeRep sc chunks b) : b ≤ sc.instructions.length + 1 := by
  have := recordsOK_bound h.2.2
  rw [shapesLength_map, ← h.1] at this
  exact this

/-- Appending an instruction: the records move on as `emit` sets them. -/
theorem rep_emit {sc : CompilationScope} {chunks : List (List Nat)} {b : Nat}
    (h : ScopeRep sc chunks b) {op : Opcode} {k : List Nat} (hk : isInstr k)
    (hop : k.head? = some op) :
    ∃ b1, ScopeRep ⟨sc.instructions ++ k, ⟨op, sc.instructions.length⟩, sc.lastInstruction⟩
        (chunks ++ [k]) b1 ∧ b ≤ b1 ∧ (op ≠ OpPop → (sc.instructions ++ k).length ≤ b1) := by
  obtain ⟨hi, ha, hr⟩ := h
  obtain ⟨b1, h1, h2, h3⟩ := recordsOK_emit hr op k.length (isInstr_length_pos hk)
  have hlen : shapesLength (chunks.map chunkShape) = sc.instructions.length := by
    rw [shapesLength_map, hi]
  rw [hlen] at h1
  have hmap : (chunks ++ [k]).map chunkShape = chunks.map chunkShape ++ [(some op, k.length)] := by
    rw [List.map_append, List.map_singleton, chunkShape, hop]
  refine ⟨b1, ⟨by simp [hi], ?_, by rw [hmap]; exact h1⟩, h2, fun hne => ?_⟩
  · intro x hx
    rcases List.mem_append.mp hx with hx | hx
    · exact ha x hx
    · rw [List.mem_singleton.mp hx]; exact hk
  · have := h3 hne
    rw [shapesLength_append, hlen, shapesLength_singleton] at this
    rw [List.length_append]
    exact this

/-- Replacing an instruction by one of the same opcode and length leaves the records
right. -/
theorem rep_patch {sc : CompilationScope} {A B : List (List Nat)} {k k1 : List Nat} {b : Nat}
    (h : ScopeRep sc (A ++ k :: B) b) (hk : isInstr k1) (hh : k1.head? = k.head?)
    (hl : k1.length = k.length) :
    ScopeRep ⟨(A ++ k1 :: B).flatten, sc.lastInstruction, sc.preInstruction⟩
      (A ++ k1 :: B) b := by
  obtain ⟨-, ha, hr⟩ := h
  refine ⟨rfl, ?_, ?_⟩
  · intro x hx
    rcases List.mem_append.mp hx with hx | hx
    · exact ha x (List.mem_append_left _ hx)
    · rcases List.mem_cons.mp hx with rfl | hx
      · exact hk
      · exact ha x (List.mem_append_right _ (List.mem_cons_of_mem _ hx))
  · have : (A ++ k1 :: B).map chunkShape = (A ++ k :: B).map chunkShape := by
      simp [chunkShape, hh, hl]
    rw [this]
    exact hr

theorem rep_len_le {sc : CompilationScope} {chunks : List (List Nat)} {b : Nat}
    (h : ScopeRep sc chunks b)
    (hno : sc.instructions.length = 0 ∨ sc.lastInstruction.OpCode ≠ OpPop) :
    sc.instructions.length ≤ b := by
  obtain ⟨hi, -, hr⟩ := h
  have hlen : shapesLength (chunks.map chunkShape) = sc.instructions.length := by
    rw [shapesLength_map, hi]
  rcases hno with h0 | hne
  · omega
  · rcases hr with ⟨-, -, -, hb⟩ | ⟨hs0, h, -, -, -, hb⟩ | ⟨hs0, h0, h, -, -, -, hb⟩
    · omega
    · omega
    · rw [if_neg hne] at hb
      omega

/-- The state of a scope after `removeLastPop`, run when the record of the last
instruction says `OpPop` and the stream is not empty: the stream lost a final `OpPop`, or
(stale records) nothing. -/
theorem rep_remove {sc : CompilationScope} {chunks : List (List Nat)} {b : Nat}
    (h : ScopeRep sc chunks b) (hop : sc.lastInstruction.OpCode = OpPop) :
    sc.lastInstruction.Pos ≤ sc.instructions.length
    ∧ ∃ chunks1 b1, ScopeRep ⟨sc.instructions.take sc.lastInstruction.Pos, sc.preInstruction,
          sc.preInstruction⟩ chunks1 b1
        ∧ b ≤ b1 ∧ chunks1.flatten.length ≤ b1
        ∧ (chunks1 = chunks ∨ chunks = chunks1 ++ [[OpPop]]) := by
  obtain ⟨hi, ha, hr⟩ := h
  have hsl : shapesLength (chunks.map chunkShape) = sc.instructions.length := by
    rw [shapesLength_map, hi]
  rcases hr with ⟨he, hp, ho, hb⟩ | ⟨hs0, h, hm, hl, hpre, hb⟩ | ⟨hs0, h0, h, hm, hp0, hl, hb⟩
  · rw [hsl] at hp hb
    refine ⟨by omega, chunks, b, ⟨?_, ha, ?_⟩, Nat.le_refl _, ?_, Or.inl rfl⟩
    · simp only [hp, List.take_length]
      exact hi
    · refine Or.inl ⟨rfl, ?_, Or.inl (by rw [← he]; exact hop), ?_⟩
      · rw [← he, hsl]; exact hp
      · rw [hsl]; exact hb
    · rw [← hi]; omega
  · obtain ⟨ks, k, rfl, hks, hk⟩ := map_eq_concat hm
    have hkpop : k = [OpPop] :=
      isInstr_no_operand (ha k (List.mem_append_right _ (List.mem_singleton.mpr rfl)))
        (by rw [← hop]; exact head_of_record hl.2 hk) rfl rfl
    subst hkpop
    have hpos : sc.lastInstruction.Pos = ks.flatten.length := by
      rw [hl.1, ← hks, shapesLength_map]
    have hb1 : b = ks.flatten.length + 1 := by
      rw [hb, shapesLength_map]
      simp
    refine ⟨by rw [hpos, hi]; simp, ks, b, ⟨?_, fun x hx => ha x (List.mem_append_left _ hx), ?_⟩,
      Nat.le_refl _, by omega, Or.inr rfl⟩
    · simp only [hpos, hi]
      exact take_flatten_concat ks [OpPop]
    · refine Or.inl ⟨rfl, ?_, ?_, ?_⟩
      · rcases hpre with hpl | ⟨hpp, -⟩
        · rw [hpl, hpos, shapesLength_map]
        · rw [hpp, hks]
      · rcases hpre with hpl | ⟨-, hpo⟩
        · exact Or.inl (by rw [hpl]; exact hop)
        · rcases hpo with hpo | hnil
          · exact Or.inl hpo
          · exact Or.inr (by rw [hks]; exact hnil)
      · rw [shapesLength_map]; exact hb1
  · have hm2 : chunks.map chunkShape = (hs0 ++ [h0]) ++ [h] := by rw [hm]; simp
    obtain ⟨ks1, k, rfl, hks1, hk⟩ := map_eq_concat hm2
    obtain ⟨ks, k0, rfl, hks, hk0⟩ := map_eq_concat hks1
    have hkpop : k = [OpPop] :=
      isInstr_no_operand (ha k (List.mem_append_right _ (List.mem_singleton.mpr rfl)))
        (by rw [← hop]; exact head_of_record hl.2 hk) rfl rfl
    subst hkpop
    have hpos : sc.lastInstruction.Pos = (ks ++ [k0]).flatten.length := by
      rw [hl.1, ← hks, ← hk0, shapesLength_map]
      simp [chunkShape]
    rw [if_pos hop] at hb
    refine ⟨by rw [hpos, hi]; simp, ks ++ [k0], b,
      ⟨?_, fun x hx => ha x (List.mem_append_left _ hx), ?_⟩, Nat.le_refl _, by omega,
      Or.inr rfl⟩
    · simp only [hpos, hi]
      exact take_flatten_concat (ks ++ [k0]) [OpPop]
    · refine Or.inr (Or.inl ⟨ks.map chunkShape, chunkShape k0, by simp, ?_, Or.inl rfl, ?_⟩)
      · rw [hks, hk0]; exact hp0
      · rw [hb, hpos, shapesLength_map]

/-- When the record of the last instruction says `OpPop` at an offset inside the stream,
the stream ends with that `OpPop`. -/
theorem rep_last_pop {sc : CompilationScope} {chunks : List (List Nat)} {b : Nat}
    (h : ScopeRep sc chunks b) (hop : sc.lastInstruction.OpCode = OpPop)
    (hpos : sc.lastInstruction.Pos < sc.instructions.length) :
    ∃ ks, chunks = ks ++ [[OpPop]] ∧ sc.lastInstruction.Pos = ks.flatten.length := by
  obtain ⟨hi, ha, hr⟩ := h
  have hsl : shapesLength (chunks.map chunkShape) = sc.instructions.length := by
    rw [shapesLength_map, hi]
  rcases hr with ⟨he, hp, ho, hb⟩ | ⟨hs0, h, hm, hl, hpre, hb⟩ | ⟨hs0, h0, h, hm, hp0, hl, hb⟩
  · omega
  · obtain ⟨ks, k, rfl, hks, hk⟩ := map_eq_concat hm
    have hkpop : k = [OpPop] :=
      isInstr_no_operand (ha k (List.mem_append_right _ (List.mem_singleton.mpr rfl)))
        (by rw [← hop]; exact head_of_record hl.2 hk) rfl rfl
    subst hkpop
    exact ⟨ks, rfl, by rw [hl.1, ← hks, shapesLength_map]⟩
  · have hm2 : chunks.map chunkShape = (hs0 ++ [h0]) ++ [h] := by rw [hm]; simp
    obtain ⟨ks1, k, rfl, hks1, hk⟩ := map_eq_concat hm2
    have hkpop : k = [OpPop] :=
      isInstr_no_operand (ha k (List.mem_append_right _ (List.mem_singleton.mpr rfl)))
        (by rw [← hop]; exact head_of_record hl.2 hk) rfl rfl
    subst hkpop
    refine ⟨ks1, rfl, ?_⟩
    rw [hl.1, ← shapesLength_singleton h0, ← shapesLength_append, ← hks1, shapesLength_map]

/-- When the stream is not empty and the record of the last instruction says an opcode
other than `OpPop`, the stream ends with an instruction of that opcode. -/
theorem rep_last {sc : CompilationScope} {chunks : List (List Nat)} {b : Nat}
    (h : ScopeRep sc chunks b) (hop : sc.lastInstruction.OpCode ≠ OpPop)
    (hlen : sc.instructions.length ≠ 0) :
    ∃ ks k, chunks = ks ++ [k] ∧ k.head? = some sc.lastInstruction.OpCode := by
  obtain ⟨hi, ha, hr⟩ := h
  have hsl : shapesLength (chunks.map chunkShape) = sc.instructions.length := by
    rw [shapesLength_map, hi]
  rcases hr with ⟨he, hp, ho, hb⟩ | ⟨hs0, h, hm, hl, hpre, hb⟩ | ⟨hs0, h0, h, hm, hp0, hl, hb⟩
  · rcases ho with ho | ho
    · exact absurd ho hop
    · rw [ho, shapesLength_nil] at hsl
      omega
  · obtain ⟨ks, k, rfl, hks, hk⟩ := map_eq_concat hm
    exact ⟨ks, k, rfl, head_of_record hl.2 hk⟩
  · have hm2 : chunks.map chunkShape = (hs0 ++ [h0]) ++ [h] := by rw [hm]; simp
    obtain ⟨ks1, k, rfl, hks1, hk⟩ := map_eq_concat hm2
    exact ⟨ks1, k, rfl, head_of_record hl.2 hk⟩

/-! ### The steps of the compiler on a state whose current scope is the last one -/

theorem curInstructions_eq (cs : List Object) (tbl : Option SymbolTable)
    (pre post : List CompilationScope) (sc : CompilationScope) (hp : Nat) :
    curInstructions ⟨cs, tbl, pre ++ sc :: post, pre.length, hp⟩
      = (.ok sc.instructions, ⟨cs, tbl, pre ++ sc :: post, pre.length, hp⟩) := by
  simp only [curInstructions, M_bind_apply, curScope_eq, M_pure_apply]

theorem lastInstructionIs_eq (cs : List Object) (tbl : Option SymbolTable)
    (pre post : List CompilationScope) (sc : CompilationScope) (hp : Nat) (op : Opcode) :
    lastInstructionIs op ⟨cs, tbl, pre ++ sc :: post, pre.length, hp⟩
      = (.ok (if sc.instructions.length = 0 then false else sc.lastInstruction.OpCode == op),
          ⟨cs, tbl, pre ++ sc :: post, pre.length, hp⟩) := by
  simp only [lastInstructionIs, M_bind_apply, curInstructions_eq]
  split
  · rfl
  · simp only [M_bind_apply, curScope_eq, M_pure_apply]

theorem removeLastPop_eq (cs : List Object) (tbl : Option SymbolTable)
    (pre post : List CompilationScope) (sc : CompilationScope) (hp : Nat)
    (h : sc.lastInstruction.Pos ≤ sc.instructions.length) :
    removeLastPop ⟨cs, tbl, pre ++ sc :: post, pre.length, hp⟩
      = (.ok (), ⟨cs, tbl, pre ++ ⟨sc.instructions.take sc.lastInstruction.Pos,
          sc.preInstruction, sc.preInstruction⟩ :: post, pre.length, hp⟩) := by
  simp only [removeLastPop, M_bind_apply, curScope_eq, h, if_true, setCurScope_eq]

theorem removeLastPop_fails (cs : List Object) (tbl : Option SymbolTable)
    (pre post : List CompilationScope) (sc : CompilationScope) (hp : Nat)
    (h : ¬ sc.lastInstruction.Pos ≤ sc.instructions.length) :
    ∃ e c1, removeLastPop ⟨cs, tbl, pre ++ sc :: post, pre.length, hp⟩ = (.error e, c1) := by
  simp only [removeLastPop, M_bind_apply, curScope_eq, h, if_false]
  exact ⟨_, _, rfl⟩

theorem setIndex_append_cons {α : Type} (X : List α) (x y : α) (Y : List α) :
    setIndex (X ++ x :: Y) X.length y = .ok (X ++ y :: Y) := by
  have h1 : X.length < (X ++ x :: Y).length := by simp
  rw [setIndex, if_pos h1, set_append_cons]

theorem getIndex_append_cons {α : Type} (X : List α) (x : α) (Y : List α) :
    getIndex (X ++ x :: Y) X.length = .ok x := by
  rw [getIndex, getElem?_append_cons]

/-- Three bytes written over three bytes by the loop of `replaceInstruction`. -/
theorem replaceInstruction_three (cs : List Object) (tbl : Option SymbolTable)
    (pre post : List CompilationScope) (sc : CompilationScope) (hp : Nat)
    (X Y : List Nat) (a b c a1 b1 c1 : Nat) (hi : sc.instructions = X ++ a :: b :: c :: Y) :
    replaceInstruction X.length [a1, b1, c1] ⟨cs, tbl, pre ++ sc :: post, pre.length, hp⟩
      = (.ok (), ⟨cs, tbl, pre ++ ⟨X ++ a1 :: b1 :: c1 :: Y, sc.lastInstruction,
          sc.preInstruction⟩ :: post, pre.length, hp⟩) := by
  have e1 : setIndex (X ++ a :: b :: c :: Y) (0 + X.length) a1 = .ok (X ++ a1 :: b :: c :: Y) := by
    rw [Nat.zero_add]; exact setIndex_append_cons X a a1 _
  have e2 : setIndex (X ++ a1 :: b :: c :: Y) (0 + 1 + X.length) b1
      = .ok (X ++ a1 :: b1 :: c :: Y) := by
    have := setIndex_append_cons (X ++ [a1]) b b1 (c :: Y)
    simp only [List.append_assoc, List.singleton_append, List.length_append,
      List.length_singleton] at this
    rw [show 0 + 1 + X.length = X.length + 1 by omega]
    exact this
  have e3 : setIndex (X ++ a1 :: b1 :: c :: Y) (0 + 1 + 1 + X.length) c1
      = .ok (X ++ a1 :: b1 :: c1 :: Y) := by
    have := setIndex_append_cons (X ++ [a1, b1]) c c1 Y
    simp only [List.append_assoc, List.cons_append, List.nil_append, List.length_append,
      List.length_cons, List.length_nil] at this
    rw [show 0 + 1 + 1 + X.length = X.length + (0 + 1 + 1) by omega]
    exact this
  simp only [replaceInstruction, replaceInstructionLoop, M_bind_apply, curScope_eq, M.lift, hi, e1,
    setCurScope_eq, e2, e3, M_pure_apply]

/-- Patching the operand of a jump: `changeOperand` at the offset of a three-byte
instruction of opcode `OpJump` or `OpJumpConditionNotTrue`. -/
theorem changeOperand_jump (cs : List Object) (tbl : Option SymbolTable)
    (pre post : List CompilationScope) (sc : CompilationScope) (hp : Nat)
    (X Y : List Nat) (op x y : Nat) (t : Nat) (hop : op = OpJump ∨ op = OpJumpConditionNotTrue)
    (hi : sc.instructions = X ++ op :: x :: y :: Y) :
    changeOperand X.length (t : Int) ⟨cs, tbl, pre ++ sc :: post, pre.length, hp⟩
      = (.ok (), ⟨cs, tbl, pre ++ ⟨X ++ op :: (t / 256 % 256) :: (t % 256) :: Y,
          sc.lastInstruction, sc.preInstruction⟩ :: post, pre.length, hp⟩) := by
  have hm : Make op [(t : Int)] = .ok [op, t / 256 % 256, t % 256] := by
    rcases hop with rfl | rfl
    · exact Make_OpJump t
    · exact Make_OpJumpConditionNotTrue t
  have hg : getIndex sc.instructions X.length = .ok op := by
    rw [hi]; exact getIndex_append_cons X op _
  simp only [changeOperand, M_bind_apply, curScope_eq, M.lift, hg, hm]
  exact replaceInstruction_three cs tbl pre post sc hp X Y op x y op _ _ hi

/-! ### The stream of the current scope through a compilation -/

theorem jumpsBelow_nil (b : Nat) : jumpsBelow b [] := fun _ h => absurd h (List.not_mem_nil _)

theorem jumpsBelow_append {b : Nat} {l l1 : List (List Nat)} (h : jumpsBelow b l)
    (h1 : jumpsBelow b l1) : jumpsBelow b (l ++ l1) := by
  intro k hk
  rcases List.mem_append.mp hk with hk | hk
  · exact h k hk
  · exact h1 k hk

theorem jumpsBelow_mono {b b1 : Nat} {l : List (List Nat)} (h : jumpsBelow b l) (hb : b ≤ b1) :
    jumpsBelow b1 l := by
  intro k hk op hop hj
  obtain ⟨t, ht, he⟩ := h k hk op hop hj
  exact ⟨t, Nat.le_trans ht hb, he⟩

theorem jumpsBelow_no_jump (b : Nat) {k : List Nat} {op : Opcode} (hk : k.head? = some op)
    (h1 : op ≠ OpJump) (h2 : op ≠ OpJumpConditionNotTrue) : jumpsBelow b [k] := by
  intro x hx op1 hop hj
  rw [List.mem_singleton.mp hx, hk] at hop
  cases hop
  rcases hj with rfl | rfl
  · exact absurd rfl h1
  · exact absurd rfl h2

theorem stream_same {α : Type} {m : M Compiler α}
    (h : ∀ c a c1, m c = (.ok a, c1) → c1 = c) : StreamSpec m := by
  intro cs tbl pre sc hp chunks b a c1 hrep hm
  refine ⟨[], tbl, sc, hp, [], b, ?_, fun _ ho => absurd ho (List.not_mem_nil _), ?_,
    Nat.le_refl _, jumpsBelow_nil _⟩
  · rw [h _ _ _ hm, List.append_nil]
  · rw [List.append_nil]; exact hrep

theorem stream_pure {α : Type} (a : α) : StreamSpec (Pure.pure a : M Compiler α) :=
  stream_same (fun c a1 c1 h => by cases h; rfl)

theorem stream_fail {α : Type} (e : Fault) : StreamSpec (M.fail e : M Compiler α) :=
  stream_same (fun c a1 c1 h => by cases h)

theorem stream_bind {α β : Type} {m : M Compiler α} {f : α → M Compiler β}
    (hm : StreamSpec m) (hf : ∀ a, StreamSpec (f a)) : StreamSpec (m >>= f) := by
  intro cs tbl pre sc hp chunks b a c1 hrep h
  obtain ⟨x, c0, h0, h1⟩ := M_bind_ok h
  obtain ⟨n0, tbl0, sc0, hp0, new0, b0, rfl, hc0, hr0, hb0, hj0⟩ :=
    hm cs tbl pre sc hp chunks b x c0 hrep h0
  obtain ⟨n1, tbl1, sc1, hp1, new1, b1, rfl, hc1, hr1, hb1, hj1⟩ :=
    hf x (cs ++ n0) tbl0 pre sc0 hp0 (chunks ++ new0) b0 a c1 hr0 h1
  refine ⟨n0 ++ n1, tbl1, sc1, hp1, new0 ++ new1, b1, by rw [List.append_assoc], ?_, ?_,
    Nat.le_trans hb0 hb1, jumpsBelow_append (jumpsBelow_mono hj0 hb1) hj1⟩
  · intro o ho
    rcases List.mem_append.mp ho with ho | ho
    · exact hc0 o ho
    · exact hc1 o ho
  · rw [← List.append_assoc]; exact hr1

theorem stream_ite {α : Type} {p : Prop} [Decidable p] {a b : M Compiler α}
    (ha : StreamSpec a) (hb : StreamSpec b) : StreamSpec (if p then a else b) := by
  split
  · exact ha
  · exact hb

theorem stream_alloc : StreamSpec Compiler.alloc := by
  intro cs tbl pre sc hp chunks b a c1 hrep h
  cases h
  exact ⟨[], tbl, sc, hp + 1, [], b, by rw [List.append_nil],
    fun _ ho => absurd ho (List.not_mem_nil _), by rw [List.append_nil]; exact hrep,
    Nat.le_refl _, jumpsBelow_nil _⟩

theorem stream_addConstant (obj : Object) (hobj : ConstOK obj) : StreamSpec (addConstant obj) := by
  intro cs tbl pre sc hp chunks b a c1 hrep h
  cases h
  exact ⟨[obj], tbl, sc, hp, [], b, rfl,
    fun o ho => by rw [List.mem_singleton.mp ho]; exact hobj,
    by rw [List.append_nil]; exact hrep, Nat.le_refl _, jumpsBelow_nil _⟩

theorem stream_onSymbolTable {α : Type} (f : SymbolTable → α × SymbolTable) :
    StreamSpec (onSymbolTable f) := by
  intro cs tbl pre sc hp chunks b a c1 hrep h
  cases tbl with
  | none => cases h
  | some t =>
    cases h
    exact ⟨[], _, sc, hp, [], b, by rw [List.append_nil],
      fun _ ho => absurd ho (List.not_mem_nil _), by rw [List.append_nil]; exact hrep,
      Nat.le_refl _, jumpsBelow_nil _⟩

theorem stream_curInstructions : StreamSpec curInstructions := by
  intro cs tbl pre sc hp chunks b a c1 hrep h
  rw [curInstructions_eq] at h
  cases h
  exact ⟨[], tbl, sc, hp, [], b, by rw [List.append_nil],
    fun _ ho => absurd ho (List.not_mem_nil _), by rw [List.append_nil]; exact hrep,
    Nat.le_refl _, jumpsBelow_nil _⟩

/-- The emission of an instruction that is not a jump. -/
theorem stream_emit (op : Opcode) (operands : List Int) (d : Definition)
    (hd : definitions op = some d) (hlen : operands.length = d.OperandWidths.length)
    (h1 : op ≠ OpJump) (h2 : op ≠ OpJumpConditionNotTrue) : StreamSpec (emit op operands) := by
  intro cs tbl pre sc hp chunks b a c1 hrep h
  have hm := make_eq_spec op d operands hd hlen
  rw [emit_eq cs tbl pre [] sc hp op operands _ hm] at h
  cases h
  have hk : isInstr (specInstruction op d.OperandWidths operands) := isInstr_of_make hd hlen hm
  obtain ⟨b1, hr1, hb1, -⟩ := @rep_emit _ _ _ hrep op _ hk rfl
  exact ⟨[], tbl, _, hp, [_], b1, by rw [List.append_nil],
    fun _ ho => absurd ho (List.not_mem_nil _), hr1, hb1, jumpsBelow_no_jump b1 rfl h1 h2⟩

theorem stream_loadSymbol (s : Symbol) : StreamSpec (loadSymbol s) := by
  unfold loadSymbol
  repeat' (first
    | exact stream_emit _ _ _ rfl rfl (by decide) (by decide)
    | exact stream_pure _
    | refine stream_bind ?_ (fun _ => ?_) | apply stream_ite)

theorem stream_loadSymbols (l : List Symbol) : StreamSpec (loadSymbols l) := by
  induction l with
  | nil => exact stream_pure _
  | cons s rest ih =>
    unfold loadSymbols
    exact stream_bind (stream_loadSymbol s) (fun _ => ih)

theorem stream_defineParams (l : List String) : StreamSpec (defineParams l) := by
  induction l with
  | nil => exact stream_pure _
  | cons s rest ih =>
    unfold defineParams
    exact stream_bind (stream_onSymbolTable _) (fun _ => ih)

theorem stream_emitInfix (operator : String) : StreamSpec (emitInfix operator) := by
  unfold emitInfix
  repeat' (first
    | exact stream_emit _ _ _ rfl rfl (by decide) (by decide)
    | exact stream_pure _ | exact stream_fail _
    | refine stream_bind ?_ (fun _ => ?_) | apply stream_ite)

theorem stream_emitPrefixOp (operator : String) : StreamSpec (emitPrefixOp operator) := by
  unfold emitPrefixOp
  repeat' (first
    | exact stream_emit _ _ _ rfl rfl (by decide) (by decide)
    | exact stream_pure _ | exact stream_fail _
    | refine stream_bind ?_ (fun _ => ?_) | apply stream_ite)

/-- The emission of any instruction, on a represented scope. -/
theorem emit_spec (cs : List Object) (tbl : Option SymbolTable) (pre : List CompilationScope)
    (sc : CompilationScope) (hp : Nat) (chunks : List (List Nat)) (b : Nat) (op : Opcode)
    (operands : List Int) (d : Definition) (hd : definitions op = some d)
    (hlen : operands.length = d.OperandWidths.length) (hrep : ScopeRep sc chunks b) :
    emit op operands ⟨cs, tbl, pre ++ [sc], pre.length, hp⟩
      = (.ok sc.instructions.length, ⟨cs, tbl,
          pre ++ [⟨sc.instructions ++ specInstruction op d.OperandWidths operands,
            ⟨op, sc.instructions.length⟩, sc.lastInstruction⟩], pre.length, hp⟩)
    ∧ ∃ b1, ScopeRep ⟨sc.instructions ++ specInstruction op d.OperandWidths operands,
          ⟨op, sc.instructions.length⟩, sc.lastInstruction⟩
          (chunks ++ [specInstruction op d.OperandWidths operands]) b1
        ∧ b ≤ b1
        ∧ (op ≠ OpPop →
          (sc.instructions ++ specInstruction op d.OperandWidths operands).length ≤ b1) := by
  have hm := make_eq_spec op d operands hd hlen
  exact ⟨emit_eq cs tbl pre [] sc hp op operands _ hm,
    rep_emit hrep (isInstr_of_make hd hlen hm) rfl⟩

/-- What `stripLastPop` does to a represented scope: it takes a final `OpPop` away or leaves
the stream as it is; afterwards the bound on jump targets is at least the length of the
stream. -/
theorem strip_spec (cs : List Object) (tbl : Option SymbolTable) (pre : List CompilationScope)
    (sc : CompilationScope) (hp : Nat) (chunks : List (List Nat)) (b : Nat) (c1 : Compiler)
    (hrep : ScopeRep sc chunks b)
    (h : stripLastPop ⟨cs, tbl, pre ++ [sc], pre.length, hp⟩ = (.ok (), c1)) :
    ∃ sc1 chunks1 b1, c1 = ⟨cs, tbl, pre ++ [sc1], pre.length, hp⟩ ∧ ScopeRep sc1 chunks1 b1
      ∧ b ≤ b1 ∧ sc1.instructions.length ≤ b1
      ∧ (chunks1 = chunks ∨ chunks = chunks1 ++ [[OpPop]]) := by
  simp only [stripLastPop, M_bind_apply, lastInstructionIs_eq] at h
  by_cases hl : sc.instructions.length = 0
  · simp only [hl, if_true, Bool.false_eq_true, if_false] at h
    cases h
    exact ⟨sc, chunks, b, rfl, hrep, Nat.le_refl _, rep_len_le hrep (Or.inl hl), Or.inl rfl⟩
  · by_cases hop : sc.lastInstruction.OpCode = OpPop
    · simp only [hl, if_false, hop, beq_self_eq_true, if_true] at h
      obtain ⟨hpos, chunks1, b1, hr1, hb1, hl1, hor⟩ := rep_remove hrep hop
      rw [removeLastPop_eq cs tbl pre [] sc hp hpos] at h
      cases h
      exact ⟨_, chunks1, b1, rfl, hr1, hb1, by rw [hr1.1]; exact hl1, hor⟩
    · have hne : (sc.lastInstruction.OpCode == OpPop) = false := by simpa using hop
      simp only [hl, if_false, hne, Bool.false_eq_true] at h
      cases h
      exact ⟨sc, chunks, b, rfl, hrep, Nat.le_refl _, rep_len_le hrep (Or.inr hop), Or.inl rfl⟩

/-- Patching a jump of a represented scope. -/
theorem patch_spec (cs : List Object) (tbl : Option SymbolTable) (pre : List CompilationScope)
    (sc : CompilationScope) (hp : Nat) (A B : List (List Nat)) (op x y b t pos : Nat)
    (hop : op = OpJump ∨ op = OpJumpConditionNotTrue)
    (hrep : ScopeRep sc (A ++ [op, x, y] :: B) b) (hpos : pos = A.flatten.length) :
    changeOperand pos (t : Int) ⟨cs, tbl, pre ++ [sc], pre.length, hp⟩
      = (.ok (), ⟨cs, tbl, pre ++ [⟨(A ++ [op, t / 256 % 256, t % 256] :: B).flatten,
          sc.lastInstruction, sc.preInstruction⟩], pre.length, hp⟩)
    ∧ ScopeRep ⟨(A ++ [op, t / 256 % 256, t % 256] :: B).flatten, sc.lastInstruction,
        sc.preInstruction⟩ (A ++ [op, t / 256 % 256, t % 256] :: B) b := by
  have hm : Make op [(t : Int)] = .ok [op, t / 256 % 256, t % 256] := by
    rcases hop with rfl | rfl
    · exact Make_OpJump t
    · exact Make_OpJumpConditionNotTrue t
  have hk : isInstr [op, t / 256 % 256, t % 256] := by
    rcases hop with rfl | rfl
    · exact @isInstr_of_make OpJump _ _ ⟨"OpJump", [2]⟩ rfl rfl hm
    · exact @isInstr_of_make OpJumpConditionNotTrue _ _ ⟨"OpJumpConditionNotTrue", [2]⟩ rfl rfl
        hm
  refine ⟨?_, rep_patch hrep hk rfl rfl⟩
  have hi : sc.instructions = A.flatten ++ op :: x :: y :: B.flatten := by
    rw [hrep.1]; simp
  rw [hpos, changeOperand_jump cs tbl pre [] sc hp A.flatten B.flatten op x y t hop hi]
  simp

theorem strip_suffix {P n2 D : List (List Nat)} {J : List Nat} (hJ : J ≠ [OpPop])
    (hor : D = P ++ [J] ++ n2 ∨ P ++ [J] ++ n2 = D ++ [[OpPop]]) :
    ∃ n3, D = P ++ [J] ++ n3 ∧ (n3 = n2 ∨ n2 = n3 ++ [[OpPop]]) := by
  rcases hor with rfl | h
  · exact ⟨n2, rfl, Or.inl rfl⟩
  · rcases List.eq_nil_or_concat n2 with rfl | ⟨n3, x, rfl⟩
    · rw [List.append_nil] at h
      obtain ⟨-, h2⟩ := List.append_inj' h rfl
      exact absurd (List.singleton_inj.mp h2) hJ
    · rw [List.concat_eq_append, ← List.append_assoc] at h
      obtain ⟨h1, h2⟩ := List.append_inj' h rfl
      rw [List.singleton_inj.mp h2]
      exact ⟨n3, h1.symm, Or.inr (List.concat_eq_append _ _)⟩

theorem rep_congr {sc : CompilationScope} {l l1 : List (List Nat)} {b : Nat}
    (h : ScopeRep sc l b) (e : l = l1) : ScopeRep sc l1 b := e ▸ h

theorem jumpsBelow_jump {b t : Nat} (op : Opcode) (h : t ≤ b) :
    jumpsBelow b [jumpInstr op t] := by
  intro k hk op1 hop _
  rw [List.mem_singleton.mp hk] at hop ⊢
  simp only [jumpInstr, List.head?_cons, Option.some.injEq] at hop
  subst hop
  exact ⟨t, h, rfl⟩

theorem jumpsBelow_cons {b : Nat} {k : List Nat} {l : List (List Nat)}
    (h : jumpsBelow b [k]) (h1 : jumpsBelow b l) : jumpsBelow b (k :: l) :=
  jumpsBelow_append h h1

theorem jumpsBelow_of_strip {b : Nat} {n2 n3 : List (List Nat)} (h : jumpsBelow b n2)
    (hor : n3 = n2 ∨ n2 = n3 ++ [[OpPop]]) : jumpsBelow b n3 := by
  rcases hor with rfl | rfl
  · exact h
  · exact fun k hk => h k (List.mem_append_left _ hk)

/-- The emission of a jump with the placeholder operand, on a represented scope. -/
theorem emit_jump_spec (cs : List Object) (tbl : Option SymbolTable)
    (pre : List CompilationScope) (sc : CompilationScope) (hp : Nat)
    (chunks : List (List Nat)) (b : Nat) (op : Opcode)
    (hop : op = OpJump ∨ op = OpJumpConditionNotTrue) (hrep : ScopeRep sc chunks b) :
    emit op [fakeAddress] ⟨cs, tbl, pre ++ [sc], pre.length, hp⟩
      = (.ok sc.instructions.length, ⟨cs, tbl,
          pre ++ [⟨sc.instructions ++ [op, 255, 255],
            ⟨op, sc.instructions.length⟩, sc.lastInstruction⟩], pre.length, hp⟩)
    ∧ ∃ b1, ScopeRep ⟨sc.instructions ++ [op, 255, 255],
          ⟨op, sc.instructions.length⟩, sc.lastInstruction⟩ (chunks ++ [[op, 255, 255]]) b1
        ∧ b ≤ b1 ∧ (sc.instructions ++ [op, 255, 255]).length ≤ b1 := by
  rcases hop with rfl | rfl
  · obtain ⟨h1, b1, h2, h3, h4⟩ := emit_spec cs tbl pre sc hp chunks b OpJump [fakeAddress]
      ⟨"OpJump", [2]⟩ rfl rfl hrep
    exact ⟨h1, b1, h2, h3, h4 (by decide)⟩
  · obtain ⟨h1, b1, h2, h3, h4⟩ := emit_spec cs tbl pre sc hp chunks b OpJumpConditionNotTrue
      [fakeAddress] ⟨"OpJumpConditionNotTrue", [2]⟩ rfl rfl hrep
    exact ⟨h1, b1, h2, h3, h4 (by decide)⟩

/-- The `IfExpr` case without alternative, on a represented scope: the code of the
condition, the conditional jump to the offset after the jump that ends the consequence,
the code of the consequence without a final `OpPop`, the jump to the end, `OpNil`. -/
theorem ifExpr_none_spec (ks : Node → String) (condition consequence : Node)
    (hcond : StreamSpec (Compile ks condition)) (hcons : StreamSpec (Compile ks consequence))
    (cs : List Object) (tbl : Option SymbolTable) (pre : List CompilationScope)
    (sc : CompilationScope) (hp : Nat) (chunks : List (List Nat)) (b : Nat) (c1 : Compiler)
    (hrep : ScopeRep sc chunks b)
    (h : Compile ks (.IfExpr condition consequence none)
      ⟨cs, tbl, pre ++ [sc], pre.length, hp⟩ = (.ok (), c1)) :
    ∃ newcs tbl1 sc1 hp1 n1 n2 t1 t2 b1,
      c1 = ⟨cs ++ newcs, tbl1, pre ++ [sc1], pre.length, hp1⟩
      ∧ (∀ o ∈ newcs, ConstOK o)
      ∧ ScopeRep sc1 (chunks ++ (n1 ++ jumpInstr OpJumpConditionNotTrue t1
          :: (n2 ++ [jumpInstr OpJump t2, [OpNil]]))) b1
      ∧ t1 = (chunks ++ n1).flatten.length + 3 + n2.flatten.length + 3
      ∧ t2 = sc1.instructions.length
      ∧ b ≤ b1
      ∧ jumpsBelow b1 (n1 ++ jumpInstr OpJumpConditionNotTrue t1
          :: (n2 ++ [jumpInstr OpJump t2, [OpNil]])) := by
  rw [Compile] at h
  obtain ⟨_, ca, hA, h⟩ := M_bind_ok h
  obtain ⟨nA, tblA, scA, hpA, n1, bA, rfl, hcA, hrA, hbA, hjA⟩ :=
    hcond cs tbl pre sc hp chunks b _ ca hrep hA
  obtain ⟨jnt, cb, hB, h⟩ := M_bind_ok h
  obtain ⟨hBe, bB, hrB, hbB, hlB⟩ := emit_jump_spec (cs ++ nA) tblA pre scA hpA (chunks ++ n1) bA
    OpJumpConditionNotTrue (Or.inr rfl) hrA
  rw [hBe] at hB
  simp only [Prod.mk.injEq, Except.ok.injEq] at hB
  obtain ⟨rfl, rfl⟩ := hB
  obtain ⟨_, cc, hC, h⟩ := M_bind_ok h
  obtain ⟨nC, tblC, scC, hpC, n2, bC, rfl, hcC, hrC, hbC, hjC⟩ :=
    hcons _ _ pre _ _ _ bB _ cc hrB hC
  obtain ⟨_, cd, hD, h⟩ := M_bind_ok h
  obtain ⟨scD, chunksD, bD, rfl, hrD, hbD, hlD, hor⟩ := strip_spec _ _ pre scC _ _ bC cd hrC hD
  obtain ⟨n3, rfl, hn3⟩ := strip_suffix (J := [OpJumpConditionNotTrue, 255, 255]) (by decide) hor
  obtain ⟨jpos, ce, hE, h⟩ := M_bind_ok h
  obtain ⟨hEe, bE, hrE, hbE, hlE⟩ := emit_jump_spec _ tblC pre scD hpC _ bD
    OpJump (Or.inl rfl) hrD
  rw [hEe] at hE
  simp only [Prod.mk.injEq, Except.ok.injEq] at hE
  obtain ⟨rfl, rfl⟩ := hE
  obtain ⟨ins, cf, hF, h⟩ := M_bind_ok h
  rw [curInstructions_eq _ _ pre [] _ _] at hF
  simp only [Prod.mk.injEq, Except.ok.injEq] at hF
  obtain ⟨rfl, rfl⟩ := hF
  obtain ⟨_, cg, hG, h⟩ := M_bind_ok h
  have hrE1 : ScopeRep ⟨scD.instructions ++ [OpJump, 255, 255],
      ⟨OpJump, scD.instructions.length⟩, scD.lastInstruction⟩
      ((chunks ++ n1) ++ [OpJumpConditionNotTrue, 255, 255] :: (n3 ++ [[OpJump, 255, 255]]))
      bE := by
    have e : chunks ++ n1 ++ [[OpJumpConditionNotTrue, 255, 255]] ++ n3 ++ [[OpJump, 255, 255]]
        = (chunks ++ n1) ++ [OpJumpConditionNotTrue, 255, 255] :: (n3 ++ [[OpJump, 255, 255]]) := by
      simp
    rw [← e]
    exact hrE
  obtain ⟨hGe, hrG⟩ := patch_spec (cs ++ nA ++ nC) tblC pre _ hpC (chunks ++ n1)
    (n3 ++ [[OpJump, 255, 255]]) OpJumpConditionNotTrue 255 255 bE
    (scD.instructions ++ [OpJump, 255, 255]).length scA.instructions.length (Or.inr rfl) hrE1
    (by rw [hrA.1])
  rw [hGe] at hG
  simp only [Prod.mk.injEq, Except.ok.injEq, true_and] at hG
  subst hG
  obtain ⟨_, ch, hH, h⟩ := M_bind_ok h
  obtain ⟨hHe, bH, hrH, hbH, hlH⟩ := emit_spec (cs ++ nA ++ nC) tblC pre _ hpC _ bE OpNil []
    ⟨"OpNil", []⟩ rfl rfl hrG
  rw [hHe] at hH
  simp only [Prod.mk.injEq, Except.ok.injEq] at hH
  obtain ⟨rfl, rfl⟩ := hH
  obtain ⟨ins2, ci, hI, h⟩ := M_bind_ok h
  rw [curInstructions_eq _ _ pre [] _ _] at hI
  simp only [Prod.mk.injEq, Except.ok.injEq] at hI
  obtain ⟨rfl, rfl⟩ := hI
  have hposD : scD.instructions.length
      = (chunks ++ n1 ++ [OpJumpConditionNotTrue,
          (scD.instructions ++ [OpJump, 255, 255]).length / 256 % 256,
          (scD.instructions ++ [OpJump, 255, 255]).length % 256] :: n3).flatten.length := by
    rw [hrD.1]
    simp
  have e : chunks ++ n1 ++ [OpJumpConditionNotTrue,
        (scD.instructions ++ [OpJump, 255, 255]).length / 256 % 256,
        (scD.instructions ++ [OpJump, 255, 255]).length % 256] :: (n3 ++ [[OpJump, 255, 255]])
        ++ [specInstruction OpNil (⟨"OpNil", []⟩ : Definition).OperandWidths []]
      = (chunks ++ n1 ++ [OpJumpConditionNotTrue,
        (scD.instructions ++ [OpJump, 255, 255]).length / 256 % 256,
        (scD.instructions ++ [OpJump, 255, 255]).length % 256] :: n3)
      ++ [OpJump, 255, 255] :: [[OpNil]] := by
    simp [specInstruction]
  rw [e] at hrH
  obtain ⟨hLe, hrL⟩ := patch_spec (cs ++ nA ++ nC) tblC pre _ hpC _ [[OpNil]] OpJump 255 255 bH
    ((chunks ++ n1 ++ [OpJumpConditionNotTrue,
          (scD.instructions ++ [OpJump, 255, 255]).length / 256 % 256,
          (scD.instructions ++ [OpJump, 255, 255]).length % 256]
        :: (n3 ++ [[OpJump, 255, 255]])).flatten ++ specInstruction OpNil [] []).length
    scD.instructions.length (Or.inl rfl) hrH hposD
  have hc := hLe.symm.trans h
  simp only [Prod.mk.injEq, true_and] at hc
  subst hc
  rw [List.append_assoc cs nA nC]
  refine ⟨nA ++ nC, tblC, _, hpC, n1, n3, (scD.instructions ++ [OpJump, 255, 255]).length,
    ((chunks ++ n1 ++ [OpJumpConditionNotTrue,
          (scD.instructions ++ [OpJump, 255, 255]).length / 256 % 256,
          (scD.instructions ++ [OpJump, 255, 255]).length % 256]
        :: (n3 ++ [[OpJump, 255, 255]])).flatten ++ specInstruction OpNil [] []).length,
    bH, rfl, ?_, ?_, ?_, ?_, ?_, ?_⟩
  · intro o ho
    rcases List.mem_append.mp ho with ho | ho
    · exact hcA o ho
    · exact hcC o ho
  · have e : chunks ++ (n1 ++ jumpInstr OpJumpConditionNotTrue
          (scD.instructions ++ [OpJump, 255, 255]).length
          :: (n3 ++ [jumpInstr OpJump ((chunks ++ n1 ++ [OpJumpConditionNotTrue,
          (scD.instructions ++ [OpJump, 255, 255]).length / 256 % 256,
          (scD.instructions ++ [OpJump, 255, 255]).length % 256]
        :: (n3 ++ [[OpJump, 255, 255]])).flatten ++ specInstruction OpNil [] []).length,
            [OpNil]]))
        = (chunks ++ n1 ++ [OpJumpConditionNotTrue,
          (scD.instructions ++ [OpJump, 255, 255]).length / 256 % 256,
          (scD.instructions ++ [OpJump, 255, 255]).length % 256] :: n3)
        ++ [OpJump, ((chunks ++ n1 ++ [OpJumpConditionNotTrue,
          (scD.instructions ++ [OpJump, 255, 255]).length / 256 % 256,
          (scD.instructions ++ [OpJump, 255, 255]).length % 256]
        :: (n3 ++ [[OpJump, 255, 255]])).flatten ++ specInstruction OpNil [] []).length / 256 % 256,
          ((chunks ++ n1 ++ [OpJumpConditionNotTrue,
          (scD.instructions ++ [OpJump, 255, 255]).length / 256 % 256,
          (scD.instructions ++ [OpJump, 255, 255]).length % 256]
        :: (n3 ++ [[OpJump, 255, 255]])).flatten ++ specInstruction OpNil [] []).length % 256]
          :: [[OpNil]] := by
      simp [jumpInstr]
    rw [e]
    exact hrL
  · rw [hrD.1]
    simp
    omega
  · simp [specInstruction]
  · omega
  · exact jumpsBelow_append (jumpsBelow_mono hjA (by omega))
      (jumpsBelow_cons (jumpsBelow_jump _ (by omega))
        (jumpsBelow_append (jumpsBelow_mono (jumpsBelow_of_strip hjC hn3) (by omega))
          (jumpsBelow_cons (jumpsBelow_jump _ (hlH (by decide)))
            (jumpsBelow_no_jump bH (k := [OpNil]) rfl (by decide) (by decide)))))

/-- The `IfExpr` case with an alternative, on a represented scope: the code of the
condition, the conditional jump to the start of the alternative, the code of the
consequence without a final `OpPop`, the jump to the end, the code of the alternative
without a final `OpPop`. -/
theorem ifExpr_some_spec (ks : Node → String) (condition consequence alternative : Node)
    (hcond : StreamSpec (Compile ks condition)) (hcons : StreamSpec (Compile ks consequence))
    (halt : StreamSpec (Compile ks alternative))
    (cs : List Object) (tbl : Option SymbolTable) (pre : List CompilationScope)
    (sc : CompilationScope) (hp : Nat) (chunks : List (List Nat)) (b : Nat) (c1 : Compiler)
    (hrep : ScopeRep sc chunks b)
    (h : Compile ks (.IfExpr condition consequence (some alternative))
      ⟨cs, tbl, pre ++ [sc], pre.length, hp⟩ = (.ok (), c1)) :
    ∃ newcs tbl1 sc1 hp1 n1 n2 n3 t1 t2 b1,
      c1 = ⟨cs ++ newcs, tbl1, pre ++ [sc1], pre.length, hp1⟩
      ∧ (∀ o ∈ newcs, ConstOK o)
      ∧ ScopeRep sc1 (chunks ++ (n1 ++ jumpInstr OpJumpConditionNotTrue t1
          :: (n2 ++ jumpInstr OpJump t2 :: n3))) b1
      ∧ t1 = (chunks ++ n1).flatten.length + 3 + n2.flatten.length + 3
      ∧ t2 = sc1.instructions.length
      ∧ b ≤ b1
      ∧ jumpsBelow b1 (n1 ++ jumpInstr OpJumpConditionNotTrue t1
          :: (n2 ++ jumpInstr OpJump t2 :: n3)) := by
  rw [Compile] at h
  obtain ⟨_, ca, hA, h⟩ := M_bind_ok h
  obtain ⟨nA, tblA, scA, hpA, n1, bA, rfl, hcA, hrA, hbA, hjA⟩ :=
    hcond cs tbl pre sc hp chunks b _ ca hrep hA
  obtain ⟨jnt, cb, hB, h⟩ := M_bind_ok h
  obtain ⟨hBe, bB, hrB, hbB, hlB⟩ := emit_jump_spec (cs ++ nA) tblA pre scA hpA (chunks ++ n1) bA
    OpJumpConditionNotTrue (Or.inr rfl) hrA
  rw [hBe] at hB
  simp only [Prod.mk.injEq, Except.ok.injEq] at hB
  obtain ⟨rfl, rfl⟩ := hB
  obtain ⟨_, cc, hC, h⟩ := M_bind_ok h
  obtain ⟨nC, tblC, scC, hpC, n2, bC, rfl, hcC, hrC, hbC, hjC⟩ :=
    hcons _ _ pre _ _ _ bB _ cc hrB hC
  obtain ⟨_, cd, hD, h⟩ := M_bind_ok h
  obtain ⟨scD, chunksD, bD, rfl, hrD, hbD, hlD, hor⟩ := strip_spec _ _ pre scC _ _ bC cd hrC hD
  obtain ⟨n3, rfl, hn3⟩ := strip_suffix (J := [OpJumpConditionNotTrue, 255, 255]) (by decide) hor
  obtain ⟨jpos, ce, hE, h⟩ := M_bind_ok h
  obtain ⟨hEe, bE, hrE, hbE, hlE⟩ := emit_jump_spec _ tblC pre scD hpC _ bD
    OpJump (Or.inl rfl) hrD
  rw [hEe] at hE
  simp only [Prod.mk.injEq, Except.ok.injEq] at hE
  obtain ⟨rfl, rfl⟩ := hE
  obtain ⟨ins, cf, hF, h⟩ := M_bind_ok h
  rw [curInstructions_eq _ _ pre [] _ _] at hF
  simp only [Prod.mk.injEq, Except.ok.injEq] at hF
  obtain ⟨rfl, rfl⟩ := hF
  obtain ⟨_, cg, hG, h⟩ := M_bind_ok h
  have hrE1 : ScopeRep ⟨scD.instructions ++ [OpJump, 255, 255],
      ⟨OpJump, scD.instructions.length⟩, scD.lastInstruction⟩
      ((chunks ++ n1) ++ [OpJumpConditionNotTrue, 255, 255] :: (n3 ++ [[OpJump, 255, 255]]))
      bE := by
    have e : chunks ++ n1 ++ [[OpJumpConditionNotTrue, 255, 255]] ++ n3 ++ [[OpJump, 255, 255]]
        = (chunks ++ n1) ++ [OpJumpConditionNotTrue, 255, 255] :: (n3 ++ [[OpJump, 255, 255]]) := by
      simp
    rw [← e]
    exact hrE
  obtain ⟨hGe, hrG⟩ := patch_spec (cs ++ nA ++ nC) tblC pre _ hpC (chunks ++ n1)
    (n3 ++ [[OpJump, 255, 255]]) OpJumpConditionNotTrue 255 255 bE
    (scD.instructions ++ [OpJump, 255, 255]).length scA.instructions.length (Or.inr rfl) hrE1
    (by rw [hrA.1])
  rw [hGe] at hG
  simp only [Prod.mk.injEq, Except.ok.injEq, true_and] at hG
  subst hG
  have e2 : chunks ++ n1 ++ [OpJumpConditionNotTrue,
        (scD.instructions ++ [OpJump, 255, 255]).length / 256 % 256,
        (scD.instructions ++ [OpJump, 255, 255]).length % 256] :: (n3 ++ [[OpJump, 255, 255]])
      = (chunks ++ n1 ++ [OpJumpConditionNotTrue,
        (scD.instructions ++ [OpJump, 255, 255]).length / 256 % 256,
        (scD.instructions ++ [OpJump, 255, 255]).length % 256] :: n3)
      ++ [[OpJump, 255, 255]] := by
    simp
  have hrG2 := rep_congr hrG e2
  obtain ⟨_, ch, hH, h⟩ := M_bind_ok h
  obtain ⟨nH, tblH, scH, hpH, n4, bH, rfl, hcH, hrH, hbH, hjH⟩ :=
    halt _ _ pre _ _ _ bE _ ch hrG2 hH
  obtain ⟨_, ci, hI, h⟩ := M_bind_ok h
  obtain ⟨scI, chunksI, bI, rfl, hrI, hbI, hlI, hor2⟩ := strip_spec _ _ pre scH _ _ bH ci hrH hI
  obtain ⟨n5, rfl, hn5⟩ := strip_suffix (J := [OpJump, 255, 255]) (by decide) hor2
  obtain ⟨ins2, cj, hJ, h⟩ := M_bind_ok h
  rw [curInstructions_eq _ _ pre [] _ _] at hJ
  simp only [Prod.mk.injEq, Except.ok.injEq] at hJ
  obtain ⟨rfl, rfl⟩ := hJ
  have hposD : scD.instructions.length
      = (chunks ++ n1 ++ [OpJumpConditionNotTrue,
          (scD.instructions ++ [OpJump, 255, 255]).length / 256 % 256,
          (scD.instructions ++ [OpJump, 255, 255]).length % 256] :: n3).flatten.length := by
    rw [hrD.1]
    simp
  have e3 : (chunks ++ n1 ++ [OpJumpConditionNotTrue,
        (scD.instructions ++ [OpJump, 255, 255]).length / 256 % 256,
        (scD.instructions ++ [OpJump, 255, 255]).length % 256] :: n3)
      ++ [[OpJump, 255, 255]] ++ n5
      = (chunks ++ n1 ++ [OpJumpConditionNotTrue,
        (scD.instructions ++ [OpJump, 255, 255]).length / 256 % 256,
        (scD.instructions ++ [OpJump, 255, 255]).length % 256] :: n3)
      ++ [OpJump, 255, 255] :: n5 := by
    simp
  rw [e3] at hrI
  obtain ⟨hLe, hrL⟩ := patch_spec (cs ++ nA ++ nC ++ nH) tblH pre scI hpH _ n5 OpJump 255 255 bI
    scI.instructions.length scD.instructions.length (Or.inl rfl) hrI hposD
  have hc := hLe.symm.trans h
  simp only [Prod.mk.injEq, true_and] at hc
  subst hc
  rw [List.append_assoc cs nA nC, List.append_assoc cs (nA ++ nC) nH]
  refine ⟨nA ++ nC ++ nH, tblH, _, hpH, n1, n3, n5,
    (scD.instructions ++ [OpJump, 255, 255]).length, scI.instructions.length,
    bI, rfl, ?_, ?_, ?_, ?_, ?_, ?_⟩
  · intro o ho
    rcases List.mem_append.mp ho with ho | ho
    · rcases List.mem_append.mp ho with ho | ho
      · exact hcA o ho
      · exact hcC o ho
    · exact hcH o ho
  · have e : chunks ++ (n1 ++ jumpInstr OpJumpConditionNotTrue
          (scD.instructions ++ [OpJump, 255, 255]).length
          :: (n3 ++ jumpInstr OpJump scI.instructions.length :: n5))
        = (chunks ++ n1 ++ [OpJumpConditionNotTrue,
          (scD.instructions ++ [OpJump, 255, 255]).length / 256 % 256,
          (scD.instructions ++ [OpJump, 255, 255]).length % 256] :: n3)
        ++ [OpJump, scI.instructions.length / 256 % 256, scI.instructions.length % 256]
          :: n5 := by
      simp [jumpInstr]
    rw [e]
    exact hrL
  · rw [hrD.1]
    simp
    omega
  · rw [hrI.1]
    simp
  · omega
  · exact jumpsBelow_append (jumpsBelow_mono hjA (by omega))
      (jumpsBelow_cons (jumpsBelow_jump _ (by omega))
        (jumpsBelow_append (jumpsBelow_mono (jumpsBelow_of_strip hjC hn3) (by omega))
          (jumpsBelow_cons (jumpsBelow_jump _ hlI)
            (jumpsBelow_mono (jumpsBelow_of_strip hjH hn5) hbI))))

theorem replaceLastPopWithReturn_eq (cs : List Object) (tbl : Option SymbolTable)
    (pre post : List CompilationScope) (sc : CompilationScope) (hp : Nat) :
    replaceLastPopWithReturn ⟨cs, tbl, pre ++ sc :: post, pre.length, hp⟩
      = if sc.lastInstruction.Pos < sc.instructions.length then
          (.ok (), ⟨cs, tbl, pre ++ ⟨sc.instructions.set sc.lastInstruction.Pos OpReturnValue,
            ⟨OpReturnValue, sc.lastInstruction.Pos⟩, sc.preInstruction⟩ :: post, pre.length, hp⟩)
        else (.error (.panic "index out of range"),
          ⟨cs, tbl, pre ++ sc :: post, pre.length, hp⟩) := by
  by_cases hlt : sc.lastInstruction.Pos < sc.instructions.length
  · simp only [replaceLastPopWithReturn, replaceInstruction, replaceInstructionLoop, M_bind_apply,
      curScope_eq, M.lift, Make_OpReturnValue, specInstruction, List.zipWith_nil_left,
      List.flatten_nil, setIndex, Nat.zero_add, hlt, if_true, setCurScope_eq, M_pure_apply]
  · simp only [replaceLastPopWithReturn, replaceInstruction, replaceInstructionLoop, M_bind_apply,
      curScope_eq, M.lift, Make_OpReturnValue, specInstruction, List.zipWith_nil_left,
      List.flatten_nil, setIndex, Nat.zero_add, hlt, if_false]

theorem leaveScope_eq (cs : List Object) (t : SymbolTable) (pre : List CompilationScope)
    (sc : CompilationScope) (hp : Nat) :
    leaveScope ⟨cs, some t, pre ++ [sc], pre.length, hp⟩
      = (.ok sc.instructions, ⟨cs, t.External, pre, (pre.length : Int) - 1, hp⟩) := by
  simp only [leaveScope, M_bind_apply, curInstructions_eq, M.get, M.set, M_pure_apply]
  simp
  rfl

theorem flatten_eq_nil_of_instr {chunks : List (List Nat)} (ha : ∀ k ∈ chunks, isInstr k)
    (h : chunks.flatten.length = 0) : chunks = [] := by
  cases chunks with
  | nil => rfl
  | cons k rest =>
    have := isInstr_length_pos (ha k (List.mem_cons_self _ _))
    simp only [List.flatten_cons, List.length_append] at h
    omega

/-- What `returnFix` does to a represented scope when it returns no error: a final `OpPop`
is overwritten by `OpReturnValue`; a stream that ends with `OpReturnValue` is left as it
is; otherwise (empty stream, or another last instruction) `OpReturn` is appended. -/
theorem returnFix_spec (cs : List Object) (tbl : Option SymbolTable)
    (pre : List CompilationScope) (sc : CompilationScope) (hp : Nat)
    (chunks : List (List Nat)) (b : Nat) (cr : Compiler) (hrep : ScopeRep sc chunks b)
    (h : returnFix ⟨cs, tbl, pre ++ [sc], pre.length, hp⟩ = (.ok (), cr)) :
    ∃ scr, cr = ⟨cs, tbl, pre ++ [scr], pre.length, hp⟩ ∧
      ((∃ ks, chunks = ks ++ [[OpPop]] ∧ sc.lastInstruction.OpCode = OpPop
          ∧ sc.lastInstruction.Pos = ks.flatten.length
          ∧ scr.instructions = (ks ++ [[OpReturnValue]]).flatten)
      ∨ (∃ ks, chunks = ks ++ [[OpReturnValue]] ∧ scr.instructions = sc.instructions)
      ∨ ((chunks = [] ∨ ∃ ks k op, chunks = ks ++ [k] ∧ k.head? = some op
            ∧ op ≠ OpPop ∧ op ≠ OpReturnValue)
          ∧ scr.instructions = sc.instructions ++ [OpReturn])) := by
  unfold returnFix at h
  obtain ⟨b1, c0, h0, h⟩ := M_bind_ok h
  rw [lastInstructionIs_eq cs tbl pre [] sc hp] at h0
  simp only [Prod.mk.injEq, Except.ok.injEq] at h0
  obtain ⟨rfl, rfl⟩ := h0
  by_cases hlen : sc.instructions.length = 0
  · -- the empty stream
    simp only [hlen, if_true, Bool.false_eq_true, if_false] at h
    obtain ⟨_, c2, h2, h⟩ := M_bind_ok h
    cases h2
    obtain ⟨b2, c3, h3, h⟩ := M_bind_ok h
    rw [lastInstructionIs_eq cs tbl pre [] sc hp] at h3
    simp only [hlen, if_true, Prod.mk.injEq, Except.ok.injEq] at h3
    obtain ⟨rfl, rfl⟩ := h3
    simp only [Bool.not_false, if_true] at h
    obtain ⟨p, c4, h4, h⟩ := M_bind_ok h
    rw [emit_eq cs tbl pre [] sc hp OpReturn [] _ Make_OpReturn] at h4
    cases h4
    cases h
    refine ⟨_, rfl, Or.inr (Or.inr ⟨Or.inl ?_, rfl⟩)⟩
    exact flatten_eq_nil_of_instr hrep.2.1 (by rw [← hrep.1]; exact hlen)
  · by_cases hop : sc.lastInstruction.OpCode = OpPop
    · -- the record says OpPop
      simp only [hlen, if_false, hop, beq_self_eq_true, if_true] at h
      obtain ⟨_, c2, h2, h⟩ := M_bind_ok h
      rw [replaceLastPopWithReturn_eq cs tbl pre [] sc hp] at h2
      by_cases hpos : sc.lastInstruction.Pos < sc.instructions.length
      · rw [if_pos hpos] at h2
        cases h2
        obtain ⟨ks, hks, hp1⟩ := rep_last_pop hrep hop hpos
        obtain ⟨b2, c3, h3, h⟩ := M_bind_ok h
        rw [lastInstructionIs_eq cs tbl pre [] _ hp] at h3
        have hl2 : (sc.instructions.set sc.lastInstruction.Pos OpReturnValue).length ≠ 0 := by
          rw [List.length_set]; exact hlen
        simp only [hl2, if_false, beq_self_eq_true, Prod.mk.injEq, Except.ok.injEq] at h3
        obtain ⟨rfl, rfl⟩ := h3
        simp only [Bool.not_true, Bool.false_eq_true, if_false] at h
        cases h
        refine ⟨_, rfl, Or.inl ⟨ks, hks, hop, hp1, ?_⟩⟩
        have hi : sc.instructions = ks.flatten ++ OpPop :: [] := by
          rw [hrep.1, hks]; simp
        simp only [hi, hp1]
        rw [set_append_cons]
        simp
      · rw [if_neg hpos] at h2
        cases h2
    · have hne : (sc.lastInstruction.OpCode == OpPop) = false := by simpa using hop
      simp only [hlen, if_false, hne, Bool.false_eq_true] at h
      obtain ⟨_, c2, h2, h⟩ := M_bind_ok h
      cases h2
      obtain ⟨b2, c3, h3, h⟩ := M_bind_ok h
      rw [lastInstructionIs_eq cs tbl pre [] sc hp] at h3
      simp only [hlen, if_false, Prod.mk.injEq, Except.ok.injEq] at h3
      obtain ⟨rfl, rfl⟩ := h3
      obtain ⟨ks, k, hks, hk⟩ := rep_last hrep hop hlen
      by_cases hrv : sc.lastInstruction.OpCode = OpReturnValue
      · simp only [hrv, beq_self_eq_true, Bool.not_true, Bool.false_eq_true, if_false] at h
        cases h
        have hkk : k = [OpReturnValue] :=
          isInstr_no_operand (hrep.2.1 k (by rw [hks]; simp)) (by rw [hk, hrv]) rfl rfl
        subst hkk
        exact ⟨sc, rfl, Or.inr (Or.inl ⟨ks, hks, rfl⟩)⟩
      · have hne2 : (sc.lastInstruction.OpCode == OpReturnValue) = false := by simpa using hrv
        simp only [hne2, Bool.not_false, if_true] at h
        obtain ⟨p, c4, h4, h⟩ := M_bind_ok h
        rw [emit_eq cs tbl pre [] sc hp OpReturn [] _ Make_OpReturn] at h4
        cases h4
        cases h
        exact ⟨_, rfl, Or.inr (Or.inr ⟨Or.inr ⟨ks, k, _, hks, hk, hop, hrv⟩, rfl⟩)⟩

theorem isInstr_OpReturn : isInstr [OpReturn] :=
  @isInstr_of_make OpReturn [] _ ⟨"OpReturn", []⟩ rfl rfl Make_OpReturn

theorem isInstr_OpReturnValue : isInstr [OpReturnValue] :=
  @isInstr_of_make OpReturnValue [] _ ⟨"OpReturnValue", []⟩ rfl rfl Make_OpReturnValue

/-- After `returnFix` the stream of a represented scope is the stream of a function:
complete instructions, the last one a return, jumps within one past the end. -/
theorem returnFix_fnOK (cs : List Object) (tbl : Option SymbolTable)
    (pre : List CompilationScope) (sc : CompilationScope) (hp : Nat)
    (chunks : List (List Nat)) (b : Nat) (cr : Compiler) (hrep : ScopeRep sc chunks b)
    (hj : jumpsBelow b chunks)
    (h : returnFix ⟨cs, tbl, pre ++ [sc], pre.length, hp⟩ = (.ok (), cr)) :
    ∃ scr, cr = ⟨cs, tbl, pre ++ [scr], pre.length, hp⟩
      ∧ ∀ nl np, FnOK ⟨scr.instructions, nl, np⟩ := by
  obtain ⟨scr, rfl, hcase⟩ := returnFix_spec cs tbl pre sc hp chunks b cr hrep h
  refine ⟨scr, rfl, fun nl np => ?_⟩
  have hb := rep_bound hrep
  have hlen : sc.instructions.length = chunks.flatten.length := by rw [hrep.1]
  rcases hcase with ⟨ks, hks, -, -, hi⟩ | ⟨ks, hks, hi⟩ | ⟨-, hi⟩
  · subst hks
    refine ⟨ks, [OpReturnValue], hi, ?_, Or.inl rfl, ?_⟩
    · intro x hx
      rcases List.mem_append.mp hx with hx | hx
      · exact hrep.2.1 x (List.mem_append_left _ hx)
      · rw [List.mem_singleton.mp hx]; exact isInstr_OpReturnValue
    · refine jumpsBelow_append (jumpsBelow_mono (fun k hk => hj k (List.mem_append_left _ hk)) ?_)
        (@jumpsBelow_no_jump _ _ OpReturnValue rfl (by decide) (by decide))
      simp only [hi]
      simp only [List.flatten_append, List.length_append] at hlen ⊢
      simp at hlen ⊢
      omega
  · subst hks
    refine ⟨ks, [OpReturnValue], by rw [hi, hrep.1], hrep.2.1, Or.inl rfl, ?_⟩
    exact jumpsBelow_mono hj (by simp only [hi]; omega)
  · refine ⟨chunks, [OpReturn], by rw [hi, hrep.1]; simp, ?_, Or.inr rfl, ?_⟩
    · intro x hx
      rcases List.mem_append.mp hx with hx | hx
      · exact hrep.2.1 x hx
      · rw [List.mem_singleton.mp hx]; exact isInstr_OpReturn
    · refine jumpsBelow_append (jumpsBelow_mono hj ?_)
        (@jumpsBelow_no_jump _ _ OpReturn rfl (by decide) (by decide))
      simp only [hi, List.length_append]
      omega

theorem rep_fresh : ScopeRep ⟨[], ⟨0, 0⟩, ⟨0, 0⟩⟩ [] 1 :=
  ⟨rfl, fun _ h => absurd h (List.not_mem_nil _), Or.inl ⟨rfl, rfl, Or.inr rfl, rfl⟩⟩

theorem stream_emit_set (symbol : Symbol) :
    StreamSpec (emit (if symbol.Scope = GlobalScope then OpSetGlobal else OpSetLocal)
      [symbol.Index]) := by
  split
  · exact stream_emit OpSetGlobal _ _ rfl rfl (by decide) (by decide)
  · exact stream_emit OpSetLocal _ _ rfl rfl (by decide) (by decide)

/-- The `FuncExpr` case: the body is compiled in a scope of its own, the stream of which
becomes a constant satisfying `FnOK`; the enclosing scope receives the loads of the
captured symbols, `OpClosure` and the store. -/
theorem stream_funcExpr (ks : Node → String) (name : String) (params : List String)
    (body : Node) (ih : StreamSpec (Compile ks body)) :
    StreamSpec (Compile ks (.FuncExpr name params body)) := by
  intro cs tbl pre sc hp chunks b a c1 hrep h
  cases a
  obtain ⟨t, cp, cb, cr, ht, hdp, hbody, hret, hclose⟩ := funcExpr_ok h
  simp only [] at ht hdp
  subst ht
  have e : ((pre.length : Int) + 1) = ((pre ++ [sc]).length : Nat) := by simp
  rw [e] at hdp
  obtain ⟨n0, tbl0, sc0, hp0, new0, b0, rfl, hc0, hr0, hb0, hj0⟩ :=
    stream_defineParams params cs _ (pre ++ [sc]) _ hp [] 1 () cp rep_fresh hdp
  obtain ⟨n1, tbl1, sc1, hp1, new1, b1, rfl, hc1, hr1, hb1, hj1⟩ :=
    ih _ _ _ _ _ _ _ () cb hr0 hbody
  have hjall : jumpsBelow b1 (([] ++ new0) ++ new1) :=
    jumpsBelow_append (jumpsBelow_append (jumpsBelow_nil _) (jumpsBelow_mono hj0 hb1)) hj1
  obtain ⟨scr, rfl, hfn⟩ := returnFix_fnOK _ _ _ _ _ _ _ _ hr1 hjall hret
  obtain ⟨tb, ins, cl, cld, ccl, p, p2, htb, hleave, hload, hclos, hset⟩ :=
    closeFunction_ok hclose
  simp only [] at htb
  subst htb
  rw [leaveScope_eq] at hleave
  have e2 : (((pre ++ [sc]).length : Nat) : Int) - 1 = (pre.length : Nat) := by simp
  rw [e2] at hleave
  simp only [Prod.mk.injEq, Except.ok.injEq] at hleave
  obtain ⟨rfl, rfl⟩ := hleave
  obtain ⟨n2, tbl2, sc2, hp2, new2, b2, rfl, hc2, hr2, hb2, hj2⟩ :=
    stream_loadSymbols tb.Context _ _ pre sc _ chunks b () cld hrep hload
  simp only [] at hclos
  obtain ⟨n3, tbl3, sc3, hp3, new3, b3, rfl, hc3, hr3, hb3, hj3⟩ :=
    stream_emit OpClosure _ _ rfl rfl (by decide) (by decide) _ _ pre sc2 _ _ b2 p ccl hr2 hclos
  obtain ⟨n4, tbl4, sc4, hp4, new4, b4, rfl, hc4, hr4, hb4, hj4⟩ :=
    stream_emit_set (t.Define name).1 _ _ pre sc3 _ _ b3 p2 c1 hr3 hset
  refine ⟨n0 ++ n1 ++ n2 ++ [.CompiledFunction hp2 ⟨scr.instructions, tb.count, params.length⟩]
      ++ n3 ++ n4, tbl4, sc4, hp4, new2 ++ new3 ++ new4, b4, ?_, ?_, ?_, ?_, ?_⟩
  · simp only [List.append_assoc]
  · intro o ho
    simp only [List.mem_append, List.mem_singleton] at ho
    rcases ho with ((((ho | ho) | ho) | ho) | ho) | ho
    · exact hc0 o ho
    · exact hc1 o ho
    · exact hc2 o ho
    · subst ho
      intro a fn hfn1
      cases hfn1
      exact hfn _ _
    · exact hc3 o ho
    · exact hc4 o ho
  · simp only [List.append_assoc] at hr4 ⊢
    exact hr4
  · omega
  · exact jumpsBelow_append (jumpsBelow_append (jumpsBelow_mono hj2 (by omega))
      (jumpsBelow_mono hj3 hb4)) hj4

theorem stream_compileEntries (ks : Node → String) (l : List (Node × Node))
    (h : ∀ p ∈ l, StreamSpec (Compile ks p.1) ∧ StreamSpec (Compile ks p.2)) :
    StreamSpec (compileEntries ks l) := by
  induction l with
  | nil => exact stream_pure _
  | cons p rest ih =>
    obtain ⟨k, v⟩ := p
    unfold compileEntries
    exact stream_bind (h _ (List.mem_cons_self _ _)).1 (fun _ =>
      stream_bind (h _ (List.mem_cons_self _ _)).2 (fun _ =>
        ih (fun q hq => h q (List.mem_cons_of_mem _ hq))))

theorem stream_ifNone (ks : Node → String) (condition consequence : Node)
    (hcond : StreamSpec (Compile ks condition)) (hcons : StreamSpec (Compile ks consequence)) :
    StreamSpec (Compile ks (.IfExpr condition consequence none)) := by
  intro cs tbl pre sc hp chunks b a c1 hrep h
  cases a
  obtain ⟨newcs, tbl1, sc1, hp1, n1, n2, t1, t2, b1, hc, hcs, hr, -, -, hb, hj⟩ :=
    ifExpr_none_spec ks condition consequence hcond hcons cs tbl pre sc hp chunks b c1 hrep h
  exact ⟨newcs, tbl1, sc1, hp1, _, b1, hc, hcs, hr, hb, hj⟩

theorem stream_ifSome (ks : Node → String) (condition consequence alternative : Node)
    (hcond : StreamSpec (Compile ks condition)) (hcons : StreamSpec (Compile ks consequence))
    (halt : StreamSpec (Compile ks alternative)) :
    StreamSpec (Compile ks (.IfExpr condition consequence (some alternative))) := by
  intro cs tbl pre sc hp chunks b a c1 hrep h
  cases a
  obtain ⟨newcs, tbl1, sc1, hp1, n1, n2, n3, t1, t2, b1, hc, hcs, hr, -, -, hb, hj⟩ :=
    ifExpr_some_spec ks condition consequence alternative hcond hcons halt cs tbl pre sc hp
      chunks b c1 hrep h
  exact ⟨newcs, tbl1, sc1, hp1, _, b1, hc, hcs, hr, hb, hj⟩

theorem constOK_Integer (a : Nat) (v : Int) : ConstOK (.Integer a v) :=
  fun _ _ h => by cases h

theorem constOK_Stringer (a : Nat) (v : String) : ConstOK (.Stringer a v) :=
  fun _ _ h => by cases h

/-- Compiling a node from a state whose current scope is represented: with no error, the
scope is still represented, by the instructions it had followed by new complete
instructions, and the constants added are sound. -/
theorem stream_Compile (ks : Node → String) (n : Node) : StreamSpec (Compile ks n) := by
  refine @Node.induction (fun n => StreamSpec (Compile ks n))
    (fun l => StreamSpec (CompileList ks l))
    (fun ps => ∀ p ∈ ps, StreamSpec (Compile ks p.1) ∧ StreamSpec (Compile ks p.2))
    ?_ ?_ ?_ ?_ ?_ ?_ ?_ ?_ ?_ ?_ ?_ ?_ ?_ ?_ ?_ ?_ ?_ ?_ ?_ ?_ ?_ ?_ n
  case refine_5 =>
    intro elements ih
    rw [Compile, sortByKey_CompilePairs, runAll_CompilePairs]
    exact stream_bind (stream_compileEntries ks _ (fun p hp =>
      ih p ((sortEntries_perm ks elements).mem_iff.mp hp)))
      (fun _ => stream_bind (stream_emit _ _ _ rfl rfl (by decide) (by decide))
        (fun _ => stream_pure _))
  case refine_10 =>
    intro condition consequence h1 h2
    exact stream_ifNone ks condition consequence h1 h2
  case refine_11 =>
    intro condition consequence alternative h1 h2 h3
    exact stream_ifSome ks condition consequence alternative h1 h2 h3
  case refine_13 =>
    intro name params body ih
    exact stream_funcExpr ks name params body ih
  case refine_19 =>
    show StreamSpec (CompileList ks [])
    rw [CompileList]
    exact stream_pure _
  case refine_21 => intro p hp; cases hp
  case refine_22 =>
    intro k v rest h1 h2 h3 p hp
    rcases List.mem_cons.mp hp with rfl | hp
    · exact ⟨h1, h2⟩
    · exact h3 p hp
  all_goals intros
  all_goals first
    | rw [Compile]
    | rw [CompileList]
  all_goals repeat' (first
    | exact stream_emit _ _ _ rfl rfl (by decide) (by decide)
    | exact stream_addConstant _ (constOK_Integer _ _)
    | exact stream_addConstant _ (constOK_Stringer _ _)
    | with_reducible first
      | assumption
      | exact stream_onSymbolTable _
      | exact stream_alloc
      | exact stream_loadSymbol _
      | exact stream_emitInfix _
      | exact stream_emitPrefixOp _
      | exact stream_pure _ | exact stream_fail _
      | apply stream_bind | intro _ | apply stream_ite)

theorem instrs_of_chunks (chunks : List (List Nat)) (h : ∀ k ∈ chunks, isInstr k) :
    ∃ instrs, List.Forall₂ (fun p c => wellFormedInstr p ∧ Make p.1 p.2 = .ok c)
      instrs chunks := by
  induction chunks with
  | nil => exact ⟨[], List.Forall₂.nil⟩
  | cons k rest ih =>
    obtain ⟨p, hp⟩ := h k (List.mem_cons_self _ _)
    obtain ⟨instrs, hi⟩ := ih (fun x hx => h x (List.mem_cons_of_mem _ hx))
    exact ⟨p :: instrs, List.Forall₂.cons hp hi⟩

theorem decodes_of_chunks (chunks : List (List Nat)) (h : ∀ k ∈ chunks, isInstr k) :
    DecodesCompletely chunks.flatten := by
  obtain ⟨instrs, hi⟩ := instrs_of_chunks chunks h
  refine ⟨instrs, chunks, hi, rfl, fun fuel hfuel => ?_, ?_, fun o c ho hc => ?_⟩
  · have := stringLoop_spec instrs chunks hi [] "" fuel hfuel
    simpa [Instructions.String] using this
  · exact specOffsets_sorted _ _ (chunks_pos instrs chunks hi)
  · simpa using specOffsets_last chunks 0 o c ho hc

theorem decodes_of_fnOK {fn : CompiledFunction} (h : FnOK fn) :
    DecodesCompletely fn.Instructions := by
  obtain ⟨chunks, k, hi, ha, -, -⟩ := h
  rw [hi]
  exact decodes_of_chunks _ ha

/-- The state a fresh compiler is left in by a compilation that returns no error: its
only scope is represented by complete instructions, and the constants are sound. -/
theorem stream_fresh (ks : Node → String) (n : Node) (tbl : Option SymbolTable)
    (cs : List Object) (heap : Nat) (c1 : Compiler)
    (h : Compile ks n (NewCompilerWithSymbol tbl cs heap) = (.ok (), c1)) :
    ∃ newcs tbl1 sc1 hp1 chunks b1, c1 = ⟨cs ++ newcs, tbl1, [sc1], 0, hp1⟩
      ∧ (∀ o ∈ newcs, ConstOK o) ∧ ScopeRep sc1 chunks b1 ∧ jumpsBelow b1 chunks := by
  have e : NewCompilerWithSymbol tbl cs heap
      = ⟨cs, tbl, [] ++ [⟨[], ⟨0, 0⟩, ⟨0, 0⟩⟩], (([] : List CompilationScope).length : Nat),
          heap⟩ := rfl
  rw [e] at h
  obtain ⟨newcs, tbl1, sc1, hp1, new, b1, rfl, hc, hr, -, hj⟩ :=
    stream_Compile ks n cs tbl [] _ heap [] 1 () c1 rep_fresh h
  exact ⟨newcs, tbl1, sc1, hp1, new, b1, rfl, hc, hr, hj⟩

/-- **C31.** Compiled streams are well formed. When a fresh compiler compiles a program
without error, the instruction stream of the bytecode, and the instruction stream of
every compiled function among its constants, is a concatenation of complete instructions
with defined opcodes: the disassembler ends on it and lists these instructions, at
strictly increasing offsets, each instruction starting where the one before ends and the
last one ending at the end of the stream. -/
theorem C31_compiled_streams_well_formed (ks : Node → String) (program : Node) (heap : Nat)
    (bc : Bytecode) (h : compileProgram ks program heap = .ok bc) :
    DecodesCompletely bc.Instructions
    ∧ ∀ a fn, Object.CompiledFunction a fn ∈ bc.Constants →
        DecodesCompletely fn.Instructions := by
  unfold compileProgram at h
  rcases hc : Compile ks program (NewCompiler heap) with ⟨r, c1⟩
  rw [hc] at h
  cases r with
  | error e => cases h
  | ok u =>
    cases u
    obtain ⟨newcs, tbl1, sc1, hp1, chunks, b1, rfl, hcs, hr, -⟩ :=
      stream_fresh ks program _ [] heap c1 hc
    have hb := curInstructions_eq ([] ++ newcs) tbl1 [] [] sc1 hp1
    simp only [Compiler.Bytecode, M_bind_apply, M_pure_apply, M.get] at h
    rw [show (0 : Int) = (([] : List CompilationScope).length : Nat) from rfl,
      show [sc1] = [] ++ sc1 :: [] from rfl, hb] at h
    simp only [Except.ok.injEq] at h
    subst h
    refine ⟨?_, fun a fn hfn => ?_⟩
    · simp only [hr.1]
      exact decodes_of_chunks _ hr.2.1
    · simp only [List.nil_append] at hfn
      exact decodes_of_fnOK (hcs _ hfn a fn rfl)

/-- C31 on the program `func test1(a) { func test2(b) { a + b }  return test2 }
test1(1)(2)`. -/
theorem C31_compiled_streams_well_formed_witness :
    compileProgram witnessKeyString (captureProgram 1 2) 0 = .ok (captureBytecode 1 2 0)
    ∧ DecodesCompletely (captureBytecode 1 2 0).Instructions
    ∧ ∀ a fn, Object.CompiledFunction a fn ∈ (captureBytecode 1 2 0).Constants →
        DecodesCompletely fn.Instructions :=
  ⟨compile_captureProgram witnessKeyString 1 2 0,
    C31_compiled_streams_well_formed witnessKeyString (captureProgram 1 2) 0 _
      (compile_captureProgram witnessKeyString 1 2 0)⟩

theorem concat_singleton_inj {α : Type} {l l1 : List α} {a b : α}
    (h : l ++ [a] = l1 ++ [b]) : l = l1 ∧ a = b := by
  have h1 := List.append_inj' h rfl
  exact ⟨h1.1, by simpa using h1.2⟩

/-- **C33.** Every function ends in a return. A function expression is compiled without
error from a state whose current scope is the last one. Then the body was compiled
without error in a scope of its own, whose stream at the end of the body is a
concatenation of complete instructions `bodyChunks`; the compiled function is the
constant appended last; its stream is not empty and is a concatenation of complete
instructions of which the last is `OpReturnValue` or `OpReturn`. When the stream of the
body ends with `OpPop`, the function's stream is the body's with that `OpPop` overwritten
by `OpReturnValue` (same length); when it ends with `OpReturnValue`, it is the body's
stream; when the body's stream is empty or ends with any other instruction, it is the
body's stream followed by one `OpReturn`. -/
theorem C33_function_ends_in_return (ks : Node → String) (name : String)
    (params : List String) (body : Node) (c c1 : Compiler)
    (hidx : c.scopeIndex + 1 = (c.scopes.length : Int))
    (h : Compile ks (.FuncExpr name params body) c = (.ok (), c1)) :
    ∃ t cp cb scb bodyChunks fn,
      c.symbolTable = some t
      ∧ defineParams params ⟨c.constants,
          some (.mk (storeSet [] name ⟨FunctionScope, 0, name⟩) 0 (some (t.Define name).2) []),
          c.scopes ++ [⟨[], ⟨0, 0⟩, ⟨0, 0⟩⟩], c.scopeIndex + 1, c.heap⟩ = (.ok (), cp)
      ∧ Compile ks body cp = (.ok (), cb)
      ∧ cb.scopes = c.scopes ++ [scb] ∧ scb.instructions = bodyChunks.flatten
      ∧ (∀ k ∈ bodyChunks, isInstr k)
      ∧ c1.constants = cb.constants ++ [.CompiledFunction cb.heap fn]
      ∧ fn.NumParameters = params.length
      ∧ fn.Instructions ≠ []
      ∧ (∃ ks1 k, fn.Instructions = (ks1 ++ [k]).flatten ∧ (∀ x ∈ ks1 ++ [k], isInstr x)
          ∧ (k = [OpReturnValue] ∨ k = [OpReturn]))
      ∧ (∀ ks1, bodyChunks = ks1 ++ [[OpPop]] →
          fn.Instructions = ks1.flatten ++ [OpReturnValue]
          ∧ fn.Instructions.length = scb.instructions.length)
      ∧ (∀ ks1, bodyChunks = ks1 ++ [[OpReturnValue]] → fn.Instructions = scb.instructions)
      ∧ ((bodyChunks = [] ∨ ∃ ks1 k op, bodyChunks = ks1 ++ [k] ∧ k.head? = some op
            ∧ op ≠ OpPop ∧ op ≠ OpReturnValue) →
          fn.Instructions = scb.instructions ++ [OpReturn]) := by
  obtain ⟨cs, tbl, scopes, idx, hp⟩ := c
  simp only [] at hidx
  obtain ⟨t, cp, cb, cr, ht, hdp, hbody, hret, hclose⟩ := funcExpr_ok h
  simp only [] at ht hdp
  subst ht
  refine ⟨t, cp, cb, ?_⟩
  have hdp0 := hdp
  rw [hidx] at hdp
  obtain ⟨n0, tbl0, sc0, hp0, new0, b0, rfl, hc0, hr0, hb0, hj0⟩ :=
    stream_defineParams params cs _ scopes _ hp [] 1 () cp rep_fresh hdp
  obtain ⟨n1, tbl1, sc1, hp1, new1, b1, rfl, hc1, hr1, hb1, hj1⟩ :=
    stream_Compile ks body _ _ _ _ _ _ _ () cb hr0 hbody
  have hjall : jumpsBelow b1 (([] ++ new0) ++ new1) :=
    jumpsBelow_append (jumpsBelow_append (jumpsBelow_nil _) (jumpsBelow_mono hj0 hb1)) hj1
  obtain ⟨scr, hcr, hfn⟩ := returnFix_fnOK _ _ _ _ _ _ _ _ hr1 hjall hret
  obtain ⟨scr1, hcr1, hcase⟩ := returnFix_spec _ _ _ _ _ _ _ _ hr1 hret
  have hsame : scr1 = scr := by
    rw [hcr] at hcr1
    simp only [Compiler.mk.injEq, List.append_cancel_left_eq, List.cons.injEq, and_true,
      true_and] at hcr1
    exact hcr1.symm
  subst hsame
  subst hcr
  obtain ⟨tb, ins, cl, cld, ccl, p, p2, htb, hleave, hload, hclos, hset⟩ :=
    closeFunction_ok hclose
  simp only [] at htb
  subst htb
  rw [leaveScope_eq] at hleave
  simp only [Prod.mk.injEq, Except.ok.injEq] at hleave
  obtain ⟨rfl, rfl⟩ := hleave
  have h1 := scopeStep_loadSymbols tb.Context
    ⟨cs ++ n0 ++ n1, tb.External, scopes, (scopes.length : Int) - 1, hp1⟩
  rw [hload] at h1
  simp only [] at h1
  have h2 := scopeStep_emit OpClosure [(cld.constants.length : Int), (tb.Context.length : Int)]
    ⟨cld.constants ++ [.CompiledFunction cld.heap ⟨scr1.instructions, tb.count, params.length⟩],
      cld.symbolTable, cld.scopes, cld.scopeIndex, cld.heap + 1⟩
  rw [hclos] at h2
  simp only [] at h2
  have h3 := scopeStep_emit
    (if (t.Define name).1.Scope = GlobalScope then OpSetGlobal else OpSetLocal)
    [(t.Define name).1.Index] ccl
  rw [hset] at h3
  simp only [] at h3
  have hlen : sc1.instructions.length = (([] ++ new0) ++ new1).flatten.length := by
    rw [hr1.1]
  refine ⟨sc1, ([] ++ new0) ++ new1, ⟨scr1.instructions, tb.count, params.length⟩, rfl, hdp0,
    hbody, rfl, hr1.1, hr1.2.1, ?_, rfl, ?_, ?_, ?_, ?_, ?_⟩
  · rw [h3.1, h2.1, h1.1, h1.2.2.1]
  · obtain ⟨chunks, k, hi, -, hk, -⟩ := hfn tb.count params.length
    simp only [] at hi
    rw [hi]
    rcases hk with rfl | rfl <;> simp
  · obtain ⟨chunks, k, hi, ha, hk, -⟩ := hfn tb.count params.length
    exact ⟨chunks, k, hi, ha, hk⟩
  · intro ks1 hks
    rcases hcase with ⟨ks2, hks2, -, -, hi⟩ | ⟨ks2, hks2, hi⟩ | ⟨hor, hi⟩
    · rw [hks] at hks2
      obtain ⟨rfl, -⟩ := concat_singleton_inj hks2
      simp only [hi, hlen, hks]
      simp
    · rw [hks] at hks2
      have := (concat_singleton_inj hks2).2
      simp [OpPop, OpReturnValue] at this
    · rcases hor with hnil | ⟨ks2, k, op, hks2, hk, hne, -⟩
      · rw [hks] at hnil
        simp at hnil
      · rw [hks] at hks2
        obtain ⟨-, rfl⟩ := concat_singleton_inj hks2
        simp only [List.head?_cons, Option.some.injEq] at hk
        exact absurd hk.symm hne
  · intro ks1 hks
    rcases hcase with ⟨ks2, hks2, -, -, hi⟩ | ⟨ks2, hks2, hi⟩ | ⟨hor, hi⟩
    · rw [hks] at hks2
      have := (concat_singleton_inj hks2).2
      simp [OpPop, OpReturnValue] at this
    · exact hi
    · rcases hor with hnil | ⟨ks2, k, op, hks2, hk, -, hne⟩
      · rw [hks] at hnil
        simp at hnil
      · rw [hks] at hks2
        obtain ⟨-, rfl⟩ := concat_singleton_inj hks2
        simp only [List.head?_cons, Option.some.injEq] at hk
        exact absurd hk.symm hne
  · intro hor
    rcases hcase with ⟨ks2, hks2, -, -, hi⟩ | ⟨ks2, hks2, hi⟩ | ⟨-, hi⟩
    · rcases hor with hnil | ⟨ks1, k, op, hks, hk, hne, -⟩
      · rw [hnil] at hks2
        simp at hks2
      · rw [hks] at hks2
        obtain ⟨-, rfl⟩ := concat_singleton_inj hks2
        simp only [List.head?_cons, Option.some.injEq] at hk
        exact absurd hk.symm hne
    · rcases hor with hnil | ⟨ks1, k, op, hks, hk, -, hne⟩
      · rw [hnil] at hks2
        simp at hks2
      · rw [hks] at hks2
        obtain ⟨-, rfl⟩ := concat_singleton_inj hks2
        simp only [List.head?_cons, Option.some.injEq] at hk
        exact absurd hk.symm hne
    · exact hi

/-- C33 on the function `func f(a) { var b = 1 }` compiled by a fresh compiler: the body
ends with `OpSetLocal`, and `OpReturn` is appended. -/
theorem C33_function_ends_in_return_witness :
    (NewCompiler 0).scopeIndex + 1 = ((NewCompiler 0).scopes.length : Int)
    ∧ Compile witnessKeyString (.FuncExpr "f" ["a"] (.BlockStmt [.VarStmt "b" (.Integer 1)]))
        (NewCompiler 0)
      = (.ok (), ⟨[.Integer 0 1, .CompiledFunction 1 ⟨[0, 0, 0, 23, 1, 18], 2, 1⟩],
          some (.mk [("f", ⟨GlobalScope, 0, "f"⟩), ("print", ⟨BuiltinScope, 1, "print"⟩),
            ("len", ⟨BuiltinScope, 0, "len"⟩)] 1 none []),
          [⟨[24, 0, 1, 0, 21, 0, 0], ⟨21, 4⟩, ⟨24, 0⟩⟩], 0, 2⟩)
    ∧ ∃ csb a fn ks1 k,
        [Object.Integer 0 1, .CompiledFunction 1 ⟨[0, 0, 0, 23, 1, 18], 2, 1⟩]
          = csb ++ [.CompiledFunction a fn]
        ∧ fn.Instructions ≠ [] ∧ fn.Instructions = (ks1 ++ [k]).flatten
        ∧ (k = [OpReturnValue] ∨ k = [OpReturn]) := by
  obtain ⟨t, cp, cb, scb, bc, fn, -, -, -, -, -, -, hc, -, hne, ⟨ks1, k, hi, -, hk⟩, -⟩ :=
    C33_function_ends_in_return witnessKeyString "f" ["a"]
      (.BlockStmt [.VarStmt "b" (.Integer 1)]) (NewCompiler 0) _ (by decide)
      compile_locals_example
  exact ⟨by decide, compile_locals_example, cb.constants, cb.heap, fn, ks1, k, hc, hne, hi, hk⟩

theorem loadSymbol_exact (s : Symbol) (cs : List Object) (tbl : Option SymbolTable)
    (pre : List CompilationScope) (sc : CompilationScope) (hp : Nat) :
    ∃ sc1, loadSymbol s ⟨cs, tbl, pre ++ [sc], pre.length, hp⟩
        = (.ok (), ⟨cs, tbl, pre ++ [sc1], pre.length, hp⟩)
      ∧ sc1.instructions = sc.instructions ++ loadCode s := by
  cases hs : specLoad s with
  | none =>
    refine ⟨sc, ?_, by simp [loadCode, hs]⟩
    unfold specLoad at hs
    unfold loadSymbol
    split_ifs at hs with h1 h2 h3 h4 h5
    rw [if_neg h1, if_neg h2, if_neg h3, if_neg h4, if_neg h5]
    rfl
  | some p =>
    obtain ⟨op, operands⟩ := p
    have hd : ∃ d, definitions op = some d := by
      unfold specLoad at hs
      split_ifs at hs <;> simp only [Option.some.injEq, Prod.mk.injEq] at hs <;>
        obtain ⟨rfl, rfl⟩ := hs <;> exact ⟨_, rfl⟩
    obtain ⟨d, hd⟩ := hd
    exact ⟨_, (loadSymbol_eq s op operands d hs hd cs tbl pre [] sc hp).2,
      by simp [loadCode, hs, hd]⟩

theorem loadSymbols_exact (l : List Symbol) (cs : List Object) (tbl : Option SymbolTable)
    (pre : List CompilationScope) (sc : CompilationScope) (hp : Nat) :
    ∃ sc1, loadSymbols l ⟨cs, tbl, pre ++ [sc], pre.length, hp⟩
        = (.ok (), ⟨cs, tbl, pre ++ [sc1], pre.length, hp⟩)
      ∧ sc1.instructions = sc.instructions ++ (l.map loadCode).flatten := by
  induction l generalizing sc with
  | nil => exact ⟨sc, rfl, by simp⟩
  | cons s rest ih =>
    obtain ⟨sc0, h0, hi0⟩ := loadSymbol_exact s cs tbl pre sc hp
    obtain ⟨sc1, h1, hi1⟩ := ih sc0
    refine ⟨sc1, ?_, ?_⟩
    · rw [loadSymbols, M_bind_apply, h0]
      exact h1
    · rw [hi1, hi0]
      simp

/-- **C34.** Closure emission. A function expression is compiled without error from a
state whose current scope `sc` is the last one. With `tb` the table of the function's
scope when its body has been compiled and `fn` the compiled function, the constants at
the end are those at the end of the body followed by `fn`, the enclosing scopes are as
they were, and the stream of the current scope is the one it had, followed by exactly:
the load instruction of each symbol of `tb.Context` in order (chosen by the symbol's scope
and index), `OpClosure c k` with `c` the index of `fn` among the constants and `k` the
length of `tb.Context`, and `OpSetGlobal` or `OpSetLocal` (by the scope of the symbol that
`Define` gave the function's name in the enclosing table) with the index of that symbol. -/
theorem C34_closure_emission (ks : Node → String) (name : String) (params : List String)
    (body : Node) (cs : List Object) (tbl : Option SymbolTable)
    (pre : List CompilationScope) (sc : CompilationScope) (hp : Nat) (c1 : Compiler)
    (h : Compile ks (.FuncExpr name params body) ⟨cs, tbl, pre ++ [sc], pre.length, hp⟩
      = (.ok (), c1)) :
    ∃ t cp cb tb fn sc1,
      tbl = some t
      ∧ defineParams params ⟨cs,
          some (.mk (storeSet [] name ⟨FunctionScope, 0, name⟩) 0 (some (t.Define name).2) []),
          (pre ++ [sc]) ++ [⟨[], ⟨0, 0⟩, ⟨0, 0⟩⟩], (pre.length : Int) + 1, hp⟩ = (.ok (), cp)
      ∧ Compile ks body cp = (.ok (), cb)
      ∧ cb.symbolTable = some tb
      ∧ c1.constants = cb.constants ++ [.CompiledFunction cb.heap fn]
      ∧ c1.constants[cb.constants.length]? = some (.CompiledFunction cb.heap fn)
      ∧ c1.scopes = pre ++ [sc1]
      ∧ sc1.instructions = sc.instructions ++ (tb.Context.map loadCode).flatten
          ++ specInstruction OpClosure [2, 1]
              [(cb.constants.length : Int), (tb.Context.length : Int)]
          ++ (if (t.Define name).1.Scope = GlobalScope
              then specInstruction OpSetGlobal [2] [(t.Define name).1.Index]
              else specInstruction OpSetLocal [1] [(t.Define name).1.Index]) := by
  obtain ⟨t, cp, cb, cr, ht, hdp, hbody, hret, hclose⟩ := funcExpr_ok h
  simp only [] at ht hdp
  subst ht
  have hdp0 := hdp
  have e : ((pre.length : Int) + 1) = ((pre ++ [sc]).length : Nat) := by simp
  rw [e] at hdp
  obtain ⟨n0, tbl0, sc0, hp0, new0, b0, rfl, hc0, hr0, hb0, hj0⟩ :=
    stream_defineParams params cs _ (pre ++ [sc]) _ hp [] 1 () cp rep_fresh hdp
  obtain ⟨n1, tbl1, scb, hp1, new1, b1, rfl, hc1, hr1, hb1, hj1⟩ :=
    stream_Compile ks body _ _ _ _ _ _ _ () cb hr0 hbody
  obtain ⟨scr, rfl, -⟩ := returnFix_spec _ _ _ _ _ _ _ _ hr1 hret
  obtain ⟨tb, ins, cl, cld, ccl, p, p2, htb, hleave, hload, hclos, hset⟩ :=
    closeFunction_ok hclose
  simp only [] at htb
  subst htb
  rw [leaveScope_eq] at hleave
  have e2 : (((pre ++ [sc]).length : Nat) : Int) - 1 = (pre.length : Nat) := by simp
  rw [e2] at hleave
  simp only [Prod.mk.injEq, Except.ok.injEq] at hleave
  obtain ⟨rfl, rfl⟩ := hleave
  obtain ⟨scl, hl, hil⟩ := loadSymbols_exact tb.Context (cs ++ n0 ++ n1) tb.External pre sc hp1
  rw [hl] at hload
  simp only [Prod.mk.injEq, Except.ok.injEq, true_and] at hload
  subst hload
  simp only [] at hclos
  rw [emit_eq _ _ pre [] scl _ OpClosure _ _ (make_eq_spec OpClosure ⟨"OpClosure", [2, 1]⟩
    [((cs ++ n0 ++ n1).length : Int), (tb.Context.length : Int)] rfl rfl)] at hclos
  simp only [Prod.mk.injEq, Except.ok.injEq] at hclos
  obtain ⟨rfl, rfl⟩ := hclos
  by_cases hg : (t.Define name).1.Scope = GlobalScope
  · rw [if_pos hg, emit_eq _ _ pre [] _ _ OpSetGlobal _ _ (make_eq_spec OpSetGlobal
      ⟨"OpSetGlobal", [2]⟩ [(t.Define name).1.Index] rfl rfl)] at hset
    simp only [Prod.mk.injEq, Except.ok.injEq] at hset
    obtain ⟨rfl, rfl⟩ := hset
    refine ⟨t, _, _, tb, ⟨scr.instructions, tb.count, params.length⟩, _, rfl, hdp0, hbody,
      rfl, rfl, ?_, rfl, ?_⟩
    · exact List.getElem?_concat_length _ _
    · simp only [hil, if_pos hg, List.append_assoc]
  · rw [if_neg hg, emit_eq _ _ pre [] _ _ OpSetLocal _ _ (make_eq_spec OpSetLocal
      ⟨"OpSetLocal", [1]⟩ [(t.Define name).1.Index] rfl rfl)] at hset
    simp only [Prod.mk.injEq, Except.ok.injEq] at hset
    obtain ⟨rfl, rfl⟩ := hset
    refine ⟨t, _, _, tb, ⟨scr.instructions, tb.count, params.length⟩, _, rfl, hdp0, hbody,
      rfl, rfl, ?_, rfl, ?_⟩
    · exact List.getElem?_concat_length _ _
    · simp only [hil, if_neg hg, List.append_assoc]

/-- The function `func test2(b) { a + b }` compiled in the scope of a function that holds
the local `a`. -/
theorem compile_capture_inner :
    Compile witnessKeyString (.FuncExpr "test2" ["b"] captureBody)
        ⟨[], some captureTable, [⟨[], ⟨0, 0⟩, ⟨0, 0⟩⟩, ⟨[], ⟨0, 0⟩, ⟨0, 0⟩⟩], 1, 0⟩
      = (.ok (), ⟨[.CompiledFunction 0 ⟨[25, 0, 22, 0, 5, 17], 1, 1⟩],
          some (.mk [("test2", ⟨LocalScope, 1, "test2"⟩), ("a", ⟨LocalScope, 0, "a"⟩)] 2
            (some (defineBuiltins builtinNames 0 NewSymbolTable)) []),
          [⟨[], ⟨0, 0⟩, ⟨0, 0⟩⟩, ⟨[22, 0, 24, 0, 0, 1, 23, 1], ⟨23, 6⟩, ⟨24, 2⟩⟩], 1, 1⟩) := by
  simp only [captureBody, captureTable]
  simp only [Compile, CompileList, NewCompiler, defineBuiltins,
    builtinNames, NewSymbolTable, NewEnclosedSymbolTable, SymbolTable.DefineBuiltin,
    SymbolTable.Define, SymbolTable.defineFunction, SymbolTable.GetDefine,
    SymbolTable.defineContext, SymbolTable.Context, SymbolTable.count, SymbolTable.External,
    SymbolTable.store, storeGet, storeSet,
    M_bind_apply, M_pure_apply, M.get, M.set, M.lift, M.fail,
    onSymbolTable, curScope, setCurScope, curInstructions, addConstant, addInstruction,
    setLastInstruction, emit, lastInstructionIs, removeLastPop, replaceInstructionLoop,
    replaceInstruction, replaceLastPopWithReturn, changeOperand, leaveScope, enterScope,
    loadSymbol, loadSymbols, defineParams, finishFunction, stripLastPop, emitInfix, emitPrefixOp,
    Compiler.alloc, Compiler.Bytecode,
    Make_OpConstant, Make_OpPop, Make_OpAdd, Make_OpSub, Make_OpEQL, Make_OpReturnValue,
    Make_OpReturn, Make_OpCurrClosure, Make_OpNil, Make_OpCall, Make_OpGetGlobal,
    Make_OpSetGlobal, Make_OpGetLocal, Make_OpSetLocal, Make_OpContext, Make_OpClosure,
    Make_OpJump, Make_OpJumpConditionNotTrue, specInstruction, specOperandBytes,
    List.zipWith_cons_cons, List.zipWith_nil_right, List.zipWith_nil_left, List.flatten,
    List.append_nil, List.nil_append, List.cons_append, List.singleton_append, List.append_assoc,
    getAt, getIndex, setAt, setIndex,
    GlobalScope, LocalScope, BuiltinScope, ContextScope, FunctionScope,
    List.lookup, List.filter, List.length_cons, List.length_nil, List.length_append,
    List.getElem?_cons_zero, List.getElem?_cons_succ, List.set_cons_zero, List.set_cons_succ,
    List.take_succ_cons, List.take_zero, Option.isSome,
    String.reduceEq, String.reduceNe, String.reduceBEq, String.reduceBNe,
    Int.reduceSub, Int.reduceAdd, Int.reduceLT, Int.reduceLE, Int.reduceToNat, Int.reduceNeg,
    Int.reduceEq, Int.reduceMod, Int.reduceDiv,
    Nat.reduceAdd, Nat.reduceMul, Nat.reduceLT, Nat.reduceLeDiff, Nat.reduceEqDiff, Nat.reduceSub,
    Nat.reduceBEq, Nat.reduceBNe,
    Nat.cast_ofNat, Nat.cast_zero, Nat.cast_one, Int.toNat_zero, sub_zero, add_zero, zero_add,
    if_true, if_false, ite_true, ite_false, decide_True, decide_False, ge_iff_le, ne_eq,
    not_true_eq_false, not_false_eq_true, Bool.not_true, Bool.not_false, Bool.false_eq_true,
    Bool.true_or, Bool.or_true, Bool.or_false, Bool.false_or, beq_self_eq_true, bne_self_eq_false,
    Nat.zero_lt_succ, Nat.lt_add_one, or_true, true_or, Nat.add_assoc, lastInstruction_beq,
    reduceCtorEq]
  rfl

/-- The body of `test2` compiled after its parameter is defined: the reference to `a`
puts the symbol of `a` in the `Context` list. -/
theorem compile_capture_body :
    Compile witnessKeyString captureBody
        ⟨[], some (.mk [("b", ⟨LocalScope, 0, "b"⟩), ("test2", ⟨FunctionScope, 0, "test2"⟩)] 1
            (some (.mk [("test2", ⟨LocalScope, 1, "test2"⟩), ("a", ⟨LocalScope, 0, "a"⟩)] 2
              (some (defineBuiltins builtinNames 0 NewSymbolTable)) [])) []),
          [⟨[], ⟨0, 0⟩, ⟨0, 0⟩⟩, ⟨[], ⟨0, 0⟩, ⟨0, 0⟩⟩, ⟨[], ⟨0, 0⟩, ⟨0, 0⟩⟩], 2, 0⟩
      = (.ok (), ⟨[], some (.mk [("a", ⟨ContextScope, 0, "a"⟩), ("b", ⟨LocalScope, 0, "b"⟩),
              ("test2", ⟨FunctionScope, 0, "test2"⟩)] 1
            (some (.mk [("test2", ⟨LocalScope, 1, "test2"⟩), ("a", ⟨LocalScope, 0, "a"⟩)] 2
              (some (defineBuiltins builtinNames 0 NewSymbolTable)) []))
            [⟨LocalScope, 0, "a"⟩]),
          [⟨[], ⟨0, 0⟩, ⟨0, 0⟩⟩, ⟨[], ⟨0, 0⟩, ⟨0, 0⟩⟩, ⟨[25, 0, 22, 0, 5, 1], ⟨1, 5⟩, ⟨5, 4⟩⟩],
          2, 0⟩) := by
  simp only [captureBody]
  simp only [Compile, CompileList, NewCompiler, defineBuiltins,
    builtinNames, NewSymbolTable, NewEnclosedSymbolTable, SymbolTable.DefineBuiltin,
    SymbolTable.Define, SymbolTable.defineFunction, SymbolTable.GetDefine,
    SymbolTable.defineContext, SymbolTable.Context, SymbolTable.count, SymbolTable.External,
    SymbolTable.store, storeGet, storeSet,
    M_bind_apply, M_pure_apply, M.get, M.set, M.lift, M.fail,
    onSymbolTable, curScope, setCurScope, curInstructions, addConstant, addInstruction,
    setLastInstruction, emit, lastInstructionIs, removeLastPop, replaceInstructionLoop,
    replaceInstruction, replaceLastPopWithReturn, changeOperand, leaveScope, enterScope,
    loadSymbol, loadSymbols, defineParams, finishFunction, stripLastPop, emitInfix, emitPrefixOp,
    Compiler.alloc, Compiler.Bytecode,
    Make_OpConstant, Make_OpPop, Make_OpAdd, Make_OpSub, Make_OpEQL, Make_OpReturnValue,
    Make_OpReturn, Make_OpCurrClosure, Make_OpNil, Make_OpCall, Make_OpGetGlobal,
    Make_OpSetGlobal, Make_OpGetLocal, Make_OpSetLocal, Make_OpContext, Make_OpClosure,
    Make_OpJump, Make_OpJumpConditionNotTrue, specInstruction, specOperandBytes,
    List.zipWith_cons_cons, List.zipWith_nil_right, List.zipWith_nil_left, List.flatten,
    List.append_nil, List.nil_append, List.cons_append, List.singleton_append, List.append_assoc,
    getAt, getIndex, setAt, setIndex,
    GlobalScope, LocalScope, BuiltinScope, ContextScope, FunctionScope,
    List.lookup, List.filter, List.length_cons, List.length_nil, List.length_append,
    List.getElem?_cons_zero, List.getElem?_cons_succ, List.set_cons_zero, List.set_cons_succ,
    List.take_succ_cons, List.take_zero, Option.isSome,
    String.reduceEq, String.reduceNe, String.reduceBEq, String.reduceBNe,
    Int.reduceSub, Int.reduceAdd, Int.reduceLT, Int.reduceLE, Int.reduceToNat, Int.reduceNeg,
    Int.reduceEq, Int.reduceMod, Int.reduceDiv,
    Nat.reduceAdd, Nat.reduceMul, Nat.reduceLT, Nat.reduceLeDiff, Nat.reduceEqDiff, Nat.reduceSub,
    Nat.reduceBEq, Nat.reduceBNe,
    Nat.cast_ofNat, Nat.cast_zero, Nat.cast_one, Int.toNat_zero, sub_zero, add_zero, zero_add,
    if_true, if_false, ite_true, ite_false, decide_True, decide_False, ge_iff_le, ne_eq,
    not_true_eq_false, not_false_eq_true, Bool.not_true, Bool.not_false, Bool.false_eq_true,
    Bool.true_or, Bool.or_true, Bool.or_false, Bool.false_or, beq_self_eq_true, bne_self_eq_false,
    Nat.zero_lt_succ, Nat.lt_add_one, or_true, true_or, Nat.add_assoc, lastInstruction_beq,
    reduceCtorEq]
  rfl

theorem capture_params :
    defineParams ["b"]
        ⟨[], some (.mk (storeSet [] "test2" ⟨FunctionScope, 0, "test2"⟩) 0
            (some (captureTable.Define "test2").2) []),
          [⟨[], ⟨0, 0⟩, ⟨0, 0⟩⟩, ⟨[], ⟨0, 0⟩, ⟨0, 0⟩⟩, ⟨[], ⟨0, 0⟩, ⟨0, 0⟩⟩], 2, 0⟩
      = (.ok (), ⟨[], some (.mk [("b", ⟨LocalScope, 0, "b"⟩),
              ("test2", ⟨FunctionScope, 0, "test2"⟩)] 1
            (some (.mk [("test2", ⟨LocalScope, 1, "test2"⟩), ("a", ⟨LocalScope, 0, "a"⟩)] 2
              (some (defineBuiltins builtinNames 0 NewSymbolTable)) [])) []),
          [⟨[], ⟨0, 0⟩, ⟨0, 0⟩⟩, ⟨[], ⟨0, 0⟩, ⟨0, 0⟩⟩, ⟨[], ⟨0, 0⟩, ⟨0, 0⟩⟩], 2, 0⟩) := by
  simp only [captureTable]
  simp only [Compile, CompileList, NewCompiler, defineBuiltins,
    builtinNames, NewSymbolTable, NewEnclosedSymbolTable, SymbolTable.DefineBuiltin,
    SymbolTable.Define, SymbolTable.defineFunction, SymbolTable.GetDefine,
    SymbolTable.defineContext, SymbolTable.Context, SymbolTable.count, SymbolTable.External,
    SymbolTable.store, storeGet, storeSet,
    M_bind_apply, M_pure_apply, M.get, M.set, M.lift, M.fail,
    onSymbolTable, curScope, setCurScope, curInstructions, addConstant, addInstruction,
    setLastInstruction, emit, lastInstructionIs, removeLastPop, replaceInstructionLoop,
    replaceInstruction, replaceLastPopWithReturn, changeOperand, leaveScope, enterScope,
    loadSymbol, loadSymbols, defineParams, finishFunction, stripLastPop, emitInfix, emitPrefixOp,
    Compiler.alloc, Compiler.Bytecode,
    Make_OpConstant, Make_OpPop, Make_OpAdd, Make_OpSub, Make_OpEQL, Make_OpReturnValue,
    Make_OpReturn, Make_OpCurrClosure, Make_OpNil, Make_OpCall, Make_OpGetGlobal,
    Make_OpSetGlobal, Make_OpGetLocal, Make_OpSetLocal, Make_OpContext, Make_OpClosure,
    Make_OpJump, Make_OpJumpConditionNotTrue, specInstruction, specOperandBytes,
    List.zipWith_cons_cons, List.zipWith_nil_right, List.zipWith_nil_left, List.flatten,
    List.append_nil, List.nil_append, List.cons_append, List.singleton_append, List.append_assoc,
    getAt, getIndex, setAt, setIndex,
    GlobalScope, LocalScope, BuiltinScope, ContextScope, FunctionScope,
    List.lookup, List.filter, List.length_cons, List.length_nil, List.length_append,
    List.getElem?_cons_zero, List.getElem?_cons_succ, List.set_cons_zero, List.set_cons_succ,
    List.take_succ_cons, List.take_zero, Option.isSome,
    String.reduceEq, String.reduceNe, String.reduceBEq, String.reduceBNe,
    Int.reduceSub, Int.reduceAdd, Int.reduceLT, Int.reduceLE, Int.reduceToNat, Int.reduceNeg,
    Int.reduceEq, Int.reduceMod, Int.reduceDiv,
    Nat.reduceAdd, Nat.reduceMul, Nat.reduceLT, Nat.reduceLeDiff, Nat.reduceEqDiff, Nat.reduceSub,
    Nat.reduceBEq, Nat.reduceBNe,
    Nat.cast_ofNat, Nat.cast_zero, Nat.cast_one, Int.toNat_zero, sub_zero, add_zero, zero_add,
    if_true, if_false, ite_true, ite_false, decide_True, decide_False, ge_iff_le, ne_eq,
    not_true_eq_false, not_false_eq_true, Bool.not_true, Bool.not_false, Bool.false_eq_true,
    Bool.true_or, Bool.or_true, Bool.or_false, Bool.false_or, beq_self_eq_true, bne_self_eq_false,
    Nat.zero_lt_succ, Nat.lt_add_one, or_true, true_or, Nat.add_assoc, lastInstruction_beq,
    reduceCtorEq]

/-- C34 on the function `func test2(b) { a + b }` compiled in the scope of a function
that holds the local `a`: the `Context` list of `test2` is the symbol of `a`, and the
enclosing scope receives `OpGetLocal 0`, `OpClosure 0 1` and `OpSetLocal 1`. -/
theorem C34_closure_emission_witness :
    Compile witnessKeyString (.FuncExpr "test2" ["b"] captureBody)
        ⟨[], some captureTable, [⟨[], ⟨0, 0⟩, ⟨0, 0⟩⟩] ++ [⟨[], ⟨0, 0⟩, ⟨0, 0⟩⟩],
          (([⟨[], ⟨0, 0⟩, ⟨0, 0⟩⟩] : List CompilationScope).length : Nat), 0⟩
      = (.ok (), ⟨[.CompiledFunction 0 ⟨[25, 0, 22, 0, 5, 17], 1, 1⟩],
          some (.mk [("test2", ⟨LocalScope, 1, "test2"⟩), ("a", ⟨LocalScope, 0, "a"⟩)] 2
            (some (defineBuiltins builtinNames 0 NewSymbolTable)) []),
          [⟨[], ⟨0, 0⟩, ⟨0, 0⟩⟩, ⟨[22, 0, 24, 0, 0, 1, 23, 1], ⟨23, 6⟩, ⟨24, 2⟩⟩], 1, 1⟩)
    ∧ ∃ (tb : SymbolTable) (n : Nat) (sc1 : CompilationScope),
        tb.Context = [⟨LocalScope, 0, "a"⟩]
        ∧ (tb.Context.map loadCode).flatten = [OpGetLocal, 0]
        ∧ sc1 = ⟨[22, 0, 24, 0, 0, 1, 23, 1], ⟨23, 6⟩, ⟨24, 2⟩⟩
        ∧ sc1.instructions = [] ++ (tb.Context.map loadCode).flatten
          ++ specInstruction OpClosure [2, 1] [(n : Int), (tb.Context.length : Int)]
          ++ (if (captureTable.Define "test2").1.Scope = GlobalScope
              then specInstruction OpSetGlobal [2] [(captureTable.Define "test2").1.Index]
              else specInstruction OpSetLocal [1] [(captureTable.Define "test2").1.Index]) := by
  obtain ⟨t, cp, cb, tb, fn, sc1, ht, hdp, hbody, htb, -, -, hs, hi⟩ :=
    C34_closure_emission witnessKeyString "test2" ["b"] captureBody
      [] _ [⟨[], ⟨0, 0⟩, ⟨0, 0⟩⟩] ⟨[], ⟨0, 0⟩, ⟨0, 0⟩⟩ 0 _ compile_capture_inner
  cases ht
  have hdp1 : defineParams ["b"]
        ⟨[], some (.mk (storeSet [] "test2" ⟨FunctionScope, 0, "test2"⟩) 0
            (some (captureTable.Define "test2").2) []),
          [⟨[], ⟨0, 0⟩, ⟨0, 0⟩⟩, ⟨[], ⟨0, 0⟩, ⟨0, 0⟩⟩, ⟨[], ⟨0, 0⟩, ⟨0, 0⟩⟩], 2, 0⟩
      = (.ok (), cp) := hdp
  rw [capture_params] at hdp1
  cases hdp1
  rw [compile_capture_body] at hbody
  cases hbody
  cases htb
  have hsc : sc1 = ⟨[22, 0, 24, 0, 0, 1, 23, 1], ⟨23, 6⟩, ⟨24, 2⟩⟩ := by
    simpa using hs.symm
  refine ⟨compile_capture_inner, _, _, sc1, ?_, ?_, hsc, hi⟩
  · rfl
  · rfl

theorem Make_OpGTR_eq : Make OpGTR [] = .ok [OpGTR] := rfl

theorem compile_less (ks : Node → String) (l r : Node) :
    Compile ks (.InfixExpr "<" l r) = (do
      Compile ks r
      Compile ks l
      let _ ← emit OpGTR []) := by
  rw [Compile, if_pos rfl]

/-- **C12.** The rewrite of `<`. Compiling `l < r` is, as a function of the state of the
compiler, the same as compiling `r > l`: same result (error or not), same instructions,
constants and symbol table. Both are: the code of the right operand `r` of `<`, then the
code of the left operand `l`, then the emission of `OpGTR`. An error of `r`, or of `l`
after `r`, is the result, with the state it left. When both compile, the result is the
state after `l` with the one byte `OpGTR` appended to the current scope. From a state
whose current scope is represented by complete instructions, the stream at the end is the
stream at the start, the bytes `codeR` that compiling `r` appends, the bytes `codeL` that
compiling `l` appends after them, and `OpGTR`. -/
theorem C12_less_rewrite (ks : Node → String) (l r : Node) :
    Compile ks (.InfixExpr "<" l r) = Compile ks (.InfixExpr ">" r l)
    ∧ Compile ks (.InfixExpr "<" l r) = (do
        Compile ks r
        Compile ks l
        let _ ← emit OpGTR [])
    ∧ (∀ c e c1, Compile ks r c = (.error e, c1) →
        Compile ks (.InfixExpr "<" l r) c = (.error e, c1))
    ∧ (∀ c c1 e c2, Compile ks r c = (.ok (), c1) → Compile ks l c1 = (.error e, c2) →
        Compile ks (.InfixExpr "<" l r) c = (.error e, c2))
    ∧ (∀ c c1 cs tbl pre sc post hp, Compile ks r c = (.ok (), c1) →
        Compile ks l c1 = (.ok (), ⟨cs, tbl, pre ++ sc :: post, pre.length, hp⟩) →
        Compile ks (.InfixExpr "<" l r) c
          = (.ok (), ⟨cs, tbl, pre ++ ⟨sc.instructions ++ [OpGTR],
              ⟨OpGTR, sc.instructions.length⟩, sc.lastInstruction⟩ :: post, pre.length, hp⟩))
    ∧ (∀ cs tbl pre sc hp chunks b c3, ScopeRep sc chunks b →
        Compile ks (.InfixExpr "<" l r) ⟨cs, tbl, pre ++ [sc], pre.length, hp⟩ = (.ok (), c3) →
        ∃ c1 c2 sc1 sc2 codeR codeL,
          Compile ks r ⟨cs, tbl, pre ++ [sc], pre.length, hp⟩ = (.ok (), c1)
          ∧ Compile ks l c1 = (.ok (), c2)
          ∧ c1.scopes = pre ++ [sc1] ∧ sc1.instructions = sc.instructions ++ codeR
          ∧ c2.scopes = pre ++ [sc2] ∧ sc2.instructions = sc.instructions ++ codeR ++ codeL
          ∧ c3 = ⟨c2.constants, c2.symbolTable,
              pre ++ [⟨sc.instructions ++ codeR ++ codeL ++ [OpGTR],
                ⟨OpGTR, (sc.instructions ++ codeR ++ codeL).length⟩, sc2.lastInstruction⟩],
              pre.length, c2.heap⟩) := by
  refine ⟨?_, compile_less ks l r, ?_, ?_, ?_, ?_⟩
  · rw [Compile, Compile]
    simp only [emitInfix]
    simp
  · intro c e c1 h
    rw [compile_less, M_bind_apply, h]
  · intro c c1 e c2 h1 h2
    rw [compile_less, M_bind_apply, h1]
    simp only []
    rw [M_bind_apply, h2]
  · intro c c1 cs tbl pre sc post hp h1 h2
    rw [compile_less, M_bind_apply, h1]
    simp only []
    rw [M_bind_apply, h2]
    simp only []
    rw [M_bind_apply, emit_eq cs tbl pre post sc hp OpGTR [] _ Make_OpGTR_eq]
    rfl
  · intro cs tbl pre sc hp chunks b c3 hrep h
    rw [compile_less] at h
    obtain ⟨_, c1, h1, h⟩ := M_bind_ok h
    obtain ⟨_, c2, h2, h⟩ := M_bind_ok h
    obtain ⟨n1, tbl1, sc1, hp1, new1, b1, rfl, -, hr1, -, -⟩ :=
      stream_Compile ks r cs tbl pre sc hp chunks b _ c1 hrep h1
    obtain ⟨n2, tbl2, sc2, hp2, new2, b2, rfl, -, hr2, -, -⟩ :=
      stream_Compile ks l _ _ pre sc1 _ _ b1 _ c2 hr1 h2
    rw [M_bind_apply, emit_eq _ _ pre [] sc2 _ OpGTR [] _ Make_OpGTR_eq] at h
    have e1 : sc1.instructions = sc.instructions ++ new1.flatten := by
      rw [hr1.1, hrep.1, List.flatten_append]
    have e2 : sc2.instructions = sc.instructions ++ new1.flatten ++ new2.flatten := by
      rw [hr2.1, hrep.1, List.flatten_append, List.flatten_append]
    refine ⟨_, _, sc1, sc2, new1.flatten, new2.flatten, h1, h2, rfl, e1, rfl, e2, ?_⟩
    cases h
    simp only [e2]

/-- C12 on `1 < 2` compiled by a fresh compiler: the constant `2` is loaded first, then
the constant `1`, then comes `OpGTR`. -/
theorem C12_less_rewrite_witness :
    Compile witnessKeyString (.Integer 2) (NewCompiler 0)
      = (.ok (), ⟨[.Integer 0 2], some (defineBuiltins builtinNames 0 NewSymbolTable),
          [⟨[OpConstant, 0, 0], ⟨OpConstant, 0⟩, ⟨0, 0⟩⟩], 0, 1⟩)
    ∧ Compile witnessKeyString (.Integer 1)
        ⟨[.Integer 0 2], some (defineBuiltins builtinNames 0 NewSymbolTable),
          [⟨[OpConstant, 0, 0], ⟨OpConstant, 0⟩, ⟨0, 0⟩⟩], 0, 1⟩
      = (.ok (), ⟨[.Integer 0 2, .Integer 1 1],
          some (defineBuiltins builtinNames 0 NewSymbolTable),
          [] ++ ⟨[OpConstant, 0, 0, OpConstant, 0, 1], ⟨OpConstant, 3⟩, ⟨OpConstant, 0⟩⟩ :: [],
          (([] : List CompilationScope).length : Nat), 2⟩)
    ∧ Compile witnessKeyString (.InfixExpr "<" (.Integer 1) (.Integer 2)) (NewCompiler 0)
      = (.ok (), ⟨[.Integer 0 2, .Integer 1 1],
          some (defineBuiltins builtinNames 0 NewSymbolTable),
          [] ++ ⟨[OpConstant, 0, 0, OpConstant, 0, 1] ++ [OpGTR], ⟨OpGTR, 6⟩,
            ⟨OpConstant, 3⟩⟩ :: [],
          (([] : List CompilationScope).length : Nat), 2⟩) := by
  have h1 : Compile witnessKeyString (.Integer 2) (NewCompiler 0)
      = (.ok (), ⟨[.Integer 0 2], some (defineBuiltins builtinNames 0 NewSymbolTable),
          [⟨[OpConstant, 0, 0], ⟨OpConstant, 0⟩, ⟨0, 0⟩⟩], 0, 1⟩) := by
    simp only [Compile, CompileList, NewCompiler, defineBuiltins,
      builtinNames, NewSymbolTable, NewEnclosedSymbolTable, SymbolTable.DefineBuiltin,
      SymbolTable.Define, SymbolTable.defineFunction, SymbolTable.GetDefine,
      SymbolTable.defineContext, SymbolTable.Context, SymbolTable.count, SymbolTable.External,
      SymbolTable.store, storeGet, storeSet,
      M_bind_apply, M_pure_apply, M.get, M.set, M.lift, M.fail,
      onSymbolTable, curScope, setCurScope, curInstructions, addConstant, addInstruction,
      setLastInstruction, emit, lastInstructionIs, removeLastPop, replaceInstructionLoop,
      replaceInstruction, replaceLastPopWithReturn, changeOperand, leaveScope, enterScope,
      loadSymbol, loadSymbols, defineParams, finishFunction, stripLastPop, emitInfix, emitPrefixOp,
      Compiler.alloc, Compiler.Bytecode,
      Make_OpConstant, Make_OpPop, Make_OpAdd, Make_OpSub, Make_OpEQL, Make_OpReturnValue,
      Make_OpReturn, Make_OpCurrClosure, Make_OpNil, Make_OpCall, Make_OpGetGlobal,
      Make_OpSetGlobal, Make_OpGetLocal, Make_OpSetLocal, Make_OpContext, Make_OpClosure,
      Make_OpJump, Make_OpJumpConditionNotTrue, specInstruction, specOperandBytes,
      List.zipWith_cons_cons, List.zipWith_nil_right, List.zipWith_nil_left, List.flatten,
      List.append_nil, List.nil_append, List.cons_append, List.singleton_append, List.append_assoc,
      getAt, getIndex, setAt, setIndex,
      GlobalScope, LocalScope, BuiltinScope, ContextScope, FunctionScope,
      List.lookup, List.filter, List.length_cons, List.length_nil, List.length_append,
      List.getElem?_cons_zero, List.getElem?_cons_succ, List.set_cons_zero, List.set_cons_succ,
      List.take_succ_cons, List.take_zero, Option.isSome,
      String.reduceEq, String.reduceNe, String.reduceBEq, String.reduceBNe,
      Int.reduceSub, Int.reduceAdd, Int.reduceLT, Int.reduceLE, Int.reduceToNat, Int.reduceNeg,
      Int.reduceEq, Int.reduceMod, Int.reduceDiv,
      Nat.reduceAdd, Nat.reduceMul, Nat.reduceLT, Nat.reduceLeDiff, Nat.reduceEqDiff, Nat.reduceSub,
      Nat.reduceBEq, Nat.reduceBNe,
      Nat.cast_ofNat, Nat.cast_zero, Nat.cast_one, Int.toNat_zero, sub_zero, add_zero, zero_add,
      if_true, if_false, ite_true, ite_false, decide_True, decide_False, ge_iff_le, ne_eq,
      not_true_eq_false, not_false_eq_true, Bool.not_true, Bool.not_false, Bool.false_eq_true,
      Bool.true_or, Bool.or_true, Bool.or_false, Bool.false_or, beq_self_eq_true, bne_self_eq_false,
      Nat.zero_lt_succ, Nat.lt_add_one, or_true, true_or, Nat.add_assoc, lastInstruction_beq,
      reduceCtorEq]
  have h2 : Compile witnessKeyString (.Integer 1)
        ⟨[.Integer 0 2], some (defineBuiltins builtinNames 0 NewSymbolTable),
          [⟨[OpConstant, 0, 0], ⟨OpConstant, 0⟩, ⟨0, 0⟩⟩], 0, 1⟩
      = (.ok (), ⟨[.Integer 0 2, .Integer 1 1],
          some (defineBuiltins builtinNames 0 NewSymbolTable),
          [] ++ ⟨[OpConstant, 0, 0, OpConstant, 0, 1], ⟨OpConstant, 3⟩, ⟨OpConstant, 0⟩⟩ :: [],
          (([] : List CompilationScope).length : Nat), 2⟩) := by
    simp only [Compile, CompileList, NewCompiler, defineBuiltins,
      builtinNames, NewSymbolTable, NewEnclosedSymbolTable, SymbolTable.DefineBuiltin,
      SymbolTable.Define, SymbolTable.defineFunction, SymbolTable.GetDefine,
      SymbolTable.defineContext, SymbolTable.Context, SymbolTable.count, SymbolTable.External,
      SymbolTable.store, storeGet, storeSet,
      M_bind_apply, M_pure_apply, M.get, M.set, M.lift, M.fail,
      onSymbolTable, curScope, setCurScope, curInstructions, addConstant, addInstruction,
      setLastInstruction, emit, lastInstructionIs, removeLastPop, replaceInstructionLoop,
      replaceInstruction, replaceLastPopWithReturn, changeOperand, leaveScope, enterScope,
      loadSymbol, loadSymbols, defineParams, finishFunction, stripLastPop, emitInfix, emitPrefixOp,
      Compiler.alloc, Compiler.Bytecode,
      Make_OpConstant, Make_OpPop, Make_OpAdd, Make_OpSub, Make_OpEQL, Make_OpReturnValue,
      Make_OpReturn, Make_OpCurrClosure, Make_OpNil, Make_OpCall, Make_OpGetGlobal,
      Make_OpSetGlobal, Make_OpGetLocal, Make_OpSetLocal, Make_OpContext, Make_OpClosure,
      Make_OpJump, Make_OpJumpConditionNotTrue, specInstruction, specOperandBytes,
      List.zipWith_cons_cons, List.zipWith_nil_right, List.zipWith_nil_left, List.flatten,
      List.append_nil, List.nil_append, List.cons_append, List.singleton_append, List.append_assoc,
      getAt, getIndex, setAt, setIndex,
      GlobalScope, LocalScope, BuiltinScope, ContextScope, FunctionScope,
      List.lookup, List.filter, List.length_cons, List.length_nil, List.length_append,
      List.getElem?_cons_zero, List.getElem?_cons_succ, List.set_cons_zero, List.set_cons_succ,
      List.take_succ_cons, List.take_zero, Option.isSome,
      String.reduceEq, String.reduceNe, String.reduceBEq, String.reduceBNe,
      Int.reduceSub, Int.reduceAdd, Int.reduceLT, Int.reduceLE, Int.reduceToNat, Int.reduceNeg,
      Int.reduceEq, Int.reduceMod, Int.reduceDiv,
      Nat.reduceAdd, Nat.reduceMul, Nat.reduceLT, Nat.reduceLeDiff, Nat.reduceEqDiff, Nat.reduceSub,
      Nat.reduceBEq, Nat.reduceBNe,
      Nat.cast_ofNat, Nat.cast_zero, Nat.cast_one, Int.toNat_zero, sub_zero, add_zero, zero_add,
      if_true, if_false, ite_true, ite_false, decide_True, decide_False, ge_iff_le, ne_eq,
      not_true_eq_false, not_false_eq_true, Bool.not_true, Bool.not_false, Bool.false_eq_true,
      Bool.true_or, Bool.or_true, Bool.or_false, Bool.false_or, beq_self_eq_true, bne_self_eq_false,
      Nat.zero_lt_succ, Nat.lt_add_one, or_true, true_or, Nat.add_assoc, lastInstruction_beq,
      reduceCtorEq]
  exact ⟨h1, h2, (C12_less_rewrite witnessKeyString (.Integer 1) (.Integer 2)).2.2.2.2.1
    _ _ _ _ [] _ [] _ h1 h2⟩

end MiniCompiler
